import Mathlib

/-!
# notmuch: message-id parsing, ingestion and thread resolution

A shallow embedding of `lib/database.cc`.  C strings are lists of characters
(the characters before the terminating NUL); a pointer into a string is the
suffix that starts at it.  The Xapian database is a finite map from document
ids to documents, a document being a set of terms, value slots and a data
blob.
-/

namespace Notmuch

/-! ## Definitions -/

/-- C string: the characters that precede the terminating NUL. -/
abbrev Str := List Char

/-- `isspace` of the C locale: space, `\t`, `\n`, `\v`, `\f`, `\r`. -/
def isspace (c : Char) : Bool :=
  c = ' ' || c = '\t' || c = '\n' || c = Char.ofNat 11 || c = Char.ofNat 12 || c = '\r'

/-- Inner loop of `skip_space_and_comments`: `while (*s && isspace (*s)) s++;`. -/
def skip_space : Str → Str
  | [] => []
  | c :: cs => if isspace c then skip_space cs else c :: cs

/-- Comment loop of `skip_space_and_comments`, entered just after an opening
parenthesis with `nesting = 1`: `while (*s && nesting) { ... s++; }`.
A backslash skips the character after it, unless that is the terminator. -/
def skip_comment : Nat → Str → Str
  | 0, s => s
  | _ + 1, [] => []
  | n + 1, c :: cs =>
    if c = '(' then skip_comment (n + 2) cs
    else if c = ')' then skip_comment n cs
    else if c = '\\' then
      match cs with
      | [] => []
      | _ :: cs2 => skip_comment (n + 1) cs2
    else skip_comment (n + 1) cs

/-- Outer loop of `skip_space_and_comments`:
`while (*s && (isspace (*s) || *s == '('))`.  Every round consumes at least one
character, so `fuel = strlen (s)` rounds are enough. -/
def skip_space_and_comments_loop : Nat → Str → Str
  | 0, s => s
  | fuel + 1, s =>
    match s with
    | [] => []
    | c :: cs =>
      if isspace c || c = '(' then
        match skip_space (c :: cs) with
        | [] => skip_space_and_comments_loop fuel []
        | d :: rest =>
          if d = '(' then skip_space_and_comments_loop fuel (skip_comment 1 rest)
          else skip_space_and_comments_loop fuel (d :: rest)
      else c :: cs

/-- Function `skip_space_and_comments`: advance past any whitespace or RFC 822
comments; the result is the new value of `*str`. -/
def skip_space_and_comments (s : Str) : Str :=
  skip_space_and_comments_loop s.length s

/-- The whitespace-collapsing loop at the end of `_parse_message_id`:
`for (r = result, len = strlen (r); *r; r++, len--)
   if (*r == ' ' || *r == '\t') memmove (r, r+1, len);`
When `*r` is a space or tab the rest of the string (terminator included) is
moved one place left, and then `r++` steps over the character that has just
moved into place without looking at it. -/
def collapse_whitespace : Str → Str
  | [] => []
  | c :: cs =>
    if c = ' ' || c = '\t' then
      match cs with
      | [] => []
      | d :: ds => d :: collapse_whitespace ds
    else c :: collapse_whitespace cs

/-- What `_parse_message_id` hands back: the returned string (`none` for
NULL) and the value stored through `next` (`none` when nothing is stored, as on
the early return for a NULL or empty argument). -/
structure ParseResult where
  result : Option Str
  next : Option Str
deriving DecidableEq, Repr

/-- Function `_parse_message_id`: parse an RFC 822 message-id, discarding
whitespace, comments and the angle brackets. -/
def _parse_message_id (message_id : Option Str) : ParseResult :=
  match message_id with
  | none => ⟨none, none⟩
  | some [] => ⟨none, none⟩
  | some (c0 :: cs0) =>
    let s := skip_space_and_comments (c0 :: cs0)
    -- while (*s && *s != '<') s++;
    let s := s.dropWhile (fun x => x != '<')
    match s with
    | [] => ⟨none, some []⟩
    | c :: s1 =>
      if c = '<' then
        let s := skip_space_and_comments s1
        -- end = s; while (*end && *end != '>') end++;
        let off := (s.takeWhile (fun x => x != '>')).length
        let atEnd := s.drop off
        let next := match atEnd with
          | [] => []
          | _ :: t => t
        -- if (end > s && *end == '>') end--;
        let off := if 0 < off && atEnd.head? = some '>' then off - 1 else off
        -- if (end <= s) return NULL;
        if off = 0 then ⟨none, some next⟩
        else
          -- talloc_strndup (ctx, s, end - s + 1), then collapse
          ⟨some (collapse_whitespace (s.take (off + 1))), some next⟩
      else ⟨none, some (c :: s1)⟩

/-- Loop of `parse_references`: `while (*refs) { ref = _parse_message_id (ctx,
refs, &refs); if (ref && strcmp (ref, message_id)) g_hash_table_insert (hash,
ref, NULL); }`.  The hash table is the list of its keys, in order of first
insertion.  The parser always moves `refs` forward on a non-empty string, so
`fuel = strlen (refs)` rounds are enough. -/
def parse_references_loop (message_id : Str) : Nat → List Str → Str → List Str
  | 0, hash, _ => hash
  | fuel + 1, hash, refs =>
    match refs with
    | [] => hash
    | _ :: _ =>
      let r := _parse_message_id (some refs)
      let refs2 := r.next.getD refs
      match r.result with
      | some ref =>
        if ref ≠ message_id ∧ ref ∉ hash then
          parse_references_loop message_id fuel (hash ++ [ref]) refs2
        else parse_references_loop message_id fuel hash refs2
      | none => parse_references_loop message_id fuel hash refs2

/-- Function `parse_references`: put every message-id of a References header
value into `hash`, except those identical to `message_id`. -/
def parse_references (message_id : Str) (hash : List Str) (refs : Option Str) : List Str :=
  match refs with
  | none => hash
  | some [] => hash
  | some (c :: cs) => parse_references_loop message_id (c :: cs).length hash (c :: cs)

/-! ### Status values, prefixes and constants -/

/-- Enum `notmuch_status_t` of `notmuch.h`, with the `INVALID_DATE` value that
`notmuch_status_to_string` of `database.cc` also knows. -/
inductive notmuch_status_t where
  | NOTMUCH_STATUS_SUCCESS
  | NOTMUCH_STATUS_OUT_OF_MEMORY
  | NOTMUCH_STATUS_READ_ONLY_DATABASE
  | NOTMUCH_STATUS_XAPIAN_EXCEPTION
  | NOTMUCH_STATUS_FILE_ERROR
  | NOTMUCH_STATUS_FILE_NOT_EMAIL
  | NOTMUCH_STATUS_DUPLICATE_MESSAGE_ID
  | NOTMUCH_STATUS_NULL_POINTER
  | NOTMUCH_STATUS_TAG_TOO_LONG
  | NOTMUCH_STATUS_INVALID_DATE
  | NOTMUCH_STATUS_UNBALANCED_FREEZE_THAW
deriving DecidableEq, Repr

open notmuch_status_t

/-- Enum `notmuch_database_mode_t`. -/
inductive notmuch_database_mode_t where
  | NOTMUCH_DATABASE_MODE_READ_ONLY
  | NOTMUCH_DATABASE_MODE_READ_WRITE
deriving DecidableEq, Repr

open notmuch_database_mode_t

/-- Modelled from the spec: the constant `NOTMUCH_TERM_MAX` of the private
header, which section 6.5 gives as `MAX_TERM_LEN = 245`. -/
def NOTMUCH_TERM_MAX : Nat := 245

/-- Table `BOOLEAN_PREFIX_INTERNAL`. -/
def BOOLEAN_PREFIX_INTERNAL : List (String × String) :=
  [("type", "T"), ("reference", "XREFERENCE"), ("replyto", "XREPLYTO"),
   ("directory", "XDIRECTORY"), ("file-direntry", "XFDIRENTRY"),
   ("directory-direntry", "XDDIRENTRY")]

/-- Table `BOOLEAN_PREFIX_EXTERNAL`. -/
def BOOLEAN_PREFIX_EXTERNAL : List (String × String) :=
  [("thread", "G"), ("tag", "K"), ("id", "Q")]

/-- Table `PROBABILISTIC_PREFIX`. -/
def PROBABILISTIC_PREFIX : List (String × String) :=
  [("from", "XFROM"), ("to", "XTO"), ("attachment", "XATTACHMENT"), ("subject", "XSUBJECT")]

/-- One `for` loop of `_find_prefix`: the prefix of the first entry whose name
compares equal. -/
def find_in_table (name : String) : List (String × String) → Option String
  | [] => none
  | (n, p) :: rest => if name = n then some p else find_in_table name rest

/-- Function `_find_prefix`; `none` stands for the `INTERNAL_ERROR` exit taken
for a name that is in none of the three tables. -/
def _find_prefix (name : String) : Option String :=
  match find_in_table name BOOLEAN_PREFIX_INTERNAL with
  | some p => some p
  | none =>
    match find_in_table name BOOLEAN_PREFIX_EXTERNAL with
    | some p => some p
    | none => find_in_table name PROBABILISTIC_PREFIX

/-- The term `talloc_asprintf ("%s%s", _find_prefix (prefix_name), value)`.
Every caller passes a name that is in the tables, so the error exit of
`_find_prefix` is not taken (the empty prefix stands in for it). -/
def make_term (prefix_name : String) (value : Str) : Str :=
  (( _find_prefix prefix_name).getD "").toList ++ value

/-! ### The term index -/

/-- Value slots of a document (`NOTMUCH_VALUE_TIMESTAMP`,
`NOTMUCH_VALUE_MESSAGE_ID`). -/
inductive notmuch_value_t where
  | NOTMUCH_VALUE_TIMESTAMP
  | NOTMUCH_VALUE_MESSAGE_ID
deriving DecidableEq, Repr

open notmuch_value_t

/-- A Xapian document: its terms (a set, kept as a list), value slots and
data blob. -/
structure Document where
  terms : List Str
  values : List (notmuch_value_t × Str)
  data : Str
deriving DecidableEq, Repr

/-- Method `Xapian::Document::add_term`: the term list is a set. -/
def Document.add_term (d : Document) (t : Str) : Document :=
  if t ∈ d.terms then d else { d with terms := d.terms ++ [t] }

/-- Method `Xapian::Document::remove_term`. -/
def Document.remove_term (d : Document) (t : Str) : Document :=
  { d with terms := d.terms.filter (fun u => u ≠ t) }

/-- Method `Xapian::Document::add_value`: sets the slot. -/
def Document.add_value (d : Document) (slot : notmuch_value_t) (v : Str) : Document :=
  { d with values := (slot, v) :: d.values.filter (fun e => e.1 ≠ slot) }

/-- The handle `notmuch_database_t` together with the state of the Xapian
database it owns: documents by id (ids run from 1 to `lastdocid`) and the
metadata strings (empty when unset). -/
structure Database where
  path : Str
  mode : notmuch_database_mode_t
  needs_upgrade : Bool
  exception_reported : Bool
  last_thread_id : Nat
  docs : Nat → Option Document
  lastdocid : Nat
  metadata : Str → Str

/-- Method `Xapian::Database::get_document`; `none` when there is no document
with this id. -/
def Database.get_document (db : Database) (id : Nat) : Option Document :=
  if 0 < id ∧ id ≤ db.lastdocid then db.docs id else none

/-- Method `Xapian::WritableDatabase::add_document`: the new document gets the
next id, which is returned. -/
def Database.add_document (db : Database) (d : Document) : Database × Nat :=
  ({ db with docs := Function.update db.docs (db.lastdocid + 1) (some d),
             lastdocid := db.lastdocid + 1 }, db.lastdocid + 1)

/-- Method `Xapian::WritableDatabase::replace_document`. -/
def Database.replace_document (db : Database) (id : Nat) (d : Document) : Database :=
  { db with docs := Function.update db.docs id (some d),
            lastdocid := max db.lastdocid id }

/-- Method `Xapian::WritableDatabase::delete_document`. -/
def Database.delete_document (db : Database) (id : Nat) : Database :=
  { db with docs := Function.update db.docs id none }

/-- Method `Xapian::WritableDatabase::set_metadata`. -/
def Database.set_metadata (db : Database) (key value : Str) : Database :=
  { db with metadata := Function.update db.metadata key value }

/-- Does document `id` exist and carry `term`? -/
def Database.has_term (db : Database) (id : Nat) (term : Str) : Bool :=
  match db.get_document id with
  | some d => decide (term ∈ d.terms)
  | none => false

/-- Function `find_doc_ids_for_term`: the posting list of `term`, in
increasing document id; the iterator pair is the list of ids it runs over. -/
def find_doc_ids_for_term (db : Database) (term : Str) : List Nat :=
  (List.range (db.lastdocid + 1)).filter (fun i => db.has_term i term)

/-- Function `find_doc_ids`. -/
def find_doc_ids (db : Database) (prefix_name : String) (value : Str) : List Nat :=
  find_doc_ids_for_term db (make_term prefix_name value)

/-- Function `_notmuch_database_find_unique_doc_id`: `none` is
`NOTMUCH_PRIVATE_STATUS_NO_DOCUMENT_FOUND` (with `*doc_id = 0`), `some id`
is success. -/
def _notmuch_database_find_unique_doc_id (db : Database) (prefix_name : String)
    (value : Str) : Option Nat :=
  match find_doc_ids db prefix_name value with
  | [] => none
  | i :: _ => some i

/-- Function `find_document_for_doc_id`. -/
def find_document_for_doc_id (db : Database) (doc_id : Nat) : Option Document :=
  db.get_document doc_id

/-- Function `_notmuch_database_ensure_writable`. -/
def _notmuch_database_ensure_writable (db : Database) : notmuch_status_t :=
  if db.mode = NOTMUCH_DATABASE_MODE_READ_ONLY then NOTMUCH_STATUS_READ_ONLY_DATABASE
  else NOTMUCH_STATUS_SUCCESS

/-! ### External collaborators -/

/-- The open message file `notmuch_message_file_t`: its header lookup
(`notmuch_message_file_get_header`), `none` for a NULL result. -/
structure MessageFile where
  header : String → Option Str

/-- What the library takes from outside: the message-file reader, the SHA-1
primitive, the tokeniser, the date parser, the order in which GLib lists the keys of a
hash table, Xapian's sortable encoding of a `time_t` (decoding, then encoding),
and the order in which a query lists the documents it matches. -/
structure World where
  notmuch_message_file_open : Str → Option MessageFile
  notmuch_sha1_of_file : Str → Option Str
  notmuch_sha1_of_string : Str → Str
  index_terms : Str → List Str
  date_value : Option Str → Str
  g_hash_table_get_keys : List Str → List Str
  sortable_unserialise : Str → Int
  sortable_serialise : Int → Str
  sort_messages : List Nat → List Nat

/-! ### Paths and directory documents -/

/-- Loop `while (*relative == '/' && *(relative+1) == '/') relative++;`. -/
def skip_doubled_slashes : Str → Str
  | [] => []
  | c :: cs =>
    match cs with
    | [] => [c]
    | d :: _ => if c = '/' ∧ d = '/' then skip_doubled_slashes cs else c :: cs

/-- Function `_notmuch_database_relative_path`. -/
def _notmuch_database_relative_path (db : Database) (path : Str) : Str :=
  if path.head? = some '/' then
    let relative := skip_doubled_slashes path
    -- strncmp (relative, db_path, db_path_len) == 0
    if db.path.isPrefixOf relative then
      (relative.drop db.path.length).dropWhile (fun c => c = '/')
    else relative
  else path

/-- The character `*slash` for `slash = path + i` (NUL at and past the end). -/
def char_at (path : Str) (i : Nat) : Char := path.getD i (Char.ofNat 0)

/-- First and third loop of `_notmuch_database_split_path`:
`while (slash != path) { if (*slash != '/') break; --slash; }`, on offsets. -/
def skip_slashes_back (path : Str) : Nat → Nat
  | 0 => 0
  | i + 1 => if char_at path (i + 1) ≠ '/' then i + 1 else skip_slashes_back path i

/-- Second loop of `_notmuch_database_split_path`:
`while (slash != path) { if (*slash == '/') break; *basename = slash; --slash; }`.
The second component is the offset last stored in `*basename`, if any. -/
def find_slash_back (path : Str) : Nat → Option Nat → Nat × Option Nat
  | 0, b => (0, b)
  | i + 1, b =>
    if char_at path (i + 1) = '/' then (i + 1, b)
    else find_slash_back path i (some (i + 1))

/-- Function `_notmuch_database_split_path`, called with both result pointers
given: status, `*directory`, `*basename` (`none` for NULL or never stored). -/
def _notmuch_database_split_path (path : Option Str) :
    notmuch_status_t × Option Str × Option Str :=
  match path with
  | none => (NOTMUCH_STATUS_SUCCESS, none, none)
  | some [] => (NOTMUCH_STATUS_SUCCESS, none, none)
  | some (c :: cs) =>
    let path := c :: cs
    let slash := skip_slashes_back path (path.length - 1)
    let found := find_slash_back path slash none
    let slash := skip_slashes_back path found.1
    if slash = 0 then (NOTMUCH_STATUS_SUCCESS, some [], some path)
    else (NOTMUCH_STATUS_SUCCESS, some (path.take (slash + 1)),
          found.2.map (fun b => path.drop b))

/-- Function `_notmuch_database_get_directory_db_path`. -/
def _notmuch_database_get_directory_db_path (w : World) (path : Str) : Str :=
  let term_len := (make_term "directory" []).length + path.length
  if term_len > NOTMUCH_TERM_MAX then w.notmuch_sha1_of_string path else path

/-- The text `printf` writes for `%u`. -/
def format_u (n : Nat) : Str := Nat.toDigits 10 n

/-- Modelled from the spec: `_notmuch_directory_create` of `directory.cc`
(section 4.3, name resolution), together with the call it makes back into
`_notmuch_database_find_directory_id` for the parent.  The relative form of
the path gives the term value; the unique document with that `directory` term
is returned if there is one; otherwise the parent is resolved first and a new
document is added with the `directory` term, the `directory-direntry` term
(omitted for the root) and the relative path as data.  The parent is a proper
prefix of the path, so `fuel > strlen (path)` is enough. -/
def _notmuch_directory_create_fuel (w : World) : Nat → Database → Str → Database × Nat
  | 0, db, _ => (db, 0)
  | fuel + 1, db, path =>
    let path := _notmuch_database_relative_path db path
    let db_path := _notmuch_database_get_directory_db_path w path
    match _notmuch_database_find_unique_doc_id db "directory" db_path with
    | some id => (db, id)
    | none =>
      let split := _notmuch_database_split_path (some path)
      let parent := match split.2.1 with
        | none => (db, 0)
        | some p => _notmuch_directory_create_fuel w fuel db p
      let doc : Document := ⟨[make_term "directory" db_path], [], path⟩
      let doc := match split.2.2 with
        | some b => doc.add_term (make_term "directory-direntry" (format_u parent.2 ++ ':' :: b))
        | none => doc
      parent.1.add_document doc

/-- Modelled from the spec: `_notmuch_directory_create` (see
`_notmuch_directory_create_fuel`): the database afterwards and the document id
of the directory. -/
def _notmuch_directory_create (w : World) (db : Database) (path : Str) : Database × Nat :=
  _notmuch_directory_create_fuel w (path.length + 1) db path

/-- Function `_notmuch_database_find_directory_id`: database afterwards, status
and `*directory_id`. -/
def _notmuch_database_find_directory_id (w : World) (db : Database) (path : Option Str) :
    Database × notmuch_status_t × Nat :=
  match path with
  | none => (db, NOTMUCH_STATUS_SUCCESS, 0)
  | some p =>
    let r := _notmuch_directory_create w db p
    (r.1, NOTMUCH_STATUS_SUCCESS, r.2)

/-- Function `_notmuch_database_filename_to_direntry`: database afterwards,
status and `*direntry`.  A NULL basename (empty filename only) is printed by
`%s` as `(null)`. -/
def _notmuch_database_filename_to_direntry (w : World) (db : Database) (filename : Str) :
    Database × notmuch_status_t × Str :=
  let relative := _notmuch_database_relative_path db filename
  let split := _notmuch_database_split_path (some relative)
  if split.1 ≠ NOTMUCH_STATUS_SUCCESS then (db, split.1, [])
  else
    let found := _notmuch_database_find_directory_id w db split.2.1
    if found.2.1 ≠ NOTMUCH_STATUS_SUCCESS then (found.1, found.2.1, [])
    else
      (found.1, NOTMUCH_STATUS_SUCCESS,
        format_u found.2.2 ++ ':' :: split.2.2.getD "(null)".toList)

/-! ### Message objects -/

/-- The object `notmuch_message_t`: the document id it wraps, its freeze
count, and its own copy of the document, which `_notmuch_message_sync` writes
back. -/
structure Message where
  doc_id : Nat
  frozen : Nat
  doc : Document
deriving DecidableEq, Repr

/-- Modelled from the spec: the two values of `notmuch_private_status_t` (private
header) that `database.cc` tests. -/
inductive notmuch_private_status_t where
  | NOTMUCH_PRIVATE_STATUS_SUCCESS
  | NOTMUCH_PRIVATE_STATUS_NO_DOCUMENT_FOUND
deriving DecidableEq, Repr

open notmuch_private_status_t

/-- Modelled from the spec: the macro `COERCE_STATUS` of the private header.  A
private status that is no public status is an internal-invariant violation,
which section 7 makes fatal: `none` is the abort. -/
def COERCE_STATUS : notmuch_private_status_t → Option notmuch_status_t
  | NOTMUCH_PRIVATE_STATUS_SUCCESS => some NOTMUCH_STATUS_SUCCESS
  | NOTMUCH_PRIVATE_STATUS_NO_DOCUMENT_FOUND => none

/-- Modelled from the spec: `_notmuch_message_create` of `message.cc`, a message
object for an existing document id (section 4.4: it wraps the document id);
`none` is the NULL result with `NOTMUCH_PRIVATE_STATUS_NO_DOCUMENT_FOUND`. -/
def _notmuch_message_create (db : Database) (doc_id : Nat) : Option Message :=
  (db.get_document doc_id).map (fun d => ⟨doc_id, 0, d⟩)

/-- Modelled from the spec: `_notmuch_message_add_term` of `message.cc`: add
the term `prefix value` to the message's document. -/
def _notmuch_message_add_term (message : Message) (prefix_name : String) (value : Str) :
    Message :=
  { message with doc := message.doc.add_term (make_term prefix_name value) }

/-- Modelled from the spec: `_notmuch_message_remove_term` of `message.cc`. -/
def _notmuch_message_remove_term (message : Message) (prefix_name : String) (value : Str) :
    Message :=
  { message with doc := message.doc.remove_term (make_term prefix_name value) }

/-- Modelled from the spec: `_notmuch_message_sync` of `message.cc`: re-store
the document unless the message is frozen (sections 4.4 and 4.6). -/
def _notmuch_message_sync (db : Database) (message : Message) : Database :=
  if message.frozen = 0 then db.replace_document message.doc_id message.doc else db

/-- The value of the first term of a document that starts with the prefix of
`prefix_name`. -/
def Document.term_value (d : Document) (prefix_name : String) : Option Str :=
  (d.terms.find? (fun t => (make_term prefix_name []).isPrefixOf t)).map
    (fun t => t.drop (make_term prefix_name []).length)

/-- Modelled from the spec: `notmuch_message_get_message_id` of `message.cc`:
the value of the document's `id` term. -/
def notmuch_message_get_message_id (message : Message) : Option Str :=
  message.doc.term_value "id"

/-- Modelled from the spec: `notmuch_message_get_thread_id` of `message.cc`:
the value of the document's `thread` term.  `notmuch.h` promises that it is
never NULL; on a document without a thread term the result here is `none`,
which callers treat as the fatal internal error. -/
def notmuch_message_get_thread_id (message : Message) : Option Str :=
  message.doc.term_value "thread"

/-- Function `notmuch_database_find_message`. -/
def notmuch_database_find_message (db : Database) (message_id : Str) : Option Message :=
  match _notmuch_database_find_unique_doc_id db "id" message_id with
  | none => none
  | some doc_id => _notmuch_message_create db doc_id

/-- Modelled from the spec: `_notmuch_message_create_for_message_id` of
`message.cc` (section 4.6, step 5): the message object of the mail document
with this identifier if one exists, and otherwise of a new document, added to
the database with its `id` term and its MESSAGE_ID value, with status
`NOTMUCH_PRIVATE_STATUS_NO_DOCUMENT_FOUND`. -/
def _notmuch_message_create_for_message_id (db : Database) (message_id : Str) :
    Database × Option Message × notmuch_private_status_t :=
  match _notmuch_database_find_unique_doc_id db "id" message_id with
  | some doc_id => (db, _notmuch_message_create db doc_id, NOTMUCH_PRIVATE_STATUS_SUCCESS)
  | none =>
    let doc : Document :=
      ⟨[make_term "id" message_id], [(NOTMUCH_VALUE_MESSAGE_ID, message_id)], []⟩
    let added := db.add_document doc
    (added.1, some ⟨added.2, 0, doc⟩, NOTMUCH_PRIVATE_STATUS_NO_DOCUMENT_FOUND)

/-- Modelled from the spec: `_notmuch_message_add_filename` of `message.cc`
(section 4.4): form the direntry of the file, creating directory documents as
needed, and add it as a `file-direntry` term. -/
def _notmuch_message_add_filename (w : World) (db : Database) (message : Message)
    (filename : Str) : Database × Message :=
  let r := _notmuch_database_filename_to_direntry w db filename
  if r.2.1 ≠ NOTMUCH_STATUS_SUCCESS then (r.1, message)
  else (r.1, _notmuch_message_add_term message "file-direntry" r.2.2)

/-- Modelled from the spec: `_notmuch_message_set_date` of `message.cc`
(section 4.4): write the sortable encoding of the parsed Date header into slot
TIMESTAMP. -/
def _notmuch_message_set_date (w : World) (message : Message) (date : Option Str) : Message :=
  { message with doc := message.doc.add_value NOTMUCH_VALUE_TIMESTAMP (w.date_value date) }

/-- Modelled from the spec: `_notmuch_message_index_file` of `index.cc`: add
the terms the tokeniser yields for the from, to, subject, body and attachment
text of the file. -/
def _notmuch_message_index_file (w : World) (message : Message) (filename : Str) : Message :=
  { message with doc := (w.index_terms filename).foldl Document.add_term message.doc }

/-! ### Thread resolution -/

/-- Function `_resolve_message_id_to_thread_id`: `some none` is the NULL
result (no such message); the outer `none` is the fatal error of a message
without thread id. -/
def _resolve_message_id_to_thread_id (db : Database) (message_id : Str) :
    Option (Option Str) :=
  match notmuch_database_find_message db message_id with
  | none => some none
  | some message =>
    match notmuch_message_get_thread_id message with
    | none => none
    | some t => some (some t)

/-- Loop of `_merge_threads` over the posting list of the loser thread. -/
def _merge_threads_loop (winner_thread_id loser_thread_id : Str) :
    Database → List Nat → Option (notmuch_status_t × Database)
  | db, [] => some (NOTMUCH_STATUS_SUCCESS, db)
  | db, loser :: rest =>
    match _notmuch_message_create db loser with
    | none =>
      (COERCE_STATUS NOTMUCH_PRIVATE_STATUS_NO_DOCUMENT_FOUND).map (fun ret => (ret, db))
    | some message =>
      let message := _notmuch_message_remove_term message "thread" loser_thread_id
      let message := _notmuch_message_add_term message "thread" winner_thread_id
      let db := _notmuch_message_sync db message
      _merge_threads_loop winner_thread_id loser_thread_id db rest

/-- Function `_merge_threads`; `none` is an abort. -/
def _merge_threads (db : Database) (winner_thread_id loser_thread_id : Str) :
    Option (notmuch_status_t × Database) :=
  _merge_threads_loop winner_thread_id loser_thread_id db
    (find_doc_ids db "thread" loser_thread_id)

/-- State of the two linking loops: the status to return, the database, the
message being added and `*thread_id`. -/
structure LinkState where
  ret : notmuch_status_t
  db : Database
  message : Message
  thread_id : Option Str

/-- Loop of `_notmuch_database_link_message_to_parents` over the keys of the
`parents` hash table. -/
def link_message_to_parents_loop :
    Database → Message → Option Str → List Str → Option LinkState
  | db, message, thread_id, [] => some ⟨NOTMUCH_STATUS_SUCCESS, db, message, thread_id⟩
  | db, message, thread_id, parent_message_id :: l =>
    match _resolve_message_id_to_thread_id db parent_message_id with
    | none => none
    | some none =>
      link_message_to_parents_loop db
        (_notmuch_message_add_term message "reference" parent_message_id) thread_id l
    | some (some parent_thread_id) =>
      match thread_id with
      | none =>
        link_message_to_parents_loop db
          (_notmuch_message_add_term message "thread" parent_thread_id)
          (some parent_thread_id) l
      | some tid =>
        if tid ≠ parent_thread_id then
          match _merge_threads db tid parent_thread_id with
          | none => none
          | some (ret, db2) =>
            if ret ≠ NOTMUCH_STATUS_SUCCESS then some ⟨ret, db2, message, thread_id⟩
            else link_message_to_parents_loop db2 message thread_id l
        else link_message_to_parents_loop db message thread_id l

/-- Function `_notmuch_database_link_message_to_parents`. -/
def _notmuch_database_link_message_to_parents (w : World) (db : Database)
    (message : Message) (message_file : MessageFile) (thread_id : Option Str) :
    Option LinkState :=
  match notmuch_message_get_message_id message with
  | none => none
  | some mid =>
    let refs := message_file.header "references"
    let parents := parse_references mid [] refs
    let in_reply_to := message_file.header "in-reply-to"
    let parents := parse_references mid parents in_reply_to
    -- Carefully avoid adding any self-referential in-reply-to term.
    let in_reply_to_message_id := (_parse_message_id in_reply_to).result
    let message :=
      match in_reply_to_message_id with
      | some irt =>
        if irt ≠ mid then
          _notmuch_message_add_term message "replyto"
            ((_parse_message_id in_reply_to).result.getD [])
        else message
      | none => message
    link_message_to_parents_loop db message thread_id (w.g_hash_table_get_keys parents)

/-- Loop of `_notmuch_database_link_message_to_children` over the posting list
of `reference=<message_id>`, which is taken when the loop starts. -/
def link_message_to_children_loop (message_id : Str) :
    Database → Message → Option Str → List Nat → Option LinkState
  | db, message, thread_id, [] => some ⟨NOTMUCH_STATUS_SUCCESS, db, message, thread_id⟩
  | db, message, thread_id, child :: rest =>
    match _notmuch_message_create db child with
    | none =>
      (COERCE_STATUS NOTMUCH_PRIVATE_STATUS_NO_DOCUMENT_FOUND).map
        (fun ret => ⟨ret, db, message, thread_id⟩)
    | some child_message =>
      match notmuch_message_get_thread_id child_message with
      | none => none
      | some child_thread_id =>
        match thread_id with
        | none =>
          link_message_to_children_loop message_id db
            (_notmuch_message_add_term message "thread" child_thread_id)
            (some child_thread_id) rest
        | some tid =>
          if tid ≠ child_thread_id then
            let child_message := _notmuch_message_remove_term child_message "reference" message_id
            let db := _notmuch_message_sync db child_message
            match _merge_threads db tid child_thread_id with
            | none => none
            | some (ret, db2) =>
              if ret ≠ NOTMUCH_STATUS_SUCCESS then some ⟨ret, db2, message, thread_id⟩
              else link_message_to_children_loop message_id db2 message thread_id rest
          else link_message_to_children_loop message_id db message thread_id rest

/-- Function `_notmuch_database_link_message_to_children`. -/
def _notmuch_database_link_message_to_children (db : Database) (message : Message)
    (thread_id : Option Str) : Option LinkState :=
  match notmuch_message_get_message_id message with
  | none => none
  | some message_id =>
    link_message_to_children_loop message_id db message thread_id
      (find_doc_ids db "reference" message_id)

/-- Hexadecimal digit of `printf`, lower case. -/
def hex_digit (d : Nat) : Char :=
  if d < 10 then Char.ofNat (48 + d) else Char.ofNat (87 + d)

/-- The text `sprintf` writes for `"%016" PRIx64`, for a 64-bit value. -/
def format_016x64 (n : Nat) : Str :=
  (List.range 16).reverse.map (fun i => hex_digit (n / 16 ^ i % 16))

/-- Function `_notmuch_database_generate_thread_id`: the 64-bit counter is
incremented, formatted and stored as metadata. -/
def _notmuch_database_generate_thread_id (db : Database) : Database × Str :=
  let last := (db.last_thread_id + 1) % 2 ^ 64
  let thread_id := format_016x64 last
  (({ db with last_thread_id := last }).set_metadata "last_thread_id".toList thread_id,
    thread_id)

/-- Function `_notmuch_database_link_message`: status, database and message
afterwards. -/
def _notmuch_database_link_message (w : World) (db : Database) (message : Message)
    (message_file : MessageFile) : Option (notmuch_status_t × Database × Message) :=
  match _notmuch_database_link_message_to_parents w db message message_file none with
  | none => none
  | some p =>
    if p.ret ≠ NOTMUCH_STATUS_SUCCESS then some (p.ret, p.db, p.message)
    else
      match _notmuch_database_link_message_to_children p.db p.message p.thread_id with
      | none => none
      | some c =>
        if c.ret ≠ NOTMUCH_STATUS_SUCCESS then some (c.ret, c.db, c.message)
        else
          -- If not part of any existing thread, generate a new thread ID.
          match c.thread_id with
          | none =>
            let g := _notmuch_database_generate_thread_id c.db
            some (NOTMUCH_STATUS_SUCCESS, g.1, _notmuch_message_add_term c.message "thread" g.2)
          | some _ => some (NOTMUCH_STATUS_SUCCESS, c.db, c.message)

/-! ### Adding and removing messages -/

/-- The test `header == NULL || *header == '\0'`. -/
def is_null_or_empty (header : Option Str) : Bool :=
  match header with
  | none => true
  | some [] => true
  | some (_ :: _) => false

/-- The part of `notmuch_database_add_message` that finds the message ID in the
Message-ID header: the parsed identifier, or the header text itself when it
does not parse, unless that is too long; `none` is `message_id == NULL`. -/
def message_id_of_header (header : Option Str) : Option Str :=
  match header with
  | none => none
  | some [] => none
  | some (c :: cs) =>
    let message_id :=
      match (_parse_message_id (some (c :: cs))).result with
      | some m => m
      | none => c :: cs
    -- Reject a Message ID that's too long.
    if message_id.length + 1 > NOTMUCH_TERM_MAX then none else some message_id

/-- The part of `notmuch_database_add_message` that settles the message ID:
from the header, or else `notmuch-sha1-` and the SHA-1 of the file; `none`
when that fails too (`NOTMUCH_STATUS_FILE_ERROR`). -/
def message_id_of_file (w : World) (message_file : MessageFile) (filename : Str) :
    Option Str :=
  match message_id_of_header (message_file.header "message-id") with
  | some m => some m
  | none =>
    match w.notmuch_sha1_of_file filename with
    | none => none
    | some sha1 => some ("notmuch-sha1-".toList ++ sha1)

/-- Result of `notmuch_database_add_message`: the status, the database
afterwards and `*message_ret`. -/
structure AddResult where
  status : notmuch_status_t
  db : Database
  message_ret : Option Message

/-- Function `notmuch_database_add_message`; `none` is an abort on an internal
error. -/
def notmuch_database_add_message (w : World) (db : Database) (filename : Str) :
    Option AddResult :=
  if _notmuch_database_ensure_writable db ≠ NOTMUCH_STATUS_SUCCESS then
    some ⟨_notmuch_database_ensure_writable db, db, none⟩
  else
    match w.notmuch_message_file_open filename with
    | none => some ⟨NOTMUCH_STATUS_FILE_ERROR, db, none⟩
    | some message_file =>
      if is_null_or_empty (message_file.header "from") ∧
          is_null_or_empty (message_file.header "subject") ∧
          is_null_or_empty (message_file.header "to") then
        some ⟨NOTMUCH_STATUS_FILE_NOT_EMAIL, db, none⟩
      else
        match message_id_of_file w message_file filename with
        | none => some ⟨NOTMUCH_STATUS_FILE_ERROR, db, none⟩
        | some message_id =>
          let created := _notmuch_message_create_for_message_id db message_id
          match created.2.1 with
          | none => (COERCE_STATUS created.2.2).map (fun ret => ⟨ret, created.1, none⟩)
          | some message =>
            let named := _notmuch_message_add_filename w created.1 message filename
            -- Is this a newly created message object?
            if created.2.2 = NOTMUCH_PRIVATE_STATUS_NO_DOCUMENT_FOUND then
              let message := _notmuch_message_add_term named.2 "type" "mail".toList
              match _notmuch_database_link_message w named.1 message message_file with
              | none => none
              | some (ret, db2, message) =>
                if ret ≠ NOTMUCH_STATUS_SUCCESS then some ⟨ret, db2, none⟩
                else
                  let message := _notmuch_message_set_date w message (message_file.header "date")
                  let message := _notmuch_message_index_file w message filename
                  some ⟨NOTMUCH_STATUS_SUCCESS, _notmuch_message_sync db2 message, some message⟩
            else
              some ⟨NOTMUCH_STATUS_DUPLICATE_MESSAGE_ID,
                    _notmuch_message_sync named.1 named.2, none⟩

/-- The lesser of a term and the least term found so far, if any. -/
def least_term (acc : Option Str) (u : Str) : Option Str :=
  match acc with
  | none => some u
  | some a => if u < a then some u else some a

/-- Method `Xapian::TermIterator::skip_to` on the (sorted) term list of a
document: the least term that is not less than `t`, if any. -/
def termlist_skip_to (terms : List Str) (t : Str) : Option Str :=
  (terms.filter (fun u => decide (¬ u < t))).foldl least_term none

/-- Loop of `notmuch_database_remove_message` over the posting list of the
file's direntry term; `none` is an abort (a document that cannot be read). -/
def remove_message_loop (pfx term : Str) :
    Database → notmuch_status_t → List Nat → Option (notmuch_status_t × Database)
  | db, status, [] => some (status, db)
  | db, _, i :: rest =>
    match find_document_for_doc_id db i with
    | none => none
    | some document =>
      let document := document.remove_term term
      -- Was this the last file-direntry in the message?
      match termlist_skip_to document.terms pfx with
      | none =>
        remove_message_loop pfx term (db.delete_document i) NOTMUCH_STATUS_SUCCESS rest
      | some j =>
        if ¬ pfx.isPrefixOf j then
          remove_message_loop pfx term (db.delete_document i) NOTMUCH_STATUS_SUCCESS rest
        else
          remove_message_loop pfx term (db.replace_document i document)
            NOTMUCH_STATUS_DUPLICATE_MESSAGE_ID rest

/-- Function `notmuch_database_remove_message`. -/
def notmuch_database_remove_message (w : World) (db : Database) (filename : Str) :
    Option (notmuch_status_t × Database) :=
  if _notmuch_database_ensure_writable db ≠ NOTMUCH_STATUS_SUCCESS then
    some (_notmuch_database_ensure_writable db, db)
  else
    let r := _notmuch_database_filename_to_direntry w db filename
    if r.2.1 ≠ NOTMUCH_STATUS_SUCCESS then some (r.2.1, r.1)
    else
      let term := make_term "file-direntry" r.2.2
      remove_message_loop (make_term "file-direntry" []) term r.1 r.2.1
        (find_doc_ids_for_term r.1 term)

/-- Database created by `notmuch_database_create` on an empty Xapian
database: no documents, thread counter 0, version metadata written by the
upgrade it runs. -/
def empty_database (path : Str) : Database where
  path := path
  mode := NOTMUCH_DATABASE_MODE_READ_WRITE
  needs_upgrade := true
  exception_reported := false
  last_thread_id := 0
  docs := fun _ => none
  lastdocid := 0
  metadata := Function.update (fun _ => []) "version".toList "1".toList

/-! ### Grammar of the text the parser skips -/

/-- Well-formed comment text: what may stand between a `(` and its `)`. -/
inductive CommentText : Str → Prop where
  | nil : CommentText []
  | char (c : Char) (s : Str) : c ≠ '(' → c ≠ ')' → c ≠ '\\' → CommentText s →
      CommentText (c :: s)
  | escape (c : Char) (s : Str) : CommentText s → CommentText ('\\' :: c :: s)
  | nested (s t : Str) : CommentText s → CommentText t →
      CommentText ('(' :: s ++ ')' :: t)

/-- A run of whitespace and well-formed comments. -/
inductive SpaceAndComments : Str → Prop where
  | nil : SpaceAndComments []
  | space (c : Char) (s : Str) : isspace c = true → SpaceAndComments s →
      SpaceAndComments (c :: s)
  | comment (s t : Str) : CommentText s → SpaceAndComments t →
      SpaceAndComments ('(' :: s ++ ')' :: t)

/-! ### Predicates on documents and databases used in the statements -/

/-- The document carries exactly one thread term, and it is `thread=t`. -/
def OneThread (d : Document) (t : Str) : Prop :=
  ∀ u, make_term "thread" u ∈ d.terms ↔ u = t

/-- Every term of the document is a `directory` or `directory-direntry` term. -/
def DirDoc (d : Document) : Prop :=
  ∀ t ∈ d.terms, ∃ v, t = make_term "directory" v ∨ t = make_term "directory-direntry" v

/-- The two handles agree on everything but the documents. -/
def SameHandle (db db2 : Database) : Prop :=
  db2.path = db.path ∧ db2.mode = db.mode ∧ db2.needs_upgrade = db.needs_upgrade ∧
  db2.exception_reported = db.exception_reported ∧
  db2.last_thread_id = db.last_thread_id ∧ db2.metadata = db.metadata

/-- Database `db2` is `db` with directory documents added behind it. -/
def Extends (db db2 : Database) : Prop :=
  SameHandle db db2 ∧ db.lastdocid ≤ db2.lastdocid ∧
  (∀ i, i ≤ db.lastdocid → db2.get_document i = db.get_document i) ∧
  (∀ i d, db.lastdocid < i → db2.get_document i = some d → DirDoc d)

/-- Does the term start with one of the boolean prefixes of the registry? -/
def is_boolean_term (t : Str) : Bool :=
  (BOOLEAN_PREFIX_INTERNAL ++ BOOLEAN_PREFIX_EXTERNAL).any (fun e => e.2.toList.isPrefixOf t)

/-- The tokeniser yields no term in the boolean part of the term namespace
(section 4.1 and the glossary: prefixes partition the namespace by field). -/
def IndexOk (w : World) : Prop :=
  ∀ f t, t ∈ w.index_terms f → is_boolean_term t = false

/-- The keys of a hash table are listed once each, in some order. -/
def KeysOk (w : World) : Prop :=
  ∀ l, (w.g_hash_table_get_keys l).Perm l

/-- What `_merge_threads` does to one document of the loser thread: the term
`thread=l` is replaced by `thread=w`. -/
def retag_thread (w l : Str) (d : Document) : Document :=
  (d.remove_term (make_term "thread" l)).add_term (make_term "thread" w)

/-- Function `retag_thread` on the documents that carry `thread=l`, the
identity on the others. -/
def rename_thread (w l : Str) (d : Document) : Document :=
  if make_term "thread" l ∈ d.terms then retag_thread w l d else d

/-- The database after `_merge_threads` with winner `w` and loser `l`. -/
def merge_db (w l : Str) (db : Database) : Database :=
  { db with docs := fun i =>
      if db.has_term i (make_term "thread" l) = true then (db.docs i).map (retag_thread w l)
      else db.docs i }

/-- How thread resolution for the message `mid` may change a document: its
thread ids are mapped by `σ`, the term `reference=mid` may go, every other
term stays. -/
def DocLinked (σ : Str → Str) (mid : Str) (d d2 : Document) : Prop :=
  (∀ t, (∀ u, t ≠ make_term "thread" u) → t ≠ make_term "reference" mid →
    (t ∈ d2.terms ↔ t ∈ d.terms)) ∧
  (make_term "reference" mid ∈ d2.terms → make_term "reference" mid ∈ d.terms) ∧
  (∀ u, OneThread d u → OneThread d2 (σ u)) ∧
  ((∃ u, make_term "thread" u ∈ d2.terms) → ∃ u, make_term "thread" u ∈ d.terms)

/-- How thread resolution for the message `mid` may change the database: the
same document ids, each document changed as `DocLinked` allows, with one map
`σ` of thread ids for all of them. -/
def Linked (σ : Str → Str) (mid : Str) (db db2 : Database) : Prop :=
  SameHandle db db2 ∧ db2.lastdocid = db.lastdocid ∧
  ∀ i, (db.get_document i = none → db2.get_document i = none) ∧
    ∀ d, db.get_document i = some d →
      ∃ d2, db2.get_document i = some d2 ∧ DocLinked σ mid d d2

/-- Every document other than `k` that carries an id term, a reference term or
a thread term carries exactly one thread term. -/
def Sound (db : Database) (k : Nat) : Prop :=
  ∀ i d, i ≠ k → db.get_document i = some d →
    (∃ v, make_term "id" v ∈ d.terms ∨ make_term "reference" v ∈ d.terms ∨
      make_term "thread" v ∈ d.terms) →
    ∃ u, OneThread d u

/-- The document stored under `k`, if any, carries no id term but `id=mid` and
no reference term: the new message's document while it is being linked. -/
def OwnDoc (db : Database) (k : Nat) (mid : Str) : Prop :=
  ∀ d, db.get_document k = some d →
    (∀ v, make_term "id" v ∈ d.terms → v = mid) ∧ ∀ v, make_term "reference" v ∉ d.terms

/-- What both linking loops guarantee when they return state `st`, started
from database `db`, message `m` and thread id `tid`, for the message `mid`. -/
structure LinkPost (mid : Str) (db : Database) (m : Message) (tid : Option Str)
    (st : LinkState) (σ : Str → Str) : Prop where
  ret : st.ret = NOTMUCH_STATUS_SUCCESS
  doc_id : st.message.doc_id = m.doc_id
  frozen : st.message.frozen = m.frozen
  values : st.message.doc.values = m.doc.values
  data : st.message.doc.data = m.doc.data
  keep : ∀ w, tid = some w → st.thread_id = some w
  linked : Linked σ mid db st.db
  fix : ∀ w, st.thread_id = some w → σ w = w

/-- The document carries exactly one id term, and it is `id=mid`. -/
def OneId (d : Document) (mid : Str) : Prop :=
  ∀ v, make_term "id" v ∈ d.terms ↔ v = mid

/-- The keys of the `parents` hash table that
`_notmuch_database_link_message_to_parents` builds for the message `mid`. -/
def parent_keys (w : World) (mid : Str) (message_file : MessageFile) : List Str :=
  w.g_hash_table_get_keys
    (parse_references mid (parse_references mid [] (message_file.header "references"))
      (message_file.header "in-reply-to"))

/-- The `replyto` term that `_notmuch_database_link_message_to_parents` adds
for the message `mid`: the identifier of its In-Reply-To header, unless there
is none or it is `mid` itself. -/
def replyto_terms (mid : Str) (message_file : MessageFile) : List Str :=
  match (_parse_message_id (message_file.header "in-reply-to")).result with
  | some irt => if irt ≠ mid then [make_term "replyto" irt] else []
  | none => []

/-- The document that `_notmuch_message_create_for_message_id` adds for a new
message. -/
def new_doc (mid : Str) : Document :=
  ⟨[make_term "id" mid], [(NOTMUCH_VALUE_MESSAGE_ID, mid)], []⟩

/-- The file has a From, Subject or To header that is not empty. -/
def looks_like_mail (message_file : MessageFile) : Prop :=
  ¬ (is_null_or_empty (message_file.header "from") = true ∧
     is_null_or_empty (message_file.header "subject") = true ∧
     is_null_or_empty (message_file.header "to") = true)

/-- What `notmuch_database_add_message` guarantees when it returns `r` for a
file whose message `mid` is new to the database `db`: the message's document
`dM` is stored under the next document id with thread `tw`, the documents of
`db` are changed as thread resolution allows, and what has been added behind
are directory documents. -/
structure AddPost (w : World) (db : Database) (f : Str) (mf : MessageFile) (mid : Str)
    (r : AddResult) (σ : Str → Str) (tw : Str) (dM : Document) : Prop where
  status : r.status = NOTMUCH_STATUS_SUCCESS
  own : r.db.get_document (db.lastdocid + 1) = some dM
  terms : ∀ t, t ∈ dM.terms ↔
    t = make_term "id" mid ∨
    t = make_term "file-direntry"
      (_notmuch_database_filename_to_direntry w (db.add_document (new_doc mid)).1 f).2.2 ∨
    t = make_term "type" "mail".toList ∨
    t ∈ replyto_terms mid mf ∨
    (∃ p ∈ parent_keys w mid mf, _notmuch_database_find_unique_doc_id db "id" p = none ∧
      t = make_term "reference" p) ∨
    t = make_term "thread" tw ∨
    t ∈ w.index_terms f
  old : ∀ i, i ≤ db.lastdocid →
    (db.get_document i = none → r.db.get_document i = none) ∧
    ∀ d, db.get_document i = some d →
      ∃ d2, r.db.get_document i = some d2 ∧ DocLinked σ mid d d2
  dirs : ∀ i d, db.lastdocid + 1 < i → r.db.get_document i = some d → DirDoc d
  path : r.db.path = db.path
  mode : r.db.mode = db.mode
  parents : Sound db 0 → ∀ p ∈ parent_keys w mid mf, ∀ j,
    _notmuch_database_find_unique_doc_id db "id" p = some j →
    ∃ d2, r.db.get_document j = some d2 ∧ OneThread d2 tw
  children : Sound db 0 → ∀ c d, db.get_document c = some d →
    make_term "reference" mid ∈ d.terms →
    ∃ d2, r.db.get_document c = some d2 ∧ OneThread d2 tw

/-- The invariant of the data model (section 3): every mail document carries
exactly one type term (`type=mail`), exactly one id term and exactly one
thread term. -/
def MailDocsOk (db : Database) : Prop :=
  ∀ i d, db.get_document i = some d → make_term "type" "mail".toList ∈ d.terms →
    (∀ v, make_term "type" v ∈ d.terms → v = "mail".toList) ∧
    (∃ x, OneId d x) ∧ (∃ t, OneThread d t)

/-- The invariant of the data model (section 3): for any message identifier at
most one mail document carries that id term. -/
def OneMailPerId (db : Database) : Prop :=
  ∀ x i j di dj, db.get_document i = some di → db.get_document j = some dj →
    make_term "type" "mail".toList ∈ di.terms → make_term "type" "mail".toList ∈ dj.terms →
    make_term "id" x ∈ di.terms → make_term "id" x ∈ dj.terms → i = j

/-- Every document of `db2` either carries no id term and no type term, or is
a document of `db` with the same id terms and the same type terms. -/
def IdTypeFrame (db db2 : Database) : Prop :=
  ∀ i d2, db2.get_document i = some d2 →
    (∀ v, make_term "id" v ∉ d2.terms ∧ make_term "type" v ∉ d2.terms) ∨
    ∃ d, db.get_document i = some d ∧
      (∀ v, make_term "id" v ∈ d2.terms ↔ make_term "id" v ∈ d.terms) ∧
      (∀ v, make_term "type" v ∈ d2.terms ↔ make_term "type" v ∈ d.terms)

/-! ### Concrete collaborators and files used to instantiate the theorems -/

/-- A message file given by its table of (lower-case) header names and values. -/
def file_of_headers (hs : List (String × String)) : MessageFile :=
  ⟨fun name => (hs.find? (fun p => p.1 == name)).map (fun p => p.2.toList)⟩

/-- An identifier of 245 characters. -/
def long_id (c : Char) : String := String.mk (List.replicate 245 c)

/-- Further files of the example maildir, with unusual identifiers: `q1` has the
unbracketed Message-ID `"a b"@x` and `q2` replies to it; `l1` has a Message-ID of 245
characters and `l2` replies to it; `l3` and `l4` are two copies of a reply to `m1` with
a Message-ID of 245 characters; `s1` refers to itself under a Message-ID of 245
characters; `s0` is the message `ab`, which refers to `zz`, and `s2` refers to itself
under the Message-ID `a b`; `s3` refers to itself twice. -/
def example_files_odd (filename : Str) : Option MessageFile :=
  if filename = "/mail/dd/q1".toList then
    some (file_of_headers [("message-id", "\"a b\"@x"), ("from", "u")])
  else if filename = "/mail/dd/q2".toList then
    some (file_of_headers [("message-id", "<q2@x>"), ("from", "v"),
      ("in-reply-to", "<\"a b\"@x>")])
  else if filename = "/mail/dd/l1".toList then
    some (file_of_headers [("message-id", "<" ++ long_id 'a' ++ ">"), ("from", "u")])
  else if filename = "/mail/dd/l2".toList then
    some (file_of_headers [("message-id", "<l2@x>"), ("from", "v"),
      ("in-reply-to", "<" ++ long_id 'a' ++ ">")])
  else if filename = "/mail/dd/l3".toList ∨ filename = "/mail/dd/l4".toList then
    some (file_of_headers [("message-id", "<" ++ long_id 'b' ++ ">"), ("from", "v"),
      ("in-reply-to", "<m1@x>")])
  else if filename = "/mail/dd/s1".toList then
    some (file_of_headers [("message-id", "<" ++ long_id 'a' ++ ">"), ("from", "u"),
      ("references", "<" ++ long_id 'a' ++ ">")])
  else if filename = "/mail/dd/s0".toList then
    some (file_of_headers [("message-id", "<ab>"), ("from", "u"), ("references", "<zz>")])
  else if filename = "/mail/dd/s2".toList then
    some (file_of_headers [("message-id", "<a b>"), ("from", "u"), ("references", "<a b>")])
  else if filename = "/mail/dd/s3".toList then
    some (file_of_headers [("message-id", "<s3@x>"), ("from", "u"),
      ("references", "<s3@x> <s3@x>")])
  else none

/-- A small maildir under `/mail`: `m1`, its reply `m2`, a second copy `m3` of `m1`,
and `m4`, which is not a mail file. -/
def example_files (filename : Str) : Option MessageFile :=
  if filename = "/mail/dd/m1".toList then
    some (file_of_headers [("message-id", "<m1@x>"), ("from", "u"), ("subject", "s")])
  else if filename = "/mail/dd/m2".toList then
    some (file_of_headers [("message-id", "<m2@x>"), ("from", "v"), ("in-reply-to", "<m1@x>")])
  else if filename = "/mail/dd/m3".toList then
    some (file_of_headers [("message-id", "<m1@x>"), ("from", "u"), ("subject", "s")])
  else if filename = "/mail/dd/m4".toList then
    some (file_of_headers [("x-note", "text")])
  else example_files_odd filename

/-- A world with the files of `example_files`, a tokeniser that yields no term, a
date parser that yields 0, hash tables listing their keys in insertion order, decimal
text as the sortable encoding, and queries listing documents by increasing id. -/
def example_world : World where
  notmuch_message_file_open := example_files
  notmuch_sha1_of_file := fun _ => some "da39a3ee5e6b4b0d3255bfef95601890afd80709".toList
  notmuch_sha1_of_string := fun _ => "da39a3ee5e6b4b0d3255bfef95601890afd80709".toList
  index_terms := fun _ => []
  date_value := fun _ => "0".toList
  g_hash_table_get_keys := fun l => l
  sortable_unserialise := fun v => (v.foldl (fun n c => 10 * n + (c.toNat - 48)) 0 : Nat)
  sortable_serialise := fun t => Nat.toDigits 10 t.toNat
  sort_messages := fun l => l

/-- The example maildir after `m1` has been overwritten with a copy of `m2`. -/
def example_world_later : World :=
  { example_world with
    notmuch_message_file_open := fun filename =>
      if filename = "/mail/dd/m1".toList then example_files "/mail/dd/m2".toList
      else example_files filename }

/-! ### Reference notions the contracts are stated against -/

/-- Modelled from the spec: the identifiers that repeated invocation of the
message-id parser extracts from `refs`, each call resuming where the previous
one stopped, until the input is used up (at most `fuel` calls). -/
def repeated_parse : Nat → Str → List Str
  | 0, _ => []
  | fuel + 1, refs =>
    match refs with
    | [] => []
    | _ :: _ =>
      match (_parse_message_id (some refs)).result with
      | some ref => ref :: repeated_parse fuel ((_parse_message_id (some refs)).next.getD refs)
      | none => repeated_parse fuel ((_parse_message_id (some refs)).next.getD refs)

/-- An identifier the parser returns unchanged from between `<` and `>`: at
least two characters, no whitespace and no `>` in it, and no `(` in front. -/
def BracketId (x : Str) : Prop :=
  2 ≤ x.length ∧ (∀ c ∈ x, isspace c = false ∧ c ≠ '>') ∧ x.head? ≠ some '('

/-- The header value `<i1> <i2> ... <in>`: bracketed identifiers separated by
spaces. -/
def bracketed : List Str → Str
  | [] => []
  | [i] => '<' :: i ++ ['>']
  | i :: j :: rest => '<' :: i ++ '>' :: ' ' :: bracketed (j :: rest)

/-- Ingesting files in order: `notmuch_database_add_message` is called for each
file in turn, whatever status it returns; `none` when a call aborts. -/
def add_messages (w : World) : Database → List Str → Option Database
  | db, [] => some db
  | db, f :: rest =>
    match notmuch_database_add_message w db f with
    | none => none
    | some r => add_messages w r.db rest

/-- The example maildir ingested: `m1` and its second copy `m3`. -/
def example_db_two_files : Database :=
  (add_messages example_world (empty_database "/mail".toList)
    ["/mail/dd/m1".toList, "/mail/dd/m3".toList]).getD (empty_database "/mail".toList)

/-- The example maildir ingested (`m1`, then `m2`), and `m1` ingested again after it has
been overwritten with a copy of `m2`: the documents of both messages carry the
file-direntry term of `m1`. -/
def example_db_shared_file : Database :=
  ((add_messages example_world (empty_database "/mail".toList)
      ["/mail/dd/m1".toList, "/mail/dd/m2".toList]).bind
    (fun db => add_messages example_world_later db ["/mail/dd/m1".toList])).getD
    (empty_database "/mail".toList)

/-- The example maildir after the given files have been ingested into the empty
database, in order. -/
def example_db (files : List String) : Database :=
  (add_messages example_world (empty_database "/mail".toList)
    (files.map String.toList)).getD (empty_database "/mail".toList)

/-- The terms of a document of a database, as strings (empty when there is no such
document). -/
def terms_of (db : Database) (i : Nat) : List String :=
  ((db.get_document i).map (fun d => d.terms.map String.mk)).getD []

/-- A mail file of the world, given as file name, contents and identifier: the
file opens with these contents, has a From, Subject or To header that is not
empty, and yields the identifier. -/
def MailFile (w : World) (m : Str × MessageFile × Str) : Prop :=
  w.notmuch_message_file_open m.1 = some m.2.1 ∧ looks_like_mail m.2.1 ∧
  message_id_of_file w m.2.1 m.1 = some m.2.2

/-- Exactly one document of the database carries the term `id=x`; it is a mail
document and has exactly one thread term, `thread=t`. -/
def ThreadOf (db : Database) (x t : Str) : Prop :=
  ∃ i d, db.get_document i = some d ∧ make_term "id" x ∈ d.terms ∧
    make_term "type" "mail".toList ∈ d.terms ∧ OneThread d t ∧
    ∀ k e, db.get_document k = some e → make_term "id" x ∈ e.terms → k = i

/-- The state of a database while the messages `M` are being ingested, those
with identifiers in `S` being in: the database is writable and soundly
threaded; the messages that are in have their document and the others have
none; and a message that is in shares the thread of each of its parents that is
in, and carries a reference term for each of its parents that is not. -/
structure ChainInv (w : World) (M : List (Str × MessageFile × Str)) (S : List Str)
    (db : Database) : Prop where
  mode : db.mode = NOTMUCH_DATABASE_MODE_READ_WRITE
  sound : Sound db 0
  present : ∀ m ∈ M, m.2.2 ∈ S → ∃ t, ThreadOf db m.2.2 t
  absent : ∀ m ∈ M, m.2.2 ∉ S → _notmuch_database_find_unique_doc_id db "id" m.2.2 = none
  linked : ∀ m ∈ M, m.2.2 ∈ S → ∀ p ∈ M, p.2.2 ∈ parent_keys w m.2.2 m.2.1 →
    (p.2.2 ∈ S → ∃ t, ThreadOf db m.2.2 t ∧ ThreadOf db p.2.2 t) ∧
    (p.2.2 ∉ S → ∃ i d, db.get_document i = some d ∧ make_term "id" m.2.2 ∈ d.terms ∧
      make_term "reference" p.2.2 ∈ d.terms)

/-! ### Opening a database and the schema version -/

/-- C library: the value of a character as a digit (`0-9`, then letters in
either case for 10 to 35). -/
def digit_value (c : Char) : Option Nat :=
  if '0' ≤ c ∧ c ≤ '9' then some (c.toNat - 48)
  else if 'a' ≤ c ∧ c ≤ 'z' then some (c.toNat - 87)
  else if 'A' ≤ c ∧ c ≤ 'Z' then some (c.toNat - 55)
  else none

/-- Is `c` a digit of the base? -/
def is_digit_of (base : Nat) (c : Char) : Bool :=
  match digit_value c with
  | some d => decide (d < base)
  | none => false

/-- C library: the optional `0x` or `0X` that `strtoull` accepts in front of a
base-16 number (only when a hexadecimal digit follows). -/
def skip_hex_prefix (base : Nat) : Str → Str
  | '0' :: x :: d :: rest =>
    if base = 16 ∧ (x = 'x' ∨ x = 'X') ∧ is_digit_of 16 d then d :: rest
    else '0' :: x :: d :: rest
  | other => other

/-- C library: `strtoull (str, &end, base)` for base 10 or 16 on a 64-bit
`unsigned long long` (and `strtoul` where `unsigned long` has 64 bits): white
space, an optional sign, for base 16 an optional `0x`, then the longest run of
digits; the value (clamped to `ULLONG_MAX` on overflow, negated modulo 2^64 after
a minus sign) and the rest of the string from `end` on.  Without any digit the
value is 0 and `end` is `str`. -/
def strtoull (str : Str) (base : Nat) : Nat × Str :=
  let s := skip_space str
  let neg := s.head? = some '-'
  let s := if s.head? = some '-' ∨ s.head? = some '+' then s.tail else s
  let s := skip_hex_prefix base s
  let digits := s.takeWhile (is_digit_of base)
  if digits = [] then (0, str)
  else
    let v := digits.foldl (fun acc c => acc * base + (digit_value c).getD 0) 0
    let v := if v ≥ 2 ^ 64 then 2 ^ 64 - 1 else if neg then (2 ^ 64 - v) % 2 ^ 64 else v
    (v, s.drop digits.length)

/-- The constant `NOTMUCH_DATABASE_VERSION` of `database.cc`. -/
def NOTMUCH_DATABASE_VERSION : Nat := 1

/-- Function `notmuch_database_get_version`; `none` is the `INTERNAL_ERROR`
exit on a malformed version string.  The result of `strtoul` is stored in an
`unsigned int`. -/
def notmuch_database_get_version (db : Database) : Option Nat :=
  let version_string := db.metadata "version".toList
  if version_string = [] then some 0
  else
    let r := strtoull version_string 10
    if r.2 ≠ [] then none else some (r.1 % 2 ^ 32)

/-- Function `notmuch_database_open`.  `stat_ok` is the outcome of `stat` on the
`.notmuch` directory; `xapian_db` is the Xapian database found at the path
(`none` when opening it throws), of which only the documents and the metadata
are read.  The outer `none` is the `INTERNAL_ERROR` exit, the inner `none` the
NULL result. -/
def notmuch_database_open (stat_ok : Bool) (xapian_db : Option Database) (path : Str)
    (mode : notmuch_database_mode_t) : Option (Option Database) :=
  if ¬ stat_ok then some none
  else
    match xapian_db with
    | none => some none
    | some x =>
      let path := if path.getLast? = some '/' then path.dropLast else path
      let notmuch : Database :=
        { x with path := path, mode := mode, needs_upgrade := false,
                 exception_reported := false }
      match notmuch_database_get_version notmuch with
      | none => none
      | some version =>
        if mode = NOTMUCH_DATABASE_MODE_READ_WRITE ∧ version > NOTMUCH_DATABASE_VERSION then
          some none
        else
          let notmuch :=
            if mode = NOTMUCH_DATABASE_MODE_READ_WRITE ∧ version < NOTMUCH_DATABASE_VERSION
            then { notmuch with needs_upgrade := true } else notmuch
          let last_thread_id := notmuch.metadata "last_thread_id".toList
          if last_thread_id = [] then some (some { notmuch with last_thread_id := 0 })
          else
            let r := strtoull last_thread_id 16
            if r.2 ≠ [] then none
            else some (some { notmuch with last_thread_id := r.1 })

/-! ### Upgrade -/

/-- Method `Xapian::Document::get_value`: empty when the slot is not set. -/
def Document.get_value (d : Document) (slot : notmuch_value_t) : Str :=
  ((d.values.find? (fun e => e.1 = slot)).map (fun e => e.2)).getD []

/-- Modelled from the spec: `notmuch_query_search_messages` of `query.cc` for
the empty query string (section 4.7): every mail document, that is the posting
list of `type=mail`, in the order of the configured sort. -/
def search_all_messages (w : World) (db : Database) : List Nat :=
  w.sort_messages (find_doc_ids db "type" "mail".toList)

/-- Modelled from the spec: `notmuch_directory_set_mtime` of `directory.cc`
(section 4.3) on the directory object of document `directory_id`: write the
sortable encoding of `mtime` into slot TIMESTAMP and re-store the document;
`none` when there is no such document. -/
def notmuch_directory_set_mtime (w : World) (db : Database) (directory_id : Nat)
    (mtime : Int) : Option Database :=
  match db.get_document directory_id with
  | none => none
  | some doc =>
    some (db.replace_document directory_id
      (doc.add_value NOTMUCH_VALUE_TIMESTAMP (w.sortable_serialise mtime)))

/-- Function `notmuch_database_get_directory`: database afterwards and the
document id of the directory object. -/
def notmuch_database_get_directory (w : World) (db : Database) (path : Str) :
    Database × Nat :=
  _notmuch_directory_create w db path

/-- Methods `allterms_begin (prefix)` to `allterms_end (prefix)`: the terms of
the database that start with the prefix, each once, in increasing order. -/
def allterms (db : Database) (pfx : Str) : List Str :=
  (((List.range (db.lastdocid + 1)).map
      (fun i => match db.get_document i with
        | some d => d.terms.filter (fun t => pfx.isPrefixOf t)
        | none => [])).flatten.dedup).insertionSort (fun a b => ¬ b < a)

/-- Progress reporting during an upgrade: how often the flag has been polled,
and the `(count, total)` of every call of `progress_notify` so far. -/
structure Progress where
  checks : Nat
  calls : List (Nat × Nat)
deriving DecidableEq, Repr

/-- The test `if (do_progress_notify) { progress_notify (closure, (double) count
/ total); do_progress_notify = 0; }`.  The flag is set by the interval timer,
which is armed only when a callback is given: `alarm k` says whether it has
fired before the poll number `k`. -/
def poll_progress (notify : Bool) (alarm : Nat → Bool) (p : Progress) (count total : Nat) :
    Progress :=
  if notify && alarm p.checks then ⟨p.checks + 1, p.calls ++ [(count, total)]⟩
  else ⟨p.checks + 1, p.calls⟩

/-- First loop of `notmuch_database_upgrade`: copy the legacy filename of every
message from the data blob into a `file-direntry` term.  The result is the
database, the progress and `count`; `none` when a message cannot be read. -/
def upgrade_filenames_loop (w : World) (notify : Bool) (alarm : Nat → Bool) (total : Nat) :
    Database → Progress → Nat → List Nat → Option (Database × Progress × Nat)
  | db, p, count, [] => some (db, p, count)
  | db, p, count, i :: rest =>
    let p := poll_progress notify alarm p count total
    match _notmuch_message_create db i with
    | none => none
    | some message =>
      let filename := message.doc.data
      if filename ≠ [] then
        let named := _notmuch_message_add_filename w db message filename
        upgrade_filenames_loop w notify alarm total
          (_notmuch_message_sync named.1 named.2) p (count + 1) rest
      else upgrade_filenames_loop w notify alarm total db p (count + 1) rest

/-- Loop of `notmuch_database_upgrade` over the posting list of one
`XTIMESTAMP` term: copy the time stamp of each legacy document to the directory
document of the path that the term names. -/
def upgrade_timestamps_postings (w : World) (notify : Bool) (alarm : Nat → Bool)
    (count total : Nat) (term : Str) :
    Database → Progress → List Nat → Option (Database × Progress)
  | db, p, [] => some (db, p)
  | db, p, i :: rest =>
    let p := poll_progress notify alarm p count total
    match find_document_for_doc_id db i with
    | none => none
    | some document =>
      let mtime := w.sortable_unserialise (document.get_value NOTMUCH_VALUE_TIMESTAMP)
      let directory := notmuch_database_get_directory w db (term.drop 10)
      match notmuch_directory_set_mtime w directory.1 directory.2 mtime with
      | none => none
      | some db2 => upgrade_timestamps_postings w notify alarm count total term db2 p rest

/-- Loop of `notmuch_database_upgrade` over the `XTIMESTAMP` terms. -/
def upgrade_timestamps_loop (w : World) (notify : Bool) (alarm : Nat → Bool)
    (count total : Nat) : Database → Progress → List Str → Option (Database × Progress)
  | db, p, [] => some (db, p)
  | db, p, term :: rest =>
    match upgrade_timestamps_postings w notify alarm count total term db p
        (find_doc_ids_for_term db term) with
    | none => none
    | some r => upgrade_timestamps_loop w notify alarm count total r.1 r.2 rest

/-- Loop of `notmuch_database_upgrade` that clears the data blob of every
message that has one. -/
def upgrade_clear_data_loop (notify : Bool) (alarm : Nat → Bool) (count total : Nat) :
    Database → Progress → List Nat → Option (Database × Progress)
  | db, p, [] => some (db, p)
  | db, p, i :: rest =>
    let p := poll_progress notify alarm p count total
    match _notmuch_message_create db i with
    | none => none
    | some message =>
      let filename := message.doc.data
      if filename ≠ [] then
        -- _notmuch_message_clear_data, then _notmuch_message_sync
        let message := { message with doc := { message.doc with data := [] } }
        upgrade_clear_data_loop notify alarm count total (_notmuch_message_sync db message)
          p rest
      else upgrade_clear_data_loop notify alarm count total db p rest

/-- Loop of `notmuch_database_upgrade` over the posting list of one `XTIMESTAMP`
term: delete the documents. -/
def upgrade_delete_postings (notify : Bool) (alarm : Nat → Bool) (count total : Nat) :
    Database → Progress → List Nat → Database × Progress
  | db, p, [] => (db, p)
  | db, p, i :: rest =>
    upgrade_delete_postings notify alarm count total (db.delete_document i)
      (poll_progress notify alarm p count total) rest

/-- Loop of `notmuch_database_upgrade` that deletes the legacy `XTIMESTAMP`
documents, term by term. -/
def upgrade_delete_loop (notify : Bool) (alarm : Nat → Bool) (count total : Nat) :
    Database → Progress → List Str → Database × Progress
  | db, p, [] => (db, p)
  | db, p, term :: rest =>
    let r := upgrade_delete_postings notify alarm count total db p
      (find_doc_ids_for_term db term)
    upgrade_delete_loop notify alarm count total r.1 r.2 rest

/-- Result of `notmuch_database_upgrade`: the status, the database afterwards
and the calls of the progress callback. -/
structure UpgradeResult where
  status : notmuch_status_t
  db : Database
  progress : Progress

/-- Function `notmuch_database_upgrade`.  `notify` says whether a progress
callback is given and `alarm` when the timer fires; `none` is an abort on an
internal error. -/
def notmuch_database_upgrade (w : World) (db : Database) (notify : Bool)
    (alarm : Nat → Bool) : Option UpgradeResult :=
  if _notmuch_database_ensure_writable db ≠ NOTMUCH_STATUS_SUCCESS then
    some ⟨_notmuch_database_ensure_writable db, db, ⟨0, []⟩⟩
  else
    match notmuch_database_get_version db with
    | none => none
    | some version =>
      if version ≥ NOTMUCH_DATABASE_VERSION then some ⟨NOTMUCH_STATUS_SUCCESS, db, ⟨0, []⟩⟩
      else
        -- Before version 1, each message document had its filename in the data field.
        let total := if version < 1 then (search_all_messages w db).length else 0
        let first :=
          if version < 1 then
            match upgrade_filenames_loop w notify alarm total db ⟨0, []⟩ 0
                (search_all_messages w db) with
            | none => none
            | some r =>
              -- Also, before version 1 we stored directory timestamps in XTIMESTAMP documents.
              (upgrade_timestamps_loop w notify alarm r.2.2 total r.1 r.2.1
                (allterms r.1 "XTIMESTAMP".toList)).map (fun t => (t.1, t.2, r.2.2))
          else some (db, ⟨0, []⟩, 0)
        match first with
        | none => none
        | some (db1, p1, count) =>
          let db2 := db1.set_metadata "version".toList (format_u NOTMUCH_DATABASE_VERSION)
          -- Now that the upgrade is complete we can remove the old data and documents.
          let second :=
            if version < 1 then
              upgrade_clear_data_loop notify alarm count total db2 p1 (search_all_messages w db2)
            else some (db2, p1)
          match second with
          | none => none
          | some (db3, p3) =>
            let third :=
              if version < 1 then
                upgrade_delete_loop notify alarm count total db3 p3
                  (allterms db3 "XTIMESTAMP".toList)
              else (db3, p3)
            some ⟨NOTMUCH_STATUS_SUCCESS, third.1, third.2⟩

/-! ### Creating a database, and version-0 databases -/

/-- The Xapian database that `DB_CREATE_OR_OPEN` makes where there is none: no
document and no metadata.  (Of this value `notmuch_database_open` reads the
documents and the metadata only.) -/
def blank_xapian_database : Database where
  path := []
  mode := NOTMUCH_DATABASE_MODE_READ_WRITE
  needs_upgrade := false
  exception_reported := false
  last_thread_id := 0
  docs := fun _ => none
  lastdocid := 0
  metadata := fun _ => []

/-- Function `notmuch_database_create` for a path that is not NULL.  `stat_ok`
says that `stat` finds a directory at the path, `mkdir_ok` that the `.notmuch`
directory could be made (the Xapian database is then new), `xapian_ok` that
Xapian can create its database there.  The outer `none` is an abort, which
includes `notmuch_database_upgrade` being handed the NULL that a failed open
returns; the inner `none` is the NULL result. -/
def notmuch_database_create (w : World) (stat_ok mkdir_ok xapian_ok : Bool) (path : Str) :
    Option (Option Database) :=
  if ¬ stat_ok then some none
  else if ¬ mkdir_ok then some none
  else
    match notmuch_database_open true (if xapian_ok then some blank_xapian_database else none)
        path NOTMUCH_DATABASE_MODE_READ_WRITE with
    | none => none
    | some none => none
    | some (some notmuch) =>
      match notmuch_database_upgrade w notmuch false (fun _ => false) with
      | none => none
      | some r => some (some r.db)

/-- Function `notmuch_database_needs_upgrade`. -/
def notmuch_database_needs_upgrade (db : Database) : Bool :=
  db.needs_upgrade

/-- A version-0 Xapian database under `/mail`: the mail document 1 keeps its
filename in the data blob, the legacy document 2 keeps the time stamp 1234 of
the directory `/mail/dd`; there is no version metadata. -/
def example_legacy_xapian : Database where
  path := []
  mode := NOTMUCH_DATABASE_MODE_READ_ONLY
  needs_upgrade := false
  exception_reported := false
  last_thread_id := 0
  docs := fun i =>
    if i = 1 then
      some ⟨["Tmail".toList, "Qm1@x".toList, "G0000000000000001".toList],
        [(NOTMUCH_VALUE_TIMESTAMP, "0".toList)], "/mail/dd/m1".toList⟩
    else if i = 2 then
      some ⟨["XTIMESTAMP/mail/dd".toList], [(NOTMUCH_VALUE_TIMESTAMP, "1234".toList)], []⟩
    else none
  lastdocid := 2
  metadata := fun k => if k = "last_thread_id".toList then "0000000000000001".toList else []

/-- A version-0 Xapian database without any mail document: only the legacy
document of the directory `/mail/dd`. -/
def example_timestamps_xapian : Database where
  path := []
  mode := NOTMUCH_DATABASE_MODE_READ_ONLY
  needs_upgrade := false
  exception_reported := false
  last_thread_id := 0
  docs := fun i =>
    if i = 1 then
      some ⟨["XTIMESTAMP/mail/dd".toList], [(NOTMUCH_VALUE_TIMESTAMP, "1234".toList)], []⟩
    else none
  lastdocid := 1
  metadata := fun _ => []

/-- The handle that `notmuch_database_open` returns for a Xapian database under
`/mail` opened read-write (the blank database stands in when it returns none). -/
def example_open (x : Database) : Database :=
  match notmuch_database_open true (some x) "/mail".toList
      NOTMUCH_DATABASE_MODE_READ_WRITE with
  | some (some db) => db
  | _ => blank_xapian_database

/-- The terms, values and data of a document of a database, as strings (none when
there is no such document). -/
def document_of (db : Database) (i : Nat) :
    Option (List String × List (notmuch_value_t × String) × String) :=
  (db.get_document i).map
    (fun d => (d.terms.map String.mk, d.values.map (fun v => (v.1, String.mk v.2)),
      String.mk d.data))

/-- The first half of `notmuch_database_upgrade` on a writable version-0
database, up to and including the write of the version metadata: the filename
loop, the time stamp loop, then `set_metadata ("version", "1")`.  The result is
the database, the progress and `count`. -/
def upgrade_until_version (w : World) (db : Database) (notify : Bool) (alarm : Nat → Bool) :
    Option (Database × Progress × Nat) :=
  let total := (search_all_messages w db).length
  match upgrade_filenames_loop w notify alarm total db ⟨0, []⟩ 0
      (search_all_messages w db) with
  | none => none
  | some r =>
    match upgrade_timestamps_loop w notify alarm r.2.2 total r.1 r.2.1
        (allterms r.1 "XTIMESTAMP".toList) with
    | none => none
    | some t =>
      some (t.1.set_metadata "version".toList (format_u NOTMUCH_DATABASE_VERSION), t.2, r.2.2)

/-- The type `struct tm` of the C library. -/
structure Tm where
  tm_sec : Int
  tm_min : Int
  tm_hour : Int
  tm_mday : Int
  tm_mon : Int
  tm_year : Int
  tm_wday : Int
  tm_yday : Int
  tm_isdst : Int
deriving DecidableEq, Repr

/-- The clock and the calendar of the C library, which the date grammars call:
the value that `time` stores, and the functions `localtime_r` and `mktime`
(the value it returns, and the normalised structure it leaves behind). -/
structure Clock where
  time : Int
  localtime_r : Int → Tm
  mktime : Tm → Int × Tm

/-- The constant `DAY`. -/
def DAY : Int := 24 * 60 * 60

/-- Function `today`: midnight of the day of `after`, or of the current day when
`after` is 0. -/
def today (c : Clock) (after : Int) : Tm :=
  let t := if after ≠ 0 then after else c.time
  { c.localtime_r t with tm_sec := 0, tm_min := 0, tm_hour := 0 }

/-- The test `strcasecmp (a, b) == 0` in the C locale. -/
def strcasecmp_equal (a b : Str) : Bool :=
  decide (a.map Char.toLower = b.map Char.toLower)

/-- Function `parse_today`; `none` is the result 1 (no match), `some (first,
last)` the result 0.  The same holds for the other grammars. -/
def parse_today (c : Clock) (text : Str) (_after : Int) : Option (Int × Int) :=
  if strcasecmp_equal text "today".toList then
    let n := today c 0
    let first := (c.mktime n).1
    some (first, first + DAY)
  else none

/-- Function `parse_yesterday`. -/
def parse_yesterday (c : Clock) (text : Str) (_after : Int) : Option (Int × Int) :=
  if strcasecmp_equal text "yesterday".toList then
    let n := today c 0
    let last := (c.mktime n).1
    some (last - DAY, last)
  else none

/-- Function `parse_thisweek`.  The day of the week is the one that `today`
found (for such a date `mktime` leaves it as it is). -/
def parse_thisweek (c : Clock) (text : Str) (_after : Int) : Option (Int × Int) :=
  if strcasecmp_equal text "thisweek".toList then
    let n := today c 0
    let first := (c.mktime n).1 - n.tm_wday * DAY
    some (first, first + DAY * 7)
  else none

/-- Function `parse_lastweek`. -/
def parse_lastweek (c : Clock) (text : Str) (_after : Int) : Option (Int × Int) :=
  if strcasecmp_equal text "lastweek".toList then
    let n := today c 0
    let last := (c.mktime n).1 - n.tm_wday * DAY
    some (last - DAY * 7, last)
  else none

/-- The step `if (n.tm_mon++ == 12) { n.tm_mon = 0; n.tm_year++; }`. -/
def month_after_increment (n : Tm) : Tm :=
  if n.tm_mon = 12 then { n with tm_mon := 0, tm_year := n.tm_year + 1 }
  else { n with tm_mon := n.tm_mon + 1 }

/-- The step `if (++n.tm_mon > 11) { n.tm_mon = 0; n.tm_year++; }`. -/
def month_before_increment (n : Tm) : Tm :=
  if n.tm_mon + 1 > 11 then { n with tm_mon := 0, tm_year := n.tm_year + 1 }
  else { n with tm_mon := n.tm_mon + 1 }

/-- Function `parse_thismonth`. -/
def parse_thismonth (c : Clock) (text : Str) (_after : Int) : Option (Int × Int) :=
  if strcasecmp_equal text "thismonth".toList then
    let n := { today c 0 with tm_mday := 1 }
    let r := c.mktime n
    some (r.1, (c.mktime (month_after_increment r.2)).1)
  else none

/-- Function `parse_lastmonth`. -/
def parse_lastmonth (c : Clock) (text : Str) (_after : Int) : Option (Int × Int) :=
  if strcasecmp_equal text "lastmonth".toList then
    let n := { today c 0 with tm_mday := 1 }
    let n := if n.tm_mon = 0 then { n with tm_year := n.tm_year - 1, tm_mon := 11 }
      else { n with tm_mon := n.tm_mon - 1 }
    let r := c.mktime n
    some (r.1, (c.mktime (month_after_increment r.2)).1)
  else none

/-- Table `months`. -/
def months : List (String × String) :=
  [("January", "Jan"), ("February", "Feb"), ("March", "Mar"), ("April", "Apr"),
   ("May", "May"), ("June", "Jun"), ("July", "Jul"), ("August", "Aug"),
   ("September", "Sep"), ("October", "Oct"), ("November", "Nov"), ("December", "Dec")]

/-- C library: `strtol (text, &end, base)` for a 64-bit `long`: white space, an
optional sign, the longest run of digits; the value (clamped to the range of
`long`) and the rest of the string from `end` on.  `none` when there is no
digit, in which case `end == text`. -/
def strtol (text : Str) (base : Nat) : Option (Int × Str) :=
  let s := skip_space text
  let neg := s.head? = some '-'
  let s := if s.head? = some '-' ∨ s.head? = some '+' then s.tail else s
  let s := skip_hex_prefix base s
  let digits := s.takeWhile (is_digit_of base)
  if digits = [] then none
  else
    let v : Nat := digits.foldl (fun acc c => acc * base + (digit_value c).getD 0) 0
    let v : Int := if neg then (if v > 2 ^ 63 then -(2 ^ 63) else -(v : Int))
      else (if v ≥ 2 ^ 63 then 2 ^ 63 - 1 else (v : Int))
    some (v, s.drop digits.length)

/-- The conversion of a `long` to `int` on assignment: reduction modulo 2^32
into the range of `int`. -/
def long_to_int (v : Int) : Int :=
  (v + 2 ^ 31) % 2 ^ 32 - 2 ^ 31

/-- Function `year`: `none` is the result 1, `some y` the result 0 with `*y`. -/
def year (text : Str) : Option Int :=
  match strtol text 10 with
  | none => none
  | some (v, rest) =>
    let y := long_to_int v
    if rest ≠ [] then none
    else if y < 1970 ∨ y > 2038 then none
    else some (y - 1900)

/-- The loop of `month` over the table: the index of the first month whose full
or short name is the text, whatever the case of the letters. -/
def month_by_name (text : Str) : Nat → List (String × String) → Option Int
  | _, [] => none
  | i, (full, short) :: rest =>
    if strcasecmp_equal text full.toList || strcasecmp_equal text short.toList then
      some (i : Int)
    else month_by_name text (i + 1) rest

/-- Function `month`. -/
def month (text : Str) : Option Int :=
  match month_by_name text 0 months with
  | some m => some m
  | none =>
    match strtol text 10 with
    | none => none
    | some (v, rest) =>
      let m := long_to_int v
      if rest ≠ [] then none
      else if m < 1 ∨ m > 12 then none
      else some (m - 1)

/-- Function `day`. -/
def day (text : Str) : Option Int :=
  match strtol text 10 with
  | none => none
  | some (v, rest) =>
    let d := long_to_int v
    if rest ≠ [] then none
    else if d < 1 ∨ d > 31 then none
    else some d

/-- The tokens that repeated calls of `strtok_r` with the one delimiter find:
the maximal runs of other characters.  `cur` is the token being read. -/
def strtok_loop (delim : Char) : Str → Str → List Str
  | cur, [] => if cur = [] then [] else [cur]
  | cur, c :: cs =>
    if c = delim then
      if cur = [] then strtok_loop delim [] cs else cur :: strtok_loop delim [] cs
    else strtok_loop delim (cur ++ [c]) cs

/-- All tokens of a text for one delimiter, in order. -/
def strtok_tokens (delim : Char) (text : Str) : List Str :=
  strtok_loop delim [] text

/-- The year adjustment of `parse_month` and `parse_us`: `today (&n, after)`,
then a year forward when there is an `after` and the month lies before its
month, a year backward when there is none and the month lies after today's. -/
def today_for_month (c : Clock) (m : Int) (after : Int) : Tm :=
  let n := today c after
  if after ≠ 0 then
    if m < n.tm_mon then { n with tm_year := n.tm_year + 1 } else n
  else
    if m > n.tm_mon then { n with tm_year := n.tm_year - 1 } else n

/-- The size of the array `char tmp[80]` of `parse_month`, `parse_iso` and
`parse_us`: the value of `sizeof (tmp)`. -/
def sizeof_tmp : Nat := 80

/-- C library: `strcpy (dst, src)` into an array of `size` bytes.  The copy
stores the characters of `src` and the terminating NUL, `src.length + 1` bytes;
the result is the C string that the array holds afterwards, and `none` when the
bytes do not fit, which is a write past the end of the array. -/
def strcpy (size : Nat) (src : Str) : Option Str :=
  if src.length + 1 ≤ size then some src else none

/-- The start of `parse_month`, `parse_iso` and `parse_us`:
`if (strlen (text) >= sizeof (tmp)) return 1; strcpy (tmp, text);`.  The outer
`none` is the result 1 before anything is copied; otherwise the outcome of the
copy into `tmp`. -/
def copy_to_tmp (text : Str) : Option (Option Str) :=
  if text.length ≥ sizeof_tmp then none else some (strcpy sizeof_tmp text)

/-- The token loop of `parse_month` over the copy in `tmp`: the number of tokens
with the month and the day read from them (0 where there is none); `none` is
the result 1, for a text of 80 characters or more, a token that does not parse,
or a third token (and stands for a copy past the end of `tmp`, which
`copy_to_tmp` never makes). -/
def parse_month_tokens (text : Str) : Option (Nat × Int × Int) :=
  match copy_to_tmp text with
  | none => none
  | some none => none
  | some (some tmp) =>
    match strtok_tokens '-' tmp with
    | [] => some (0, 0, 0)
    | [a] => (month a).map (fun m => (1, m, 0))
    | [a, b] =>
      match month a with
      | none => none
      | some m => (day b).map (fun d => (2, m, d))
    | _ :: _ :: _ :: _ => none

/-- The structure that `parse_month` hands to its first call of `mktime`, with
the number of tokens; `none` is the result 1. -/
def parse_month_first (c : Clock) (text : Str) (after : Int) : Option (Nat × Tm) :=
  match parse_month_tokens text with
  | none => none
  | some (i, m, d) =>
    let n := today_for_month c m after
    if i = 1 then some (1, { n with tm_mday := 1, tm_mon := m })
    else if i = 2 then some (2, { n with tm_mday := d, tm_mon := m })
    else none

/-- Function `parse_month`, for `month[-day]`. -/
def parse_month (c : Clock) (text : Str) (after : Int) : Option (Int × Int) :=
  match parse_month_first c text after with
  | none => none
  | some (i, n) =>
    let r := c.mktime n
    if i = 1 then some (r.1, (c.mktime (month_before_increment r.2)).1)
    else some (r.1, r.1 + DAY)

/-- The token loop of `parse_iso`: the number of tokens with the year, the month
and the day read from them. -/
def parse_iso_tokens (text : Str) : Option (Nat × Int × Int × Int) :=
  match copy_to_tmp text with
  | none => none
  | some none => none
  | some (some tmp) =>
    match strtok_tokens '-' tmp with
    | [] => some (0, 0, 0, 0)
    | [a] => (year a).map (fun y => (1, y, 0, 0))
    | [a, b] =>
      match year a with
      | none => none
      | some y => (month b).map (fun m => (2, y, m, 0))
    | [a, b, e] =>
      match year a with
      | none => none
      | some y =>
        match month b with
        | none => none
        | some m => (day e).map (fun d => (3, y, m, d))
    | _ :: _ :: _ :: _ :: _ => none

/-- Function `parse_iso`, for `year[-month[-day]]`. -/
def parse_iso (c : Clock) (text : Str) (_after : Int) : Option (Int × Int) :=
  match parse_iso_tokens text with
  | none => none
  | some (i, y, m, d) =>
    let n := today c 0
    if i = 1 then
      let n := { n with tm_mday := 1, tm_mon := 0, tm_year := y }
      let r := c.mktime n
      some (r.1, (c.mktime { r.2 with tm_year := y + 1 }).1)
    else if i = 2 then
      let n := { n with tm_mday := 1, tm_mon := m, tm_year := y }
      let r := c.mktime n
      some (r.1, (c.mktime (month_before_increment r.2)).1)
    else if i = 3 then
      let n := { n with tm_mday := d, tm_mon := m, tm_year := y }
      let r := c.mktime n
      some (r.1, r.1 + DAY)
    else none

/-- The token loop of `parse_us`: the number of tokens with the month, the day
and the year read from them. -/
def parse_us_tokens (text : Str) : Option (Nat × Int × Int × Int) :=
  match copy_to_tmp text with
  | none => none
  | some none => none
  | some (some tmp) =>
    match strtok_tokens '/' tmp with
    | [] => some (0, 0, 0, 0)
    | [a] => (month a).map (fun m => (1, m, 0, 0))
    | [a, b] =>
      match month a with
      | none => none
      | some m => (day b).map (fun d => (2, m, d, 0))
    | [a, b, e] =>
      match month a with
      | none => none
      | some m =>
        match day b with
        | none => none
        | some d => (year e).map (fun y => (3, m, d, y))
    | _ :: _ :: _ :: _ :: _ => none

/-- The structure that `parse_us` hands to its first call of `mktime`, with the
number of tokens; `none` is the result 1. -/
def parse_us_first (c : Clock) (text : Str) (after : Int) : Option (Nat × Tm) :=
  match parse_us_tokens text with
  | none => none
  | some (i, m, d, y) =>
    let n := today_for_month c m after
    if i = 1 then some (1, { n with tm_mday := 1, tm_mon := m })
    else if i = 2 then some (2, { n with tm_mday := d, tm_mon := m })
    else if i = 3 then some (3, { n with tm_mday := d, tm_mon := m, tm_year := y })
    else none

/-- Function `parse_us`, for `month[/day[/year]]`. -/
def parse_us (c : Clock) (text : Str) (after : Int) : Option (Int × Int) :=
  match parse_us_first c text after with
  | none => none
  | some (i, n) =>
    let r := c.mktime n
    if i = 1 then some (r.1, (c.mktime (month_before_increment r.2)).1)
    else some (r.1, r.1 + DAY)

/-- Table `parsers`. -/
def parsers : List (Clock → Str → Int → Option (Int × Int)) :=
  [parse_today, parse_yesterday, parse_thisweek, parse_lastweek, parse_thismonth,
   parse_lastmonth, parse_month, parse_iso, parse_us]

/-- Function `notmuch_parse_date`: the status, and `*first` and `*last` when it
is Success. -/
def notmuch_parse_date (c : Clock) (text : Str) (after : Int) :
    notmuch_status_t × Option (Int × Int) :=
  match parsers.findSome? (fun p => p c text after) with
  | some r => (NOTMUCH_STATUS_SUCCESS, some r)
  | none => (NOTMUCH_STATUS_INVALID_DATE, none)

/-- Method `MaildateValueRangeProcessor::operator()`: `none` is `BAD_VALUENO`,
otherwise the two strings as they are assigned for slot TIMESTAMP. -/
def MaildateValueRangeProcessor (w : World) (c : Clock) (begin_text end_text : Str) :
    Option (Str × Str) :=
  if begin_text.take 5 ≠ "date:".toList then none
  else
    match (notmuch_parse_date c (begin_text.drop 5) 0).2 with
    | none => none
    | some (begin_first, _) =>
      match (notmuch_parse_date c end_text begin_first).2 with
      | none => none
      | some (_, end_last) =>
        some (w.sortable_serialise begin_first, w.sortable_serialise end_last)

/-! ### An example clock -/

/-- Days from 1970-01-01 to the first day of the given month (1 to 12) of the
given year in the Gregorian calendar. -/
def days_from_civil (y m : Int) : Int :=
  let y := if m ≤ 2 then y - 1 else y
  let era := y / 400
  let yoe := y - era * 400
  let doy := (153 * (if m > 2 then m - 3 else m + 9) + 2) / 5
  let doe := yoe * 365 + yoe / 4 - yoe / 100 + doy
  era * 146097 + doe - 719468

/-- Year, month (1 to 12) and day of the month of a day counted from
1970-01-01. -/
def civil_from_days (z : Int) : Int × Int × Int :=
  let z := z + 719468
  let era := z / 146097
  let doe := z - era * 146097
  let yoe := (doe - doe / 1460 + doe / 36524 - doe / 146096) / 365
  let doy := doe - (365 * yoe + yoe / 4 - yoe / 100)
  let mp := (5 * doy + 2) / 153
  let d := doy - (153 * mp + 2) / 5 + 1
  let m := if mp < 10 then mp + 3 else mp - 9
  (if m ≤ 2 then yoe + era * 400 + 1 else yoe + era * 400, m, d)

/-- A `localtime_r` for the time zone UTC. -/
def utc_localtime (t : Int) : Tm :=
  let days := t / 86400
  let secs := t % 86400
  let ymd := civil_from_days days
  { tm_sec := secs % 60, tm_min := secs / 60 % 60, tm_hour := secs / 3600,
    tm_mday := ymd.2.2, tm_mon := ymd.2.1 - 1, tm_year := ymd.1 - 1900,
    tm_wday := (days + 4) % 7, tm_yday := days - days_from_civil ymd.1 1, tm_isdst := 0 }

/-- A `mktime` for the time zone UTC. -/
def utc_mktime (n : Tm) : Int × Tm :=
  let months := (n.tm_year + 1900) * 12 + n.tm_mon
  let days := days_from_civil (months / 12) (months % 12 + 1) + (n.tm_mday - 1)
  let t := days * 86400 + n.tm_hour * 3600 + n.tm_min * 60 + n.tm_sec
  (t, utc_localtime t)

/-- A clock in the time zone UTC that stands at 2009-11-15 12:00:00. -/
def example_clock : Clock where
  time := 1258286400
  localtime_r := utc_localtime
  mktime := utc_mktime

/-! ### Predicates on version-0 databases and on the states of an upgrade -/

/-- Is the term a legacy time stamp term, `XTIMESTAMP` followed by a path? -/
def is_legacy_term (t : Str) : Bool :=
  "XTIMESTAMP".toList.isPrefixOf t

/-- The value of the `directory` term of the directory that a legacy time stamp
term names: the upgrade looks the directory up under `term.c_str () + 10`. -/
def legacy_directory (w : World) (db : Database) (t : Str) : Str :=
  _notmuch_database_get_directory_db_path w (_notmuch_database_relative_path db (t.drop 10))

/-- Queries list every matching document once, in some order. -/
def SortOk (w : World) : Prop :=
  ∀ l, (w.sort_messages l).Perm l

/-- The document carries at most one `directory` term. -/
def OneDirectory (d : Document) : Prop :=
  ∀ u v, make_term "directory" u ∈ d.terms → make_term "directory" v ∈ d.terms → u = v

/-- Document `id` of the database is the directory document of the path. -/
def DirectoryAt (w : World) (db : Database) (path : Str) (id : Nat) : Prop :=
  ∃ dd, db.get_document id = some dd ∧ DirDoc dd ∧
    make_term "directory"
      (_notmuch_database_get_directory_db_path w (_notmuch_database_relative_path db path)) ∈
      dd.terms

/-- The text `e` is the direntry that `_notmuch_database_filename_to_direntry`
forms for the file in this database: the document id of the directory document
of the directory that `_notmuch_database_split_path` gives for the relative
form of the file name (0 when it gives none), a colon, and the basename that it
gives.  (What the two parts should be is said by `SplitsAs`, not here.) -/
def FormedEntry (w : World) (db : Database) (filename e : Str) : Prop :=
  ∃ id, e = format_u id ++ ':' ::
      ((_notmuch_database_split_path
        (some (_notmuch_database_relative_path db filename))).2.2.getD "(null)".toList) ∧
    match (_notmuch_database_split_path
        (some (_notmuch_database_relative_path db filename))).2.1 with
    | none => id = 0
    | some p => DirectoryAt w db p id

/-- A version-0 database opened read-write, in a world where the sortable
encoding of the time stamps it holds reads back as written: the stored version
reads as 0; there is no `directory` term yet; no mail document carries a legacy
time stamp term; and legacy documents that name the same directory hold the same
time stamp. -/
structure LegacyDatabase (w : World) (db : Database) : Prop where
  mode : db.mode = NOTMUCH_DATABASE_MODE_READ_WRITE
  version : notmuch_database_get_version db = some 0
  no_directory : ∀ i d v, db.get_document i = some d → make_term "directory" v ∉ d.terms
  mail_not_legacy : ∀ i d t, db.get_document i = some d →
    make_term "type" "mail".toList ∈ d.terms → t ∈ d.terms → is_legacy_term t = false
  agree : ∀ i j d e t u, db.get_document i = some d → db.get_document j = some e →
    t ∈ d.terms → u ∈ e.terms → is_legacy_term t = true → is_legacy_term u = true →
    legacy_directory w db t = legacy_directory w db u →
    d.get_value NOTMUCH_VALUE_TIMESTAMP = e.get_value NOTMUCH_VALUE_TIMESTAMP
  round_trip : ∀ i d t, db.get_document i = some d → t ∈ d.terms → is_legacy_term t = true →
    w.sortable_serialise (w.sortable_unserialise (d.get_value NOTMUCH_VALUE_TIMESTAMP)) =
      d.get_value NOTMUCH_VALUE_TIMESTAMP

/-- State `db2` of an upgrade follows state `db`, where the documents up to `n`
are those of the version-0 database: the handle is the same; every document
stays, keeping its terms and data, and none appears among them; a document up
to `n` keeps its values and gains `file-direntry` terms only, a later one gains
no term; and the documents added behind are directory documents with one
`directory` term. -/
structure Grows (n : Nat) (db db2 : Database) : Prop where
  bound : n ≤ db.lastdocid
  handle : SameHandle db db2
  size : db.lastdocid ≤ db2.lastdocid
  keeps : ∀ i d, db.get_document i = some d → ∃ d2, db2.get_document i = some d2 ∧
    (∀ t ∈ d.terms, t ∈ d2.terms) ∧
    (∀ t ∈ d2.terms, t ∈ d.terms ∨ (i ≤ n ∧ ∃ e, t = make_term "file-direntry" e)) ∧
    d2.data = d.data ∧ (i ≤ n → d2.values = d.values)
  holes : ∀ i, i ≤ db.lastdocid → db.get_document i = none → db2.get_document i = none
  added : ∀ i d2, db.lastdocid < i → db2.get_document i = some d2 →
    DirDoc d2 ∧ OneDirectory d2

/-- State of an upgrade before the version is written, where the documents up to
`n` are those of the version-0 database: they carry no `directory` term, and the
later ones are directory documents with one `directory` term. -/
structure Mid (n : Nat) (db : Database) : Prop where
  size : n ≤ db.lastdocid
  old : ∀ i d v, i ≤ n → db.get_document i = some d → make_term "directory" v ∉ d.terms
  dirs : ∀ i d, n < i → db.get_document i = some d → DirDoc d ∧ OneDirectory d

/-- State `db2` follows `db` in the loop that clears the data blobs: the same
handle and documents, but that a data blob may have become empty. -/
structure Clears (db db2 : Database) : Prop where
  handle : SameHandle db db2
  size : db2.lastdocid = db.lastdocid
  holes : ∀ i, db.get_document i = none → db2.get_document i = none
  keeps : ∀ i d, db.get_document i = some d → ∃ d2, db2.get_document i = some d2 ∧
    d2.terms = d.terms ∧ d2.values = d.values ∧ (d2.data = d.data ∨ d2.data = [])

/-- State `db2` follows `db` in the loop that deletes the legacy documents: the
same handle and documents, but that documents carrying a legacy term may be
gone. -/
structure Deletes (db db2 : Database) : Prop where
  handle : SameHandle db db2
  size : db2.lastdocid = db.lastdocid
  keeps : ∀ i, db2.get_document i = db.get_document i ∨
    (db2.get_document i = none ∧
      ∃ d t, db.get_document i = some d ∧ t ∈ d.terms ∧ is_legacy_term t = true)

/-- Document `i` of the database carries the `file-direntry` term with the
direntry that `_notmuch_database_filename_to_direntry` forms for the file. -/
def HasEntry (w : World) (db : Database) (i : Nat) (filename : Str) : Prop :=
  ∃ d e, db.get_document i = some d ∧ make_term "file-direntry" e ∈ d.terms ∧
    FormedEntry w db filename e

/-- A legacy time stamp term of a document among the first `n`, with the time
stamp that the document holds. -/
def LegacyPair (n : Nat) (db : Database) (t v : Str) : Prop :=
  ∃ i d, i ≤ n ∧ db.get_document i = some d ∧ t ∈ d.terms ∧ is_legacy_term t = true ∧
    d.get_value NOTMUCH_VALUE_TIMESTAMP = v

/-- The legacy documents among the first `n` that name the same directory hold
the same time stamp, and the sortable encoding of the time stamps reads back as
written. -/
structure Stamps (w : World) (n : Nat) (db : Database) : Prop where
  agree : ∀ t u v v2, LegacyPair n db t v → LegacyPair n db u v2 →
    legacy_directory w db t = legacy_directory w db u → v = v2
  round_trip : ∀ t v, LegacyPair n db t v →
    w.sortable_serialise (w.sortable_unserialise v) = v

/-- The directory that the legacy term names has a directory document that
holds the time stamp. -/
def HasStamp (w : World) (db : Database) (t v : Str) : Prop :=
  ∃ id dd, db.get_document id = some dd ∧ DirDoc dd ∧
    make_term "directory" (legacy_directory w db t) ∈ dd.terms ∧
    dd.get_value NOTMUCH_VALUE_TIMESTAMP = v

/-! ### Counting the calls of the message-id parser -/

/-- The loop of `parse_references` with a count of the calls of
`_parse_message_id`: the hash table, the number of calls made, and the value of
`refs` when the loop ends (or when the rounds are used up). -/
def parse_references_counted (message_id : Str) :
    Nat → List Str → Nat → Str → List Str × Nat × Str
  | 0, hash, calls, refs => (hash, calls, refs)
  | fuel + 1, hash, calls, refs =>
    match refs with
    | [] => (hash, calls, [])
    | _ :: _ =>
      let r := _parse_message_id (some refs)
      let refs2 := r.next.getD refs
      match r.result with
      | some ref =>
        if ref ≠ message_id ∧ ref ∉ hash then
          parse_references_counted message_id fuel (hash ++ [ref]) (calls + 1) refs2
        else parse_references_counted message_id fuel hash (calls + 1) refs2
      | none => parse_references_counted message_id fuel hash (calls + 1) refs2

/-! ### Further predicates and examples -/

/-- The number that a string of decimal digits denotes (0 for the empty string). -/
def decimal_value (s : Str) : Nat :=
  s.foldl (fun acc c => acc * 10 + (digit_value c).getD 0) 0

/-- A Xapian database without documents whose `version` metadata is the given
text and whose `last_thread_id` metadata is the given counter text. -/
def example_version_xapian (version counter : Str) : Database :=
  { blank_xapian_database with
    metadata := fun k =>
      if k = "version".toList then version
      else if k = "last_thread_id".toList then counter else [] }

/-- The References or In-Reply-To header of the message file names the
identifier `a`: the In-Reply-To header is `<a>`, or the References header is a
list `<i1> <i2> ... <in>` of bracketed identifiers, each of the form the parser
returns unchanged, with `a` among them. -/
def NamesParent (mf : MessageFile) (a : Str) : Prop :=
  mf.header "in-reply-to" = some ('<' :: a ++ ['>']) ∨
  ∃ ids, (∀ i ∈ ids, BracketId i) ∧ a ∈ ids ∧ mf.header "references" = some (bracketed ids)

/-- A thread of three files: `c0`, the reply `c1` to it, whose Message-ID
`"a b"@x` is not bracketed, and the reply `c2` to `c1`, which names it in its
References header. -/
def example_files_chain (filename : Str) : Option MessageFile :=
  if filename = "/mail/dd/c0".toList then
    some (file_of_headers [("message-id", "<c0@x>"), ("from", "u")])
  else if filename = "/mail/dd/c1".toList then
    some (file_of_headers [("message-id", "\"a b\"@x"), ("from", "v"),
      ("references", "<c0@x>")])
  else if filename = "/mail/dd/c2".toList then
    some (file_of_headers [("message-id", "<c2@x>"), ("from", "u"),
      ("references", "<\"a b\"@x>")])
  else none

/-- The example world with the files of `example_files_chain`. -/
def example_world_chain : World :=
  { example_world with notmuch_message_file_open := example_files_chain }

/-- The three files of `example_files_chain` ingested into the empty database,
in the given order. -/
def example_chain_db (files : List String) : Database :=
  (add_messages example_world_chain (empty_database "/mail".toList)
    (files.map String.toList)).getD (empty_database "/mail".toList)

/-- A Xapian database of the given documents (ids from 1), without metadata. -/
def xapian_of_documents (docs : List Document) : Database where
  path := []
  mode := NOTMUCH_DATABASE_MODE_READ_ONLY
  needs_upgrade := false
  exception_reported := false
  last_thread_id := 0
  docs := fun i => if i = 0 then none else docs.get? (i - 1)
  lastdocid := docs.length
  metadata := fun _ => []

/-- Two legacy documents with the one term of `/mail/dd` and different time stamps. -/
def example_two_stamps : Database :=
  xapian_of_documents
    [⟨["XTIMESTAMP/mail/dd".toList], [(NOTMUCH_VALUE_TIMESTAMP, "1234".toList)], []⟩,
     ⟨["XTIMESTAMP/mail/dd".toList], [(NOTMUCH_VALUE_TIMESTAMP, "5678".toList)], []⟩]

/-- A mail document with a filename in its data blob that also carries a legacy term. -/
def example_mail_with_stamp : Database :=
  xapian_of_documents
    [⟨["Tmail".toList, "Qm1@x".toList, "G0000000000000001".toList, "XTIMESTAMP/mail/dd".toList],
      [(NOTMUCH_VALUE_TIMESTAMP, "0".toList)], "/mail/dd/m1".toList⟩]

/-- A document with the `directory` terms of `aa` and of `bb`, and the legacy documents of
these two directories. -/
def example_two_directories : Database :=
  xapian_of_documents
    [⟨["XDIRECTORYaa".toList, "XDIRECTORYbb".toList], [], []⟩,
     ⟨["XTIMESTAMP/mail/aa".toList], [(NOTMUCH_VALUE_TIMESTAMP, "1".toList)], []⟩,
     ⟨["XTIMESTAMP/mail/bb".toList], [(NOTMUCH_VALUE_TIMESTAMP, "2".toList)], []⟩]

/-- A legacy document whose time stamp is not in the form the encoding writes. -/
def example_odd_stamp : Database :=
  xapian_of_documents
    [⟨["XTIMESTAMP/mail/dd".toList], [(NOTMUCH_VALUE_TIMESTAMP, "0012".toList)], []⟩]

/-- A mail document with the filename `/mail/d/m1`, in a directory of one character. -/
def example_short_directory : Database :=
  xapian_of_documents
    [⟨["Tmail".toList, "Qm1@x".toList, "G0000000000000001".toList],
      [(NOTMUCH_VALUE_TIMESTAMP, "0".toList)], "/mail/d/m1".toList⟩]

/-- The path names `rel` relative to the root of the database: it is the
relative path `rel` itself, or the root (absolute, not beginning with two
slashes) followed by one or more slashes and `rel`, or the root alone when
`rel` is empty. -/
def RelativeTo (root path rel : Str) : Prop :=
  rel.head? ≠ some '/' ∧
  (path = rel ∨
    ∃ r, root = '/' :: r ∧ r.head? ≠ some '/' ∧
      ((∃ k, path = root ++ List.replicate (k + 1) '/' ++ rel) ∨ (path = root ∧ rel = [])))

/-- Relative to the root of the database, the file name is the directory `dir`,
one or more slashes and the last component `base`, with `dir` empty for a file
in the root directory itself; this is what the comment above
`_notmuch_database_split_path` asks for: the directory part is all components
except for the last, and the basename is that last component. -/
def SplitsAs (root filename dir base : Str) : Prop :=
  base ≠ [] ∧ '/' ∉ base ∧ dir.head? ≠ some '/' ∧ dir.getLast? ≠ some '/' ∧
  ∃ rel, RelativeTo root filename rel ∧
    ((dir = [] ∧ rel = base) ∨
      (dir ≠ [] ∧ ∃ k, rel = dir ++ List.replicate (k + 1) '/' ++ base))

/-- Document `id` of the database is the directory document of the relative
directory path `dir`: all its terms are `directory` or `directory-direntry`
terms, and it carries the `directory` term of the path (of its SHA-1 when the
path is too long for a term). -/
def DirectoryDocument (w : World) (db : Database) (dir : Str) (id : Nat) : Prop :=
  ∃ dd, db.get_document id = some dd ∧ DirDoc dd ∧
    make_term "directory" (_notmuch_database_get_directory_db_path w dir) ∈ dd.terms

/-! ### The writes of an upgrade before the version is written -/

/-- The database with the encoded time `x` written into slot TIMESTAMP of document `id`
(unchanged when there is no such document): the write of `notmuch_directory_set_mtime`. -/
def set_stamp (db : Database) (id : Nat) (x : Str) : Database :=
  match db.get_document id with
  | none => db
  | some doc => db.replace_document id (doc.add_value NOTMUCH_VALUE_TIMESTAMP x)

/-- A sequence of writes of time stamps, each to the document of the given id. -/
def set_stamps (l : List (Nat × Str)) (db : Database) : Database :=
  l.foldl (fun z a => set_stamp z a.1 a.2) db

/-- The directory of the iteration `q` is found in the database, as document `a.1`, and
`a.2` is the encoded time of the iteration. -/
def ResolvesTo (w : World) (db : Database) (q : Str × Str) (a : Nat × Str) : Prop :=
  _notmuch_database_find_unique_doc_id db "directory"
    (_notmuch_database_get_directory_db_path w (_notmuch_database_relative_path db q.1)) =
    some a.1 ∧ a.2 = q.2

theorem skip_space_length_le (s : Str) : (skip_space s).length ≤ s.length := by
  induction s with
  | nil => simp [skip_space]
  | cons c cs ih =>
    unfold skip_space
    split
    · exact Nat.le_succ_of_le ih
    · exact Nat.le_refl _

theorem skip_comment_length_le_aux (k : Nat) : ∀ (n : Nat) (s : Str), s.length ≤ k →
    (skip_comment n s).length ≤ s.length := by
  induction k with
  | zero =>
    intro n s h
    have : s = [] := List.length_eq_zero.mp (Nat.le_zero.mp h)
    subst this
    cases n <;> simp [skip_comment]
  | succ k ih =>
    intro n s h
    cases n with
    | zero => simp [skip_comment]
    | succ n =>
      cases s with
      | nil => simp [skip_comment]
      | cons c cs =>
        simp only [List.length_cons, Nat.add_le_add_iff_right] at h
        unfold skip_comment
        split
        · exact Nat.le_succ_of_le (ih _ _ h)
        · split
          · exact Nat.le_succ_of_le (ih _ _ h)
          · split
            · cases cs with
              | nil => simp
              | cons d ds =>
                simp only [List.length_cons] at h ⊢
                have := ih (n + 1) ds (by omega)
                omega
            · exact Nat.le_succ_of_le (ih _ _ h)

theorem skip_comment_length_le (n : Nat) (s : Str) :
    (skip_comment n s).length ≤ s.length :=
  skip_comment_length_le_aux s.length n s (Nat.le_refl _)

/-- One round of the outer loop shortens the string. -/
theorem skip_round_length (c : Char) (cs : Str) (hc : (isspace c || decide (c = '(')) = true) :
    match skip_space (c :: cs) with
    | [] => True
    | d :: rest => if d = '(' then (skip_comment 1 rest).length ≤ cs.length
                   else (d :: rest).length ≤ cs.length := by
  by_cases hs : isspace c = true
  · have h1 : skip_space (c :: cs) = skip_space cs := by simp [skip_space, hs]
    rw [h1]
    have hl := skip_space_length_le cs
    cases hsp : skip_space cs with
    | nil => trivial
    | cons d rest =>
      rw [hsp] at hl
      simp only [List.length_cons] at hl
      show if d = '(' then _ else _
      split
      · have := skip_comment_length_le 1 rest; omega
      · simpa using hl
  · have hp : c = '(' := by simpa [hs] using hc
    have h1 : skip_space (c :: cs) = c :: cs := by simp [skip_space, hs]
    rw [h1]
    show if c = '(' then _ else _
    rw [if_pos hp]
    exact skip_comment_length_le 1 cs

theorem skip_loop_fuel (f1 : Nat) : ∀ (f2 : Nat) (s : Str), s.length ≤ f1 → s.length ≤ f2 →
    skip_space_and_comments_loop f1 s = skip_space_and_comments_loop f2 s := by
  induction f1 with
  | zero =>
    intro f2 s h1 h2
    have : s = [] := List.length_eq_zero.mp (Nat.le_zero.mp h1)
    subst this
    cases f2 <;> simp [skip_space_and_comments_loop]
  | succ f1 ih =>
    intro f2 s h1 h2
    cases s with
    | nil => cases f2 <;> simp [skip_space_and_comments_loop]
    | cons c cs =>
      cases f2 with
      | zero => simp at h2
      | succ f2 =>
        simp only [List.length_cons, Nat.add_le_add_iff_right] at h1 h2
        simp only [skip_space_and_comments_loop]
        split
        · rename_i hc
          have hr := skip_round_length c cs hc
          cases hsp : skip_space (c :: cs) with
          | nil => exact ih _ _ (by simp) (by simp)
          | cons d rest =>
            rw [hsp] at hr
            simp only at hr ⊢
            split
            · rename_i hd
              rw [if_pos hd] at hr
              exact ih _ _ (by omega) (by omega)
            · rename_i hd
              rw [if_neg hd] at hr
              exact ih _ _ (by omega) (by omega)
        · rfl

theorem skip_space_and_comments_nil : skip_space_and_comments [] = [] := rfl

theorem skip_space_and_comments_stop (c : Char) (cs : Str) (h1 : isspace c = false)
    (h2 : c ≠ '(') : skip_space_and_comments (c :: cs) = c :: cs := by
  simp [skip_space_and_comments, skip_space_and_comments_loop, h1, h2]

theorem skip_space_and_comments_open (cs : Str) :
    skip_space_and_comments ('(' :: cs) = skip_space_and_comments (skip_comment 1 cs) := by
  have h : skip_space ('(' :: cs) = '(' :: cs := by simp [skip_space, isspace]
  simp only [skip_space_and_comments, List.length_cons, skip_space_and_comments_loop, h]
  simp only [decide_True, Bool.or_true, if_true]
  exact skip_loop_fuel _ _ _ (skip_comment_length_le 1 cs) (Nat.le_refl _)

theorem skip_space_head (s : Str) (d : Char) (rest : Str) (h : skip_space s = d :: rest) :
    isspace d = false := by
  induction s with
  | nil => simp [skip_space] at h
  | cons c cs ih =>
    unfold skip_space at h
    split at h
    · exact ih h
    · rename_i hc
      simp only [List.cons.injEq] at h
      rw [← h.1]
      simpa using hc

theorem skip_loop_stop (f : Nat) (d : Char) (rest : Str) (h1 : isspace d = false)
    (h2 : d ≠ '(') : skip_space_and_comments_loop f (d :: rest) = d :: rest := by
  cases f <;> simp [skip_space_and_comments_loop, h1, h2]

/-- Fuel-free unfolding of the outer loop. -/
theorem skip_space_and_comments_eq (s : Str) :
    skip_space_and_comments s =
      match skip_space s with
      | [] => []
      | d :: rest => if d = '(' then skip_space_and_comments (skip_comment 1 rest) else d :: rest := by
  cases s with
  | nil => rfl
  | cons c cs =>
    by_cases hc : (isspace c || decide (c = '(')) = true
    · have hr := skip_round_length c cs hc
      simp only [skip_space_and_comments, List.length_cons, skip_space_and_comments_loop, hc,
        if_true]
      cases hsp : skip_space (c :: cs) with
      | nil => cases cs <;> simp [skip_space_and_comments_loop]
      | cons d rest =>
        rw [hsp] at hr
        simp only at hr ⊢
        by_cases hd : d = '('
        · rw [if_pos hd] at hr
          simp only [if_pos hd]
          exact skip_loop_fuel _ _ _ hr (Nat.le_refl _)
        · simp only [if_neg hd]
          exact skip_loop_stop _ _ _ (skip_space_head _ _ _ hsp) hd
    · have h1 : isspace c = false := by
        cases h : isspace c
        · rfl
        · simp [h] at hc
      have h2 : c ≠ '(' := by
        intro h; simp [h] at hc
      rw [skip_space_and_comments_stop c cs h1 h2]
      simp [skip_space, h1, h2]

theorem skip_space_and_comments_space (c : Char) (cs : Str) (h : isspace c = true) :
    skip_space_and_comments (c :: cs) = skip_space_and_comments cs := by
  rw [skip_space_and_comments_eq (c :: cs), skip_space_and_comments_eq cs]
  simp [skip_space, h]

theorem skip_comment_zero (s : Str) : skip_comment 0 s = s := by
  cases s with
  | nil => rfl
  | cons c cs => cases cs <;> rfl

theorem skip_comment_cons (n : Nat) (c : Char) (cs : Str) :
    skip_comment (n + 1) (c :: cs) =
      if c = '(' then skip_comment (n + 2) cs
      else if c = ')' then skip_comment n cs
      else if c = '\\' then
        match cs with
        | [] => []
        | _ :: cs2 => skip_comment (n + 1) cs2
      else skip_comment (n + 1) cs := by
  cases cs <;> rfl

theorem collapse_whitespace_cons (c : Char) (cs : Str) :
    collapse_whitespace (c :: cs) =
      if c = ' ' || c = '\t' then
        match cs with
        | [] => []
        | d :: ds => d :: collapse_whitespace ds
      else c :: collapse_whitespace cs := by
  cases cs <;> rfl

theorem skip_comment_text (s : Str) (hs : CommentText s) : ∀ (n : Nat) (rest : Str),
    skip_comment (n + 1) (s ++ rest) = skip_comment (n + 1) rest := by
  induction hs with
  | nil => intro n rest; rfl
  | char c s h1 h2 h3 _ ih =>
    intro n rest
    rw [List.cons_append, skip_comment_cons]
    simp only [h1, h2, h3, if_false]
    exact ih n rest
  | escape c s _ ih =>
    intro n rest
    rw [List.cons_append, List.cons_append, skip_comment_cons]
    simp only [show ¬ ('\\' = '(') by decide, show ¬ ('\\' = ')') by decide, if_false, if_true]
    exact ih n rest
  | nested s t _ _ ihs iht =>
    intro n rest
    simp only [List.cons_append, List.append_assoc]
    rw [skip_comment_cons]
    simp only [if_true]
    rw [ihs (n + 1), skip_comment_cons]
    simp only [show ¬ (')' = '(') by decide, if_false, if_true]
    exact iht n rest

theorem skip_space_and_comments_prefix (w : Str) (hw : SpaceAndComments w) (rest : Str) :
    skip_space_and_comments (w ++ rest) = skip_space_and_comments rest := by
  induction hw with
  | nil => rfl
  | space c s hc _ ih =>
    rw [List.cons_append, skip_space_and_comments_space c _ hc]
    exact ih
  | comment s t hs _ ih =>
    simp only [List.cons_append, List.append_assoc]
    rw [skip_space_and_comments_open, skip_comment_text s hs 0, skip_comment_cons]
    simp only [show ¬ (')' = '(') by decide, if_false, if_true]
    rw [skip_comment_zero]
    exact ih

theorem dropWhile_until (stop : Char) (f : Str) (rest : Str) (hf : ∀ c ∈ f, c ≠ stop) :
    (f ++ stop :: rest).dropWhile (fun x => x != stop) = stop :: rest := by
  induction f with
  | nil => simp [List.dropWhile]
  | cons c cs ih =>
    have hc : c ≠ stop := hf c (List.mem_cons_self _ _)
    rw [List.cons_append, List.dropWhile_cons]
    simp only [bne_iff_ne, ne_eq, hc, not_false_eq_true, if_true]
    exact ih (fun x hx => hf x (List.mem_cons_of_mem _ hx))

theorem takeWhile_until (stop : Char) (f : Str) (rest : Str) (hf : ∀ c ∈ f, c ≠ stop) :
    (f ++ stop :: rest).takeWhile (fun x => x != stop) = f := by
  induction f with
  | nil => simp [List.takeWhile]
  | cons c cs ih =>
    have hc : c ≠ stop := hf c (List.mem_cons_self _ _)
    rw [List.cons_append, List.takeWhile_cons]
    simp only [bne_iff_ne, ne_eq, hc, not_false_eq_true, if_true]
    rw [ih (fun x hx => hf x (List.mem_cons_of_mem _ hx))]

theorem collapse_whitespace_id (s : Str) (hs : ∀ c ∈ s, c ≠ ' ' ∧ c ≠ '\t') :
    collapse_whitespace s = s := by
  induction s with
  | nil => rfl
  | cons c cs ih =>
    have hc := hs c (List.mem_cons_self _ _)
    rw [collapse_whitespace_cons]
    simp only [hc.1, hc.2, decide_False, Bool.or_self, if_false, Bool.false_eq_true]
    rw [ih (fun x hx => hs x (List.mem_cons_of_mem _ hx))]

/-- The parser on a string whose bracketed region is closed and has at least
two characters. -/
theorem parse_message_id_region (s s1 region suffix : Str) (hne : s ≠ [])
    (h1 : (skip_space_and_comments s).dropWhile (fun x => x != '<') = '<' :: s1)
    (h2 : skip_space_and_comments s1 = region ++ '>' :: suffix)
    (hr : ∀ c ∈ region, c ≠ '>') (hlen : 2 ≤ region.length) :
    _parse_message_id (some s) = ⟨some (collapse_whitespace region), some suffix⟩ := by
  cases s with
  | nil => exact absurd rfl hne
  | cons c0 cs0 =>
    simp only [_parse_message_id, h1, h2, takeWhile_until '>' region suffix hr, if_true,
      List.drop_left, List.head?_cons]
    have h0 : 0 < region.length := by omega
    have h3 : ¬ (region.length - 1 = 0) := by omega
    simp only [h0, decide_True, Bool.and_self, if_true, h3, if_false]
    have h4 : region.length - 1 + 1 = region.length := by omega
    rw [h4, List.take_left]

theorem isspace_false_ne (c : Char) (h : isspace c = false) : c ≠ ' ' ∧ c ≠ '\t' := by
  constructor <;> (intro hc; subst hc; revert h; decide)

/-- Claim C8: a bracketed region of one character closed by `>` yields NULL, although the
region is not empty, while the same region left unclosed is returned. -/
theorem parse_message_id_one_char_region :
    _parse_message_id (some "<a>".toList) = ⟨none, some []⟩ ∧
    _parse_message_id (some "<a".toList) = ⟨some "a".toList, some []⟩ := by
  decide

/-- Claim C10: of two consecutive spaces inside the brackets only the first is removed, so
the returned identifier still contains a space. -/
theorem parse_message_id_keeps_second_space :
    _parse_message_id (some "<a  b>".toList) = ⟨some "a b".toList, some []⟩ ∧
    ' ' ∈ "a b".toList := by
  decide

/-- Claim C9, as amended: for an identifier of at least two characters without whitespace,
`<`, `>` or `(`, a prefix made of whitespace and well-formed comments followed by free text
that has no `<` and does not begin with whitespace or `(`, and any suffix, the parser
returns the identifier and leaves `next` just after the `>`. -/
theorem parse_message_id_extracts (id w f suffix : Str)
    (hlen : 2 ≤ id.length)
    (hid : ∀ c ∈ id, isspace c = false ∧ c ≠ '<' ∧ c ≠ '>' ∧ c ≠ '(')
    (hw : SpaceAndComments w)
    (hf : ∀ c ∈ f, c ≠ '<')
    (hf0 : ∀ c, f.head? = some c → isspace c = false ∧ c ≠ '(') :
    _parse_message_id (some (w ++ f ++ '<' :: id ++ '>' :: suffix)) =
      ⟨some id, some suffix⟩ := by
  have hne : w ++ f ++ '<' :: id ++ '>' :: suffix ≠ [] := by simp
  have e : w ++ f ++ '<' :: id ++ '>' :: suffix = w ++ (f ++ '<' :: (id ++ '>' :: suffix)) := by
    simp
  have h0 : skip_space_and_comments (w ++ f ++ '<' :: id ++ '>' :: suffix) =
      f ++ '<' :: (id ++ '>' :: suffix) := by
    rw [e, skip_space_and_comments_prefix w hw]
    cases f with
    | nil => exact skip_space_and_comments_stop _ _ (by decide) (by decide)
    | cons c cs =>
      have := hf0 c rfl
      exact skip_space_and_comments_stop _ _ this.1 this.2
  have h1 : (skip_space_and_comments (w ++ f ++ '<' :: id ++ '>' :: suffix)).dropWhile
      (fun x => x != '<') = '<' :: (id ++ '>' :: suffix) := by
    rw [h0]; exact dropWhile_until '<' f _ hf
  have h2 : skip_space_and_comments (id ++ '>' :: suffix) = id ++ '>' :: suffix := by
    cases id with
    | nil => simp at hlen
    | cons c cs =>
      have := hid c (List.mem_cons_self _ _)
      exact skip_space_and_comments_stop _ _ this.1 this.2.2.2
  have h3 := parse_message_id_region _ _ id suffix hne h1 h2 (fun c hc => (hid c hc).2.2.1) hlen
  rw [h3, collapse_whitespace_id id (fun c hc => isspace_false_ne c (hid c hc).1)]

/-- Claim C9, witness: a comment with a nested comment and an escaped parenthesis, then
free text, then the bracketed identifier. -/
theorem parse_message_id_extracts_witness :
    _parse_message_id (some " (a(b)\\)) re: <m1@x> tail".toList) =
      ⟨some "m1@x".toList, some " tail".toList⟩ :=
  parse_message_id_extracts "m1@x".toList " (a(b)\\)) ".toList "re: ".toList " tail".toList
    (by decide) (by decide)
    (.space ' ' _ rfl
      (.comment "a(b)\\)".toList " ".toList
        (.char 'a' _ (by decide) (by decide) (by decide)
          (.nested "b".toList "\\)".toList
            (.char 'b' _ (by decide) (by decide) (by decide) .nil)
            (.escape ')' [] .nil)))
        (.space ' ' _ rfl .nil)))
    (by decide) (by decide)

/-- Claim C9, counterexample: the free text `(` has no `<`, yet it opens a comment that
swallows the bracketed identifier, and the parser returns NULL. -/
theorem parse_message_id_free_text_paren :
    SpaceAndComments [] ∧ (∀ c ∈ "(".toList, c ≠ '<') ∧ 2 ≤ "ab".toList.length ∧
    (∀ c ∈ "ab".toList, isspace c = false ∧ c ≠ '<' ∧ c ≠ '>' ∧ c ≠ '(') ∧
    _parse_message_id (some ([] ++ "(".toList ++ '<' :: "ab".toList ++ '>' :: [])) =
      ⟨none, some []⟩ :=
  ⟨.nil, by decide, by decide, by decide, by decide⟩

/-! ### Terms, documents and posting lists -/

theorem make_term_thread (v : Str) : make_term "thread" v = 'G' :: v := rfl
theorem make_term_id (v : Str) : make_term "id" v = 'Q' :: v := rfl
theorem make_term_type (v : Str) : make_term "type" v = 'T' :: v := rfl
theorem make_term_reference (v : Str) :
    make_term "reference" v = 'X' :: 'R' :: 'E' :: 'F' :: 'E' :: 'R' :: 'E' :: 'N' :: 'C' :: 'E' :: v := rfl
theorem make_term_replyto (v : Str) :
    make_term "replyto" v = 'X' :: 'R' :: 'E' :: 'P' :: 'L' :: 'Y' :: 'T' :: 'O' :: v := rfl
theorem make_term_directory (v : Str) :
    make_term "directory" v = 'X' :: 'D' :: 'I' :: 'R' :: 'E' :: 'C' :: 'T' :: 'O' :: 'R' :: 'Y' :: v := rfl
theorem make_term_file_direntry (v : Str) :
    make_term "file-direntry" v = 'X' :: 'F' :: 'D' :: 'I' :: 'R' :: 'E' :: 'N' :: 'T' :: 'R' :: 'Y' :: v := rfl
theorem make_term_directory_direntry (v : Str) :
    make_term "directory-direntry" v = 'X' :: 'D' :: 'D' :: 'I' :: 'R' :: 'E' :: 'N' :: 'T' :: 'R' :: 'Y' :: v := rfl

theorem mem_add_term (d : Document) (t u : Str) :
    u ∈ (d.add_term t).terms ↔ u = t ∨ u ∈ d.terms := by
  unfold Document.add_term
  split
  · constructor
    · exact Or.inr
    · rintro (h | h)
      · subst h; assumption
      · exact h
  · simp [or_comm]

theorem mem_remove_term (d : Document) (t u : Str) :
    u ∈ (d.remove_term t).terms ↔ u ≠ t ∧ u ∈ d.terms := by
  simp [Document.remove_term, and_comm]

@[simp] theorem add_value_terms (d : Document) (s : notmuch_value_t) (v : Str) :
    (d.add_value s v).terms = d.terms := rfl

theorem mem_foldl_add_term (l : List Str) (d : Document) (u : Str) :
    u ∈ (l.foldl Document.add_term d).terms ↔ u ∈ l ∨ u ∈ d.terms := by
  induction l generalizing d with
  | nil => simp
  | cons t ts ih =>
    rw [List.foldl_cons, ih, mem_add_term]
    simp only [List.mem_cons]
    tauto

/-! engine -/
@[simp] theorem get_document_add (db : Database) (d : Document) (i : Nat) :
    (db.add_document d).1.get_document i =
      if i = db.lastdocid + 1 then some d else db.get_document i := by
  simp only [Database.get_document, Database.add_document]
  by_cases h : i = db.lastdocid + 1
  · subst h; simp
  · simp only [h, if_false, Function.update_noteq, ne_eq, not_false_eq_true]
    by_cases h2 : 0 < i ∧ i ≤ db.lastdocid
    · have : 0 < i ∧ i ≤ db.lastdocid + 1 := ⟨h2.1, by omega⟩
      simp [h2, this]
    · have : ¬ (0 < i ∧ i ≤ db.lastdocid + 1) := by
        intro h3; apply h2; exact ⟨h3.1, by omega⟩
      simp [h2, this]

@[simp] theorem lastdocid_add (db : Database) (d : Document) :
    (db.add_document d).1.lastdocid = db.lastdocid + 1 := rfl
@[simp] theorem add_document_id (db : Database) (d : Document) :
    (db.add_document d).2 = db.lastdocid + 1 := rfl

theorem get_document_replace (db : Database) (d : Document) (k i : Nat)
    (hk : 0 < k ∧ k ≤ db.lastdocid) :
    (db.replace_document k d).get_document i =
      if i = k then some d else db.get_document i := by
  simp only [Database.get_document, Database.replace_document]
  have hm : max db.lastdocid k = db.lastdocid := by omega
  rw [hm]
  by_cases h : i = k
  · subst h; simp [hk]
  · simp [h]

theorem lastdocid_replace (db : Database) (d : Document) (k : Nat) (hk : k ≤ db.lastdocid) :
    (db.replace_document k d).lastdocid = db.lastdocid := by
  simp only [Database.replace_document]; omega

theorem get_document_delete (db : Database) (k i : Nat) :
    (db.delete_document k).get_document i =
      if i = k then none else db.get_document i := by
  simp only [Database.get_document, Database.delete_document]
  by_cases h : i = k
  · subst h; simp
  · simp [h]

theorem get_document_range (db : Database) (i : Nat) (d : Document)
    (h : db.get_document i = some d) : 0 < i ∧ i ≤ db.lastdocid := by
  unfold Database.get_document at h
  by_contra hc
  simp [hc] at h

theorem mem_find_doc_ids_for_term (db : Database) (t : Str) (i : Nat) :
    i ∈ find_doc_ids_for_term db t ↔ ∃ d, db.get_document i = some d ∧ t ∈ d.terms := by
  simp only [find_doc_ids_for_term, List.mem_filter, List.mem_range, Database.has_term]
  constructor
  · rintro ⟨_, h⟩
    cases hd : db.get_document i with
    | none => simp [hd] at h
    | some d => exact ⟨d, rfl, by simpa [hd] using h⟩
  · rintro ⟨d, hd, ht⟩
    have := get_document_range db i d hd
    exact ⟨by omega, by simp [hd, ht]⟩

theorem find_doc_ids_for_term_nodup (db : Database) (t : Str) :
    (find_doc_ids_for_term db t).Nodup :=
  (List.nodup_range _).filter _

theorem filter_range_extend (p : Nat → Bool) (n m : Nat) (hnm : n ≤ m)
    (h : ∀ i, n ≤ i → p i = false) : (List.range m).filter p = (List.range n).filter p := by
  induction m with
  | zero =>
    have : n = 0 := by omega
    subst this; rfl
  | succ m ih =>
    by_cases hm : n = m + 1
    · subst hm; rfl
    · have hle : n ≤ m := by omega
      rw [List.range_succ, List.filter_append, ih hle]
      simp [h m hle]

theorem has_term_iff (db : Database) (i : Nat) (t : Str) :
    db.has_term i t = true ↔ ∃ d, db.get_document i = some d ∧ t ∈ d.terms := by
  unfold Database.has_term
  cases db.get_document i with
  | none => simp
  | some d => simp

theorem has_term_out_of_range (db : Database) (i : Nat) (t : Str) (h : db.lastdocid < i) :
    db.has_term i t = false := by
  cases hh : db.has_term i t with
  | false => rfl
  | true =>
    obtain ⟨d, hd, _⟩ := (has_term_iff db i t).mp hh
    have := get_document_range db i d hd
    omega

/-- Posting lists depend only on which documents carry the term. -/
theorem find_doc_ids_for_term_congr (db db2 : Database) (t : Str)
    (h : ∀ i, db2.has_term i t = db.has_term i t) :
    find_doc_ids_for_term db2 t = find_doc_ids_for_term db t := by
  unfold find_doc_ids_for_term
  have e : (fun i => db2.has_term i t) = (fun i => db.has_term i t) := funext h
  rw [e]
  rcases Nat.le_total db.lastdocid db2.lastdocid with hle | hle
  · exact filter_range_extend _ _ _ (by omega)
      (fun i hi => has_term_out_of_range db i t (by omega))
  · exact (filter_range_extend _ _ _ (by omega)
      (fun i hi => by rw [← h i]; exact has_term_out_of_range db2 i t (by omega))).symm

theorem has_term_congr (db db2 : Database) (t : Str) (i : Nat)
    (h : (∃ e, db2.get_document i = some e ∧ t ∈ e.terms) ↔
      (∃ e, db.get_document i = some e ∧ t ∈ e.terms)) :
    db2.has_term i t = db.has_term i t := by
  cases h1 : db2.has_term i t <;> cases h2 : db.has_term i t <;> try rfl
  · have := h.mpr ((has_term_iff _ _ _).mp h2)
    rw [← has_term_iff, h1] at this; exact this
  · have := h.mp ((has_term_iff _ _ _).mp h1)
    rw [← has_term_iff, h2] at this; exact this.symm

/-! ### Directory documents -/

theorem SameHandle.same_refl (db : Database) : SameHandle db db := ⟨rfl, rfl, rfl, rfl, rfl, rfl⟩

theorem SameHandle.same_trans {a b c : Database} (h1 : SameHandle a b) (h2 : SameHandle b c) :
    SameHandle a c := by
  unfold SameHandle at h1 h2 ⊢
  refine ⟨?_, ?_, ?_, ?_, ?_, ?_⟩
  · rw [h2.1, h1.1]
  · rw [h2.2.1, h1.2.1]
  · rw [h2.2.2.1, h1.2.2.1]
  · rw [h2.2.2.2.1, h1.2.2.2.1]
  · rw [h2.2.2.2.2.1, h1.2.2.2.2.1]
  · rw [h2.2.2.2.2.2, h1.2.2.2.2.2]

theorem Extends.ext_refl (db : Database) : Extends db db :=
  ⟨SameHandle.same_refl db, Nat.le_refl _, fun _ _ => rfl, fun i d hi hd => by
    have := get_document_range db i d hd; omega⟩

theorem Extends.ext_trans {a b c : Database} (h1 : Extends a b) (h2 : Extends b c) :
    Extends a c := by
  obtain ⟨s1, l1, g1, n1⟩ := h1
  obtain ⟨s2, l2, g2, n2⟩ := h2
  refine ⟨s1.same_trans s2, Nat.le_trans l1 l2, fun i hi => ?_, fun i d hi hd => ?_⟩
  · rw [g2 i (Nat.le_trans hi l1), g1 i hi]
  · by_cases hb : i ≤ b.lastdocid
    · rw [g2 i hb] at hd
      exact n1 i d hi hd
    · exact n2 i d (by omega) hd

theorem Extends.add_document (db : Database) (d : Document) (hd : DirDoc d) :
    Extends db (db.add_document d).1 := by
  refine ⟨⟨rfl, rfl, rfl, rfl, rfl, rfl⟩, by simp, fun i hi => ?_, fun i e hi he => ?_⟩
  · rw [get_document_add]; have : i ≠ db.lastdocid + 1 := by omega
    simp [this]
  · rw [get_document_add] at he
    by_cases h : i = db.lastdocid + 1
    · simp only [h, if_true, Option.some.injEq] at he; rw [← he]; exact hd
    · simp only [h, if_false] at he
      have := get_document_range db i e he; omega

theorem directory_create_fuel_extends (w : World) (fuel : Nat) : ∀ (db : Database) (path : Str),
    Extends db (_notmuch_directory_create_fuel w fuel db path).1 := by
  induction fuel with
  | zero => intro db path; exact Extends.ext_refl db
  | succ fuel ih =>
    intro db path
    simp only [_notmuch_directory_create_fuel]
    split
    · exact Extends.ext_refl db
    · have hp : Extends db (match (_notmuch_database_split_path
          (some (_notmuch_database_relative_path db path))).2.1 with
          | none => (db, 0)
          | some p => _notmuch_directory_create_fuel w fuel db p).1 := by
        split
        · exact Extends.ext_refl db
        · exact ih db _
      refine hp.ext_trans (Extends.add_document _ _ ?_)
      split
      · intro t ht
        rw [mem_add_term] at ht
        rcases ht with ht | ht
        · exact ⟨_, Or.inr ht⟩
        · simp only [List.mem_singleton] at ht
          exact ⟨_, Or.inl ht⟩
      · intro t ht
        simp only [List.mem_singleton] at ht
        exact ⟨_, Or.inl ht⟩

/-! ### Thread merging -/

theorem split_path_status (p : Option Str) :
    (_notmuch_database_split_path p).1 = NOTMUCH_STATUS_SUCCESS := by
  unfold _notmuch_database_split_path
  split
  · rfl
  · rfl
  · dsimp only
    split <;> rfl

theorem find_directory_id_spec (w : World) (db : Database) (p : Option Str) :
    Extends db (_notmuch_database_find_directory_id w db p).1 ∧
    (_notmuch_database_find_directory_id w db p).2.1 = NOTMUCH_STATUS_SUCCESS := by
  cases p with
  | none => exact ⟨Extends.ext_refl db, rfl⟩
  | some p => exact ⟨directory_create_fuel_extends w _ db p, rfl⟩

theorem filename_to_direntry_spec (w : World) (db : Database) (f : Str) :
    Extends db (_notmuch_database_filename_to_direntry w db f).1 ∧
    (_notmuch_database_filename_to_direntry w db f).2.1 = NOTMUCH_STATUS_SUCCESS := by
  simp only [_notmuch_database_filename_to_direntry, split_path_status, ne_eq,
    not_true_eq_false, if_false, (find_directory_id_spec w db _).2, and_true]
  exact (find_directory_id_spec w db _).1

theorem add_filename_spec (w : World) (db : Database) (m : Message) (f : Str) :
    Extends db (_notmuch_message_add_filename w db m f).1 ∧
    (_notmuch_message_add_filename w db m f).2 =
      _notmuch_message_add_term m "file-direntry"
        (_notmuch_database_filename_to_direntry w db f).2.2 := by
  have h := filename_to_direntry_spec w db f
  simp only [_notmuch_message_add_filename, h.2, ne_eq, not_true_eq_false, if_false]
  exact ⟨h.1, trivial⟩

theorem OneThread.unique {d : Document} {u v : Str} (h1 : OneThread d u) (h2 : OneThread d v) :
    u = v := (h2 u).mp ((h1 u).mpr rfl)

theorem OneThread.retag {d : Document} {u : Str} (w l : Str) (h : OneThread d u) :
    OneThread (rename_thread w l d) (if u = l then w else u) := by
  intro v
  unfold rename_thread
  by_cases hl : make_term "thread" l ∈ d.terms
  · have hul : u = l := ((h l).mp hl).symm
    simp only [hl, if_true, hul, retag_thread, mem_add_term, mem_remove_term]
    simp only [make_term_thread, List.cons.injEq, true_and, ne_eq]
    constructor
    · rintro (hv | ⟨hv1, hv2⟩)
      · exact hv
      · have := (h v).mp hv2
        exact absurd (this.trans hul) hv1
    · intro hv; exact Or.inl hv
  · have hul : u ≠ l := fun e => hl ((h l).mpr e.symm)
    simp only [hl, if_false, hul]
    exact h v

theorem rename_thread_other (w l : Str) (d : Document) (t : Str)
    (ht : ∀ u, t ≠ make_term "thread" u) :
    t ∈ (rename_thread w l d).terms ↔ t ∈ d.terms := by
  unfold rename_thread
  split
  · simp only [retag_thread, mem_add_term, mem_remove_term]
    constructor
    · rintro (h | ⟨_, h⟩)
      · exact absurd h (ht w)
      · exact h
    · intro h; exact Or.inr ⟨ht l, h⟩
  · rfl

theorem rename_thread_has (w l : Str) (d : Document)
    (h : ∃ u, make_term "thread" u ∈ (rename_thread w l d).terms) :
    ∃ u, make_term "thread" u ∈ d.terms := by
  unfold rename_thread at h
  split at h
  · exact ⟨l, by assumption⟩
  · exact h

theorem DocLinked.doc_refl (mid : Str) (d : Document) : DocLinked id mid d d :=
  ⟨fun _ _ _ => Iff.rfl, fun h => h, fun _ h => h, fun h => h⟩

theorem DocLinked.doc_trans {σ τ : Str → Str} {mid : Str} {a b c : Document}
    (h1 : DocLinked σ mid a b) (h2 : DocLinked τ mid b c) : DocLinked (τ ∘ σ) mid a c :=
  ⟨fun t ht hm => (h2.1 t ht hm).trans (h1.1 t ht hm), fun h => h1.2.1 (h2.2.1 h),
    fun u hu => h2.2.2.1 _ (h1.2.2.1 u hu), fun h => h1.2.2.2 (h2.2.2.2 h)⟩

theorem DocLinked.rename (w l mid : Str) (d : Document) :
    DocLinked (fun u => if u = l then w else u) mid d (rename_thread w l d) :=
  ⟨fun t ht _ => rename_thread_other w l d t ht,
    fun h => (rename_thread_other w l d _
      (by simp [make_term_reference, make_term_thread])).mp h,
    fun _ hu => hu.retag w l, fun h => rename_thread_has w l d h⟩

theorem DocLinked.doc_unref (mid : Str) (d : Document) :
    DocLinked id mid d (d.remove_term (make_term "reference" mid)) := by
  refine ⟨fun t _ hm => ?_, fun h => ?_, fun u hu v => ?_, fun h => ?_⟩
  · rw [mem_remove_term]; exact ⟨fun h => h.2, fun h => ⟨hm, h⟩⟩
  · rw [mem_remove_term] at h; exact h.2
  · rw [mem_remove_term]
    simp only [make_term_thread, make_term_reference, ne_eq, List.cons.injEq, Char.reduceEq,
      false_and, not_false_eq_true, true_and]
    exact hu v
  · obtain ⟨u, hu⟩ := h
    rw [mem_remove_term] at hu
    exact ⟨u, hu.2⟩

theorem Linked.link_refl (mid : Str) (db : Database) : Linked id mid db db :=
  ⟨SameHandle.same_refl db, rfl, fun _ => ⟨fun h => h, fun d hd => ⟨d, hd, DocLinked.doc_refl mid d⟩⟩⟩

theorem Linked.link_trans {σ τ : Str → Str} {mid : Str} {a b c : Database}
    (h1 : Linked σ mid a b) (h2 : Linked τ mid b c) : Linked (τ ∘ σ) mid a c := by
  obtain ⟨s1, l1, g1⟩ := h1
  obtain ⟨s2, l2, g2⟩ := h2
  refine ⟨s1.same_trans s2, l2.trans l1, fun i => ⟨fun h => (g2 i).1 ((g1 i).1 h), fun d hd => ?_⟩⟩
  obtain ⟨d2, hd2, r1⟩ := (g1 i).2 d hd
  obtain ⟨d3, hd3, r2⟩ := (g2 i).2 d2 hd2
  exact ⟨d3, hd3, r1.doc_trans r2⟩

theorem get_document_merge_db (w l : Str) (db : Database) (i : Nat) :
    (merge_db w l db).get_document i = (db.get_document i).map (rename_thread w l) := by
  unfold merge_db Database.get_document
  by_cases hr : 0 < i ∧ i ≤ db.lastdocid
  · simp only [hr, and_self, if_true]
    cases hd : db.docs i with
    | none => simp
    | some d =>
      have hg : db.get_document i = some d := by simp [Database.get_document, hr, hd]
      by_cases ht : make_term "thread" l ∈ d.terms
      · have : db.has_term i (make_term "thread" l) = true :=
          (has_term_iff _ _ _).mpr ⟨d, hg, ht⟩
        simp only [this, if_true, Option.map_some', rename_thread, ht]
      · have : ¬ db.has_term i (make_term "thread" l) = true := by
          rw [has_term_iff]; rintro ⟨e, he, hte⟩
          rw [hg] at he; cases he; exact ht hte
        simp [this, rename_thread, ht]
  · simp [hr]

theorem Linked.merge (w l mid : Str) (db : Database) :
    Linked (fun u => if u = l then w else u) mid db (merge_db w l db) := by
  refine ⟨⟨rfl, rfl, rfl, rfl, rfl, rfl⟩, rfl, fun i => ⟨fun h => ?_, fun d hd => ?_⟩⟩
  · rw [get_document_merge_db, h]; rfl
  · exact ⟨rename_thread w l d, by rw [get_document_merge_db, hd]; rfl,
      DocLinked.rename w l mid d⟩

theorem Linked.link_unref (mid : Str) (db : Database) (c : Nat) (d : Document)
    (hc : db.get_document c = some d) :
    Linked id mid db (db.replace_document c (d.remove_term (make_term "reference" mid))) := by
  have hr := get_document_range db c d hc
  refine ⟨⟨rfl, rfl, rfl, rfl, rfl, rfl⟩, lastdocid_replace db _ c hr.2, fun i => ?_⟩
  rw [get_document_replace db _ c i hr]
  by_cases hi : i = c
  · subst hi
    simp only [if_true, hc]
    refine ⟨fun h => Option.noConfusion h, fun e he => ?_⟩
    have hde : d = e := Option.some.inj he
    subst hde
    exact ⟨_, rfl, DocLinked.doc_unref mid d⟩
  · simp only [hi, if_false]
    exact ⟨fun h => h, fun e he => ⟨e, he, DocLinked.doc_refl mid e⟩⟩

theorem docs_of_get_document (db : Database) (i : Nat) (d : Document)
    (h : db.get_document i = some d) : db.docs i = some d := by
  have hr := get_document_range db i d h
  simpa [Database.get_document, hr] using h

theorem merge_threads_loop_eq (w l : Str) : ∀ (L : List Nat) (db : Database), L.Nodup →
    (∀ i ∈ L, ∃ d, db.get_document i = some d) →
    _merge_threads_loop w l db L = some (NOTMUCH_STATUS_SUCCESS,
      { db with docs := fun i =>
          if i ∈ L then (db.docs i).map (retag_thread w l) else db.docs i }) := by
  intro L
  induction L with
  | nil =>
    intro db _ _
    simp [_merge_threads_loop]
  | cons i rest ih =>
    intro db hnd hex
    obtain ⟨d, hd⟩ := hex i (List.mem_cons_self _ _)
    have hr := get_document_range db i d hd
    have hdocs := docs_of_get_document db i d hd
    have hni : i ∉ rest := (List.nodup_cons.mp hnd).1
    simp only [_merge_threads_loop, _notmuch_message_create, hd, Option.map_some',
      _notmuch_message_sync, _notmuch_message_add_term, _notmuch_message_remove_term, if_true]
    rw [ih _ (List.nodup_cons.mp hnd).2]
    · simp only [Option.some.injEq, Prod.mk.injEq, true_and]
      have hm : max db.lastdocid i = db.lastdocid := by omega
      simp only [Database.replace_document, hm]
      congr 1
      funext j
      by_cases hj : j = i
      · subst hj
        simp [hni, hdocs, retag_thread]
      · have : (j ∈ i :: rest) ↔ j ∈ rest := by simp [hj]
        simp [hj, Function.update_noteq, this]
    · intro j hj
      have hji : j ≠ i := fun e => hni (e ▸ hj)
      obtain ⟨e, he⟩ := hex j (List.mem_cons_of_mem _ hj)
      exact ⟨e, by rw [get_document_replace db _ i j hr]; simp [hji, he]⟩

theorem merge_threads_eq (db : Database) (w l : Str) :
    _merge_threads db w l = some (NOTMUCH_STATUS_SUCCESS, merge_db w l db) := by
  unfold _merge_threads find_doc_ids
  rw [merge_threads_loop_eq w l _ db (find_doc_ids_for_term_nodup _ _)
    (fun i hi => by
      obtain ⟨d, hd, _⟩ := (mem_find_doc_ids_for_term _ _ _).mp hi
      exact ⟨d, hd⟩)]
  simp only [Option.some.injEq, Prod.mk.injEq, true_and, merge_db]
  congr 1
  funext i
  have : (i ∈ find_doc_ids_for_term db (make_term "thread" l)) ↔
      db.has_term i (make_term "thread" l) = true := by
    rw [mem_find_doc_ids_for_term, has_term_iff]
  simp only [this]

/-! ### Looking up messages and threads -/

theorem find_unique_none_iff (db : Database) (name : String) (v : Str) :
    _notmuch_database_find_unique_doc_id db name v = none ↔
      ∀ i d, db.get_document i = some d → make_term name v ∉ d.terms := by
  unfold _notmuch_database_find_unique_doc_id find_doc_ids
  constructor
  · intro h i d hd ht
    have hm : i ∈ find_doc_ids_for_term db (make_term name v) :=
      (mem_find_doc_ids_for_term _ _ _).mpr ⟨d, hd, ht⟩
    cases hp : find_doc_ids_for_term db (make_term name v) with
    | nil => rw [hp] at hm; cases hm
    | cons a l => rw [hp] at h; cases h
  · intro h
    cases hp : find_doc_ids_for_term db (make_term name v) with
    | nil => rfl
    | cons a l =>
      have hm : a ∈ find_doc_ids_for_term db (make_term name v) := by rw [hp]; simp
      obtain ⟨d, hd, ht⟩ := (mem_find_doc_ids_for_term _ _ _).mp hm
      exact absurd ht (h a d hd)

theorem find_unique_some (db : Database) (name : String) (v : Str) (j : Nat)
    (h : _notmuch_database_find_unique_doc_id db name v = some j) :
    ∃ d, db.get_document j = some d ∧ make_term name v ∈ d.terms := by
  unfold _notmuch_database_find_unique_doc_id find_doc_ids at h
  cases hp : find_doc_ids_for_term db (make_term name v) with
  | nil => rw [hp] at h; cases h
  | cons a l =>
    rw [hp] at h
    have : a = j := by simpa using h
    subst this
    exact (mem_find_doc_ids_for_term _ _ _).mp (by rw [hp]; simp)

theorem find_unique_congr (db db2 : Database) (name : String) (v : Str)
    (h : ∀ i, (∃ e, db2.get_document i = some e ∧ make_term name v ∈ e.terms) ↔
      (∃ e, db.get_document i = some e ∧ make_term name v ∈ e.terms)) :
    _notmuch_database_find_unique_doc_id db2 name v =
      _notmuch_database_find_unique_doc_id db name v := by
  unfold _notmuch_database_find_unique_doc_id find_doc_ids
  rw [find_doc_ids_for_term_congr db db2 _ (fun i => has_term_congr db db2 _ i (h i))]

theorem isPrefixOf_cons_iff (c : Char) (t : Str) :
    List.isPrefixOf [c] t = true ↔ ∃ v, t = c :: v := by
  cases t with
  | nil => simp [List.isPrefixOf]
  | cons a as =>
    rw [List.isPrefixOf_cons₂, List.isPrefixOf_nil_left, Bool.and_true, beq_iff_eq]
    constructor
    · intro h; exact ⟨as, by rw [h]⟩
    · rintro ⟨v, hv⟩; exact (List.cons.inj hv).1.symm

theorem term_value_thread (d : Document) (u : Str) (h : OneThread d u) :
    d.term_value "thread" = some u := by
  unfold Document.term_value
  have hp : make_term "thread" [] = ['G'] := rfl
  rw [hp]
  cases hf : d.terms.find? (fun t => List.isPrefixOf ['G'] t) with
  | none =>
    have := List.find?_eq_none.mp hf _ ((h u).mpr rfl)
    simp [make_term_thread, List.isPrefixOf] at this
  | some t =>
    have hm := List.mem_of_find?_eq_some hf
    have hpre := List.find?_some hf
    obtain ⟨v, hv⟩ := (isPrefixOf_cons_iff 'G' t).mp hpre
    subst hv
    have := (h v).mp hm
    simp [this]

theorem term_value_thread_mem (d : Document) (u : Str) (h : d.term_value "thread" = some u) :
    make_term "thread" u ∈ d.terms := by
  unfold Document.term_value at h
  have hp : make_term "thread" [] = ['G'] := rfl
  rw [hp] at h
  cases hf : d.terms.find? (fun t => List.isPrefixOf ['G'] t) with
  | none => rw [hf] at h; cases h
  | some t =>
    rw [hf] at h
    have hm := List.mem_of_find?_eq_some hf
    have hpre := List.find?_some hf
    obtain ⟨v, hv⟩ := (isPrefixOf_cons_iff 'G' t).mp hpre
    subst hv
    simp at h
    subst h
    exact hm

theorem resolve_none_iff (db : Database) (p : Str) :
    _resolve_message_id_to_thread_id db p = some none ↔
      _notmuch_database_find_unique_doc_id db "id" p = none := by
  unfold _resolve_message_id_to_thread_id notmuch_database_find_message
  cases hf : _notmuch_database_find_unique_doc_id db "id" p with
  | none => simp
  | some j =>
    obtain ⟨d, hd, _⟩ := find_unique_some db "id" p j hf
    simp only [_notmuch_message_create, hd, Option.map_some', notmuch_message_get_thread_id]
    cases d.term_value "thread" <;> simp

theorem resolve_some_iff (db : Database) (p pt : Str) :
    _resolve_message_id_to_thread_id db p = some (some pt) ↔
      ∃ j d, _notmuch_database_find_unique_doc_id db "id" p = some j ∧
        db.get_document j = some d ∧ d.term_value "thread" = some pt := by
  unfold _resolve_message_id_to_thread_id notmuch_database_find_message
  cases hf : _notmuch_database_find_unique_doc_id db "id" p with
  | none => simp
  | some j =>
    obtain ⟨d, hd, _⟩ := find_unique_some db "id" p j hf
    simp only [_notmuch_message_create, hd, Option.map_some', notmuch_message_get_thread_id]
    cases hv : d.term_value "thread" with
    | none =>
      constructor
      · intro h; cases h
      rintro ⟨j2, d2, hj, hd2, hx⟩
      have hjj : j = j2 := by simpa using hj
      subst hjj
      rw [hd] at hd2; cases hd2
      rw [hv] at hx; cases hx
    | some x =>
      simp only [Option.some.injEq]
      constructor
      · intro h; exact ⟨j, d, rfl, hd, by rw [hv, h]⟩
      · rintro ⟨j2, d2, hj, hd2, hx⟩
        subst hj
        rw [hd] at hd2; cases hd2
        rw [hv] at hx
        simpa using hx

theorem Linked.mem_other {σ : Str → Str} {mid : Str} {db db2 : Database}
    (h : Linked σ mid db db2) (t : Str) (ht : ∀ u, t ≠ make_term "thread" u)
    (hm : t ≠ make_term "reference" mid) (i : Nat) :
    (∃ e, db2.get_document i = some e ∧ t ∈ e.terms) ↔
      (∃ e, db.get_document i = some e ∧ t ∈ e.terms) := by
  constructor
  · rintro ⟨e, he, hte⟩
    cases hd : db.get_document i with
    | none => rw [(h.2.2 i).1 hd] at he; cases he
    | some d =>
      obtain ⟨d2, hd2, r⟩ := (h.2.2 i).2 d hd
      rw [hd2] at he; cases he
      exact ⟨d, rfl, (r.1 t ht hm).mp hte⟩
  · rintro ⟨d, hd, htd⟩
    obtain ⟨d2, hd2, r⟩ := (h.2.2 i).2 d hd
    exact ⟨d2, hd2, (r.1 t ht hm).mpr htd⟩

theorem Linked.find_id {σ : Str → Str} {mid : Str} {db db2 : Database}
    (h : Linked σ mid db db2) (p : Str) :
    _notmuch_database_find_unique_doc_id db2 "id" p =
      _notmuch_database_find_unique_doc_id db "id" p :=
  find_unique_congr db db2 "id" p (fun i => h.mem_other _
    (by simp [make_term_id, make_term_thread])
    (by simp [make_term_id, make_term_reference]) i)

theorem Linked.sound {σ : Str → Str} {mid : Str} {db db2 : Database}
    (h : Linked σ mid db db2) (k : Nat) (hs : Sound db k) : Sound db2 k := by
  intro i e hik he hv
  cases hd : db.get_document i with
  | none => rw [(h.2.2 i).1 hd] at he; cases he
  | some d =>
    obtain ⟨d2, hd2, r⟩ := (h.2.2 i).2 d hd
    rw [hd2] at he; cases he
    have : ∃ v, make_term "id" v ∈ d.terms ∨ make_term "reference" v ∈ d.terms ∨
        make_term "thread" v ∈ d.terms := by
      obtain ⟨v, hv | hv | hv⟩ := hv
      · exact ⟨v, Or.inl ((r.1 _ (by simp [make_term_id, make_term_thread])
          (by simp [make_term_id, make_term_reference])).mp hv)⟩
      · by_cases hvm : v = mid
        · subst hvm; exact ⟨v, Or.inr (Or.inl (r.2.1 hv))⟩
        · exact ⟨v, Or.inr (Or.inl ((r.1 _ (by simp [make_term_reference, make_term_thread])
            (by simpa [make_term_reference] using hvm)).mp hv))⟩
      · obtain ⟨u, hu⟩ := r.2.2.2 ⟨v, hv⟩
        exact ⟨u, Or.inr (Or.inr hu)⟩
    obtain ⟨u, hu⟩ := hs i d hik hd this
    exact ⟨σ u, r.2.2.1 u hu⟩

theorem Linked.own {σ : Str → Str} {mid : Str} {db db2 : Database}
    (h : Linked σ mid db db2) (k : Nat) (ho : OwnDoc db k mid) : OwnDoc db2 k mid := by
  intro e he
  cases hd : db.get_document k with
  | none => rw [(h.2.2 k).1 hd] at he; cases he
  | some d =>
    obtain ⟨d2, hd2, r⟩ := (h.2.2 k).2 d hd
    rw [hd2] at he; cases he
    obtain ⟨h1, h2⟩ := ho d hd
    refine ⟨fun v hv => h1 v ((r.1 _ (by simp [make_term_id, make_term_thread])
      (by simp [make_term_id, make_term_reference])).mp hv), fun v hv => ?_⟩
    by_cases hvm : v = mid
    · subst hvm; exact h2 v (r.2.1 hv)
    · exact h2 v ((r.1 _ (by simp [make_term_reference, make_term_thread])
        (by simpa [make_term_reference] using hvm)).mp hv)

/-! ### Linking a message to its parents -/

theorem add_term_values (d : Document) (t : Str) :
    (d.add_term t).values = d.values ∧ (d.add_term t).data = d.data := by
  unfold Document.add_term
  split <;> exact ⟨rfl, rfl⟩

theorem LinkPost.of_eq {mid : Str} {db : Database} {m : Message} {tid : Option Str} :
    LinkPost mid db m tid ⟨NOTMUCH_STATUS_SUCCESS, db, m, tid⟩ id :=
  ⟨rfl, rfl, rfl, rfl, rfl, fun _ h => h, Linked.link_refl mid db, fun _ _ => rfl⟩

/-- The parents loop: partial correctness. -/
theorem parents_loop_post (k : Nat) (mid : Str) : ∀ (keys : List Str) (db : Database)
    (m : Message) (tid : Option Str) (st : LinkState),
    link_message_to_parents_loop db m tid keys = some st →
    ∃ σ, LinkPost mid db m tid st σ ∧
      (∀ t, t ∈ st.message.doc.terms ↔
        t ∈ m.doc.terms ∨
        (∃ p ∈ keys, _notmuch_database_find_unique_doc_id db "id" p = none ∧
          t = make_term "reference" p) ∨
        (tid = none ∧ ∃ w, st.thread_id = some w ∧ t = make_term "thread" w)) ∧
      (st.thread_id = none →
        ∀ p ∈ keys, _notmuch_database_find_unique_doc_id db "id" p = none) ∧
      (Sound db k → OwnDoc db k mid → (∀ p ∈ keys, p ≠ mid) →
        ∀ p ∈ keys, ∀ j, _notmuch_database_find_unique_doc_id db "id" p = some j →
          ∃ d u w, db.get_document j = some d ∧ OneThread d u ∧
            st.thread_id = some w ∧ σ u = w) := by
  intro keys
  induction keys with
  | nil =>
    intro db m tid st h
    simp only [link_message_to_parents_loop, Option.some.injEq] at h
    subst h
    refine ⟨id, LinkPost.of_eq, fun t => ?_, fun _ p hp => absurd hp (List.not_mem_nil p),
      fun _ _ _ p hp => absurd hp (List.not_mem_nil p)⟩
    constructor
    · exact Or.inl
    · rintro (h | ⟨p, hp, _⟩ | ⟨h1, w, h2, _⟩)
      · exact h
      · cases hp
      · rw [h1] at h2; cases h2
  | cons p l ih =>
    intro db m tid st h
    rw [link_message_to_parents_loop] at h
    cases hres : _resolve_message_id_to_thread_id db p with
    | none => rw [hres] at h; cases h
    | some r =>
      rw [hres] at h
      cases r with
      | none =>
        -- parent not in the database
        have hnf := (resolve_none_iff db p).mp hres
        simp only at h
        obtain ⟨σ, post, hterms, hnone, hfound⟩ := ih db _ tid st h
        refine ⟨σ, ⟨post.ret, post.doc_id, post.frozen,
          post.values.trans (add_term_values _ _).1, post.data.trans (add_term_values _ _).2,
          post.keep, post.linked, post.fix⟩, fun t => ?_, fun hn q hq => ?_,
          fun hs ho hk q hq j hj => ?_⟩
        · rw [hterms t]
          simp only [_notmuch_message_add_term, mem_add_term, List.mem_cons, exists_eq_or_imp]
          constructor
          · rintro ((h1 | h1) | h1 | h1)
            · exact Or.inr (Or.inl (Or.inl ⟨hnf, h1⟩))
            · exact Or.inl h1
            · exact Or.inr (Or.inl (Or.inr h1))
            · exact Or.inr (Or.inr h1)
          · rintro (h1 | (⟨_, h1⟩ | h1) | h1)
            · exact Or.inl (Or.inr h1)
            · exact Or.inl (Or.inl h1)
            · exact Or.inr (Or.inl h1)
            · exact Or.inr (Or.inr h1)
        · rcases List.mem_cons.mp hq with e | e
          · rw [e]; exact hnf
          · exact hnone hn q e
        · rcases List.mem_cons.mp hq with e | e
          · rw [e, hnf] at hj; cases hj
          · exact hfound hs ho (fun x hx => hk x (List.mem_cons_of_mem _ hx)) q e j hj
      | some pt =>
        obtain ⟨j0, d0, hj0, hd0, hv0⟩ := (resolve_some_iff db p pt).mp hres
        have hfound_p : ∀ (σ : Str → Str) (w : Str), σ pt = w → st.thread_id = some w →
            Sound db k → OwnDoc db k mid → (∀ q ∈ p :: l, q ≠ mid) →
            ∀ j, _notmuch_database_find_unique_doc_id db "id" p = some j →
            ∃ d u w, db.get_document j = some d ∧ OneThread d u ∧
              st.thread_id = some w ∧ σ u = w := by
          intro σ w hσ hst hs ho hk j hj
          rw [hj0] at hj
          have hjj : j0 = j := by simpa using hj
          subst hjj
          obtain ⟨dq, hdq, hq⟩ := find_unique_some db "id" p j0 hj0
          rw [hd0] at hdq; cases hdq
          have hjk : j0 ≠ k := by
            intro e
            subst e
            exact hk p (List.mem_cons_self _ _) ((ho d0 hd0).1 p hq)
          obtain ⟨u, hu⟩ := hs j0 d0 hjk hd0 ⟨p, Or.inl hq⟩
          have hpu : pt = u := by
            have := term_value_thread d0 u hu
            rw [hv0] at this; simpa using this
          subst hpu
          exact ⟨d0, pt, w, hd0, hu, hst, hσ⟩
        have hnotnone : _notmuch_database_find_unique_doc_id db "id" p ≠ none := by
          rw [hj0]; simp
        cases tid with
        | none =>
          simp only at h
          obtain ⟨σ, post, hterms, hnone, hfound⟩ := ih db _ (some pt) st h
          have hst : st.thread_id = some pt := post.keep pt rfl
          refine ⟨σ, ⟨post.ret, post.doc_id, post.frozen,
            post.values.trans (add_term_values _ _).1, post.data.trans (add_term_values _ _).2,
            fun w hw => Option.noConfusion hw, post.linked, post.fix⟩, fun t => ?_, fun hn => ?_,
            fun hs ho hk q hq j hj => ?_⟩
          · rw [hterms t]
            simp only [_notmuch_message_add_term, mem_add_term, List.mem_cons,
              exists_eq_or_imp, hst, Option.some.injEq, true_and]
            constructor
            · rintro ((h1 | h1) | h1 | h1)
              · exact Or.inr (Or.inr ⟨pt, rfl, h1⟩)
              · exact Or.inl h1
              · exact Or.inr (Or.inl (Or.inr h1))
              · exact absurd h1.1 (by simp)
            · rintro (h1 | (⟨h0, _⟩ | h1) | ⟨w, hw, h1⟩)
              · exact Or.inl (Or.inr h1)
              · exact absurd h0 hnotnone
              · exact Or.inr (Or.inl h1)
              · subst hw; exact Or.inl (Or.inl h1)
          · rw [hst] at hn; cases hn
          · rcases List.mem_cons.mp hq with e | e
            · subst e
              exact hfound_p σ pt (post.fix pt hst) hst hs ho hk j hj
            · exact hfound hs ho (fun x hx => hk x (List.mem_cons_of_mem _ hx)) q e j hj
        | some w =>
          simp only at h
          by_cases hwp : w = pt
          · subst hwp
            simp only [ne_eq, not_true_eq_false, if_false] at h
            obtain ⟨σ, post, hterms, hnone, hfound⟩ := ih db _ (some w) st h
            have hst : st.thread_id = some w := post.keep w rfl
            refine ⟨σ, post, fun t => ?_, fun hn => ?_, fun hs ho hk q hq j hj => ?_⟩
            · rw [hterms t]
              simp only [List.mem_cons, exists_eq_or_imp]
              constructor
              · rintro (h1 | h1 | h1)
                · exact Or.inl h1
                · exact Or.inr (Or.inl (Or.inr h1))
                · exact absurd h1.1 (by simp)
              · rintro (h1 | (⟨h0, _⟩ | h1) | h1)
                · exact Or.inl h1
                · exact absurd h0 hnotnone
                · exact Or.inr (Or.inl h1)
                · exact absurd h1.1 (by simp)
            · rw [hst] at hn; cases hn
            · rcases List.mem_cons.mp hq with e | e
              · subst e
                exact hfound_p σ w (post.fix w hst) hst hs ho hk j hj
              · exact hfound hs ho (fun x hx => hk x (List.mem_cons_of_mem _ hx)) q e j hj
          · simp only [ne_eq, hwp, not_false_eq_true, if_true, merge_threads_eq,
              not_true_eq_false, if_false] at h
            obtain ⟨σ, post, hterms, hnone, hfound⟩ := ih (merge_db w pt db) _ (some w) st h
            have hst : st.thread_id = some w := post.keep w rfl
            have hl : Linked (fun u => if u = pt then w else u) mid db (merge_db w pt db) :=
              Linked.merge w pt mid db
            refine ⟨σ ∘ (fun u => if u = pt then w else u),
              ⟨post.ret, post.doc_id, post.frozen, post.values, post.data, post.keep,
                hl.link_trans post.linked, fun x hx => ?_⟩,
              fun t => ?_, fun hn => ?_, fun hs ho hk q hq j hj => ?_⟩
            · have hxw : x = w := by rw [hst] at hx; simpa using hx.symm
              subst hxw
              simp only [Function.comp, ite_self]
              exact post.fix x hst
            · rw [hterms t]
              simp only [List.mem_cons, exists_eq_or_imp, hl.find_id]
              constructor
              · rintro (h1 | h1 | h1)
                · exact Or.inl h1
                · exact Or.inr (Or.inl (Or.inr h1))
                · exact absurd h1.1 (by simp)
              · rintro (h1 | (⟨h0, _⟩ | h1) | h1)
                · exact Or.inl h1
                · exact absurd h0 hnotnone
                · exact Or.inr (Or.inl h1)
                · exact absurd h1.1 (by simp)
            · rw [hst] at hn; cases hn
            · rcases List.mem_cons.mp hq with e | e
              · subst e
                refine hfound_p _ w ?_ hst hs ho hk j hj
                simp only [Function.comp, if_true]
                exact post.fix w hst
              · rw [← hl.find_id] at hj
                obtain ⟨d2, u2, w2, hd2, hu2, hw2, hσ2⟩ :=
                  hfound (hl.sound k hs) (hl.own k ho)
                    (fun x hx => hk x (List.mem_cons_of_mem _ hx)) q e j hj
                obtain ⟨dq, hdq, hqm⟩ := find_unique_some _ "id" q j hj
                rw [hd2] at hdq; cases hdq
                cases hd : db.get_document j with
                | none => rw [(hl.2.2 j).1 hd] at hd2; cases hd2
                | some d =>
                  obtain ⟨d3, hd3, r⟩ := (hl.2.2 j).2 d hd
                  rw [hd2] at hd3; cases hd3
                  have hqd : make_term "id" q ∈ d.terms :=
                    (r.1 _ (by simp [make_term_id, make_term_thread])
                      (by simp [make_term_id, make_term_reference])).mp hqm
                  have hjk : j ≠ k := by
                    intro e2
                    subst e2
                    exact hk q (List.mem_cons_of_mem _ e) ((ho d hd).1 q hqd)
                  obtain ⟨u, hu⟩ := hs j d hjk hd ⟨q, Or.inl hqd⟩
                  have hu3 : (if u = pt then w else u) = u2 := (r.2.2.1 u hu).unique hu2
                  refine ⟨d, u, w2, rfl, hu, hw2, ?_⟩
                  simp only [Function.comp]
                  rw [hu3]; exact hσ2

/-! ### Linking a message to its children -/

theorem message_create_some (db : Database) (c : Nat) (cm : Message)
    (h : _notmuch_message_create db c = some cm) :
    ∃ d, db.get_document c = some d ∧ cm = ⟨c, 0, d⟩ := by
  unfold _notmuch_message_create at h
  cases hd : db.get_document c with
  | none => rw [hd] at h; cases h
  | some d => rw [hd] at h; exact ⟨d, rfl, by simpa using h.symm⟩

/-- The children loop: partial correctness. -/
theorem children_loop_post (k : Nat) (mid : Str) : ∀ (cs : List Nat) (db : Database)
    (m : Message) (tid : Option Str) (st : LinkState),
    link_message_to_children_loop mid db m tid cs = some st →
    ∃ σ, LinkPost mid db m tid st σ ∧
      (∀ t, t ∈ st.message.doc.terms ↔
        t ∈ m.doc.terms ∨
        (tid = none ∧ ∃ w, st.thread_id = some w ∧ t = make_term "thread" w)) ∧
      (st.thread_id = none → cs = []) ∧
      (Sound db k → (∀ c ∈ cs, c ≠ k) →
        ∀ c ∈ cs, ∃ d2 w, st.db.get_document c = some d2 ∧ st.thread_id = some w ∧
          OneThread d2 w) := by
  intro cs
  induction cs with
  | nil =>
    intro db m tid st h
    simp only [link_message_to_children_loop, Option.some.injEq] at h
    subst h
    refine ⟨id, LinkPost.of_eq, fun t => ?_, fun _ => rfl,
      fun _ _ c hc => absurd hc (List.not_mem_nil c)⟩
    constructor
    · exact Or.inl
    · rintro (h | ⟨h1, w, h2, _⟩)
      · exact h
      · rw [h1] at h2; cases h2
  | cons c rest ih =>
    intro db m tid st h
    rw [link_message_to_children_loop] at h
    cases hcm : _notmuch_message_create db c with
    | none => rw [hcm] at h; simp [COERCE_STATUS] at h
    | some cm =>
      rw [hcm] at h
      obtain ⟨d, hd, hcmd⟩ := message_create_some db c cm hcm
      subst hcmd
      simp only at h
      cases hct : notmuch_message_get_thread_id ⟨c, 0, d⟩ with
      | none => rw [hct] at h; cases h
      | some ct =>
        rw [hct] at h
        have hv : d.term_value "thread" = some ct := hct
        have hone : Sound db k → c ≠ k → OneThread d ct := by
          intro hs hck
          obtain ⟨u, hu⟩ := hs c d hck hd ⟨ct, Or.inr (Or.inr (term_value_thread_mem d ct hv))⟩
          have := term_value_thread d u hu
          rw [hv] at this
          have : ct = u := by simpa using this
          rw [this]; exact hu
        -- the fact for the child at hand, from what holds for it when it has been handled
        have hfin : ∀ (db1 : Database) (σ τ : Str → Str) (w : Str),
            Linked τ mid db db1 → Linked σ mid db1 st.db → st.thread_id = some w →
            σ (τ ct) = w → Sound db k → c ≠ k →
            ∃ d2 w, st.db.get_document c = some d2 ∧ st.thread_id = some w ∧
              OneThread d2 w := by
          intro db1 σ τ w hl1 hl2 hst hσ hs hck
          obtain ⟨d1, hd1, r1⟩ := (hl1.2.2 c).2 d hd
          obtain ⟨d2, hd2, r2⟩ := (hl2.2.2 c).2 d1 hd1
          refine ⟨d2, w, hd2, hst, ?_⟩
          rw [← hσ]
          exact r2.2.2.1 _ (r1.2.2.1 _ (hone hs hck))
        cases tid with
        | none =>
          simp only at h
          obtain ⟨σ, post, hterms, hnone, hch⟩ := ih db _ (some ct) st h
          have hst : st.thread_id = some ct := post.keep ct rfl
          refine ⟨σ, ⟨post.ret, post.doc_id, post.frozen,
            post.values.trans (add_term_values _ _).1, post.data.trans (add_term_values _ _).2,
            fun w hw => Option.noConfusion hw, post.linked, post.fix⟩, fun t => ?_, fun hn => ?_,
            fun hs hk q hq => ?_⟩
          · rw [hterms t]
            simp only [_notmuch_message_add_term, mem_add_term, hst, Option.some.injEq, true_and]
            constructor
            · rintro ((h1 | h1) | h1)
              · exact Or.inr ⟨ct, rfl, h1⟩
              · exact Or.inl h1
              · exact absurd h1.1 (by simp)
            · rintro (h1 | ⟨w, hw, h1⟩)
              · exact Or.inl (Or.inr h1)
              · subst hw; exact Or.inl (Or.inl h1)
          · rw [hst] at hn; cases hn
          · rcases List.mem_cons.mp hq with e | e
            · subst e
              exact hfin db σ id ct (Linked.link_refl mid db) post.linked hst (post.fix ct hst) hs
                (hk q (List.mem_cons_self _ _))
            · exact hch hs (fun x hx => hk x (List.mem_cons_of_mem _ hx)) q e
        | some w =>
          simp only at h
          by_cases hwp : w = ct
          · subst hwp
            simp only [ne_eq, not_true_eq_false, if_false] at h
            obtain ⟨σ, post, hterms, hnone, hch⟩ := ih db _ (some w) st h
            have hst : st.thread_id = some w := post.keep w rfl
            refine ⟨σ, post, hterms, fun hn => ?_, fun hs hk q hq => ?_⟩
            · rw [hst] at hn; cases hn
            · rcases List.mem_cons.mp hq with e | e
              · subst e
                exact hfin db σ id w (Linked.link_refl mid db) post.linked hst (post.fix w hst) hs
                  (hk q (List.mem_cons_self _ _))
              · exact hch hs (fun x hx => hk x (List.mem_cons_of_mem _ hx)) q e
          · simp only [ne_eq, hwp, not_false_eq_true, if_true, merge_threads_eq,
              not_true_eq_false, if_false, _notmuch_message_sync,
              _notmuch_message_remove_term] at h
            have hl1 := Linked.link_unref mid db c d hd
            have hl2 := Linked.merge w ct mid
              (db.replace_document c (d.remove_term (make_term "reference" mid)))
            have hl := hl1.link_trans hl2
            obtain ⟨σ, post, hterms, hnone, hch⟩ := ih _ _ (some w) st h
            have hst : st.thread_id = some w := post.keep w rfl
            refine ⟨σ ∘ ((fun u => if u = ct then w else u) ∘ id),
              ⟨post.ret, post.doc_id, post.frozen, post.values, post.data, post.keep,
                hl.link_trans post.linked, fun x hx => ?_⟩,
              hterms, fun hn => ?_, fun hs hk q hq => ?_⟩
            · have hxw : x = w := by rw [hst] at hx; simpa using hx.symm
              subst hxw
              simp only [Function.comp, id, ite_self]
              exact post.fix x hst
            · rw [hst] at hn; cases hn
            · rcases List.mem_cons.mp hq with e | e
              · subst e
                refine hfin _ σ _ w hl post.linked hst ?_ hs (hk q (List.mem_cons_self _ _))
                simp only [Function.comp, id, if_true]
                exact post.fix w hst
              · exact hch (hl.sound k hs) (fun x hx => hk x (List.mem_cons_of_mem _ hx)) q e

theorem resolve_total (db : Database) (k : Nat) (mid p : Str) (hs : Sound db k)
    (ho : OwnDoc db k mid) (hp : p ≠ mid) :
    ∃ r, _resolve_message_id_to_thread_id db p = some r := by
  cases hf : _notmuch_database_find_unique_doc_id db "id" p with
  | none => exact ⟨none, (resolve_none_iff db p).mpr hf⟩
  | some j =>
    obtain ⟨d, hd, hq⟩ := find_unique_some db "id" p j hf
    have hjk : j ≠ k := by
      intro e; subst e; exact hp ((ho d hd).1 p hq)
    obtain ⟨u, hu⟩ := hs j d hjk hd ⟨p, Or.inl hq⟩
    exact ⟨some u, (resolve_some_iff db p u).mpr ⟨j, d, hf, hd, term_value_thread d u hu⟩⟩

/-- The parents loop returns. -/
theorem parents_loop_total (k : Nat) (mid : Str) : ∀ (keys : List Str) (db : Database)
    (m : Message) (tid : Option Str), Sound db k → OwnDoc db k mid → (∀ p ∈ keys, p ≠ mid) →
    ∃ st, link_message_to_parents_loop db m tid keys = some st := by
  intro keys
  induction keys with
  | nil => intro db m tid _ _ _; exact ⟨_, rfl⟩
  | cons p l ih =>
    intro db m tid hs ho hk
    have hk2 : ∀ q ∈ l, q ≠ mid := fun x hx => hk x (List.mem_cons_of_mem _ hx)
    obtain ⟨r, hr⟩ := resolve_total db k mid p hs ho (hk p (List.mem_cons_self _ _))
    rw [link_message_to_parents_loop, hr]
    cases r with
    | none => exact ih db _ tid hs ho hk2
    | some pt =>
      cases tid with
      | none => exact ih db _ _ hs ho hk2
      | some w =>
        simp only
        by_cases hwp : w = pt
        · simp only [hwp, ne_eq, not_true_eq_false, if_false]
          exact ih db _ _ hs ho hk2
        · simp only [ne_eq, hwp, not_false_eq_true, if_true, merge_threads_eq,
            not_true_eq_false, if_false]
          have hl := Linked.merge w pt mid db
          exact ih _ _ _ (hl.sound k hs) (hl.own k ho) hk2

/-- The children loop returns. -/
theorem children_loop_total (k : Nat) (mid : Str) : ∀ (cs : List Nat) (db : Database)
    (m : Message) (tid : Option Str), Sound db k →
    (∀ c ∈ cs, c ≠ k ∧ ∃ d u, db.get_document c = some d ∧ OneThread d u) →
    ∃ st, link_message_to_children_loop mid db m tid cs = some st := by
  intro cs
  induction cs with
  | nil => intro db m tid _ _; exact ⟨_, rfl⟩
  | cons c rest ih =>
    intro db m tid hs hc
    obtain ⟨hck, d, u, hd, hu⟩ := hc c (List.mem_cons_self _ _)
    have hc2 : ∀ (σ : Str → Str) (db2 : Database), Linked σ mid db db2 →
        ∀ c ∈ rest, c ≠ k ∧ ∃ d u, db2.get_document c = some d ∧ OneThread d u := by
      intro σ db2 hl x hx
      obtain ⟨hxk, dx, ux, hdx, hux⟩ := hc x (List.mem_cons_of_mem _ hx)
      obtain ⟨d2, hd2, r⟩ := (hl.2.2 x).2 dx hdx
      exact ⟨hxk, d2, σ ux, hd2, r.2.2.1 ux hux⟩
    have hcm : _notmuch_message_create db c = some ⟨c, 0, d⟩ := by
      simp [_notmuch_message_create, hd]
    have hct : notmuch_message_get_thread_id ⟨c, 0, d⟩ = some u := term_value_thread d u hu
    rw [link_message_to_children_loop, hcm]
    simp only [hct]
    cases tid with
    | none => exact ih db _ _ hs (hc2 id db (Linked.link_refl mid db))
    | some w =>
      simp only
      by_cases hwp : w = u
      · simp only [hwp, ne_eq, not_true_eq_false, if_false]
        exact ih db _ _ hs (hc2 id db (Linked.link_refl mid db))
      · simp only [ne_eq, hwp, not_false_eq_true, if_true, merge_threads_eq,
          not_true_eq_false, if_false, _notmuch_message_sync, _notmuch_message_remove_term]
        have hl := (Linked.link_unref mid db c d hd).link_trans (Linked.merge w u mid
          (db.replace_document c (d.remove_term (make_term "reference" mid))))
        exact ih _ _ _ (hl.sound k hs) (hc2 _ _ hl)

/-! ### Linking a message -/

theorem term_value_id (d : Document) (mid : Str) (h : OneId d mid) :
    d.term_value "id" = some mid := by
  unfold Document.term_value
  have hp : make_term "id" [] = ['Q'] := rfl
  rw [hp]
  cases hf : d.terms.find? (fun t => List.isPrefixOf ['Q'] t) with
  | none =>
    have := List.find?_eq_none.mp hf _ ((h mid).mpr rfl)
    simp [make_term_id, List.isPrefixOf] at this
  | some t =>
    have hm := List.mem_of_find?_eq_some hf
    have hpre := List.find?_some hf
    obtain ⟨v, hv⟩ := (isPrefixOf_cons_iff 'Q' t).mp hpre
    subst hv
    have := (h v).mp hm
    simp [this]

theorem parse_references_loop_not_self (mid : Str) : ∀ (fuel : Nat) (hash : List Str)
    (refs : Str), mid ∉ hash → mid ∉ parse_references_loop mid fuel hash refs := by
  intro fuel
  induction fuel with
  | zero => intro hash refs h; simpa [parse_references_loop] using h
  | succ n ih =>
    intro hash refs h
    cases refs with
    | nil => simpa [parse_references_loop] using h
    | cons c cs =>
      simp only [parse_references_loop]
      cases (_parse_message_id (some (c :: cs))).result with
      | none => exact ih _ _ h
      | some ref =>
        simp only
        split
        · rename_i hc
          apply ih
          intro hm
          rw [List.mem_append, List.mem_singleton] at hm
          rcases hm with hm | hm
          · exact h hm
          · exact hc.1 hm.symm
        · exact ih _ _ h

theorem parse_references_not_self (mid : Str) (hash : List Str) (refs : Option Str)
    (h : mid ∉ hash) : mid ∉ parse_references mid hash refs := by
  unfold parse_references
  split
  · exact h
  · exact h
  · exact parse_references_loop_not_self mid _ _ _ h

theorem parent_keys_not_self (w : World) (hk : KeysOk w) (mid : Str) (mf : MessageFile) :
    ∀ p ∈ parent_keys w mid mf, p ≠ mid := by
  intro p hp e
  subst e
  unfold parent_keys at hp
  have := (hk _).mem_iff.mp hp
  exact parse_references_not_self p _ _
    (parse_references_not_self p [] _ (List.not_mem_nil p)) this

theorem get_document_generate (db : Database) (i : Nat) :
    (_notmuch_database_generate_thread_id db).1.get_document i = db.get_document i := rfl

theorem lastdocid_generate (db : Database) :
    (_notmuch_database_generate_thread_id db).1.lastdocid = db.lastdocid := rfl

theorem link_to_parents_eq (w : World) (db : Database) (m : Message) (mf : MessageFile)
    (mid : Str) (hid : OneId m.doc mid) (tid : Option Str) :
    ∃ m0 : Message, m0.doc_id = m.doc_id ∧ m0.frozen = m.frozen ∧
      m0.doc.values = m.doc.values ∧ m0.doc.data = m.doc.data ∧
      (∀ t, t ∈ m0.doc.terms ↔ t ∈ m.doc.terms ∨ t ∈ replyto_terms mid mf) ∧
      _notmuch_database_link_message_to_parents w db m mf tid =
        link_message_to_parents_loop db m0 tid (parent_keys w mid mf) := by
  have hg : notmuch_message_get_message_id m = some mid := term_value_id m.doc mid hid
  unfold _notmuch_database_link_message_to_parents
  simp only [hg]
  unfold replyto_terms parent_keys
  cases hirt : (_parse_message_id (mf.header "in-reply-to")).result with
  | none =>
    exact ⟨m, rfl, rfl, rfl, rfl, fun t => by simp, rfl⟩
  | some irt =>
    by_cases hne : irt = mid
    · simp only [hne, ne_eq, not_true_eq_false, if_false]
      exact ⟨m, rfl, rfl, rfl, rfl, fun t => by simp, rfl⟩
    · simp only [ne_eq, hne, not_false_eq_true, if_true, Option.getD_some]
      refine ⟨_notmuch_message_add_term m "replyto" irt, rfl, rfl, (add_term_values _ _).1,
        (add_term_values _ _).2, fun t => ?_, rfl⟩
      simp only [_notmuch_message_add_term, mem_add_term, List.mem_singleton]
      exact or_comm

/-- Thread resolution for a new message: partial correctness. -/
theorem link_message_post (w : World) (k : Nat) (mid : Str) (db : Database) (m : Message)
    (mf : MessageFile) (hid : OneId m.doc mid)
    (ret : notmuch_status_t) (db2 : Database) (m2 : Message)
    (h : _notmuch_database_link_message w db m mf = some (ret, db2, m2)) :
    ret = NOTMUCH_STATUS_SUCCESS ∧ m2.doc_id = m.doc_id ∧ m2.frozen = m.frozen ∧
    m2.doc.values = m.doc.values ∧ m2.doc.data = m.doc.data ∧
    ∃ (σ : Str → Str) (dbl : Database) (tw : Str), Linked σ mid db dbl ∧
      (db2 = dbl ∨ db2 = (_notmuch_database_generate_thread_id dbl).1) ∧
      (∀ t, t ∈ m2.doc.terms ↔
        t ∈ m.doc.terms ∨ t ∈ replyto_terms mid mf ∨
        (∃ p ∈ parent_keys w mid mf, _notmuch_database_find_unique_doc_id db "id" p = none ∧
          t = make_term "reference" p) ∨
        t = make_term "thread" tw) ∧
      (Sound db k → OwnDoc db k mid → KeysOk w →
        (∀ p ∈ parent_keys w mid mf, ∀ j,
          _notmuch_database_find_unique_doc_id db "id" p = some j →
          ∃ d2, dbl.get_document j = some d2 ∧ OneThread d2 tw) ∧
        (∀ c d, db.get_document c = some d → make_term "reference" mid ∈ d.terms →
          ∃ d2, dbl.get_document c = some d2 ∧ OneThread d2 tw)) := by
  obtain ⟨m0, hm0id, hm0fr, hm0v, hm0d, hm0t, hpe⟩ := link_to_parents_eq w db m mf mid hid none
  unfold _notmuch_database_link_message at h
  rw [hpe] at h
  cases hp : link_message_to_parents_loop db m0 none (parent_keys w mid mf) with
  | none => rw [hp] at h; cases h
  | some p =>
    rw [hp] at h
    obtain ⟨σp, postp, htp, hnp, hfp⟩ := parents_loop_post k mid _ db m0 none p hp
    obtain ⟨σx, postx, _, _, _⟩ := parents_loop_post k ('x' :: mid) _ db m0 none p hp
    simp only [postp.ret, ne_eq, not_true_eq_false, if_false] at h
    -- the message still has its id term only
    have hpid : OneId p.message.doc mid := by
      intro v
      rw [htp, hm0t]
      constructor
      · rintro ((h1 | h1) | ⟨q, _, _, h1⟩ | ⟨_, x, _, h1⟩)
        · exact (hid v).mp h1
        · unfold replyto_terms at h1
          split at h1
          · split at h1
            · simp [make_term_id, make_term_replyto] at h1
            · cases h1
          · cases h1
        · simp [make_term_id, make_term_reference] at h1
        · simp [make_term_id, make_term_thread] at h1
      · intro h1; exact Or.inl (Or.inl ((hid v).mpr h1))
    have hg : notmuch_message_get_message_id p.message = some mid :=
      term_value_id _ mid hpid
    unfold _notmuch_database_link_message_to_children at h
    simp only [hg] at h
    cases hc : link_message_to_children_loop mid p.db p.message p.thread_id
        (find_doc_ids p.db "reference" mid) with
    | none => rw [hc] at h; cases h
    | some c =>
      rw [hc] at h
      obtain ⟨σc, postc, htc, hnc, hcc⟩ := children_loop_post k mid _ p.db p.message
        p.thread_id c hc
      simp only [postc.ret, ne_eq, not_true_eq_false, if_false] at h
      have hlink : Linked (σc ∘ σp) mid db c.db := postp.linked.link_trans postc.linked
      -- terms of the message before a thread id is generated
      have hterms : ∀ t, t ∈ c.message.doc.terms ↔
          t ∈ m.doc.terms ∨ t ∈ replyto_terms mid mf ∨
          (∃ q ∈ parent_keys w mid mf, _notmuch_database_find_unique_doc_id db "id" q = none ∧
            t = make_term "reference" q) ∨
          (∃ x, c.thread_id = some x ∧ t = make_term "thread" x) := by
        intro t
        rw [htc, htp, hm0t]
        constructor
        · rintro (((h1 | h1) | h1 | ⟨_, x, hx, h1⟩) | ⟨hx0, x, hx, h1⟩)
          · exact Or.inl h1
          · exact Or.inr (Or.inl h1)
          · exact Or.inr (Or.inr (Or.inl h1))
          · exact Or.inr (Or.inr (Or.inr ⟨x, postc.keep x hx, h1⟩))
          · exact Or.inr (Or.inr (Or.inr ⟨x, hx, h1⟩))
        · rintro (h1 | h1 | h1 | ⟨x, hx, h1⟩)
          · exact Or.inl (Or.inl (Or.inl h1))
          · exact Or.inl (Or.inl (Or.inr h1))
          · exact Or.inl (Or.inr (Or.inl h1))
          · by_cases hpt : p.thread_id = none
            · exact Or.inr ⟨hpt, x, hx, h1⟩
            · obtain ⟨y, hy⟩ := Option.ne_none_iff_exists'.mp hpt
              have := postc.keep y hy
              rw [hx] at this
              have hxy : x = y := by simpa using this
              subst hxy
              exact Or.inl (Or.inr (Or.inr ⟨rfl, x, hy, h1⟩))
      -- the facts on parents and children, for the thread id `x` the loops end with
      have hfacts : ∀ x, c.thread_id = some x → Sound db k → OwnDoc db k mid → KeysOk w →
          (∀ q ∈ parent_keys w mid mf, ∀ j,
            _notmuch_database_find_unique_doc_id db "id" q = some j →
            ∃ d2, c.db.get_document j = some d2 ∧ OneThread d2 x) ∧
          (∀ i d, db.get_document i = some d → make_term "reference" mid ∈ d.terms →
            ∃ d2, c.db.get_document i = some d2 ∧ OneThread d2 x) := by
        intro x hx hs ho hko
        constructor
        · intro q hq j hj
          obtain ⟨d, u, y, hd, hu, hy, hσ⟩ :=
            hfp hs ho (parent_keys_not_self w hko mid mf) q hq j hj
          have hxy : c.thread_id = some y := postc.keep y hy
          rw [hx] at hxy
          have hxy : x = y := by simpa using hxy
          subst hxy
          obtain ⟨d2, hd2, r⟩ := (hlink.2.2 j).2 d hd
          refine ⟨d2, hd2, ?_⟩
          have := r.2.2.1 u hu
          simp only [Function.comp, hσ, postc.fix x hx] at this
          exact this
        · intro i d hd hr
          obtain ⟨d1, hd1, r1⟩ := (postx.linked.2.2 i).2 d hd
          have hr1 : make_term "reference" mid ∈ d1.terms :=
            (r1.1 _ (by simp [make_term_reference, make_term_thread])
              (by simp [make_term_reference])).mpr hr
          have hmem : i ∈ find_doc_ids p.db "reference" mid :=
            (mem_find_doc_ids_for_term _ _ _).mpr ⟨d1, hd1, hr1⟩
          have hik : ∀ c2 ∈ find_doc_ids p.db "reference" mid, c2 ≠ k := by
            intro c2 hc2 e
            subst e
            obtain ⟨dk, hdk, hrk⟩ := (mem_find_doc_ids_for_term _ _ _).mp hc2
            exact (postp.linked.own c2 ho dk hdk).2 mid hrk
          obtain ⟨d2, y, hd2, hy, hone⟩ := hcc (postp.linked.sound k hs) hik i hmem
          rw [hx] at hy
          have hxy : x = y := by simpa using hy
          subst hxy
          exact ⟨d2, hd2, hone⟩
      have hcid : c.message.doc_id = m.doc_id := postc.doc_id.trans (postp.doc_id.trans hm0id)
      have hcfr : c.message.frozen = m.frozen := postc.frozen.trans (postp.frozen.trans hm0fr)
      have hcv : c.message.doc.values = m.doc.values :=
        postc.values.trans (postp.values.trans hm0v)
      have hcd : c.message.doc.data = m.doc.data := postc.data.trans (postp.data.trans hm0d)
      cases hct : c.thread_id with
      | none =>
        rw [hct] at h
        simp only [Option.some.injEq, Prod.mk.injEq] at h
        obtain ⟨hret, hdb, hm2⟩ := h
        subst hret hdb hm2
        refine ⟨rfl, hcid, hcfr, (add_term_values _ _).1.trans hcv,
          (add_term_values _ _).2.trans hcd, σc ∘ σp, c.db,
          (_notmuch_database_generate_thread_id c.db).2, hlink, Or.inr rfl, fun t => ?_,
          fun hs ho hko => ⟨fun q hq j hj => ?_, fun i d hd hr => ?_⟩⟩
        · simp only [_notmuch_message_add_term, mem_add_term]
          rw [hterms t]
          constructor
          · rintro (h1 | h1 | h1 | h1 | ⟨x, hx, _⟩)
            · exact Or.inr (Or.inr (Or.inr h1))
            · exact Or.inl h1
            · exact Or.inr (Or.inl h1)
            · exact Or.inr (Or.inr (Or.inl h1))
            · rw [hct] at hx; cases hx
          · rintro (h1 | h1 | h1 | h1)
            · exact Or.inr (Or.inl h1)
            · exact Or.inr (Or.inr (Or.inl h1))
            · exact Or.inr (Or.inr (Or.inr (Or.inl h1)))
            · exact Or.inl h1
        · have hpn : p.thread_id = none := by
            cases hpt : p.thread_id with
            | none => rfl
            | some y => have := postc.keep y hpt; rw [hct] at this; cases this
          have := hnp hpn q hq
          rw [this] at hj; cases hj
        · exfalso
          obtain ⟨d1, hd1, r1⟩ := (postx.linked.2.2 i).2 d hd
          have hr1 : make_term "reference" mid ∈ d1.terms :=
            (r1.1 _ (by simp [make_term_reference, make_term_thread])
              (by simp [make_term_reference])).mpr hr
          have hmem : i ∈ find_doc_ids p.db "reference" mid :=
            (mem_find_doc_ids_for_term _ _ _).mpr ⟨d1, hd1, hr1⟩
          rw [hnc hct] at hmem
          cases hmem
      | some x =>
        rw [hct] at h
        simp only [Option.some.injEq, Prod.mk.injEq] at h
        obtain ⟨hret, hdb, hm2⟩ := h
        subst hret hdb hm2
        refine ⟨rfl, hcid, hcfr, hcv, hcd, σc ∘ σp, c.db, x, hlink, Or.inl rfl, fun t => ?_,
          fun hs ho hko => hfacts x hct hs ho hko⟩
        rw [hterms t]
        simp only [hct, Option.some.injEq, exists_eq_left']

/-! ### Adding a message -/

/-- Thread resolution for a new message returns. -/
theorem link_message_total (w : World) (k : Nat) (mid : Str) (db : Database) (m : Message)
    (mf : MessageFile) (hid : OneId m.doc mid) (hs : Sound db k) (ho : OwnDoc db k mid)
    (hko : KeysOk w) :
    ∃ r, _notmuch_database_link_message w db m mf = some r := by
  obtain ⟨m0, _, _, _, _, hm0t, hpe⟩ := link_to_parents_eq w db m mf mid hid none
  obtain ⟨p, hp⟩ := parents_loop_total k mid (parent_keys w mid mf) db m0 none hs ho
    (parent_keys_not_self w hko mid mf)
  obtain ⟨σp, postp, htp, _, _⟩ := parents_loop_post k mid _ db m0 none p hp
  have hpid : OneId p.message.doc mid := by
    intro v
    rw [htp, hm0t]
    constructor
    · rintro ((h1 | h1) | ⟨q, _, _, h1⟩ | ⟨_, x, _, h1⟩)
      · exact (hid v).mp h1
      · unfold replyto_terms at h1
        split at h1
        · split at h1
          · simp [make_term_id, make_term_replyto] at h1
          · cases h1
        · cases h1
      · simp [make_term_id, make_term_reference] at h1
      · simp [make_term_id, make_term_thread] at h1
    · intro h1; exact Or.inl (Or.inl ((hid v).mpr h1))
  have hg : notmuch_message_get_message_id p.message = some mid := term_value_id _ mid hpid
  have hs2 := postp.linked.sound k hs
  have ho2 := postp.linked.own k ho
  obtain ⟨c, hc⟩ := children_loop_total k mid (find_doc_ids p.db "reference" mid) p.db
    p.message p.thread_id hs2 (by
      intro c hc
      obtain ⟨d, hd, hr⟩ := (mem_find_doc_ids_for_term _ _ _).mp hc
      have hck : c ≠ k := by
        intro e; subst e; exact (ho2 d hd).2 mid hr
      obtain ⟨u, hu⟩ := hs2 c d hck hd ⟨mid, Or.inr (Or.inl hr)⟩
      exact ⟨hck, d, u, hd, hu⟩)
  obtain ⟨σc, postc, _, _, _⟩ := children_loop_post k mid _ p.db p.message p.thread_id c hc
  unfold _notmuch_database_link_message
  rw [hpe, hp]
  simp only [postp.ret, ne_eq, not_true_eq_false, if_false]
  unfold _notmuch_database_link_message_to_children
  simp only [hg, hc, postc.ret, ne_eq, not_true_eq_false, if_false]
  cases c.thread_id with
  | none => exact ⟨_, rfl⟩
  | some x => exact ⟨_, rfl⟩

theorem ensure_writable_rw (db : Database) (h : db.mode = NOTMUCH_DATABASE_MODE_READ_WRITE) :
    _notmuch_database_ensure_writable db = NOTMUCH_STATUS_SUCCESS := by
  simp [_notmuch_database_ensure_writable, h]

/-- Unfolding of `notmuch_database_add_message` for a message that is not in the
database yet. -/
theorem add_message_eq_new (w : World) (db : Database) (f : Str) (mf : MessageFile)
    (mid : Str) (hmode : db.mode = NOTMUCH_DATABASE_MODE_READ_WRITE)
    (hopen : w.notmuch_message_file_open f = some mf) (hmail : looks_like_mail mf)
    (hmid : message_id_of_file w mf f = some mid)
    (hnew : _notmuch_database_find_unique_doc_id db "id" mid = none) :
    notmuch_database_add_message w db f =
      match _notmuch_database_link_message w
        (_notmuch_message_add_filename w (db.add_document (new_doc mid)).1
          ⟨db.lastdocid + 1, 0, new_doc mid⟩ f).1
        (_notmuch_message_add_term
          (_notmuch_message_add_filename w (db.add_document (new_doc mid)).1
            ⟨db.lastdocid + 1, 0, new_doc mid⟩ f).2 "type" "mail".toList) mf with
      | none => none
      | some (ret, db2, message) =>
        if ret ≠ NOTMUCH_STATUS_SUCCESS then some ⟨ret, db2, none⟩
        else
          some ⟨NOTMUCH_STATUS_SUCCESS,
            _notmuch_message_sync db2
              (_notmuch_message_index_file w
                (_notmuch_message_set_date w message (mf.header "date")) f),
            some (_notmuch_message_index_file w
                (_notmuch_message_set_date w message (mf.header "date")) f)⟩ := by
  unfold looks_like_mail at hmail
  simp only [notmuch_database_add_message, ensure_writable_rw db hmode, ne_eq,
    not_true_eq_false, if_false, hopen, hmail, hmid, _notmuch_message_create_for_message_id,
    hnew, if_true, new_doc, add_document_id] <;> rfl

/-- Unfolding of `notmuch_database_add_message` for a message that is in the
database already. -/
theorem add_message_eq_dup (w : World) (db : Database) (f : Str) (mf : MessageFile)
    (mid : Str) (j : Nat) (hmode : db.mode = NOTMUCH_DATABASE_MODE_READ_WRITE)
    (hopen : w.notmuch_message_file_open f = some mf) (hmail : looks_like_mail mf)
    (hmid : message_id_of_file w mf f = some mid)
    (hj : _notmuch_database_find_unique_doc_id db "id" mid = some j) :
    ∃ d, db.get_document j = some d ∧ make_term "id" mid ∈ d.terms ∧
      notmuch_database_add_message w db f =
        some ⟨NOTMUCH_STATUS_DUPLICATE_MESSAGE_ID,
          _notmuch_message_sync (_notmuch_message_add_filename w db ⟨j, 0, d⟩ f).1
            (_notmuch_message_add_filename w db ⟨j, 0, d⟩ f).2, none⟩ := by
  obtain ⟨d, hd, hq⟩ := find_unique_some db "id" mid j hj
  refine ⟨d, hd, hq, ?_⟩
  unfold looks_like_mail at hmail
  simp only [notmuch_database_add_message, ensure_writable_rw db hmode, ne_eq,
    not_true_eq_false, if_false, hopen, hmail, hmid, _notmuch_message_create_for_message_id,
    hj, _notmuch_message_create, hd, Option.map_some']
  simp

theorem DirDoc.no_id {d : Document} (h : DirDoc d) (v : Str) : make_term "id" v ∉ d.terms := by
  intro hm
  obtain ⟨x, hx | hx⟩ := h _ hm <;>
    simp [make_term_id, make_term_directory, make_term_directory_direntry] at hx

theorem DirDoc.no_reference {d : Document} (h : DirDoc d) (v : Str) :
    make_term "reference" v ∉ d.terms := by
  intro hm
  obtain ⟨x, hx | hx⟩ := h _ hm <;>
    simp [make_term_reference, make_term_directory, make_term_directory_direntry] at hx

theorem DirDoc.no_thread {d : Document} (h : DirDoc d) (v : Str) :
    make_term "thread" v ∉ d.terms := by
  intro hm
  obtain ⟨x, hx | hx⟩ := h _ hm <;>
    simp [make_term_thread, make_term_directory, make_term_directory_direntry] at hx

theorem DirDoc.no_type {d : Document} (h : DirDoc d) (v : Str) :
    make_term "type" v ∉ d.terms := by
  intro hm
  obtain ⟨x, hx | hx⟩ := h _ hm <;>
    simp [make_term_type, make_term_directory, make_term_directory_direntry] at hx

theorem DocLinked.dirdoc {σ : Str → Str} {mid : Str} {d d2 : Document}
    (r : DocLinked σ mid d d2) (h : DirDoc d) : DirDoc d2 := by
  intro t ht
  by_cases hg : ∃ u, t = make_term "thread" u
  · obtain ⟨u, hu⟩ := hg
    subst hu
    obtain ⟨u2, hu2⟩ := r.2.2.2 ⟨u, ht⟩
    exact absurd hu2 (h.no_thread u2)
  · by_cases hm : t = make_term "reference" mid
    · subst hm
      exact absurd (r.2.1 ht) (h.no_reference mid)
    · exact h t ((r.1 t (fun u hu => hg ⟨u, hu⟩) hm).mp ht)

theorem set_date_terms (w : World) (m : Message) (date : Option Str) :
    (_notmuch_message_set_date w m date).doc.terms = m.doc.terms := rfl

theorem mem_index_file (w : World) (m : Message) (f : Str) (t : Str) :
    t ∈ (_notmuch_message_index_file w m f).doc.terms ↔
      t ∈ w.index_terms f ∨ t ∈ m.doc.terms := by
  unfold _notmuch_message_index_file
  exact mem_foldl_add_term _ _ _

/-- The state in which thread resolution starts for a new message: the
database `db2` holds the documents of `db`, the new document under the next
id, and directory documents behind it. -/
theorem new_message_setup (w : World) (db : Database) (f : Str) (mid : Str) (db2 : Database)
    (m1 : Message) (e : Str)
    (hdb2 : (_notmuch_message_add_filename w (db.add_document (new_doc mid)).1
      ⟨db.lastdocid + 1, 0, new_doc mid⟩ f).1 = db2)
    (hm1 : _notmuch_message_add_term (_notmuch_message_add_term
      ⟨db.lastdocid + 1, 0, new_doc mid⟩ "file-direntry" e) "type" "mail".toList = m1) :
    (∀ t, t ∈ m1.doc.terms ↔ t = make_term "type" "mail".toList ∨
      t = make_term "file-direntry" e ∨ t = make_term "id" mid) ∧
    m1.doc_id = db.lastdocid + 1 ∧ m1.frozen = 0 ∧ OneId m1.doc mid ∧
    (db2.path = db.path ∧ db2.mode = db.mode) ∧ db.lastdocid + 1 ≤ db2.lastdocid ∧
    (∀ i, i ≤ db.lastdocid → db2.get_document i = db.get_document i) ∧
    db2.get_document (db.lastdocid + 1) = some (new_doc mid) ∧
    (∀ i d, db.lastdocid + 1 < i → db2.get_document i = some d → DirDoc d) ∧
    OwnDoc db2 (db.lastdocid + 1) mid ∧
    (Sound db 0 → Sound db2 (db.lastdocid + 1)) ∧
    (∀ p, p ≠ mid → _notmuch_database_find_unique_doc_id db2 "id" p =
      _notmuch_database_find_unique_doc_id db "id" p) := by
  obtain ⟨hext, _⟩ := add_filename_spec w (db.add_document (new_doc mid)).1
    ⟨db.lastdocid + 1, 0, new_doc mid⟩ f
  rw [hdb2] at hext
  have hm1t : ∀ t, t ∈ m1.doc.terms ↔ t = make_term "type" "mail".toList ∨
      t = make_term "file-direntry" e ∨ t = make_term "id" mid := by
    intro t
    rw [← hm1]
    simp only [_notmuch_message_add_term, mem_add_term, new_doc, List.mem_singleton]
  have hm1id : m1.doc_id = db.lastdocid + 1 := by rw [← hm1]; rfl
  have hm1fr : m1.frozen = 0 := by rw [← hm1]; rfl
  have hid : OneId m1.doc mid := by
    intro v
    rw [hm1t]
    simp [make_term_id, make_term_type, make_term_file_direntry]
  obtain ⟨hsame, hle, hold, hnewd⟩ := hext
  simp only [lastdocid_add] at hle hold hnewd
  have hg_old : ∀ i, i ≤ db.lastdocid → db2.get_document i = db.get_document i := by
    intro i hi
    rw [hold i (by omega), get_document_add]
    have : i ≠ db.lastdocid + 1 := by omega
    simp [this]
  have hg_own : db2.get_document (db.lastdocid + 1) = some (new_doc mid) := by
    rw [hold _ (Nat.le_refl _), get_document_add]; simp
  have hown : OwnDoc db2 (db.lastdocid + 1) mid := by
    intro d hd
    rw [hg_own] at hd
    cases hd
    simp [new_doc, make_term_id, make_term_reference]
  have hnone_db : ∀ i, db.lastdocid < i → db.get_document i = none := by
    intro i hi
    cases hd : db.get_document i with
    | none => rfl
    | some d => have := get_document_range db i d hd; omega
  have hsound : Sound db 0 → Sound db2 (db.lastdocid + 1) := by
    intro hs i d hik hd hv
    by_cases hi : i ≤ db.lastdocid
    · rw [hg_old i hi] at hd
      have hi0 : i ≠ 0 := by
        have := get_document_range db i d hd; omega
      exact hs i d hi0 hd hv
    · have hdir := hnewd i d (by omega) hd
      obtain ⟨v, hv | hv | hv⟩ := hv
      · exact absurd hv (hdir.no_id v)
      · exact absurd hv (hdir.no_reference v)
      · exact absurd hv (hdir.no_thread v)
  have hfind : ∀ p, p ≠ mid → _notmuch_database_find_unique_doc_id db2 "id" p =
      _notmuch_database_find_unique_doc_id db "id" p := by
    intro p hp
    apply find_unique_congr
    intro i
    by_cases hi : i ≤ db.lastdocid
    · rw [hg_old i hi]
    · by_cases hik : i = db.lastdocid + 1
      · subst hik
        rw [hg_own, hnone_db _ (by omega)]
        simp [new_doc, make_term_id, hp]
      · rw [hnone_db i (by omega)]
        constructor
        · rintro ⟨d, hd, ht⟩
          exact absurd ht ((hnewd i d (by omega) hd).no_id p)
        · rintro ⟨d, hd, _⟩; cases hd
  exact ⟨hm1t, hm1id, hm1fr, hid, ⟨hsame.1, hsame.2.1⟩, hle, hg_old, hg_own, hnewd, hown,
    hsound, hfind⟩

/-- Adding a message that is new to the database: partial correctness. -/
theorem add_message_new_post (w : World) (db : Database) (f : Str) (mf : MessageFile)
    (mid : Str) (r : AddResult) (hko : KeysOk w)
    (hmode : db.mode = NOTMUCH_DATABASE_MODE_READ_WRITE)
    (hopen : w.notmuch_message_file_open f = some mf) (hmail : looks_like_mail mf)
    (hmid : message_id_of_file w mf f = some mid)
    (hnew : _notmuch_database_find_unique_doc_id db "id" mid = none)
    (h : notmuch_database_add_message w db f = some r) :
    ∃ σ tw dM, AddPost w db f mf mid r σ tw dM := by
  rw [add_message_eq_new w db f mf mid hmode hopen hmail hmid hnew] at h
  obtain ⟨_, hnamed⟩ := add_filename_spec w (db.add_document (new_doc mid)).1
    ⟨db.lastdocid + 1, 0, new_doc mid⟩ f
  generalize hdb2 : (_notmuch_message_add_filename w (db.add_document (new_doc mid)).1
    ⟨db.lastdocid + 1, 0, new_doc mid⟩ f).1 = db2 at h
  rw [hnamed] at h
  generalize he : (_notmuch_database_filename_to_direntry w
    (db.add_document (new_doc mid)).1 f).2.2 = e at h
  generalize hm1 : _notmuch_message_add_term (_notmuch_message_add_term
    ⟨db.lastdocid + 1, 0, new_doc mid⟩ "file-direntry" e) "type" "mail".toList = m1 at h
  obtain ⟨hm1t, hm1id, hm1fr, hid, hsame, hle, hg_old, hg_own, hnewd, hown, hsound, hfind⟩ :=
    new_message_setup w db f mid db2 m1 e hdb2 hm1
  cases hl : _notmuch_database_link_message w db2 m1 mf with
  | none => rw [hl] at h; cases h
  | some res =>
    obtain ⟨ret, db3, m2⟩ := res
    rw [hl] at h
    obtain ⟨hret, hm2id, hm2fr, _, _, σ, dbl, tw, hlink, hdb3, hm2t, hfacts⟩ :=
      link_message_post w (db.lastdocid + 1) mid db2 m1 mf hid ret db3 m2 hl
    subst hret
    simp only [ne_eq, not_true_eq_false, if_false, Option.some.injEq] at h
    subst h
    -- documents of the database the message is written to
    have hg3 : ∀ i, db3.get_document i = dbl.get_document i := by
      intro i
      rcases hdb3 with e3 | e3 <;> rw [e3]
      rfl
    have hl3 : db3.lastdocid = dbl.lastdocid := by
      rcases hdb3 with e3 | e3 <;> rw [e3]
      rfl
    have hh3 : db3.path = dbl.path ∧ db3.mode = dbl.mode := by
      rcases hdb3 with e3 | e3 <;> rw [e3]
      · exact ⟨rfl, rfl⟩
      · exact ⟨rfl, rfl⟩
    have hk3 : 0 < db.lastdocid + 1 ∧ db.lastdocid + 1 ≤ db3.lastdocid := by
      rw [hl3, hlink.2.1]; omega
    have hsync : ∀ (mfin : Message), mfin.doc_id = db.lastdocid + 1 → mfin.frozen = 0 →
        ∀ i, (_notmuch_message_sync db3 mfin).get_document i =
          if i = db.lastdocid + 1 then some mfin.doc else dbl.get_document i := by
      intro mfin h1 h2 i
      simp only [_notmuch_message_sync, h2, if_true, h1]
      rw [get_document_replace db3 _ _ i hk3, hg3]
    have hfin_id : (_notmuch_message_index_file w
        (_notmuch_message_set_date w m2 (mf.header "date")) f).doc_id = db.lastdocid + 1 :=
      hm2id.trans hm1id
    have hfin_fr : (_notmuch_message_index_file w
        (_notmuch_message_set_date w m2 (mf.header "date")) f).frozen = 0 :=
      hm2fr.trans hm1fr
    have hget := hsync _ hfin_id hfin_fr
    have hkeys := parent_keys_not_self w hko mid mf
    refine ⟨σ, tw, (_notmuch_message_index_file w
        (_notmuch_message_set_date w m2 (mf.header "date")) f).doc, ⟨rfl, ?_, fun t => ?_, fun i hi => ⟨fun hn => ?_, fun d hd => ?_⟩,
      fun i d hi hd => ?_, ?_, ?_, fun hs p hp j hj => ?_, fun hs c d hd hr => ?_⟩⟩
    · show (_notmuch_message_sync db3 _).get_document _ = _
      rw [hget]; simp
    · rw [mem_index_file, set_date_terms, hm2t, hm1t, he]
      constructor
      · rintro (h1 | (h1 | h1 | h1) | h1 | ⟨p, hp, hnf, h1⟩ | h1)
        · exact Or.inr (Or.inr (Or.inr (Or.inr (Or.inr (Or.inr h1)))))
        · exact Or.inr (Or.inr (Or.inl h1))
        · exact Or.inr (Or.inl h1)
        · exact Or.inl h1
        · exact Or.inr (Or.inr (Or.inr (Or.inl h1)))
        · rw [hfind p (hkeys p hp)] at hnf
          exact Or.inr (Or.inr (Or.inr (Or.inr (Or.inl ⟨p, hp, hnf, h1⟩))))
        · exact Or.inr (Or.inr (Or.inr (Or.inr (Or.inr (Or.inl h1)))))
      · rintro (h1 | h1 | h1 | h1 | ⟨p, hp, hnf, h1⟩ | h1 | h1)
        · exact Or.inr (Or.inl (Or.inr (Or.inr h1)))
        · exact Or.inr (Or.inl (Or.inr (Or.inl h1)))
        · exact Or.inr (Or.inl (Or.inl h1))
        · exact Or.inr (Or.inr (Or.inl h1))
        · rw [← hfind p (hkeys p hp)] at hnf
          exact Or.inr (Or.inr (Or.inr (Or.inl ⟨p, hp, hnf, h1⟩)))
        · exact Or.inr (Or.inr (Or.inr (Or.inr h1)))
        · exact Or.inl h1
    · show (_notmuch_message_sync db3 _).get_document _ = _
      rw [hget]
      have : i ≠ db.lastdocid + 1 := by omega
      simp only [this, if_false]
      exact (hlink.2.2 i).1 (by rw [hg_old i hi]; exact hn)
    · show ∃ d2, (_notmuch_message_sync db3 _).get_document _ = _ ∧ _
      rw [hget]
      have : i ≠ db.lastdocid + 1 := by omega
      simp only [this, if_false]
      exact (hlink.2.2 i).2 d (by rw [hg_old i hi]; exact hd)
    · have hd' : (_notmuch_message_sync db3 _).get_document i = some d := hd
      rw [hget] at hd'
      have : i ≠ db.lastdocid + 1 := by omega
      simp only [this, if_false] at hd'
      cases hd2 : db2.get_document i with
      | none => rw [(hlink.2.2 i).1 hd2] at hd'; cases hd'
      | some d2 =>
        obtain ⟨d3, hd3, r3⟩ := (hlink.2.2 i).2 d2 hd2
        rw [hd'] at hd3
        cases hd3
        exact r3.dirdoc (hnewd i d2 (by omega) hd2)
    · show (_notmuch_message_sync db3 _).path = _
      simp only [_notmuch_message_sync, hfin_fr, if_true]
      show db3.path = db.path
      rw [hh3.1, hlink.1.1, hsame.1]
    · show (_notmuch_message_sync db3 _).mode = _
      simp only [_notmuch_message_sync, hfin_fr, if_true]
      show db3.mode = db.mode
      rw [hh3.2, hlink.1.2.1, hsame.2]
    · have hjr : ∃ dj, db.get_document j = some dj := by
        obtain ⟨dj, hdj, _⟩ := find_unique_some db "id" p j hj
        exact ⟨dj, hdj⟩
      obtain ⟨dj, hdj⟩ := hjr
      have hjle := (get_document_range db j dj hdj).2
      rw [← hfind p (hkeys p hp)] at hj
      obtain ⟨d2, hd2, hone⟩ := (hfacts (hsound hs) hown hko).1 p hp j hj
      refine ⟨d2, ?_, hone⟩
      show (_notmuch_message_sync db3 _).get_document _ = _
      rw [hget]
      have : j ≠ db.lastdocid + 1 := by omega
      simp only [this, if_false]
      exact hd2
    · have hcle := (get_document_range db c d hd).2
      obtain ⟨d2, hd2, hone⟩ := (hfacts (hsound hs) hown hko).2 c d
        (by rw [hg_old c hcle]; exact hd) hr
      refine ⟨d2, ?_, hone⟩
      show (_notmuch_message_sync db3 _).get_document _ = _
      rw [hget]
      have : c ≠ db.lastdocid + 1 := by omega
      simp only [this, if_false]
      exact hd2

/-- Adding a message that is new to a database whose documents are soundly
threaded returns. -/
theorem add_message_new_total (w : World) (db : Database) (f : Str) (mf : MessageFile)
    (mid : Str) (hko : KeysOk w) (hs : Sound db 0)
    (hmode : db.mode = NOTMUCH_DATABASE_MODE_READ_WRITE)
    (hopen : w.notmuch_message_file_open f = some mf) (hmail : looks_like_mail mf)
    (hmid : message_id_of_file w mf f = some mid)
    (hnew : _notmuch_database_find_unique_doc_id db "id" mid = none) :
    ∃ r, notmuch_database_add_message w db f = some r := by
  rw [add_message_eq_new w db f mf mid hmode hopen hmail hmid hnew]
  obtain ⟨_, hnamed⟩ := add_filename_spec w (db.add_document (new_doc mid)).1
    ⟨db.lastdocid + 1, 0, new_doc mid⟩ f
  generalize hdb2 : (_notmuch_message_add_filename w (db.add_document (new_doc mid)).1
    ⟨db.lastdocid + 1, 0, new_doc mid⟩ f).1 = db2
  rw [hnamed]
  generalize he : (_notmuch_database_filename_to_direntry w
    (db.add_document (new_doc mid)).1 f).2.2 = e
  generalize hm1 : _notmuch_message_add_term (_notmuch_message_add_term
    ⟨db.lastdocid + 1, 0, new_doc mid⟩ "file-direntry" e) "type" "mail".toList = m1
  obtain ⟨_, _, _, hid, _, _, _, _, _, hown, hsound, _⟩ :=
    new_message_setup w db f mid db2 m1 e hdb2 hm1
  obtain ⟨res, hres⟩ := link_message_total w (db.lastdocid + 1) mid db2 m1 mf hid (hsound hs)
    hown hko
  obtain ⟨ret, db3, m2⟩ := res
  rw [hres]
  simp only
  split
  · exact ⟨_, rfl⟩
  · exact ⟨_, rfl⟩

/-- The ways in which `notmuch_database_add_message` returns. -/
theorem add_message_cases (w : World) (db : Database) (f : Str) (r : AddResult)
    (h : notmuch_database_add_message w db f = some r) :
    (r.db = db ∧ r.status ≠ NOTMUCH_STATUS_SUCCESS ∧
      r.status ≠ NOTMUCH_STATUS_DUPLICATE_MESSAGE_ID) ∨
    (∃ mf mid, db.mode = NOTMUCH_DATABASE_MODE_READ_WRITE ∧
      w.notmuch_message_file_open f = some mf ∧ looks_like_mail mf ∧
      message_id_of_file w mf f = some mid ∧
      (_notmuch_database_find_unique_doc_id db "id" mid = none ∨
        ∃ j, _notmuch_database_find_unique_doc_id db "id" mid = some j)) := by
  by_cases hmode : db.mode = NOTMUCH_DATABASE_MODE_READ_WRITE
  · cases hopen : w.notmuch_message_file_open f with
    | none =>
      left
      simp only [notmuch_database_add_message, ensure_writable_rw db hmode, ne_eq,
        not_true_eq_false, if_false, hopen, Option.some.injEq] at h
      subst h
      exact ⟨rfl, by simp, by simp⟩
    | some mf =>
      by_cases hmail : looks_like_mail mf
      · cases hmid : message_id_of_file w mf f with
        | none =>
          left
          unfold looks_like_mail at hmail
          simp only [notmuch_database_add_message, ensure_writable_rw db hmode, ne_eq,
            not_true_eq_false, if_false, hopen, hmail, hmid, Option.some.injEq] at h
          subst h
          exact ⟨rfl, by simp, by simp⟩
        | some mid =>
          right
          refine ⟨mf, mid, hmode, rfl, hmail, hmid, ?_⟩
          cases _notmuch_database_find_unique_doc_id db "id" mid with
          | none => exact Or.inl rfl
          | some j => exact Or.inr ⟨j, rfl⟩
      · left
        unfold looks_like_mail at hmail
        have hmail2 := not_not.mp hmail
        simp only [notmuch_database_add_message, ensure_writable_rw db hmode, ne_eq,
          not_true_eq_false, if_false, hopen, hmail2, and_self, if_true,
          Option.some.injEq] at h
        subst h
        exact ⟨rfl, by simp, by simp⟩
  · left
    have hro : db.mode = NOTMUCH_DATABASE_MODE_READ_ONLY := by
      cases hm : db.mode with
      | NOTMUCH_DATABASE_MODE_READ_ONLY => rfl
      | NOTMUCH_DATABASE_MODE_READ_WRITE => exact absurd hm hmode
    have he : _notmuch_database_ensure_writable db = NOTMUCH_STATUS_READ_ONLY_DATABASE := by
      simp [_notmuch_database_ensure_writable, hro]
    simp only [notmuch_database_add_message, he, ne_eq, if_true, Option.some.injEq,
      not_false_eq_true, reduceCtorEq] at h
    subst h
    exact ⟨rfl, by simp, by simp⟩

theorem is_boolean_term_id (v : Str) :
    is_boolean_term (make_term "id" v) = true := by
  rw [make_term_id]
  simp [is_boolean_term, BOOLEAN_PREFIX_INTERNAL, BOOLEAN_PREFIX_EXTERNAL, List.isPrefixOf]
theorem is_boolean_term_thread (v : Str) :
    is_boolean_term (make_term "thread" v) = true := by
  rw [make_term_thread]
  simp [is_boolean_term, BOOLEAN_PREFIX_INTERNAL, BOOLEAN_PREFIX_EXTERNAL, List.isPrefixOf]
theorem is_boolean_term_type (v : Str) :
    is_boolean_term (make_term "type" v) = true := by
  rw [make_term_type]
  simp [is_boolean_term, BOOLEAN_PREFIX_INTERNAL, BOOLEAN_PREFIX_EXTERNAL, List.isPrefixOf]
theorem is_boolean_term_reference (v : Str) :
    is_boolean_term (make_term "reference" v) = true := by
  rw [make_term_reference]
  simp [is_boolean_term, BOOLEAN_PREFIX_INTERNAL, BOOLEAN_PREFIX_EXTERNAL, List.isPrefixOf]
theorem is_boolean_term_replyto (v : Str) :
    is_boolean_term (make_term "replyto" v) = true := by
  rw [make_term_replyto]
  simp [is_boolean_term, BOOLEAN_PREFIX_INTERNAL, BOOLEAN_PREFIX_EXTERNAL, List.isPrefixOf]

theorem mem_replyto_terms (mid : Str) (mf : MessageFile) (t : Str)
    (h : t ∈ replyto_terms mid mf) : ∃ x, x ≠ mid ∧ t = make_term "replyto" x := by
  unfold replyto_terms at h
  split at h
  · split at h
    · rename_i irt _ hne
      exact ⟨irt, hne, by simpa using h⟩
    · cases h
  · cases h

/-- The thread, id and type terms of the document stored for a new message. -/
theorem AddPost.own_terms {w : World} {db : Database} {f : Str} {mf : MessageFile} {mid : Str}
    {r : AddResult} {σ : Str → Str} {tw : Str} {dM : Document}
    (p : AddPost w db f mf mid r σ tw dM) (hix : IndexOk w) :
    OneThread dM tw ∧ OneId dM mid ∧
    (∀ v, make_term "type" v ∈ dM.terms ↔ v = "mail".toList) := by
  refine ⟨fun v => ?_, fun v => ?_, fun v => ?_⟩
  · rw [p.terms]
    constructor
    · rintro (h | h | h | h | ⟨q, _, _, h⟩ | h | h)
      · simp [make_term_thread, make_term_id] at h
      · simp [make_term_thread, make_term_file_direntry] at h
      · simp [make_term_thread, make_term_type] at h
      · obtain ⟨x, _, hx⟩ := mem_replyto_terms mid mf _ h
        simp [make_term_thread, make_term_replyto] at hx
      · simp [make_term_thread, make_term_reference] at h
      · simpa [make_term_thread] using h
      · have := hix f _ h
        rw [is_boolean_term_thread] at this; cases this
    · intro h; subst h; exact Or.inr (Or.inr (Or.inr (Or.inr (Or.inr (Or.inl rfl)))))
  · rw [p.terms]
    constructor
    · rintro (h | h | h | h | ⟨q, _, _, h⟩ | h | h)
      · simpa [make_term_id] using h
      · simp [make_term_id, make_term_file_direntry] at h
      · simp [make_term_id, make_term_type] at h
      · obtain ⟨x, _, hx⟩ := mem_replyto_terms mid mf _ h
        simp [make_term_id, make_term_replyto] at hx
      · simp [make_term_id, make_term_reference] at h
      · simp [make_term_thread, make_term_id] at h
      · have := hix f _ h
        rw [is_boolean_term_id] at this; cases this
    · intro h; subst h; exact Or.inl rfl
  · rw [p.terms]
    constructor
    · rintro (h | h | h | h | ⟨q, _, _, h⟩ | h | h)
      · simp [make_term_id, make_term_type] at h
      · simp [make_term_type, make_term_file_direntry] at h
      · simpa [make_term_type] using h
      · obtain ⟨x, _, hx⟩ := mem_replyto_terms mid mf _ h
        simp [make_term_type, make_term_replyto] at hx
      · simp [make_term_type, make_term_reference] at h
      · simp [make_term_thread, make_term_type] at h
      · have := hix f _ h
        rw [is_boolean_term_type] at this; cases this
    · intro h; subst h; exact Or.inr (Or.inr (Or.inl rfl))

/-- Every document after a new message has been added. -/
theorem AddPost.docs {w : World} {db : Database} {f : Str} {mf : MessageFile} {mid : Str}
    {r : AddResult} {σ : Str → Str} {tw : Str} {dM : Document}
    (p : AddPost w db f mf mid r σ tw dM) (i : Nat) (d2 : Document)
    (h : r.db.get_document i = some d2) :
    (i ≤ db.lastdocid ∧ ∃ d, db.get_document i = some d ∧ DocLinked σ mid d d2) ∨
    (i = db.lastdocid + 1 ∧ d2 = dM) ∨ (db.lastdocid + 1 < i ∧ DirDoc d2) := by
  by_cases hi : i ≤ db.lastdocid
  · left
    refine ⟨hi, ?_⟩
    cases hd : db.get_document i with
    | none => rw [(p.old i hi).1 hd] at h; cases h
    | some d =>
      obtain ⟨d3, hd3, r3⟩ := (p.old i hi).2 d hd
      rw [h] at hd3; cases hd3
      exact ⟨d, rfl, r3⟩
  · by_cases hk : i = db.lastdocid + 1
    · subst hk
      rw [p.own] at h
      exact Or.inr (Or.inl ⟨rfl, (Option.some.inj h).symm⟩)
    · exact Or.inr (Or.inr ⟨by omega, p.dirs i d2 (by omega) h⟩)

/-- The documents after a file has been added to a message that is in the
database already (document `j`). -/
theorem add_message_dup_docs (w : World) (db : Database) (f : Str) (j : Nat) (d : Document)
    (hd : db.get_document j = some d) (i : Nat) (d2 : Document)
    (h : (_notmuch_message_sync (_notmuch_message_add_filename w db ⟨j, 0, d⟩ f).1
      (_notmuch_message_add_filename w db ⟨j, 0, d⟩ f).2).get_document i = some d2) :
    (i = j ∧ d2 = d.add_term (make_term "file-direntry"
        (_notmuch_database_filename_to_direntry w db f).2.2)) ∨
    (i ≠ j ∧ db.get_document i = some d2) ∨
    (db.lastdocid < i ∧ DirDoc d2) := by
  obtain ⟨hext, hnamed⟩ := add_filename_spec w db ⟨j, 0, d⟩ f
  rw [hnamed] at h
  generalize (_notmuch_message_add_filename w db ⟨j, 0, d⟩ f).1 = db2 at h hext
  obtain ⟨_, hle, hold, hnewd⟩ := hext
  have hjr := get_document_range db j d hd
  have hj2 : 0 < j ∧ j ≤ db2.lastdocid := ⟨hjr.1, by omega⟩
  simp only [_notmuch_message_sync, _notmuch_message_add_term, if_true] at h
  rw [get_document_replace db2 _ j i hj2] at h
  by_cases hij : i = j
  · left
    simp only [hij, if_true, Option.some.injEq] at h
    exact ⟨hij, h.symm⟩
  · right
    simp only [hij, if_false] at h
    by_cases hi : i ≤ db.lastdocid
    · left
      rw [hold i hi] at h
      exact ⟨hij, h⟩
    · right
      exact ⟨by omega, hnewd i d2 (by omega) h⟩

/-- Claim C7: if every mail document carries exactly one type term (type=mail), exactly
one id term and exactly one thread term before `notmuch_database_add_message`, and the
call returns Success or DuplicateMessageId, then so does every mail document afterwards,
the new one and those changed by thread merges included. -/
theorem add_message_keeps_mail_docs (w : World) (db : Database) (f : Str) (r : AddResult)
    (hko : KeysOk w) (hix : IndexOk w) (hinv : MailDocsOk db)
    (h : notmuch_database_add_message w db f = some r)
    (_hst : r.status = NOTMUCH_STATUS_SUCCESS ∨
      r.status = NOTMUCH_STATUS_DUPLICATE_MESSAGE_ID) :
    MailDocsOk r.db := by
  rcases add_message_cases w db f r h with ⟨hdb, _, _⟩ | ⟨mf, mid, hmode, hopen, hmail, hmid, hf⟩
  · rw [hdb]; exact hinv
  · rcases hf with hnew | ⟨j, hj⟩
    · obtain ⟨σ, tw, dM, post⟩ :=
        add_message_new_post w db f mf mid r hko hmode hopen hmail hmid hnew h
      intro i d2 hd2 hm
      rcases post.docs i d2 hd2 with ⟨_, d, hd, rl⟩ | ⟨_, he⟩ | ⟨_, hdir⟩
      · have hty : ∀ v, make_term "type" v ∈ d2.terms ↔ make_term "type" v ∈ d.terms :=
          fun v => rl.1 _ (by simp [make_term_type, make_term_thread])
            (by simp [make_term_type, make_term_reference])
        have hidt : ∀ v, make_term "id" v ∈ d2.terms ↔ make_term "id" v ∈ d.terms :=
          fun v => rl.1 _ (by simp [make_term_id, make_term_thread])
            (by simp [make_term_id, make_term_reference])
        obtain ⟨h1, ⟨x, hx⟩, ⟨t, ht⟩⟩ := hinv i d hd ((hty _).mp hm)
        exact ⟨fun v hv => h1 v ((hty v).mp hv), ⟨x, fun v => (hidt v).trans (hx v)⟩,
          ⟨σ t, rl.2.2.1 t ht⟩⟩
      · subst he
        obtain ⟨h1, h2, h3⟩ := post.own_terms hix
        exact ⟨fun v hv => (h3 v).mp hv, ⟨mid, h2⟩, ⟨tw, h1⟩⟩
      · exact absurd hm (hdir.no_type _)
    · obtain ⟨d, hd, _, heq⟩ := add_message_eq_dup w db f mf mid j hmode hopen hmail hmid hj
      rw [heq] at h
      simp only [Option.some.injEq] at h
      subst h
      intro i d2 hd2 hm
      rcases add_message_dup_docs w db f j d hd i d2 hd2 with ⟨hij, he⟩ | ⟨_, hdi⟩ | ⟨_, hdir⟩
      · subst hij he
        have hty : ∀ v, make_term "type" v ∈ (d.add_term (make_term "file-direntry"
            (_notmuch_database_filename_to_direntry w db f).2.2)).terms ↔
            make_term "type" v ∈ d.terms := by
          intro v; rw [mem_add_term]; simp [make_term_type, make_term_file_direntry]
        have hidt : ∀ v, make_term "id" v ∈ (d.add_term (make_term "file-direntry"
            (_notmuch_database_filename_to_direntry w db f).2.2)).terms ↔
            make_term "id" v ∈ d.terms := by
          intro v; rw [mem_add_term]; simp [make_term_id, make_term_file_direntry]
        have hth : ∀ v, make_term "thread" v ∈ (d.add_term (make_term "file-direntry"
            (_notmuch_database_filename_to_direntry w db f).2.2)).terms ↔
            make_term "thread" v ∈ d.terms := by
          intro v; rw [mem_add_term]; simp [make_term_thread, make_term_file_direntry]
        obtain ⟨h1, ⟨x, hx⟩, ⟨t, ht⟩⟩ := hinv i d hd ((hty _).mp hm)
        exact ⟨fun v hv => h1 v ((hty v).mp hv), ⟨x, fun v => (hidt v).trans (hx v)⟩,
          ⟨t, fun v => (hth v).trans (ht v)⟩⟩
      · exact hinv i d2 hdi hm
      · exact absurd hm (hdir.no_type _)

theorem example_world_keys : KeysOk example_world := fun l => List.Perm.refl l

theorem example_world_index : IndexOk example_world := fun _ _ h => absurd h (List.not_mem_nil _)

theorem empty_database_mail_docs (p : Str) : MailDocsOk (empty_database p) := by
  intro i d h
  simp [Database.get_document, empty_database] at h

set_option maxRecDepth 100000 in
theorem add_message_keeps_mail_docs_witness :
    ∃ r1 r2, notmuch_database_add_message example_world (empty_database "/mail".toList)
        "/mail/dd/m1".toList = some r1 ∧
      notmuch_database_add_message example_world r1.db "/mail/dd/m2".toList = some r2 ∧
      r2.status = NOTMUCH_STATUS_SUCCESS ∧ MailDocsOk r1.db ∧ MailDocsOk r2.db := by
  have h1 : (notmuch_database_add_message example_world (empty_database "/mail".toList)
      "/mail/dd/m1".toList).isSome = true := by decide
  obtain ⟨r1, e1⟩ := Option.isSome_iff_exists.mp h1
  have s1 : r1.status = NOTMUCH_STATUS_SUCCESS := by
    have : (notmuch_database_add_message example_world (empty_database "/mail".toList)
      "/mail/dd/m1".toList).map (fun r => r.status) = some NOTMUCH_STATUS_SUCCESS := by decide
    rw [e1] at this
    exact Option.some.inj this
  have h2 : ((notmuch_database_add_message example_world (empty_database "/mail".toList)
      "/mail/dd/m1".toList).bind (fun r => (notmuch_database_add_message example_world r.db
        "/mail/dd/m2".toList).map (fun r => r.status))) = some NOTMUCH_STATUS_SUCCESS := by
    decide
  rw [e1] at h2
  simp only [Option.some_bind] at h2
  cases e2 : notmuch_database_add_message example_world r1.db "/mail/dd/m2".toList with
  | none => rw [e2] at h2; cases h2
  | some r2 =>
    rw [e2] at h2
    have s2 : r2.status = NOTMUCH_STATUS_SUCCESS := Option.some.inj h2
    have m1 := add_message_keeps_mail_docs example_world _ _ r1 example_world_keys
      example_world_index (empty_database_mail_docs _) e1 (Or.inl s1)
    exact ⟨r1, r2, e1, e2, s2, m1, add_message_keeps_mail_docs example_world _ _ r2
      example_world_keys example_world_index m1 e2 (Or.inl s2)⟩

theorem skip_loop_length_le (f : Nat) : ∀ s : Str,
    (skip_space_and_comments_loop f s).length ≤ s.length := by
  induction f with
  | zero => intro s; simp [skip_space_and_comments_loop]
  | succ f ih =>
    intro s
    cases s with
    | nil => simp [skip_space_and_comments_loop]
    | cons c cs =>
      simp only [skip_space_and_comments_loop]
      split
      · have hss := skip_space_length_le (c :: cs)
        split
        · exact Nat.le_trans (ih []) (Nat.zero_le _)
        · rename_i d rest hd
          rw [hd] at hss
          split
          · have := ih (skip_comment 1 rest)
            have := skip_comment_length_le 1 rest
            simp only [List.length_cons] at hss ⊢
            omega
          · exact Nat.le_trans (ih (d :: rest)) hss
      · exact Nat.le_refl _

theorem skip_space_and_comments_length_le (s : Str) :
    (skip_space_and_comments s).length ≤ s.length := by
  unfold skip_space_and_comments
  exact skip_loop_length_le _ s

theorem dropWhile_length_le {α : Type} (p : α → Bool) (l : List α) :
    (l.dropWhile p).length ≤ l.length := by
  induction l with
  | nil => simp
  | cons a l ih =>
    rw [List.dropWhile_cons]
    split
    · simp only [List.length_cons]; omega
    · exact Nat.le_refl _

/-- On a non-empty string the parser stores a strictly shorter rest through `next`. -/
theorem parse_message_id_next_shorter (c : Char) (cs : Str) :
    ∃ n, (_parse_message_id (some (c :: cs))).next = some n ∧ n.length < (c :: cs).length := by
  have h1 := skip_space_and_comments_length_le (c :: cs)
  have h2 := dropWhile_length_le (fun x => x != '<') (skip_space_and_comments (c :: cs))
  simp only [_parse_message_id]
  generalize hS : (skip_space_and_comments (c :: cs)).dropWhile (fun x => x != '<') = S at h2
  cases S with
  | nil => exact ⟨[], rfl, by simp⟩
  | cons d s1 =>
    have hd : d = '<' := by
      have := List.head_dropWhile_not (fun x => x != '<') (skip_space_and_comments (c :: cs))
        (by rw [hS]; simp)
      simp only [hS, List.head_cons] at this
      simpa using this
    subst hd
    simp only [if_true]
    have h3 := skip_space_and_comments_length_le s1
    have h4 : ∀ (s : Str) (k : Nat), (match s.drop k with | [] => ([] : Str) | _ :: t => t).length
        ≤ s.length := by
      intro s k
      have := List.length_drop k s
      cases hk : s.drop k with
      | nil => simp
      | cons a t => rw [hk] at this; simp only [List.length_cons] at this ⊢; omega
    have h5 := h4 (skip_space_and_comments s1)
      ((skip_space_and_comments s1).takeWhile (fun x => x != '>')).length
    simp only [List.length_cons] at h1 h2 ⊢
    refine ⟨_, ?_, Nat.lt_of_le_of_lt h5 (by omega)⟩
    split <;> split <;> rfl

theorem skip_space_and_comments_spaces (ws rest : Str) (hws : ∀ c ∈ ws, isspace c = true) :
    skip_space_and_comments (ws ++ rest) = skip_space_and_comments rest := by
  induction ws with
  | nil => rfl
  | cons c cs ih =>
    rw [List.cons_append, skip_space_and_comments_space c _ (hws c (List.mem_cons_self _ _))]
    exact ih (fun d hd => hws d (List.mem_cons_of_mem _ hd))

/-- The parser on a bracketed identifier after whitespace. -/
theorem parse_bracketed (ws id suffix : Str) (hws : ∀ c ∈ ws, isspace c = true)
    (hid : BracketId id) :
    _parse_message_id (some (ws ++ '<' :: id ++ '>' :: suffix)) = ⟨some id, some suffix⟩ := by
  obtain ⟨hlen, hch, hhd⟩ := hid
  have hne : ws ++ '<' :: id ++ '>' :: suffix ≠ [] := by simp
  have e : ws ++ '<' :: id ++ '>' :: suffix = ws ++ ('<' :: (id ++ '>' :: suffix)) := by simp
  have h0 : skip_space_and_comments (ws ++ '<' :: id ++ '>' :: suffix) =
      '<' :: (id ++ '>' :: suffix) := by
    rw [e, skip_space_and_comments_spaces ws _ hws]
    exact skip_space_and_comments_stop _ _ (by decide) (by decide)
  have h1 : (skip_space_and_comments (ws ++ '<' :: id ++ '>' :: suffix)).dropWhile
      (fun x => x != '<') = '<' :: (id ++ '>' :: suffix) := by
    rw [h0]; simp [List.dropWhile]
  have h2 : skip_space_and_comments (id ++ '>' :: suffix) = id ++ '>' :: suffix := by
    cases id with
    | nil => simp at hlen
    | cons c cs =>
      have := hch c (List.mem_cons_self _ _)
      exact skip_space_and_comments_stop _ _ this.1 (fun hc => hhd (by rw [hc]; rfl))
  have h3 := parse_message_id_region _ _ id suffix hne h1 h2 (fun c hc => (hch c hc).2) hlen
  rw [h3, collapse_whitespace_id id (fun c hc => isspace_false_ne c (hch c hc).1)]

/-- More fuel than the length of the header does not change the loop of
`parse_references`: it has stopped by then. -/
theorem parse_references_loop_fuel (mid : Str) : ∀ (n : Nat) (refs : Str), refs.length ≤ n →
    ∀ (fuel : Nat) (hash : List Str), refs.length ≤ fuel →
    parse_references_loop mid fuel hash refs = parse_references_loop mid n hash refs := by
  intro n
  induction n with
  | zero =>
    intro refs h fuel hash _
    have : refs = [] := List.length_eq_zero.mp (Nat.le_zero.mp h)
    subst this
    cases fuel <;> simp [parse_references_loop]
  | succ n ih =>
    intro refs h fuel hash hf
    cases refs with
    | nil => cases fuel <;> simp [parse_references_loop]
    | cons c cs =>
      cases fuel with
      | zero => simp at hf
      | succ fuel =>
        obtain ⟨nx, hnx, hlt⟩ := parse_message_id_next_shorter c cs
        simp only [List.length_cons] at h hf hlt
        simp only [parse_references_loop, hnx, Option.getD_some]
        have e : ∀ hash2, parse_references_loop mid fuel hash2 nx =
            parse_references_loop mid n hash2 nx :=
          fun hash2 => ih nx (by omega) fuel hash2 (by omega)
        split
        · split <;> exact e _
        · exact e _

theorem repeated_parse_fuel : ∀ (n : Nat) (refs : Str), refs.length ≤ n →
    ∀ (fuel : Nat), refs.length ≤ fuel → repeated_parse fuel refs = repeated_parse n refs := by
  intro n
  induction n with
  | zero =>
    intro refs h fuel _
    have : refs = [] := List.length_eq_zero.mp (Nat.le_zero.mp h)
    subst this
    cases fuel <;> simp [repeated_parse]
  | succ n ih =>
    intro refs h fuel hf
    cases refs with
    | nil => cases fuel <;> simp [repeated_parse]
    | cons c cs =>
      cases fuel with
      | zero => simp at hf
      | succ fuel =>
        obtain ⟨nx, hnx, hlt⟩ := parse_message_id_next_shorter c cs
        simp only [List.length_cons] at h hf hlt
        simp only [repeated_parse, hnx, Option.getD_some]
        have e : repeated_parse fuel nx = repeated_parse n nx := ih nx (by omega) fuel (by omega)
        split
        · rw [e]
        · exact e

/-- The keys of the table after the loop: those it had, and the extracted identifiers
other than the owner. -/
theorem mem_parse_references_loop (mid : Str) (x : Str) : ∀ (fuel : Nat) (hash : List Str)
    (refs : Str), x ∈ parse_references_loop mid fuel hash refs ↔
      x ∈ hash ∨ (x ≠ mid ∧ x ∈ repeated_parse fuel refs) := by
  intro fuel
  induction fuel with
  | zero => intro hash refs; simp [parse_references_loop, repeated_parse]
  | succ fuel ih =>
    intro hash refs
    cases refs with
    | nil => simp [parse_references_loop, repeated_parse]
    | cons c cs =>
      simp only [parse_references_loop, repeated_parse]
      cases hr : (_parse_message_id (some (c :: cs))).result with
      | none => simp only; exact ih _ _
      | some ref =>
        simp only
        split
        · rename_i hc
          rw [ih, List.mem_append, List.mem_singleton, List.mem_cons]
          constructor
          · rintro ((h | h) | h)
            · exact Or.inl h
            · exact Or.inr ⟨h ▸ hc.1, Or.inl h⟩
            · exact Or.inr ⟨h.1, Or.inr h.2⟩
          · rintro (h | ⟨h1, h2 | h2⟩)
            · exact Or.inl (Or.inl h)
            · exact Or.inl (Or.inr h2)
            · exact Or.inr ⟨h1, h2⟩
        · rename_i hc
          rw [ih, List.mem_cons]
          constructor
          · rintro (h | h)
            · exact Or.inl h
            · exact Or.inr ⟨h.1, Or.inr h.2⟩
          · rintro (h | ⟨h1, h2 | h2⟩)
            · exact Or.inl h
            · by_cases hm : ref = mid
              · exact absurd (h2.trans hm) h1
              · have : ref ∈ hash := by
                  by_contra hn
                  exact hc ⟨hm, hn⟩
                exact Or.inl (h2 ▸ this)
            · exact Or.inr ⟨h1, h2⟩

theorem parse_references_loop_nodup (mid : Str) : ∀ (fuel : Nat) (hash : List Str)
    (refs : Str), hash.Nodup → (parse_references_loop mid fuel hash refs).Nodup := by
  intro fuel
  induction fuel with
  | zero => intro hash refs h; simpa [parse_references_loop] using h
  | succ fuel ih =>
    intro hash refs h
    cases refs with
    | nil => simpa [parse_references_loop] using h
    | cons c cs =>
      simp only [parse_references_loop]
      split
      · split
        · rename_i hc
          refine ih _ _ ?_
          rw [List.nodup_append]
          exact ⟨h, List.nodup_singleton _, by
            intro a ha hb
            rw [List.mem_singleton] at hb
            exact hc.2 (hb ▸ ha)⟩
        · exact ih _ _ h
      · exact ih _ _ h

theorem repeated_parse_nil (fuel : Nat) : repeated_parse fuel [] = [] := by
  cases fuel <;> rfl

theorem repeated_parse_step (fuel : Nat) (s : Str) (r : Option Str) (nx : Str) (hs : s ≠ [])
    (h : _parse_message_id (some s) = ⟨r, some nx⟩) :
    repeated_parse (fuel + 1) s = r.toList ++ repeated_parse fuel nx := by
  cases s with
  | nil => exact absurd rfl hs
  | cons c cs =>
    simp only [repeated_parse, h, Option.getD_some]
    cases r <;> rfl

theorem repeated_parse_bracketed_aux : ∀ (ids : List Str), (∀ i ∈ ids, BracketId i) →
    ∀ (ws : Str), (∀ c ∈ ws, isspace c = true) → ids ≠ [] →
    ∀ fuel, (ws ++ bracketed ids).length ≤ fuel →
      repeated_parse fuel (ws ++ bracketed ids) = ids := by
  intro ids
  induction ids with
  | nil => intro _ ws _ h; exact absurd rfl h
  | cons i rest ih =>
    intro hids ws hws _ fuel hf
    have hi := hids i (List.mem_cons_self _ _)
    have hrest : ∀ j ∈ rest, BracketId j := fun j hj => hids j (List.mem_cons_of_mem _ hj)
    cases rest with
    | nil =>
      have hp := parse_bracketed ws i [] hws hi
      have e : ws ++ bracketed [i] = ws ++ '<' :: i ++ '>' :: [] := by
        simp [bracketed]
      rw [e] at hf ⊢
      cases fuel with
      | zero => simp at hf
      | succ fuel =>
        rw [repeated_parse_step fuel _ _ _ (by simp) hp]
        simp [repeated_parse_nil]
    | cons j rest2 =>
      have hp := parse_bracketed ws i (' ' :: bracketed (j :: rest2)) hws hi
      have e : ws ++ bracketed (i :: j :: rest2) =
          ws ++ '<' :: i ++ '>' :: ' ' :: bracketed (j :: rest2) := by
        simp [bracketed]
      rw [e] at hf ⊢
      cases fuel with
      | zero => simp at hf
      | succ fuel =>
        rw [repeated_parse_step fuel _ _ _ (by simp) hp]
        have := ih hrest [' '] (by decide) (by simp) fuel (by
          simp only [List.length_cons, List.length_append, List.length_nil] at hf ⊢
          omega)
        simp only [List.singleton_append] at this
        simp only [this, Option.toList_some, List.singleton_append]

theorem repeated_parse_bracketed (ids : List Str) (h : ∀ i ∈ ids, BracketId i) :
    repeated_parse (bracketed ids).length (bracketed ids) = ids := by
  cases ids with
  | nil => rfl
  | cons i rest =>
    have := repeated_parse_bracketed_aux (i :: rest) h [] (fun c hc => absurd hc (List.not_mem_nil c))
      (by simp) (bracketed (i :: rest)).length (by simp)
    simpa using this

/-- Claim C11, as amended: for every References header value and every owning message identifier, the
keys that `parse_references` leaves in an empty table never include the owner, are
exactly the identifiers other than the owner that repeated invocation of the message-id
parser extracts from the header, and are listed once each; the loop has stopped within
`strlen (refs)` rounds; and for bracketed identifiers (of the form the parser returns
unchanged) separated by spaces the keys are those identifiers minus the owner. -/
theorem parse_references_spec (mid : Str) (refs : Str) :
    mid ∉ parse_references mid [] (some refs) ∧
    (∀ x, x ∈ parse_references mid [] (some refs) ↔
      x ≠ mid ∧ x ∈ repeated_parse refs.length refs) ∧
    (parse_references mid [] (some refs)).Nodup ∧
    (∀ fuel, refs.length ≤ fuel →
      parse_references_loop mid fuel [] refs = parse_references mid [] (some refs)) ∧
    (∀ ids : List Str, (∀ i ∈ ids, BracketId i) →
      ∀ x, x ∈ parse_references mid [] (some (bracketed ids)) ↔ x ≠ mid ∧ x ∈ ids) := by
  have hdef : ∀ r : Str, parse_references mid [] (some r) =
      parse_references_loop mid r.length [] r := by
    intro r
    cases r with
    | nil => rfl
    | cons c cs => rfl
  have hmem : ∀ (r x : Str), x ∈ parse_references mid [] (some r) ↔
      x ≠ mid ∧ x ∈ repeated_parse r.length r := by
    intro r x
    rw [hdef, mem_parse_references_loop]
    simp
  refine ⟨parse_references_not_self mid [] _ (List.not_mem_nil mid), hmem refs, ?_, ?_, ?_⟩
  · rw [hdef]; exact parse_references_loop_nodup mid _ _ _ List.nodup_nil
  · intro fuel hf
    rw [hdef]
    exact parse_references_loop_fuel mid refs.length refs (Nat.le_refl _) fuel [] hf
  · intro ids hids x
    rw [hmem, repeated_parse_bracketed ids hids]

set_option maxRecDepth 100000 in
/-- The header `<m1@x> <m2@x> <m1@x> <me@x>` of message `me@x`. -/
theorem parse_references_example :
    parse_references "me@x".toList [] (some "<m1@x> <m2@x> <m1@x> <me@x>".toList) =
      ["m1@x".toList, "m2@x".toList] := by
  decide

/-- Claim C11, counterexample: the bracketed identifier `"a b"@x` (a quoted local part with
a space) is not among the keys; the parser has collapsed it to `"ab"@x`. -/
theorem parse_references_quoted_space :
    parse_references "me@x".toList [] (some (bracketed ["\"a b\"@x".toList])) =
      ["\"ab\"@x".toList] ∧
    ¬ ("\"a b\"@x".toList ∈
        parse_references "me@x".toList [] (some (bracketed ["\"a b\"@x".toList])) ↔
      "\"a b\"@x".toList ≠ "me@x".toList ∧ "\"a b\"@x".toList ∈ ["\"a b\"@x".toList]) := by
  decide

/-- Claim C12, as amended: for a file whose Message-ID header is not empty and yields, by
parsing or else as raw text, an identifier of length L, `notmuch_database_add_message`
takes that identifier as the message id when L + 1 ≤ NOTMUCH_TERM_MAX (245), that is
L ≤ 244 (the term is the identifier behind the one-character prefix), and otherwise takes
the synthetic identifier `notmuch-sha1-` followed by the SHA-1 of the file. -/
theorem message_id_length_bound (w : World) (mf : MessageFile) (filename h id : Str)
    (hh : mf.header "message-id" = some h) (hne : h ≠ [])
    (hid : id = ((_parse_message_id (some h)).result).getD h) :
    (id.length ≤ 244 → message_id_of_file w mf filename = some id) ∧
    (245 ≤ id.length → message_id_of_file w mf filename =
      (w.notmuch_sha1_of_file filename).map (fun sha1 => "notmuch-sha1-".toList ++ sha1)) := by
  cases h with
  | nil => exact absurd rfl hne
  | cons c cs =>
    have e : message_id_of_header (some (c :: cs)) =
        if id.length + 1 > 245 then none else some id := by
      cases hr : (_parse_message_id (some (c :: cs))).result with
      | none =>
        rw [hr] at hid
        simp only [Option.getD_none] at hid
        simp only [message_id_of_header, hr, NOTMUCH_TERM_MAX, hid]
      | some m =>
        rw [hr] at hid
        simp only [Option.getD_some] at hid
        simp only [message_id_of_header, hr, NOTMUCH_TERM_MAX, hid]
    constructor
    · intro hl
      have : ¬ (id.length + 1 > 245) := by omega
      simp only [message_id_of_file, hh, e, this, if_false]
    · intro hl
      have : id.length + 1 > 245 := by omega
      simp only [message_id_of_file, hh, e, this, if_true]
      cases w.notmuch_sha1_of_file filename <;> rfl

/-- Claim C12, witness: the file `m1` of the example maildir, with header `<m1@x>`. -/
theorem message_id_length_bound_witness :
    message_id_of_file example_world (file_of_headers [("message-id", "<m1@x>")])
      "/mail/dd/m1".toList = some "m1@x".toList :=
  (message_id_length_bound example_world (file_of_headers [("message-id", "<m1@x>")])
    "/mail/dd/m1".toList "<m1@x>".toList "m1@x".toList (by decide) (by decide) (by decide)).1
    (by decide)

set_option maxRecDepth 100000 in
/-- Claim C12, counterexample: an identifier of exactly 245 characters is not longer than
MAX_TERM_LEN, yet it is rejected in favour of the synthetic identifier. -/
theorem message_id_length_245_rejected :
    (List.replicate 245 'a').length ≤ NOTMUCH_TERM_MAX ∧
    (_parse_message_id (some ('<' :: List.replicate 245 'a' ++ ['>']))).result =
      some (List.replicate 245 'a') ∧
    message_id_of_file example_world
      ⟨fun name => if name = "message-id" then some ('<' :: List.replicate 245 'a' ++ ['>'])
        else none⟩ "/mail/dd/m1".toList =
      some ("notmuch-sha1-".toList ++ "da39a3ee5e6b4b0d3255bfef95601890afd80709".toList) := by
  decide

/-- Claim C13: for every relative directory path p, the value used in the directory term
is p itself if len("XDIRECTORY") + len(p) ≤ 245, and otherwise the SHA-1 digest of p,
which has 40 characters whenever the SHA-1 function yields 40 characters. -/
theorem directory_db_path_spec (w : World) (p : Str) :
    make_term "directory" [] = "XDIRECTORY".toList ∧
    ("XDIRECTORY".length + p.length ≤ 245 →
      _notmuch_database_get_directory_db_path w p = p) ∧
    (245 < "XDIRECTORY".length + p.length →
      _notmuch_database_get_directory_db_path w p = w.notmuch_sha1_of_string p) ∧
    ((∀ s, (w.notmuch_sha1_of_string s).length = 40) →
      245 < "XDIRECTORY".length + p.length →
      (_notmuch_database_get_directory_db_path w p).length = 40) := by
  have hp : make_term "directory" [] = "XDIRECTORY".toList := by decide
  have hl : (make_term "directory" []).length = 10 := by rw [hp]; rfl
  have h10 : "XDIRECTORY".length = 10 := by decide
  have h2 : 245 < "XDIRECTORY".length + p.length →
      _notmuch_database_get_directory_db_path w p = w.notmuch_sha1_of_string p := by
    intro h
    rw [h10] at h
    simp only [_notmuch_database_get_directory_db_path, hl, NOTMUCH_TERM_MAX]
    rw [if_pos (by omega)]
  refine ⟨hp, ?_, h2, ?_⟩
  · intro h
    rw [h10] at h
    simp only [_notmuch_database_get_directory_db_path, hl, NOTMUCH_TERM_MAX]
    rw [if_neg (by omega)]
  · intro hs h
    rw [h2 h]; exact hs p

theorem hex_digit_facts : ∀ d, d < 16 →
    (isspace (hex_digit d) = false ∧ hex_digit d ≠ '-' ∧ hex_digit d ≠ '+' ∧
      hex_digit d ≠ 'x' ∧ hex_digit d ≠ 'X' ∧ digit_value (hex_digit d) = some d ∧
      is_digit_of 16 (hex_digit d) = true ∧ hex_digit d ∈ "0123456789abcdef".toList) := by
  decide

theorem hex_digit_lt : ∀ d, d < 16 → ∀ e, e < 16 → d < e → hex_digit d < hex_digit e := by
  decide

/-- The `k` low hexadecimal digits of `n`, most significant first. -/
theorem hex_digits_succ (k n : Nat) :
    (List.range (k + 1)).reverse.map (fun i => hex_digit (n / 16 ^ i % 16)) =
      hex_digit (n / 16 ^ k % 16) ::
        (List.range k).reverse.map (fun i => hex_digit (n / 16 ^ i % 16)) := by
  rw [List.range_succ, List.reverse_append]
  rfl

theorem foldl_digits_acc (l : Str) : ∀ acc : Nat,
    l.foldl (fun acc c => acc * 16 + (digit_value c).getD 0) acc =
      acc * 16 ^ l.length + l.foldl (fun acc c => acc * 16 + (digit_value c).getD 0) 0 := by
  induction l with
  | nil => intro acc; simp
  | cons c cs ih =>
    intro acc
    simp only [List.foldl_cons, List.length_cons]
    rw [ih (acc * 16 + (digit_value c).getD 0), ih (0 * 16 + (digit_value c).getD 0)]
    ring

theorem hex_digits_value (n : Nat) : ∀ k : Nat,
    ((List.range k).reverse.map (fun i => hex_digit (n / 16 ^ i % 16))).foldl
      (fun acc c => acc * 16 + (digit_value c).getD 0) 0 = n % 16 ^ k := by
  intro k
  induction k with
  | zero => simp [Nat.mod_one]
  | succ k ih =>
    rw [hex_digits_succ, List.foldl_cons, foldl_digits_acc, ih]
    have hd := (hex_digit_facts (n / 16 ^ k % 16) (Nat.mod_lt _ (by norm_num))).2.2.2.2.2.1
    rw [hd]
    simp only [Option.getD_some, List.length_map, List.length_reverse, List.length_range]
    rw [Nat.mod_pow_succ]
    ring

theorem hex_digits_all (n : Nat) (k : Nat) :
    ∀ c ∈ (List.range k).reverse.map (fun i => hex_digit (n / 16 ^ i % 16)),
      is_digit_of 16 c = true ∧ c ∈ "0123456789abcdef".toList := by
  intro c hc
  rw [List.mem_map] at hc
  obtain ⟨i, _, rfl⟩ := hc
  have := hex_digit_facts (n / 16 ^ i % 16) (Nat.mod_lt _ (by norm_num))
  exact ⟨this.2.2.2.2.2.2.1, this.2.2.2.2.2.2.2⟩

theorem format_016x64_length (n : Nat) : (format_016x64 n).length = 16 := by
  simp [format_016x64]

theorem format_016x64_cons (n : Nat) :
    format_016x64 n = hex_digit (n / 16 ^ 15 % 16) :: hex_digit (n / 16 ^ 14 % 16) ::
      hex_digit (n / 16 ^ 13 % 16) ::
        (List.range 13).reverse.map (fun i => hex_digit (n / 16 ^ i % 16)) := by
  unfold format_016x64
  rw [hex_digits_succ, hex_digits_succ, hex_digits_succ]

theorem skip_space_cons_stop (c : Char) (cs : Str) (h : isspace c = false) :
    skip_space (c :: cs) = c :: cs := by
  unfold skip_space
  simp [h]

/-- Reading back the text of a counter value with `strtoull` in base 16. -/
theorem strtoull_format (n : Nat) (hn : n < 2 ^ 64) :
    strtoull (format_016x64 n) 16 = (n, []) := by
  have hall := hex_digits_all n 16
  have hval := hex_digits_value n 16
  have h16 : (List.range 16).reverse.map (fun i => hex_digit (n / 16 ^ i % 16)) =
      format_016x64 n := rfl
  rw [h16] at hall hval
  have htw : (format_016x64 n).takeWhile (is_digit_of 16) = format_016x64 n :=
    List.takeWhile_eq_self_iff.mpr (fun c hc => (hall c hc).1)
  have f15 := hex_digit_facts (n / 16 ^ 15 % 16) (Nat.mod_lt _ (by norm_num))
  have f14 := hex_digit_facts (n / 16 ^ 14 % 16) (Nat.mod_lt _ (by norm_num))
  have hss : skip_space (format_016x64 n) = format_016x64 n := by
    rw [format_016x64_cons]
    exact skip_space_cons_stop _ _ f15.1
  have hhead : (format_016x64 n).head? = some (hex_digit (n / 16 ^ 15 % 16)) := by
    rw [format_016x64_cons]; rfl
  have hm : skip_hex_prefix 16 (format_016x64 n) = format_016x64 n := by
    rw [format_016x64_cons]
    unfold skip_hex_prefix
    split
    · rename_i x d rest heq
      have hx : x = hex_digit (n / 16 ^ 14 % 16) := by
        injection heq with _ h2; injection h2 with h3 _; exact h3.symm
      rw [if_neg]
      · exact heq.symm
      · rintro ⟨_, hxx, _⟩
        rcases hxx with h | h
        · exact f14.2.2.2.1 (hx ▸ h)
        · exact f14.2.2.2.2.1 (hx ▸ h)
    · rfl
  have hne : format_016x64 n ≠ [] := by rw [format_016x64_cons]; simp
  have hmod : n % 16 ^ 16 = n := Nat.mod_eq_of_lt (by norm_num at hn ⊢; exact hn)
  unfold strtoull
  simp only [hss, hhead, Option.some.injEq, f15.2.1, f15.2.2.1, or_self, if_false, hm, htw, hne,
    hval, hmod, List.drop_length]
  have h1 : ¬ (n ≥ 2 ^ 64) := by omega
  simp only [h1, if_false]

/-- Among texts of `k` hexadecimal digits the order of the texts is the order of the
numbers. -/
theorem hex_digits_lt (a b : Nat) : ∀ k : Nat, a % 16 ^ k < b % 16 ^ k →
    (List.range k).reverse.map (fun i => hex_digit (a / 16 ^ i % 16)) <
      (List.range k).reverse.map (fun i => hex_digit (b / 16 ^ i % 16)) := by
  intro k
  induction k with
  | zero => intro h; simp [Nat.mod_one] at h
  | succ k ih =>
    intro h
    rw [hex_digits_succ, hex_digits_succ]
    rw [Nat.mod_pow_succ, Nat.mod_pow_succ] at h
    have ha : a / 16 ^ k % 16 < 16 := Nat.mod_lt _ (by norm_num)
    have hb : b / 16 ^ k % 16 < 16 := Nat.mod_lt _ (by norm_num)
    have hP : 0 < 16 ^ k := by positivity
    have hra : a % 16 ^ k < 16 ^ k := Nat.mod_lt _ hP
    have hrb : b % 16 ^ k < 16 ^ k := Nat.mod_lt _ hP
    rcases Nat.lt_trichotomy (a / 16 ^ k % 16) (b / 16 ^ k % 16) with hlt | heq | hgt
    · exact List.Lex.rel (hex_digit_lt _ ha _ hb hlt)
    · rw [heq] at h ⊢
      have h2 : a % 16 ^ k < b % 16 ^ k := by omega
      exact List.Lex.cons (ih h2)
    · exfalso
      have h3 : 16 ^ k * (b / 16 ^ k % 16 + 1) ≤ 16 ^ k * (a / 16 ^ k % 16) :=
        Nat.mul_le_mul_left _ hgt
      rw [Nat.mul_add, Nat.mul_one] at h3
      omega

theorem format_016x64_lt (a b : Nat) (hb : b < 2 ^ 64) (h : a < b) :
    format_016x64 a < format_016x64 b := by
  have h16 : (2 : Nat) ^ 64 = 16 ^ 16 := by norm_num
  have ha' : a % 16 ^ 16 = a := Nat.mod_eq_of_lt (by omega)
  have hb' : b % 16 ^ 16 = b := Nat.mod_eq_of_lt (by omega)
  exact hex_digits_lt a b 16 (by rw [ha', hb']; exact h)

/-- Claim C14: allocating a new thread id from a database whose in-memory counter is `n`
returns a string of exactly 16 characters, each in 0-9a-f, that reads in base 16 as
(n+1) mod 2^64 (it is that number's zero-padded lowercase rendering), sets the in-memory
counter to that value, and writes the same string as the metadata value of key
`last_thread_id`; documents and other metadata are untouched. -/
theorem generate_thread_id_spec (db : Database) :
    (_notmuch_database_generate_thread_id db).2.length = 16 ∧
    (∀ c ∈ (_notmuch_database_generate_thread_id db).2, c ∈ "0123456789abcdef".toList) ∧
    strtoull (_notmuch_database_generate_thread_id db).2 16 =
      ((db.last_thread_id + 1) % 2 ^ 64, []) ∧
    (_notmuch_database_generate_thread_id db).1.last_thread_id =
      (db.last_thread_id + 1) % 2 ^ 64 ∧
    (_notmuch_database_generate_thread_id db).1.metadata "last_thread_id".toList =
      (_notmuch_database_generate_thread_id db).2 ∧
    (∀ key, key ≠ "last_thread_id".toList →
      (_notmuch_database_generate_thread_id db).1.metadata key = db.metadata key) ∧
    (_notmuch_database_generate_thread_id db).1.docs = db.docs ∧
    (_notmuch_database_generate_thread_id db).1.lastdocid = db.lastdocid := by
  have hlt : (db.last_thread_id + 1) % 2 ^ 64 < 2 ^ 64 := Nat.mod_lt _ (by norm_num)
  refine ⟨format_016x64_length _, fun c hc => (hex_digits_all _ 16 c hc).2,
    strtoull_format _ hlt, rfl, ?_, ?_, rfl, rfl⟩
  · simp only [_notmuch_database_generate_thread_id, Database.set_metadata]
    exact Function.update_same _ _ _
  · intro key hk
    simp only [_notmuch_database_generate_thread_id, Database.set_metadata]
    exact Function.update_noteq hk _ _

theorem get_version_metadata (db db2 : Database) (h : db2.metadata = db.metadata) :
    notmuch_database_get_version db2 = notmuch_database_get_version db := by
  simp only [notmuch_database_get_version, h]

theorem ensure_writable_ro (db : Database) (h : db.mode = NOTMUCH_DATABASE_MODE_READ_ONLY) :
    _notmuch_database_ensure_writable db = NOTMUCH_STATUS_READ_ONLY_DATABASE := by
  simp [_notmuch_database_ensure_writable, h]

/-- Claim C17: on a handle opened read-only, `notmuch_database_add_message`,
`notmuch_database_remove_message` and `notmuch_database_upgrade` return ReadOnly for every
argument, and the database (documents, terms, values, metadata, thread counter) is the
one before the call; the progress callback is not called. -/
theorem read_only_rejected (w : World) (db : Database) (filename : Str) (notify : Bool)
    (alarm : Nat → Bool) (h : db.mode = NOTMUCH_DATABASE_MODE_READ_ONLY) :
    notmuch_database_add_message w db filename =
      some ⟨NOTMUCH_STATUS_READ_ONLY_DATABASE, db, none⟩ ∧
    notmuch_database_remove_message w db filename =
      some (NOTMUCH_STATUS_READ_ONLY_DATABASE, db) ∧
    notmuch_database_upgrade w db notify alarm =
      some ⟨NOTMUCH_STATUS_READ_ONLY_DATABASE, db, ⟨0, []⟩⟩ := by
  have e := ensure_writable_ro db h
  refine ⟨?_, ?_, ?_⟩
  · simp [notmuch_database_add_message, e]
  · simp [notmuch_database_remove_message, e]
  · simp [notmuch_database_upgrade, e]

/-- Claim C17, witness: the empty database of `/mail`, opened read-only. -/
theorem read_only_rejected_witness :
    notmuch_database_add_message example_world
        { empty_database "/mail".toList with mode := NOTMUCH_DATABASE_MODE_READ_ONLY }
        "/mail/dd/m1".toList =
      some ⟨NOTMUCH_STATUS_READ_ONLY_DATABASE,
        { empty_database "/mail".toList with mode := NOTMUCH_DATABASE_MODE_READ_ONLY }, none⟩ :=
  (read_only_rejected example_world
    { empty_database "/mail".toList with mode := NOTMUCH_DATABASE_MODE_READ_ONLY }
    "/mail/dd/m1".toList true (fun _ => true) rfl).1

/-- A new message that `notmuch_database_add_message` returns for is stored with
status Success. -/
theorem add_message_new_status (w : World) (db : Database) (f : Str) (mf : MessageFile)
    (mid : Str) (r : AddResult)
    (hmode : db.mode = NOTMUCH_DATABASE_MODE_READ_WRITE)
    (hopen : w.notmuch_message_file_open f = some mf) (hmail : looks_like_mail mf)
    (hmid : message_id_of_file w mf f = some mid)
    (hnew : _notmuch_database_find_unique_doc_id db "id" mid = none)
    (h : notmuch_database_add_message w db f = some r) :
    r.status = NOTMUCH_STATUS_SUCCESS := by
  rw [add_message_eq_new w db f mf mid hmode hopen hmail hmid hnew] at h
  obtain ⟨_, hnamed⟩ := add_filename_spec w (db.add_document (new_doc mid)).1
    ⟨db.lastdocid + 1, 0, new_doc mid⟩ f
  generalize hdb2 : (_notmuch_message_add_filename w (db.add_document (new_doc mid)).1
    ⟨db.lastdocid + 1, 0, new_doc mid⟩ f).1 = db2 at h
  rw [hnamed] at h
  generalize he : (_notmuch_database_filename_to_direntry w
    (db.add_document (new_doc mid)).1 f).2.2 = e at h
  generalize hm1 : _notmuch_message_add_term (_notmuch_message_add_term
    ⟨db.lastdocid + 1, 0, new_doc mid⟩ "file-direntry" e) "type" "mail".toList = m1 at h
  obtain ⟨_, _, _, hid, _⟩ := new_message_setup w db f mid db2 m1 e hdb2 hm1
  cases hl : _notmuch_database_link_message w db2 m1 mf with
  | none => rw [hl] at h; cases h
  | some res =>
    obtain ⟨ret, db3, m2⟩ := res
    rw [hl] at h
    obtain ⟨hret, _⟩ := link_message_post w (db.lastdocid + 1) mid db2 m1 mf hid ret db3 m2 hl
    subst hret
    simp only [ne_eq, not_true_eq_false, if_false, Option.some.injEq] at h
    subst h
    rfl

/-- Claim C18: for a writable database and a file that the message-file reader opens,
`notmuch_database_add_message` returns FileNotEmail exactly when the From, Subject and To
headers are all absent or empty; it then leaves the database as it was; and with one of
the three headers not empty the result is never FileNotEmail. -/
theorem add_message_file_not_email (w : World) (db : Database) (filename : Str)
    (mf : MessageFile) (hmode : db.mode = NOTMUCH_DATABASE_MODE_READ_WRITE)
    (hopen : w.notmuch_message_file_open filename = some mf) :
    ((is_null_or_empty (mf.header "from") = true ∧
        is_null_or_empty (mf.header "subject") = true ∧
        is_null_or_empty (mf.header "to") = true) →
      notmuch_database_add_message w db filename =
        some ⟨NOTMUCH_STATUS_FILE_NOT_EMAIL, db, none⟩) ∧
    (∀ r, notmuch_database_add_message w db filename = some r →
      (r.status = NOTMUCH_STATUS_FILE_NOT_EMAIL ↔
        (is_null_or_empty (mf.header "from") = true ∧
          is_null_or_empty (mf.header "subject") = true ∧
          is_null_or_empty (mf.header "to") = true))) := by
  have h1 : (is_null_or_empty (mf.header "from") = true ∧
        is_null_or_empty (mf.header "subject") = true ∧
        is_null_or_empty (mf.header "to") = true) →
      notmuch_database_add_message w db filename =
        some ⟨NOTMUCH_STATUS_FILE_NOT_EMAIL, db, none⟩ := by
    intro hall
    simp only [notmuch_database_add_message, ensure_writable_rw db hmode, ne_eq,
      not_true_eq_false, if_false, hopen, hall, and_self, if_true]
  refine ⟨h1, fun r hr => ⟨fun hs => ?_, fun hall => ?_⟩⟩
  · by_contra hmail
    have hmail' : looks_like_mail mf := hmail
    cases hmid : message_id_of_file w mf filename with
    | none =>
      unfold looks_like_mail at hmail'
      simp only [notmuch_database_add_message, ensure_writable_rw db hmode, ne_eq,
        not_true_eq_false, if_false, hopen, hmail', hmid, Option.some.injEq] at hr
      rw [← hr] at hs
      cases hs
    | some mid =>
      cases hf : _notmuch_database_find_unique_doc_id db "id" mid with
      | none =>
        have := add_message_new_status w db filename mf mid r hmode hopen hmail' hmid hf hr
        rw [this] at hs
        cases hs
      | some j =>
        obtain ⟨d, _, _, heq⟩ := add_message_eq_dup w db filename mf mid j hmode hopen hmail' hmid hf
        rw [heq] at hr
        simp only [Option.some.injEq] at hr
        rw [← hr] at hs
        cases hs
  · rw [h1 hall] at hr
    simp only [Option.some.injEq] at hr
    rw [← hr]

/-- Claim C18, witness: the file `m4` of the example maildir has none of the three
headers. -/
theorem add_message_file_not_email_witness :
    notmuch_database_add_message example_world (empty_database "/mail".toList)
        "/mail/dd/m4".toList =
      some ⟨NOTMUCH_STATUS_FILE_NOT_EMAIL, empty_database "/mail".toList, none⟩ :=
  (add_message_file_not_email example_world (empty_database "/mail".toList)
    "/mail/dd/m4".toList (file_of_headers [("x-note", "text")]) rfl rfl).1
    (by decide)

theorem not_append_lt : ∀ (p x : Str), ¬ (p ++ x) < p := by
  intro p
  induction p with
  | nil => intro x h; cases h
  | cons a p ih =>
    intro x h
    rw [List.cons_append] at h
    cases h with
    | cons h2 => exact ih x h2
    | rel h2 => exact lt_irrefl _ h2

/-- A string between `p` and an extension of `p` in lexicographic order starts with `p`. -/
theorem prefix_of_between : ∀ (p m x : Str), ¬ m < p → ¬ (p ++ x) < m →
    p.isPrefixOf m = true := by
  intro p
  induction p with
  | nil => intro m x _ _; simp
  | cons a p ih =>
    intro m x h1 h2
    cases m with
    | nil => exact absurd (List.Lex.nil) h1
    | cons b m =>
      rw [List.cons_append] at h2
      rcases lt_trichotomy a b with hab | hab | hab
      · exact absurd (List.Lex.rel hab) h2
      · subst hab
        have h1' : ¬ m < p := fun h => h1 (List.Lex.cons h)
        have h2' : ¬ (p ++ x) < m := fun h => h2 (List.Lex.cons h)
        simp [ih m x h1' h2']
      · exact absurd (List.Lex.rel hab) h1

theorem skip_to_fold (l : List Str) : ∀ (acc : Option Str),
    (l.foldl least_term acc = none ↔ acc = none ∧ l = []) ∧
    ∀ m, l.foldl least_term acc = some m →
      (acc = some m ∨ m ∈ l) ∧ (∀ a, acc = some a → ¬ a < m) ∧ ∀ u ∈ l, ¬ u < m := by
  induction l with
  | nil =>
    intro acc
    simp only [List.foldl_nil, and_true, true_and]
    intro m h
    subst h
    exact ⟨Or.inl rfl, fun a ha => by cases ha; exact lt_irrefl _,
      fun u hu => absurd hu (List.not_mem_nil u)⟩
  | cons c cs ih =>
    intro acc
    simp only [List.foldl_cons, least_term]
    cases acc with
    | none =>
      obtain ⟨i1, i2⟩ := ih (some c)
      refine ⟨⟨fun h => by simp at i1; exact absurd h i1, fun h => by simp at h⟩, ?_⟩
      intro m hm
      obtain ⟨j1, j2, j3⟩ := i2 m hm
      refine ⟨Or.inr ?_, fun a ha => Option.noConfusion ha, ?_⟩
      · rcases j1 with h | h
        · cases h; exact List.mem_cons_self _ _
        · exact List.mem_cons_of_mem _ h
      · intro u hu
        rcases List.mem_cons.mp hu with h | h
        · subst h; exact j2 _ rfl
        · exact j3 u h
    | some a =>
      by_cases hca : c < a
      · simp only [hca, if_true]
        obtain ⟨i1, i2⟩ := ih (some c)
        refine ⟨⟨fun h => by simp at i1; exact absurd h i1, fun h => by simp at h⟩, ?_⟩
        intro m hm
        obtain ⟨j1, j2, j3⟩ := i2 m hm
        refine ⟨?_, ?_, ?_⟩
        · rcases j1 with h | h
          · cases h; exact Or.inr (List.mem_cons_self _ _)
          · exact Or.inr (List.mem_cons_of_mem _ h)
        · intro a' ha'
          cases ha'
          exact fun h => j2 c rfl (lt_trans hca h)
        · intro u hu
          rcases List.mem_cons.mp hu with h | h
          · subst h; exact j2 _ rfl
          · exact j3 u h
      · simp only [hca, if_false]
        obtain ⟨i1, i2⟩ := ih (some a)
        refine ⟨⟨fun h => by simp at i1; exact absurd h i1, fun h => by simp at h⟩, ?_⟩
        intro m hm
        obtain ⟨j1, j2, j3⟩ := i2 m hm
        refine ⟨?_, j2, ?_⟩
        · rcases j1 with h | h
          · exact Or.inl h
          · exact Or.inr (List.mem_cons_of_mem _ h)
        · intro u hu
          rcases List.mem_cons.mp hu with h | h
          · subst h
            exact fun h => hca (lt_of_lt_of_le h (not_lt.mp (j2 a rfl)))
          · exact j3 u h

/-- After `skip_to (prefix)` the iterator is at the end or at a term that does not start
with the prefix exactly when no term of the document starts with the prefix. -/
theorem skip_to_prefix (terms : List Str) (pfx : Str) :
    (match termlist_skip_to terms pfx with
      | none => True
      | some j => ¬ pfx.isPrefixOf j = true) ↔ ∀ t ∈ terms, ¬ pfx.isPrefixOf t = true := by
  unfold termlist_skip_to
  obtain ⟨i1, i2⟩ := skip_to_fold (terms.filter (fun u => decide (¬ u < pfx))) none
  have hge : ∀ t ∈ terms, pfx.isPrefixOf t = true → ¬ t < pfx := by
    intro t _ hp
    obtain ⟨x, hx⟩ := List.isPrefixOf_iff_prefix.mp hp
    rw [← hx]
    exact not_append_lt pfx x
  cases hm : (terms.filter (fun u => decide (¬ u < pfx))).foldl least_term none with
  | none =>
    have hnil := (i1.mp hm).2
    refine ⟨fun _ => ?_, fun _ => trivial⟩
    intro t ht hp
    have : t ∈ terms.filter (fun u => decide (¬ u < pfx)) := by
      rw [List.mem_filter]; exact ⟨ht, by simpa using hge t ht hp⟩
    rw [hnil] at this
    exact List.not_mem_nil t this
  | some m =>
    obtain ⟨j1, _, j3⟩ := i2 m hm
    have hmem : m ∈ terms.filter (fun u => decide (¬ u < pfx)) := by
      rcases j1 with h | h
      · cases h
      · exact h
    rw [List.mem_filter] at hmem
    show (¬ pfx.isPrefixOf m = true) ↔ _
    constructor
    · intro hnp t ht hp
      obtain ⟨x, hx⟩ := List.isPrefixOf_iff_prefix.mp hp
      have h2 : ¬ (pfx ++ x) < m := by
        rw [hx]
        exact j3 t (by rw [List.mem_filter]; exact ⟨ht, by simpa using hge t ht hp⟩)
      exact hnp (prefix_of_between pfx m x (by simpa using hmem.2) h2)
    · intro hall
      exact hall m hmem.1

theorem DirDoc.no_file_direntry {d : Document} (h : DirDoc d) (v : Str) :
    make_term "file-direntry" v ∉ d.terms := by
  intro hm
  obtain ⟨u, hu | hu⟩ := h _ hm
  · rw [make_term_file_direntry, make_term_directory] at hu
    simp at hu
  · rw [make_term_file_direntry, make_term_directory_direntry] at hu
    simp at hu

/-- Directory documents added behind a database do not change the posting list of a
`file-direntry` term. -/
theorem Extends.postings_file_direntry {db db2 : Database} (h : Extends db db2) (v : Str) :
    find_doc_ids_for_term db2 (make_term "file-direntry" v) =
      find_doc_ids_for_term db (make_term "file-direntry" v) := by
  apply find_doc_ids_for_term_congr
  intro i
  obtain ⟨_, hle, hold, hnew⟩ := h
  by_cases hi : i ≤ db.lastdocid
  · unfold Database.has_term
    rw [hold i hi]
  · rw [has_term_out_of_range db i _ (by omega)]
    cases hh : db2.has_term i (make_term "file-direntry" v) with
    | false => rfl
    | true =>
      obtain ⟨d, hd, ht⟩ := (has_term_iff db2 i _).mp hh
      exact absurd ht ((hnew i d (by omega) hd).no_file_direntry v)

/-- One round of the loop of `notmuch_database_remove_message`. -/
theorem remove_message_loop_one (pfx term : Str) (db : Database) (st : notmuch_status_t)
    (i : Nat) (d : Document) (hd : db.get_document i = some d) :
    remove_message_loop pfx term db st [i] =
      if ∀ t ∈ (d.remove_term term).terms, ¬ pfx.isPrefixOf t = true then
        some (NOTMUCH_STATUS_SUCCESS, db.delete_document i)
      else
        some (NOTMUCH_STATUS_DUPLICATE_MESSAGE_ID, db.replace_document i (d.remove_term term)) := by
  have hs := skip_to_prefix (d.remove_term term).terms pfx
  simp only [remove_message_loop, find_document_for_doc_id, hd]
  cases hk : termlist_skip_to (d.remove_term term).terms pfx with
  | none =>
    rw [hk] at hs
    simp only at hs
    rw [if_pos (hs.mp trivial)]
  | some j =>
    rw [hk] at hs
    simp only at hs
    by_cases hp : pfx.isPrefixOf j = true
    · have : ¬ ∀ t ∈ (d.remove_term term).terms, ¬ pfx.isPrefixOf t = true :=
        fun hall => (hs.mpr hall) hp
      simp only [hp, not_true_eq_false, if_false, this]
    · rw [if_pos (hs.mp hp)]
      simp [hp]

/-- Claim C16, as amended: for a writable database and a filename whose file-direntry term
is carried by exactly one document `i`, `notmuch_database_remove_message` returns; it
leaves every other document of the database as it was; if the document has no other
file-direntry term it is deleted and the result is Success; otherwise it is kept, with
the one term removed and all its other terms, its values and its data, and the result
is DuplicateMessageId. -/
theorem remove_message_spec (w : World) (db : Database) (filename : Str) (i : Nat)
    (hmode : db.mode = NOTMUCH_DATABASE_MODE_READ_WRITE)
    (hpost : find_doc_ids_for_term db
      (make_term "file-direntry" (_notmuch_database_filename_to_direntry w db filename).2.2) =
        [i]) :
    ∃ res d, notmuch_database_remove_message w db filename = some res ∧
      db.get_document i = some d ∧
      make_term "file-direntry" (_notmuch_database_filename_to_direntry w db filename).2.2 ∈
        d.terms ∧
      (∀ j, j ≠ i → j ≤ db.lastdocid → res.2.get_document j = db.get_document j) ∧
      ((∀ t ∈ d.terms, (make_term "file-direntry" []).isPrefixOf t = true →
          t = make_term "file-direntry"
            (_notmuch_database_filename_to_direntry w db filename).2.2) →
        res.1 = NOTMUCH_STATUS_SUCCESS ∧ res.2.get_document i = none) ∧
      ((∃ t ∈ d.terms, (make_term "file-direntry" []).isPrefixOf t = true ∧
          t ≠ make_term "file-direntry"
            (_notmuch_database_filename_to_direntry w db filename).2.2) →
        res.1 = NOTMUCH_STATUS_DUPLICATE_MESSAGE_ID ∧
        ∃ d2, res.2.get_document i = some d2 ∧ d2.values = d.values ∧ d2.data = d.data ∧
          ∀ t, t ∈ d2.terms ↔ t ∈ d.terms ∧ t ≠ make_term "file-direntry"
            (_notmuch_database_filename_to_direntry w db filename).2.2) := by
  obtain ⟨hext, hst⟩ := filename_to_direntry_spec w db filename
  generalize he : (_notmuch_database_filename_to_direntry w db filename).2.2 = e at hpost ⊢
  have hmem : i ∈ find_doc_ids_for_term db (make_term "file-direntry" e) := by
    rw [hpost]; exact List.mem_singleton_self i
  obtain ⟨d, hd, ht⟩ := (mem_find_doc_ids_for_term db _ i).mp hmem
  have hir := get_document_range db i d hd
  have hd1 : (_notmuch_database_filename_to_direntry w db filename).1.get_document i = some d := by
    rw [hext.2.2.1 i hir.2]; exact hd
  have hle := hext.2.1
  have hrm : notmuch_database_remove_message w db filename =
      remove_message_loop (make_term "file-direntry" []) (make_term "file-direntry" e)
        (_notmuch_database_filename_to_direntry w db filename).1 NOTMUCH_STATUS_SUCCESS [i] := by
    simp only [notmuch_database_remove_message, ensure_writable_rw db hmode, ne_eq,
      not_true_eq_false, if_false, hst, he]
    rw [hext.postings_file_direntry e, hpost]
  rw [hrm, remove_message_loop_one _ _ _ _ i d hd1]
  have hold : ∀ j, j ≤ db.lastdocid →
      (_notmuch_database_filename_to_direntry w db filename).1.get_document j =
        db.get_document j := hext.2.2.1
  by_cases hall : ∀ t ∈ (d.remove_term (make_term "file-direntry" e)).terms,
      ¬ (make_term "file-direntry" []).isPrefixOf t = true
  · rw [if_pos hall]
    refine ⟨_, d, rfl, hd, ht, fun j hj hjl => ?_, fun _ => ⟨rfl, ?_⟩, ?_⟩
    · simp only [get_document_delete, hj, if_false]; exact hold j hjl
    · simp only [get_document_delete, if_true]
    · rintro ⟨t, htd, htp, hne⟩
      exact absurd htp (hall t ((mem_remove_term d _ t).mpr ⟨hne, htd⟩))
  · rw [if_neg hall]
    have hk : 0 < i ∧ i ≤ (_notmuch_database_filename_to_direntry w db filename).1.lastdocid :=
      ⟨hir.1, by omega⟩
    refine ⟨_, d, rfl, hd, ht, fun j hj hjl => ?_, ?_,
      fun _ => ⟨rfl, d.remove_term (make_term "file-direntry" e), ?_, rfl, rfl, ?_⟩⟩
    · simp only [get_document_replace _ _ i j hk, hj, if_false]; exact hold j hjl
    · intro honly
      exfalso
      apply hall
      intro t htm htp
      obtain ⟨hne, htd⟩ := (mem_remove_term d _ t).mp htm
      exact hne (honly t htd htp)
    · simp only [get_document_replace _ _ i i hk, if_true]
    · intro t
      rw [mem_remove_term]
      exact and_comm

set_option maxRecDepth 1000000 in
/-- Claim C16, witness: the message of the example maildir that is in two files; removing
the second file. -/
theorem remove_message_spec_witness :
    ∃ res d, notmuch_database_remove_message example_world example_db_two_files
        "/mail/dd/m3".toList = some res ∧
      example_db_two_files.get_document 1 = some d ∧
      make_term "file-direntry" (_notmuch_database_filename_to_direntry example_world
        example_db_two_files "/mail/dd/m3".toList).2.2 ∈ d.terms ∧
      (∀ j, j ≠ 1 → j ≤ example_db_two_files.lastdocid →
        res.2.get_document j = example_db_two_files.get_document j) ∧
      ((∀ t ∈ d.terms, (make_term "file-direntry" []).isPrefixOf t = true →
          t = make_term "file-direntry" (_notmuch_database_filename_to_direntry example_world
            example_db_two_files "/mail/dd/m3".toList).2.2) →
        res.1 = NOTMUCH_STATUS_SUCCESS ∧ res.2.get_document 1 = none) ∧
      ((∃ t ∈ d.terms, (make_term "file-direntry" []).isPrefixOf t = true ∧
          t ≠ make_term "file-direntry" (_notmuch_database_filename_to_direntry example_world
            example_db_two_files "/mail/dd/m3".toList).2.2) →
        res.1 = NOTMUCH_STATUS_DUPLICATE_MESSAGE_ID ∧
        ∃ d2, res.2.get_document 1 = some d2 ∧ d2.values = d.values ∧ d2.data = d.data ∧
          ∀ t, t ∈ d2.terms ↔ t ∈ d.terms ∧ t ≠ make_term "file-direntry"
            (_notmuch_database_filename_to_direntry example_world
              example_db_two_files "/mail/dd/m3".toList).2.2) :=
  remove_message_spec example_world example_db_two_files "/mail/dd/m3".toList 1
    (by decide) (by decide)

set_option maxRecDepth 1000000 in
/-- Claim C16, counterexample: the file-direntry term of `m1` is carried by document 1, which
has no other file-direntry term, and also by document 4; removing `m1` deletes document 1,
yet the result is DuplicateMessageId, not Success. -/
theorem remove_message_shared_file :
    example_db_shared_file.mode = NOTMUCH_DATABASE_MODE_READ_WRITE ∧
    (_notmuch_database_filename_to_direntry example_world_later example_db_shared_file
      "/mail/dd/m1".toList).2.2 = "3:m1".toList ∧
    (example_db_shared_file.get_document 1).map (fun d => d.terms) =
      some ["Qm1@x".toList, "XFDIRENTRY3:m1".toList, "Tmail".toList,
        "G0000000000000001".toList] ∧
    (notmuch_database_remove_message example_world_later example_db_shared_file
      "/mail/dd/m1".toList).map (fun res => (res.1, res.2.get_document 1)) =
      some (NOTMUCH_STATUS_DUPLICATE_MESSAGE_ID, none) := by
  decide

theorem IdTypeFrame.same (db : Database) : IdTypeFrame db db :=
  fun _ d2 h => Or.inr ⟨d2, h, fun _ => Iff.rfl, fun _ => Iff.rfl⟩

theorem IdTypeFrame.step {a b c : Database} (h1 : IdTypeFrame a b) (h2 : IdTypeFrame b c) :
    IdTypeFrame a c := by
  intro i d3 hd3
  rcases h2 i d3 hd3 with h | ⟨d2, hd2, e1, e2⟩
  · exact Or.inl h
  · rcases h1 i d2 hd2 with h | ⟨d1, hd1, f1, f2⟩
    · exact Or.inl (fun v => ⟨fun hm => (h v).1 ((e1 v).mp hm), fun hm => (h v).2 ((e2 v).mp hm)⟩)
    · exact Or.inr ⟨d1, hd1, fun v => (e1 v).trans (f1 v), fun v => (e2 v).trans (f2 v)⟩

theorem IdTypeFrame.one_mail_per_id {db db2 : Database} (h : IdTypeFrame db db2)
    (hinv : OneMailPerId db) : OneMailPerId db2 := by
  intro x i j di dj hdi hdj hti htj hxi hxj
  rcases h i di hdi with hn | ⟨ei, hei, i1, i2⟩
  · exact absurd hxi (hn x).1
  · rcases h j dj hdj with hn | ⟨ej, hej, j1, j2⟩
    · exact absurd hxj (hn x).1
    · exact hinv x i j ei ej hei hej ((i2 _).mp hti) ((j2 _).mp htj) ((i1 x).mp hxi)
        ((j1 x).mp hxj)

theorem Extends.id_type_frame {db db2 : Database} (h : Extends db db2) : IdTypeFrame db db2 := by
  intro i d2 hd2
  by_cases hi : i ≤ db.lastdocid
  · right
    rw [h.2.2.1 i hi] at hd2
    exact ⟨d2, hd2, fun _ => Iff.rfl, fun _ => Iff.rfl⟩
  · left
    have hdir := h.2.2.2 i d2 (by omega) hd2
    exact fun v => ⟨hdir.no_id v, hdir.no_type v⟩

/-- The loop of `notmuch_database_remove_message` changes no id term and no type term of a
document that it keeps, and it returns when the documents of the posting list exist. -/
theorem remove_message_loop_frame (pfx v : Str) : ∀ (l : List Nat) (db : Database)
    (st : notmuch_status_t), l.Nodup → (∀ i ∈ l, ∃ d, db.get_document i = some d) →
    ∃ res, remove_message_loop pfx (make_term "file-direntry" v) db st l = some res ∧
      IdTypeFrame db res.2 := by
  intro l
  induction l with
  | nil => intro db st _ _; exact ⟨(st, db), rfl, IdTypeFrame.same db⟩
  | cons i rest ih =>
    intro db st hnd hex
    obtain ⟨d, hd⟩ := hex i (List.mem_cons_self _ _)
    have hir := get_document_range db i d hd
    have hnd' := (List.nodup_cons.mp hnd).2
    have hni := (List.nodup_cons.mp hnd).1
    have hdel : IdTypeFrame db (db.delete_document i) := by
      intro j d2 hd2
      rw [get_document_delete] at hd2
      by_cases hj : j = i
      · simp [hj] at hd2
      · simp only [hj, if_false] at hd2
        exact Or.inr ⟨d2, hd2, fun _ => Iff.rfl, fun _ => Iff.rfl⟩
    have hexdel : ∀ j ∈ rest, ∃ d, (db.delete_document i).get_document j = some d := by
      intro j hj
      rw [get_document_delete]
      have : j ≠ i := fun e => hni (e ▸ hj)
      simp only [this, if_false]
      exact hex j (List.mem_cons_of_mem _ hj)
    have hrep : IdTypeFrame db
        (db.replace_document i (d.remove_term (make_term "file-direntry" v))) := by
      intro j d2 hd2
      rw [get_document_replace db _ i j hir] at hd2
      by_cases hj : j = i
      · subst hj
        simp only [if_true, Option.some.injEq] at hd2
        subst hd2
        refine Or.inr ⟨d, hd, fun u => ?_, fun u => ?_⟩
        · rw [mem_remove_term]
          simp [make_term_id, make_term_file_direntry]
        · rw [mem_remove_term]
          simp [make_term_type, make_term_file_direntry]
      · simp only [hj, if_false] at hd2
        exact Or.inr ⟨d2, hd2, fun _ => Iff.rfl, fun _ => Iff.rfl⟩
    have hexrep : ∀ j ∈ rest, ∃ d', (db.replace_document i
        (d.remove_term (make_term "file-direntry" v))).get_document j = some d' := by
      intro j hj
      rw [get_document_replace db _ i j hir]
      have : j ≠ i := fun e => hni (e ▸ hj)
      simp only [this, if_false]
      exact hex j (List.mem_cons_of_mem _ hj)
    simp only [remove_message_loop, find_document_for_doc_id, hd]
    split
    · obtain ⟨res, h1, h2⟩ := ih (db.delete_document i) NOTMUCH_STATUS_SUCCESS hnd' hexdel
      exact ⟨res, h1, hdel.step h2⟩
    · split
      · obtain ⟨res, h1, h2⟩ := ih (db.delete_document i) NOTMUCH_STATUS_SUCCESS hnd' hexdel
        exact ⟨res, h1, hdel.step h2⟩
      · obtain ⟨res, h1, h2⟩ := ih (db.replace_document i
          (d.remove_term (make_term "file-direntry" v))) NOTMUCH_STATUS_DUPLICATE_MESSAGE_ID
          hnd' hexrep
        exact ⟨res, h1, hrep.step h2⟩

/-- Function `notmuch_database_remove_message` returns, and changes no id term and no type
term of a document that it keeps. -/
theorem remove_message_frame (w : World) (db : Database) (f : Str) :
    ∃ res, notmuch_database_remove_message w db f = some res ∧ IdTypeFrame db res.2 := by
  unfold notmuch_database_remove_message
  split
  · exact ⟨_, rfl, IdTypeFrame.same db⟩
  · obtain ⟨hext, hst⟩ := filename_to_direntry_spec w db f
    simp only [hst, ne_eq, not_true_eq_false, if_false]
    obtain ⟨res, h1, h2⟩ := remove_message_loop_frame (make_term "file-direntry" [])
      (_notmuch_database_filename_to_direntry w db f).2.2
      (find_doc_ids_for_term (_notmuch_database_filename_to_direntry w db f).1
        (make_term "file-direntry" (_notmuch_database_filename_to_direntry w db f).2.2))
      (_notmuch_database_filename_to_direntry w db f).1 NOTMUCH_STATUS_SUCCESS
      (find_doc_ids_for_term_nodup _ _)
      (fun i hi => by
        obtain ⟨d, hd, _⟩ := (mem_find_doc_ids_for_term _ _ i).mp hi
        exact ⟨d, hd⟩)
    exact ⟨res, h1, hext.id_type_frame.step h2⟩

/-- Claim C6: the predicate `for every message identifier at most one mail document carries
that id term` is an invariant of `notmuch_database_add_message` and of
`notmuch_database_remove_message`, for any filename and any file contents: if it holds
before a call it holds for the database of every result, and
`notmuch_database_remove_message` always has a result. -/
theorem one_mail_per_id_invariant (w : World) (db : Database) (filename : Str)
    (hko : KeysOk w) (hix : IndexOk w) (hinv : OneMailPerId db) :
    (∀ r, notmuch_database_add_message w db filename = some r → OneMailPerId r.db) ∧
    (∃ res, notmuch_database_remove_message w db filename = some res) ∧
    (∀ res, notmuch_database_remove_message w db filename = some res →
      OneMailPerId res.2) := by
  obtain ⟨res0, hr0, hf0⟩ := remove_message_frame w db filename
  refine ⟨fun r h => ?_, ⟨res0, hr0⟩, fun res h => ?_⟩
  · rcases add_message_cases w db filename r h with ⟨hdb, _, _⟩ |
      ⟨mf, mid, hmode, hopen, hmail, hmid, hf⟩
    · rw [hdb]; exact hinv
    · rcases hf with hnew | ⟨j, hj⟩
      · obtain ⟨σ, tw, dM, post⟩ :=
          add_message_new_post w db filename mf mid r hko hmode hopen hmail hmid hnew h
        have hnone := (find_unique_none_iff db "id" mid).mp hnew
        obtain ⟨_, hown, _⟩ := post.own_terms hix
        have hold : ∀ (d d2 : Document), DocLinked σ mid d d2 →
            (∀ v, make_term "id" v ∈ d2.terms ↔ make_term "id" v ∈ d.terms) ∧
            (∀ v, make_term "type" v ∈ d2.terms ↔ make_term "type" v ∈ d.terms) :=
          fun d d2 rl => ⟨fun v => rl.1 _ (by simp [make_term_id, make_term_thread])
              (by simp [make_term_id, make_term_reference]),
            fun v => rl.1 _ (by simp [make_term_type, make_term_thread])
              (by simp [make_term_type, make_term_reference])⟩
        intro x i j di dj hdi hdj hti htj hxi hxj
        rcases post.docs i di hdi with ⟨_, ei, hei, rli⟩ | ⟨hi, rfl⟩ | ⟨_, hdir⟩
        · rcases post.docs j dj hdj with ⟨_, ej, hej, rlj⟩ | ⟨hj, rfl⟩ | ⟨_, hdir⟩
          · exact hinv x i j ei ej hei hej (((hold ei di rli).2 _).mp hti)
              (((hold ej dj rlj).2 _).mp htj) (((hold ei di rli).1 x).mp hxi)
              (((hold ej dj rlj).1 x).mp hxj)
          · have hx : x = mid := (hown x).mp hxj
            subst hx
            exact absurd (((hold ei di rli).1 x).mp hxi) (hnone i ei hei)
          · exact absurd hxj (hdir.no_id x)
        · rcases post.docs j dj hdj with ⟨_, ej, hej, rlj⟩ | ⟨hj, _⟩ | ⟨_, hdir⟩
          · have hx : x = mid := (hown x).mp hxi
            subst hx
            exact absurd (((hold ej dj rlj).1 x).mp hxj) (hnone j ej hej)
          · omega
          · exact absurd hxj (hdir.no_id x)
        · exact absurd hxi (hdir.no_id x)
      · obtain ⟨d, hd, _, heq⟩ :=
          add_message_eq_dup w db filename mf mid j hmode hopen hmail hmid hj
        rw [heq] at h
        simp only [Option.some.injEq] at h
        subst h
        refine IdTypeFrame.one_mail_per_id ?_ hinv
        intro i d2 hd2
        rcases add_message_dup_docs w db filename j d hd i d2 hd2 with
          ⟨hij, he⟩ | ⟨_, hdi⟩ | ⟨_, hdir⟩
        · subst hij he
          refine Or.inr ⟨d, hd, fun v => ?_, fun v => ?_⟩
          · rw [mem_add_term]; simp [make_term_id, make_term_file_direntry]
          · rw [mem_add_term]; simp [make_term_type, make_term_file_direntry]
        · exact Or.inr ⟨d2, hdi, fun _ => Iff.rfl, fun _ => Iff.rfl⟩
        · exact Or.inl (fun v => ⟨hdir.no_id v, hdir.no_type v⟩)
  · rw [hr0] at h
    cases h
    exact hf0.one_mail_per_id hinv

theorem empty_database_one_mail (p : Str) : OneMailPerId (empty_database p) := by
  intro x i j di dj h
  simp [Database.get_document, empty_database] at h

/-- Claim C6, witness: the first file of the example maildir, added to and removed from the
empty database. -/
theorem one_mail_per_id_invariant_witness :
    (∀ r, notmuch_database_add_message example_world (empty_database "/mail".toList)
      "/mail/dd/m1".toList = some r → OneMailPerId r.db) ∧
    (∃ res, notmuch_database_remove_message example_world (empty_database "/mail".toList)
      "/mail/dd/m1".toList = some res) ∧
    (∀ res, notmuch_database_remove_message example_world (empty_database "/mail".toList)
      "/mail/dd/m1".toList = some res → OneMailPerId res.2) :=
  one_mail_per_id_invariant example_world (empty_database "/mail".toList) "/mail/dd/m1".toList
    example_world_keys example_world_index (empty_database_one_mail _)

/-- The document of the message after a further file has been added to it. -/
theorem add_message_dup_own (w : World) (db : Database) (f : Str) (j : Nat) (d : Document)
    (hd : db.get_document j = some d) :
    (_notmuch_message_sync (_notmuch_message_add_filename w db ⟨j, 0, d⟩ f).1
      (_notmuch_message_add_filename w db ⟨j, 0, d⟩ f).2).get_document j =
      some (d.add_term (make_term "file-direntry"
        (_notmuch_database_filename_to_direntry w db f).2.2)) := by
  obtain ⟨hext, hnamed⟩ := add_filename_spec w db ⟨j, 0, d⟩ f
  rw [hnamed]
  generalize (_notmuch_message_add_filename w db ⟨j, 0, d⟩ f).1 = db2 at hext
  obtain ⟨_, hle, _, _⟩ := hext
  have hjr := get_document_range db j d hd
  simp only [_notmuch_message_sync, _notmuch_message_add_term, if_true]
  rw [get_document_replace db2 _ j j ⟨hjr.1, by omega⟩]
  simp

/-- Claim C5: for a writable, well-formed database (every document with an id, reference or
thread term has exactly one thread term) that holds no message with identifier m, and two
files f1 and f2 that both yield identifier m, `notmuch_database_add_message` returns
Success for f1 and then DuplicateMessageId for f2, after which exactly one document has
the term id=m; it is a mail document and carries the file-direntry term formed for f1 and
the file-direntry term formed for f2. -/
theorem add_message_twice (w : World) (db : Database) (f1 f2 : Str) (mf1 mf2 : MessageFile)
    (m : Str) (hko : KeysOk w) (hs : Sound db 0)
    (hmode : db.mode = NOTMUCH_DATABASE_MODE_READ_WRITE)
    (hopen1 : w.notmuch_message_file_open f1 = some mf1) (hmail1 : looks_like_mail mf1)
    (hmid1 : message_id_of_file w mf1 f1 = some m)
    (hopen2 : w.notmuch_message_file_open f2 = some mf2) (hmail2 : looks_like_mail mf2)
    (hmid2 : message_id_of_file w mf2 f2 = some m)
    (hnew : _notmuch_database_find_unique_doc_id db "id" m = none) :
    ∃ r1 r2 k d, notmuch_database_add_message w db f1 = some r1 ∧
      r1.status = NOTMUCH_STATUS_SUCCESS ∧
      notmuch_database_add_message w r1.db f2 = some r2 ∧
      r2.status = NOTMUCH_STATUS_DUPLICATE_MESSAGE_ID ∧
      r2.db.get_document k = some d ∧
      make_term "type" "mail".toList ∈ d.terms ∧ make_term "id" m ∈ d.terms ∧
      (∀ j dj, r2.db.get_document j = some dj → make_term "id" m ∈ dj.terms → j = k) ∧
      make_term "file-direntry"
        (_notmuch_database_filename_to_direntry w (db.add_document (new_doc m)).1 f1).2.2 ∈
          d.terms ∧
      make_term "file-direntry" (_notmuch_database_filename_to_direntry w r1.db f2).2.2 ∈
        d.terms := by
  obtain ⟨r1, h1⟩ := add_message_new_total w db f1 mf1 m hko hs hmode hopen1 hmail1 hmid1 hnew
  obtain ⟨σ, tw, dM, post⟩ :=
    add_message_new_post w db f1 mf1 m r1 hko hmode hopen1 hmail1 hmid1 hnew h1
  have hnone := (find_unique_none_iff db "id" m).mp hnew
  have hidM : make_term "id" m ∈ dM.terms := (post.terms _).mpr (Or.inl rfl)
  -- the only document of `r1.db` with the term `id=m` is the new one
  have honly : ∀ j dj, r1.db.get_document j = some dj → make_term "id" m ∈ dj.terms →
      j = db.lastdocid + 1 := by
    intro j dj hdj hmj
    rcases post.docs j dj hdj with ⟨_, e, he, rl⟩ | ⟨hj, _⟩ | ⟨_, hdir⟩
    · have := (rl.1 (make_term "id" m) (by simp [make_term_id, make_term_thread])
        (by simp [make_term_id, make_term_reference])).mp hmj
      exact absurd this (hnone j e he)
    · exact hj
    · exact absurd hmj (hdir.no_id m)
  have hfind : _notmuch_database_find_unique_doc_id r1.db "id" m = some (db.lastdocid + 1) := by
    cases hf : _notmuch_database_find_unique_doc_id r1.db "id" m with
    | none =>
      exact absurd hidM ((find_unique_none_iff r1.db "id" m).mp hf _ dM post.own)
    | some j =>
      obtain ⟨dj, hdj, hmj⟩ := find_unique_some r1.db "id" m j hf
      rw [honly j dj hdj hmj]
  have hmode1 : r1.db.mode = NOTMUCH_DATABASE_MODE_READ_WRITE := post.mode.trans hmode
  obtain ⟨d, hd, _, h2⟩ :=
    add_message_eq_dup w r1.db f2 mf2 m (db.lastdocid + 1) hmode1 hopen2 hmail2 hmid2 hfind
  have hdM : d = dM := by
    rw [post.own] at hd; exact (Option.some.inj hd).symm
  subst hdM
  refine ⟨r1, _, db.lastdocid + 1, _, h1, post.status, h2, rfl,
    add_message_dup_own w r1.db f2 _ d hd, ?_, ?_, ?_, ?_, ?_⟩
  · rw [mem_add_term]; exact Or.inr ((post.terms _).mpr (Or.inr (Or.inr (Or.inl rfl))))
  · rw [mem_add_term]; exact Or.inr hidM
  · intro j dj hdj hmj
    rcases add_message_dup_docs w r1.db f2 _ d hd j dj hdj with ⟨hj, _⟩ | ⟨_, hdi⟩ | ⟨_, hdir⟩
    · exact hj
    · exact honly j dj hdi hmj
    · exact absurd hmj (hdir.no_id m)
  · rw [mem_add_term]; exact Or.inr ((post.terms _).mpr (Or.inr (Or.inl rfl)))
  · rw [mem_add_term]; exact Or.inl rfl

theorem empty_database_sound (p : Str) (k : Nat) : Sound (empty_database p) k := by
  intro i d _ h
  simp [Database.get_document, empty_database] at h

set_option maxRecDepth 1000000 in
/-- Claim C5, witness: the files `m1` and `m3` of the example maildir, both with identifier
`m1@x`, added to the empty database; the terms are `XFDIRENTRY3:m1` and `XFDIRENTRY3:m3`. -/
theorem add_message_twice_witness :
    (∃ r1 r2 k d, notmuch_database_add_message example_world (empty_database "/mail".toList)
        "/mail/dd/m1".toList = some r1 ∧
      r1.status = NOTMUCH_STATUS_SUCCESS ∧
      notmuch_database_add_message example_world r1.db "/mail/dd/m3".toList = some r2 ∧
      r2.status = NOTMUCH_STATUS_DUPLICATE_MESSAGE_ID ∧
      r2.db.get_document k = some d ∧
      make_term "type" "mail".toList ∈ d.terms ∧ make_term "id" "m1@x".toList ∈ d.terms ∧
      (∀ j dj, r2.db.get_document j = some dj → make_term "id" "m1@x".toList ∈ dj.terms →
        j = k) ∧
      make_term "file-direntry"
        (_notmuch_database_filename_to_direntry example_world
          ((empty_database "/mail".toList).add_document (new_doc "m1@x".toList)).1
          "/mail/dd/m1".toList).2.2 ∈ d.terms ∧
      make_term "file-direntry" (_notmuch_database_filename_to_direntry example_world r1.db
        "/mail/dd/m3".toList).2.2 ∈ d.terms) ∧
    (example_db_two_files.get_document 1).map (fun d => d.terms) =
      some ["Qm1@x".toList, "XFDIRENTRY3:m1".toList, "Tmail".toList,
        "G0000000000000001".toList, "XFDIRENTRY3:m3".toList] :=
  ⟨add_message_twice example_world (empty_database "/mail".toList) "/mail/dd/m1".toList
    "/mail/dd/m3".toList
    (file_of_headers [("message-id", "<m1@x>"), ("from", "u"), ("subject", "s")])
    (file_of_headers [("message-id", "<m1@x>"), ("from", "u"), ("subject", "s")])
    "m1@x".toList example_world_keys (empty_database_sound _ 0) rfl rfl
    (by unfold looks_like_mail; decide) (by decide)
    rfl (by unfold looks_like_mail; decide) (by decide) (by decide), by decide⟩

theorem find_doc_ids_nil (db : Database) (name : String) (v : Str)
    (h : ∀ i d, db.get_document i = some d → make_term name v ∉ d.terms) :
    find_doc_ids db name v = [] := by
  unfold find_doc_ids
  apply List.eq_nil_iff_forall_not_mem.mpr
  intro i hi
  obtain ⟨d, hd, ht⟩ := (mem_find_doc_ids_for_term db _ i).mp hi
  exact h i d hd ht

theorem OneId.add_other {d : Document} {mid : Str} (h : OneId d mid) (t : Str)
    (ht : ∀ v, t ≠ make_term "id" v) : OneId (d.add_term t) mid := by
  intro v
  rw [mem_add_term]
  constructor
  · rintro (e | e)
    · exact absurd e.symm (ht v)
    · exact (h v).mp e
  · intro e; exact Or.inr ((h v).mpr e)

/-- Thread resolution of a new message that has no parent in its headers, or one parent
that is in the database, and that no document refers to: no thread is merged, the
database is changed only by the allocation of a thread id in the first case, and the
message gets the thread of its parent or the new thread. -/
theorem link_message_simple (w : World) (db : Database) (m : Message) (mf : MessageFile)
    (mid : Str) (hid : OneId m.doc mid)
    (hch : ∀ i d, db.get_document i = some d → make_term "reference" mid ∉ d.terms)
    (tsel : Option Str)
    (hpar : (parent_keys w mid mf = [] ∧ tsel = none) ∨
      (∃ a t, parent_keys w mid mf = [a] ∧
        _resolve_message_id_to_thread_id db a = some (some t) ∧ tsel = some t)) :
    ∃ m2 : Message, m2.doc_id = m.doc_id ∧ m2.frozen = m.frozen ∧
      (∀ t, t ∈ m2.doc.terms ↔ t ∈ m.doc.terms ∨ t ∈ replyto_terms mid mf ∨
        t = make_term "thread"
          (tsel.getD (_notmuch_database_generate_thread_id db).2)) ∧
      _notmuch_database_link_message w db m mf =
        some (NOTMUCH_STATUS_SUCCESS,
          (match tsel with
            | none => (_notmuch_database_generate_thread_id db).1
            | some _ => db), m2) := by
  obtain ⟨m0, hm0id, hm0fr, _, _, hm0t, hpe⟩ := link_to_parents_eq w db m mf mid hid none
  have hid0 : OneId m0.doc mid := by
    intro v
    rw [hm0t]
    constructor
    · rintro (e | e)
      · exact (hid v).mp e
      · obtain ⟨x, _, hx⟩ := mem_replyto_terms mid mf _ e
        rw [make_term_id, make_term_replyto] at hx
        simp at hx
    · intro e; exact Or.inl ((hid v).mpr e)
  have hkids : find_doc_ids db "reference" mid = [] := find_doc_ids_nil db _ _ hch
  unfold _notmuch_database_link_message
  rw [hpe]
  rcases hpar with ⟨hk, hts⟩ | ⟨a, t, hk, hres, hts⟩
  · subst hts
    have hg : notmuch_message_get_message_id m0 = some mid := term_value_id m0.doc mid hid0
    simp only [hk, link_message_to_parents_loop, ne_eq, not_true_eq_false, if_false,
      _notmuch_database_link_message_to_children, hg, hkids, link_message_to_children_loop]
    refine ⟨_notmuch_message_add_term m0 "thread" (_notmuch_database_generate_thread_id db).2,
      hm0id, hm0fr, fun u => ?_, rfl⟩
    simp only [_notmuch_message_add_term, mem_add_term, hm0t, Option.getD_none]
    tauto
  · subst hts
    have hid1 : OneId (_notmuch_message_add_term m0 "thread" t).doc mid :=
      hid0.add_other _ (fun v => by simp [make_term_id, make_term_thread])
    have hg : notmuch_message_get_message_id (_notmuch_message_add_term m0 "thread" t) =
        some mid := term_value_id _ mid hid1
    simp only [hk, link_message_to_parents_loop, hres, ne_eq, not_true_eq_false, if_false,
      _notmuch_database_link_message_to_children, hg, hkids, link_message_to_children_loop]
    refine ⟨_notmuch_message_add_term m0 "thread" t, hm0id, hm0fr, fun u => ?_, rfl⟩
    simp only [_notmuch_message_add_term, mem_add_term, hm0t, Option.getD_some]
    tauto

/-- Adding a new message that has no parent in its headers, or one parent that is in the
database, and that no document refers to: the result, the documents afterwards and the
terms of the new document. -/
theorem add_message_simple (w : World) (db : Database) (f : Str) (mf : MessageFile)
    (mid : Str) (hmode : db.mode = NOTMUCH_DATABASE_MODE_READ_WRITE)
    (hopen : w.notmuch_message_file_open f = some mf) (hmail : looks_like_mail mf)
    (hmid : message_id_of_file w mf f = some mid)
    (hnew : _notmuch_database_find_unique_doc_id db "id" mid = none)
    (hkids : find_doc_ids db "reference" mid = [])
    (tsel : Option Str)
    (hpar : (parent_keys w mid mf = [] ∧ tsel = none) ∨
      (∃ a j dA t, parent_keys w mid mf = [a] ∧ a ≠ mid ∧
        _notmuch_database_find_unique_doc_id db "id" a = some j ∧
        db.get_document j = some dA ∧ dA.term_value "thread" = some t ∧ tsel = some t)) :
    ∃ r dM, notmuch_database_add_message w db f = some r ∧
      r.status = NOTMUCH_STATUS_SUCCESS ∧
      (∀ i, i ≤ db.lastdocid → r.db.get_document i = db.get_document i) ∧
      r.db.get_document (db.lastdocid + 1) = some dM ∧
      (∀ t, t ∈ dM.terms ↔
        t = make_term "id" mid ∨
        t = make_term "file-direntry"
          (_notmuch_database_filename_to_direntry w (db.add_document (new_doc mid)).1 f).2.2 ∨
        t = make_term "type" "mail".toList ∨
        t ∈ replyto_terms mid mf ∨
        t = make_term "thread" (tsel.getD (format_016x64 ((db.last_thread_id + 1) % 2 ^ 64))) ∨
        t ∈ w.index_terms f) ∧
      (tsel = none → r.db.last_thread_id = (db.last_thread_id + 1) % 2 ^ 64) := by
  have hch : ∀ i d, db.get_document i = some d → make_term "reference" mid ∉ d.terms := by
    intro i d hd ht
    have : i ∈ find_doc_ids db "reference" mid :=
      (mem_find_doc_ids_for_term db _ i).mpr ⟨d, hd, ht⟩
    rw [hkids] at this
    exact List.not_mem_nil i this
  rw [add_message_eq_new w db f mf mid hmode hopen hmail hmid hnew]
  obtain ⟨hext, hnamed⟩ := add_filename_spec w (db.add_document (new_doc mid)).1
    ⟨db.lastdocid + 1, 0, new_doc mid⟩ f
  have hlast : (_notmuch_message_add_filename w (db.add_document (new_doc mid)).1
      ⟨db.lastdocid + 1, 0, new_doc mid⟩ f).1.last_thread_id = db.last_thread_id :=
    hext.1.2.2.2.2.1
  generalize hdb2 : (_notmuch_message_add_filename w (db.add_document (new_doc mid)).1
    ⟨db.lastdocid + 1, 0, new_doc mid⟩ f).1 = db2 at hlast ⊢
  rw [hnamed]
  generalize he : (_notmuch_database_filename_to_direntry w
    (db.add_document (new_doc mid)).1 f).2.2 = e
  generalize hm1 : _notmuch_message_add_term (_notmuch_message_add_term
    ⟨db.lastdocid + 1, 0, new_doc mid⟩ "file-direntry" e) "type" "mail".toList = m1
  obtain ⟨hm1t, hm1id, hm1fr, hid, _, hle, hg_old, hg_own, hnewd, _, _, hfind⟩ :=
    new_message_setup w db f mid db2 m1 e hdb2 hm1
  have hch2 : ∀ i d, db2.get_document i = some d → make_term "reference" mid ∉ d.terms := by
    intro i d hd
    by_cases hi : i ≤ db.lastdocid
    · rw [hg_old i hi] at hd; exact hch i d hd
    · by_cases hk : i = db.lastdocid + 1
      · subst hk
        rw [hg_own] at hd
        cases hd
        simp [new_doc, make_term_id, make_term_reference]
      · exact (hnewd i d (by omega) hd).no_reference mid
  have hpar2 : (parent_keys w mid mf = [] ∧ tsel = none) ∨
      (∃ a t, parent_keys w mid mf = [a] ∧
        _resolve_message_id_to_thread_id db2 a = some (some t) ∧ tsel = some t) := by
    rcases hpar with h | ⟨a, j, dA, t, hk, hne, hj, hdA, hth, hts⟩
    · exact Or.inl h
    · refine Or.inr ⟨a, t, hk, ?_, hts⟩
      rw [resolve_some_iff]
      refine ⟨j, dA, (hfind a hne).trans hj, ?_, hth⟩
      rw [hg_old j (get_document_range db j dA hdA).2]; exact hdA
  obtain ⟨m2, hm2id, hm2fr, hm2t, hlink⟩ :=
    link_message_simple w db2 m1 mf mid hid hch2 tsel hpar2
  rw [hlink]
  simp only [ne_eq, not_true_eq_false, if_false]
  have hgen : (_notmuch_database_generate_thread_id db2).2 =
      format_016x64 ((db.last_thread_id + 1) % 2 ^ 64) := by
    simp only [_notmuch_database_generate_thread_id, hlast]
  have hfr : (_notmuch_message_index_file w
      (_notmuch_message_set_date w m2 (mf.header "date")) f).frozen = 0 := hm2fr.trans hm1fr
  have hdid : (_notmuch_message_index_file w
      (_notmuch_message_set_date w m2 (mf.header "date")) f).doc_id = db.lastdocid + 1 :=
    hm2id.trans hm1id
  have hget : ∀ db3 : Database, db3.lastdocid = db2.lastdocid →
      (∀ i, db3.get_document i = db2.get_document i) →
      (∀ i, i ≤ db.lastdocid → (_notmuch_message_sync db3 (_notmuch_message_index_file w
        (_notmuch_message_set_date w m2 (mf.header "date")) f)).get_document i =
          db.get_document i) ∧
      (_notmuch_message_sync db3 (_notmuch_message_index_file w
        (_notmuch_message_set_date w m2 (mf.header "date")) f)).get_document (db.lastdocid + 1) =
        some (_notmuch_message_index_file w
          (_notmuch_message_set_date w m2 (mf.header "date")) f).doc := by
    intro db3 hl3 hg3
    have hk3 : 0 < db.lastdocid + 1 ∧ db.lastdocid + 1 ≤ db3.lastdocid := by
      rw [hl3]; omega
    simp only [_notmuch_message_sync, hfr, if_true, hdid]
    constructor
    · intro i hi
      rw [get_document_replace db3 _ _ i hk3, if_neg (by omega), hg3, hg_old i hi]
    · rw [get_document_replace db3 _ _ _ hk3, if_pos rfl]
  have hterms : ∀ t, t ∈ (_notmuch_message_index_file w
      (_notmuch_message_set_date w m2 (mf.header "date")) f).doc.terms ↔
      t = make_term "id" mid ∨ t = make_term "file-direntry" e ∨
      t = make_term "type" "mail".toList ∨ t ∈ replyto_terms mid mf ∨
      t = make_term "thread" (tsel.getD (format_016x64 ((db.last_thread_id + 1) % 2 ^ 64))) ∨
      t ∈ w.index_terms f := by
    intro t
    rw [mem_index_file, set_date_terms, hm2t, hm1t, hgen]
    constructor
    · rintro (h | (h | h | h) | h | h)
      · exact Or.inr (Or.inr (Or.inr (Or.inr (Or.inr h))))
      · exact Or.inr (Or.inr (Or.inl h))
      · exact Or.inr (Or.inl h)
      · exact Or.inl h
      · exact Or.inr (Or.inr (Or.inr (Or.inl h)))
      · exact Or.inr (Or.inr (Or.inr (Or.inr (Or.inl h))))
    · rintro (h | h | h | h | h | h)
      · exact Or.inr (Or.inl (Or.inr (Or.inr h)))
      · exact Or.inr (Or.inl (Or.inr (Or.inl h)))
      · exact Or.inr (Or.inl (Or.inl h))
      · exact Or.inr (Or.inr (Or.inl h))
      · exact Or.inr (Or.inr (Or.inr h))
      · exact Or.inl h
  cases tsel with
  | none =>
    obtain ⟨g1, g2⟩ := hget (_notmuch_database_generate_thread_id db2).1
      (lastdocid_generate db2) (get_document_generate db2)
    refine ⟨_, _, rfl, rfl, g1, g2, hterms, fun _ => ?_⟩
    simp only [_notmuch_message_sync, hfr, if_true, Database.replace_document,
      _notmuch_database_generate_thread_id, Database.set_metadata, hlast]
  | some t =>
    obtain ⟨g1, g2⟩ := hget db2 rfl (fun _ => rfl)
    exact ⟨_, _, rfl, rfl, g1, g2, hterms, fun h => by cases h⟩

theorem message_id_of_bracketed (w : World) (mf : MessageFile) (f b : Str)
    (hh : mf.header "message-id" = some ('<' :: b ++ ['>'])) (hb : BracketId b)
    (hl : b.length ≤ 244) : message_id_of_file w mf f = some b := by
  have hp := parse_bracketed [] b [] (fun c hc => absurd hc (List.not_mem_nil c)) hb
  simp only [List.nil_append] at hp
  have hc : '<' :: b ++ ['>'] = '<' :: (b ++ ['>']) := rfl
  rw [hc] at hh hp
  simp only [message_id_of_file, hh, message_id_of_header, hp, NOTMUCH_TERM_MAX]
  have : ¬ (b.length + 1 > 245) := by omega
  simp only [this, if_false]

theorem parse_references_single (mid a : Str) (ha : BracketId a) (hne : a ≠ mid)
    (hash : List Str) (hn : a ∉ hash) :
    parse_references mid hash (some ('<' :: a ++ ['>'])) = hash ++ [a] := by
  have hp := parse_bracketed [] a [] (fun c hc => absurd hc (List.not_mem_nil c)) ha
  simp only [List.nil_append] at hp
  have hc : '<' :: a ++ ['>'] = '<' :: (a ++ ['>']) := rfl
  rw [hc] at hp ⊢
  simp only [parse_references, List.length_cons, parse_references_loop, hp, Option.getD_some,
    ne_eq, hne, not_false_eq_true, hn, and_self, if_true]
  cases (a ++ ['>']).length <;> rfl

theorem parent_keys_reply (w : World) (hko : KeysOk w) (mid a : Str) (mf : MessageFile)
    (ha : BracketId a) (hne : a ≠ mid) (href : mf.header "references" = none)
    (hirt : mf.header "in-reply-to" = some ('<' :: a ++ ['>'])) :
    parent_keys w mid mf = [a] := by
  unfold parent_keys
  rw [href, hirt]
  have h1 : parse_references mid [] none = [] := rfl
  rw [h1, parse_references_single mid a ha hne [] (List.not_mem_nil a)]
  exact List.perm_singleton.mp (hko _)

theorem replyto_terms_reply (mid a : Str) (mf : MessageFile) (ha : BracketId a) (hne : a ≠ mid)
    (hirt : mf.header "in-reply-to" = some ('<' :: a ++ ['>'])) :
    replyto_terms mid mf = [make_term "replyto" a] := by
  have hp := parse_bracketed [] a [] (fun c hc => absurd hc (List.not_mem_nil c)) ha
  simp only [List.nil_append] at hp
  unfold replyto_terms
  rw [hirt, hp]
  simp [hne]

/-- Claim C1, as amended: identifiers are of the form the parser returns unchanged (at least
two characters, no whitespace, no `>`, no `(` in front), and b has at most 244 characters.
For a writable database in which the document found for id a has thread t, no document has
id b and no document carries reference=b, adding a mail file with Message-ID `<b>`,
In-Reply-To `<a>` and no References header returns Success and stores the new document with
exactly one thread term, thread=t, with replyto=a and without any reference term; the
document with id a is as it was. -/
theorem add_reply_joins_thread (w : World) (db : Database) (f : Str) (mf : MessageFile)
    (a b : Str) (j : Nat) (dA : Document) (t : Str) (hko : KeysOk w) (hix : IndexOk w)
    (hmode : db.mode = NOTMUCH_DATABASE_MODE_READ_WRITE)
    (ha : BracketId a) (hb : BracketId b) (hlen : b.length ≤ 244) (hab : a ≠ b)
    (hopen : w.notmuch_message_file_open f = some mf) (hmail : looks_like_mail mf)
    (hmsgid : mf.header "message-id" = some ('<' :: b ++ ['>']))
    (hirt : mf.header "in-reply-to" = some ('<' :: a ++ ['>']))
    (href : mf.header "references" = none)
    (hj : _notmuch_database_find_unique_doc_id db "id" a = some j)
    (hdA : db.get_document j = some dA) (htA : dA.term_value "thread" = some t)
    (hnob : _notmuch_database_find_unique_doc_id db "id" b = none)
    (hnoref : find_doc_ids db "reference" b = []) :
    ∃ r dM, notmuch_database_add_message w db f = some r ∧
      r.status = NOTMUCH_STATUS_SUCCESS ∧
      r.db.get_document (db.lastdocid + 1) = some dM ∧
      make_term "id" b ∈ dM.terms ∧ OneThread dM t ∧ make_term "replyto" a ∈ dM.terms ∧
      (∀ v, make_term "reference" v ∉ dM.terms) ∧
      r.db.get_document j = some dA := by
  have hmid := message_id_of_bracketed w mf f b hmsgid hb hlen
  obtain ⟨r, dM, hr, hst, hold, hown, hterms, _⟩ :=
    add_message_simple w db f mf b hmode hopen hmail hmid hnob hnoref (some t)
      (Or.inr ⟨a, j, dA, t, parent_keys_reply w hko b a mf ha hab href hirt, hab, hj, hdA, htA,
        rfl⟩)
  rw [replyto_terms_reply b a mf ha hab hirt] at hterms
  simp only [Option.getD_some, List.mem_singleton] at hterms
  refine ⟨r, dM, hr, hst, hown, (hterms _).mpr (Or.inl rfl), fun u => ?_,
    (hterms _).mpr (Or.inr (Or.inr (Or.inr (Or.inl rfl)))), fun v hv => ?_, ?_⟩
  · rw [hterms]
    constructor
    · rintro (h | h | h | h | h | h)
      · simp [make_term_id, make_term_thread] at h
      · simp [make_term_file_direntry, make_term_thread] at h
      · simp [make_term_type, make_term_thread] at h
      · simp [make_term_replyto, make_term_thread] at h
      · simpa [make_term_thread] using h
      · have := hix f _ h
        rw [is_boolean_term_thread] at this
        cases this
    · intro h; subst h; exact Or.inr (Or.inr (Or.inr (Or.inr (Or.inl rfl))))
  · rcases (hterms _).mp hv with h | h | h | h | h | h
    · simp [make_term_id, make_term_reference] at h
    · simp [make_term_file_direntry, make_term_reference] at h
    · simp [make_term_type, make_term_reference] at h
    · simp [make_term_replyto, make_term_reference] at h
    · simp [make_term_thread, make_term_reference] at h
    · have := hix f _ h
      rw [is_boolean_term_reference] at this
      cases this
  · rw [hold j (get_document_range db j dA hdA).2]; exact hdA

set_option maxRecDepth 1000000 in
/-- Claim C1, witness: the reply `m2` of the example maildir, added after `m1`. -/
theorem add_reply_joins_thread_witness :
    ∃ r dM, notmuch_database_add_message example_world (example_db ["/mail/dd/m1"])
        "/mail/dd/m2".toList = some r ∧
      r.status = NOTMUCH_STATUS_SUCCESS ∧
      r.db.get_document ((example_db ["/mail/dd/m1"]).lastdocid + 1) = some dM ∧
      make_term "id" "m2@x".toList ∈ dM.terms ∧
      OneThread dM "0000000000000001".toList ∧
      make_term "replyto" "m1@x".toList ∈ dM.terms ∧
      (∀ v, make_term "reference" v ∉ dM.terms) ∧
      r.db.get_document 1 =
        some (((example_db ["/mail/dd/m1"]).get_document 1).getD ⟨[], [], []⟩) :=
  add_reply_joins_thread example_world (example_db ["/mail/dd/m1"]) "/mail/dd/m2".toList
    (file_of_headers [("message-id", "<m2@x>"), ("from", "v"), ("in-reply-to", "<m1@x>")])
    "m1@x".toList "m2@x".toList 1
    (((example_db ["/mail/dd/m1"]).get_document 1).getD ⟨[], [], []⟩)
    "0000000000000001".toList example_world_keys example_world_index (by decide)
    (by unfold BracketId; decide) (by unfold BracketId; decide) (by decide) (by decide)
    rfl (by unfold looks_like_mail; decide) (by decide) (by decide) (by decide)
    (by decide) (by decide) (by decide) (by decide) (by decide)

set_option maxRecDepth 1000000 in
/-- Claim C1, counterexample.  First: the message `q1` has the identifier `"a b"@x` (taken
from an unbracketed Message-ID) and thread 1; the reply `q2` names it in In-Reply-To, where
the parser collapses it to `"ab"@x`; it is stored with a thread of its own and without the
term replyto=`"a b"@x`.  Second: `l4` names a Message-ID of 245 characters, which is
replaced by the synthetic identifier that the copy `l3` has got already; the result is
DuplicateMessageId although no document has that Message-ID as its id. -/
theorem add_reply_quoted_space :
    (_notmuch_database_find_unique_doc_id (example_db ["/mail/dd/q1"]) "id"
        "\"a b\"@x".toList = some 1 ∧
      terms_of (example_db ["/mail/dd/q1"]) 1 =
        ["Q\"a b\"@x", "XFDIRENTRY3:q1", "Tmail", "G0000000000000001"] ∧
      _notmuch_database_find_unique_doc_id (example_db ["/mail/dd/q1"]) "id"
        "q2@x".toList = none ∧
      find_doc_ids (example_db ["/mail/dd/q1"]) "reference" "q2@x".toList = [] ∧
      (notmuch_database_add_message example_world (example_db ["/mail/dd/q1"])
          "/mail/dd/q2".toList).map (fun r => (r.status, terms_of r.db 4)) =
        some (NOTMUCH_STATUS_SUCCESS, ["Qq2@x", "XFDIRENTRY3:q2", "Tmail",
          "XREPLYTO\"ab\"@x", "XREFERENCE\"ab\"@x", "G0000000000000002"])) ∧
    (_notmuch_database_find_unique_doc_id (example_db ["/mail/dd/m1", "/mail/dd/l3"]) "id"
        "m1@x".toList = some 1 ∧
      _notmuch_database_find_unique_doc_id (example_db ["/mail/dd/m1", "/mail/dd/l3"]) "id"
        (long_id 'b').toList = none ∧
      find_doc_ids (example_db ["/mail/dd/m1", "/mail/dd/l3"]) "reference"
        (long_id 'b').toList = [] ∧
      (notmuch_database_add_message example_world (example_db ["/mail/dd/m1", "/mail/dd/l3"])
          "/mail/dd/l4".toList).map (fun r => r.status) =
        some NOTMUCH_STATUS_DUPLICATE_MESSAGE_ID) := by
  decide

theorem parse_references_some (mid refs : Str) :
    parse_references mid [] (some refs) = parse_references_loop mid refs.length [] refs := by
  cases refs with
  | nil => rfl
  | cons c cs => rfl

/-- A References header that names only the message itself yields no parent. -/
theorem parse_references_self (s : Str) (hs : BracketId s) (n : Nat) :
    parse_references s [] (some (bracketed (List.replicate (n + 1) s))) = [] := by
  apply List.eq_nil_iff_forall_not_mem.mpr
  intro x hx
  rw [parse_references_some, mem_parse_references_loop] at hx
  rcases hx with h | ⟨hne, hm⟩
  · exact List.not_mem_nil x h
  · rw [repeated_parse_bracketed _ (fun i hi => by rw [List.eq_of_mem_replicate hi]; exact hs)] at hm
    exact hne (List.eq_of_mem_replicate hm)

/-- Claim C4, as amended: s is of the form the parser returns unchanged and has at most 244
characters.  For a writable database with no document of id s and no reference=s term,
adding a mail file with Message-ID `<s>`, a References header of one or more `<s>` and no
In-Reply-To returns Success and stores a document that has no reference term and no
replyto term and exactly one thread term, the 16-hex rendering of the previous
`last_thread_id` counter plus one, which is the new value of the counter. -/
theorem add_self_reference (w : World) (db : Database) (f : Str) (mf : MessageFile)
    (s : Str) (n : Nat) (hko : KeysOk w) (hix : IndexOk w)
    (hmode : db.mode = NOTMUCH_DATABASE_MODE_READ_WRITE)
    (hs : BracketId s) (hlen : s.length ≤ 244)
    (hopen : w.notmuch_message_file_open f = some mf) (hmail : looks_like_mail mf)
    (hmsgid : mf.header "message-id" = some ('<' :: s ++ ['>']))
    (href : mf.header "references" = some (bracketed (List.replicate (n + 1) s)))
    (hirt : mf.header "in-reply-to" = none)
    (hnew : _notmuch_database_find_unique_doc_id db "id" s = none)
    (hnoref : find_doc_ids db "reference" s = []) :
    ∃ r dM, notmuch_database_add_message w db f = some r ∧
      r.status = NOTMUCH_STATUS_SUCCESS ∧
      r.db.get_document (db.lastdocid + 1) = some dM ∧
      make_term "id" s ∈ dM.terms ∧
      (∀ v, make_term "reference" v ∉ dM.terms) ∧
      (∀ v, make_term "replyto" v ∉ dM.terms) ∧
      OneThread dM (format_016x64 ((db.last_thread_id + 1) % 2 ^ 64)) ∧
      r.db.last_thread_id = (db.last_thread_id + 1) % 2 ^ 64 := by
  have hmid := message_id_of_bracketed w mf f s hmsgid hs hlen
  have hkeys : parent_keys w s mf = [] := by
    unfold parent_keys
    rw [href, hirt, parse_references_self s hs n]
    have h1 : parse_references s [] none = [] := rfl
    rw [h1]
    exact List.perm_nil.mp (hko _)
  have hrt : replyto_terms s mf = [] := by
    unfold replyto_terms
    rw [hirt]
    rfl
  obtain ⟨r, dM, hr, hst, _, hown, hterms, hcnt⟩ :=
    add_message_simple w db f mf s hmode hopen hmail hmid hnew hnoref none
      (Or.inl ⟨hkeys, rfl⟩)
  rw [hrt] at hterms
  simp only [Option.getD_none, List.not_mem_nil, false_or] at hterms
  refine ⟨r, dM, hr, hst, hown, (hterms _).mpr (Or.inl rfl), fun v hv => ?_, fun v hv => ?_,
    fun u => ?_, hcnt rfl⟩
  · rcases (hterms _).mp hv with h | h | h | h | h
    · simp [make_term_id, make_term_reference] at h
    · simp [make_term_file_direntry, make_term_reference] at h
    · simp [make_term_type, make_term_reference] at h
    · simp [make_term_thread, make_term_reference] at h
    · have := hix f _ h
      rw [is_boolean_term_reference] at this
      cases this
  · rcases (hterms _).mp hv with h | h | h | h | h
    · simp [make_term_id, make_term_replyto] at h
    · simp [make_term_file_direntry, make_term_replyto] at h
    · simp [make_term_type, make_term_replyto] at h
    · simp [make_term_thread, make_term_replyto] at h
    · have := hix f _ h
      rw [is_boolean_term_replyto] at this
      cases this
  · rw [hterms]
    constructor
    · rintro (h | h | h | h | h)
      · simp [make_term_id, make_term_thread] at h
      · simp [make_term_file_direntry, make_term_thread] at h
      · simp [make_term_type, make_term_thread] at h
      · simpa [make_term_thread] using h
      · have := hix f _ h
        rw [is_boolean_term_thread] at this
        cases this
    · intro h; subst h; exact Or.inr (Or.inr (Or.inr (Or.inl rfl)))

set_option maxRecDepth 1000000 in
/-- Claim C4, witness: the file `s3` of the example maildir, added to the database that
holds `m1`. -/
theorem add_self_reference_witness :
    ∃ r dM, notmuch_database_add_message example_world (example_db ["/mail/dd/m1"])
        "/mail/dd/s3".toList = some r ∧
      r.status = NOTMUCH_STATUS_SUCCESS ∧
      r.db.get_document ((example_db ["/mail/dd/m1"]).lastdocid + 1) = some dM ∧
      make_term "id" "s3@x".toList ∈ dM.terms ∧
      (∀ v, make_term "reference" v ∉ dM.terms) ∧
      (∀ v, make_term "replyto" v ∉ dM.terms) ∧
      OneThread dM (format_016x64 (((example_db ["/mail/dd/m1"]).last_thread_id + 1) % 2 ^ 64)) ∧
      r.db.last_thread_id = ((example_db ["/mail/dd/m1"]).last_thread_id + 1) % 2 ^ 64 :=
  add_self_reference example_world (example_db ["/mail/dd/m1"]) "/mail/dd/s3".toList
    (file_of_headers [("message-id", "<s3@x>"), ("from", "u"),
      ("references", "<s3@x> <s3@x>")])
    "s3@x".toList 1 example_world_keys example_world_index (by decide)
    (by unfold BracketId; decide) (by decide) rfl (by unfold looks_like_mail; decide)
    (by decide) (by decide) (by decide) (by decide) (by decide)

set_option maxRecDepth 1000000 in
/-- Claim C4, counterexample.  First: a Message-ID of 245 characters is replaced by the
synthetic identifier, so the same identifier in References is not the message's own and
is stored as a reference term.  Second: the Message-ID `a b` is collapsed to `ab`, the
identifier of a message that the database holds, so the result is DuplicateMessageId and
the document of that identifier has a reference term, although the database holds no
document with id `a b` and no term reference=`a b`. -/
theorem add_self_reference_long_id :
    (_notmuch_database_find_unique_doc_id (empty_database "/mail".toList) "id"
        (long_id 'a').toList = none ∧
      find_doc_ids (empty_database "/mail".toList) "reference" (long_id 'a').toList = [] ∧
      (notmuch_database_add_message example_world (empty_database "/mail".toList)
          "/mail/dd/s1".toList).map
        (fun r => (r.status, decide (("XREFERENCE" ++ long_id 'a') ∈ terms_of r.db 1))) =
        some (NOTMUCH_STATUS_SUCCESS, true)) ∧
    (_notmuch_database_find_unique_doc_id (example_db ["/mail/dd/s0"]) "id"
        "a b".toList = none ∧
      find_doc_ids (example_db ["/mail/dd/s0"]) "reference" "a b".toList = [] ∧
      (notmuch_database_add_message example_world (example_db ["/mail/dd/s0"])
          "/mail/dd/s2".toList).map (fun r => (r.status, terms_of r.db 1)) =
        some (NOTMUCH_STATUS_DUPLICATE_MESSAGE_ID, ["Qab", "XFDIRENTRY3:s0", "Tmail",
          "XREFERENCEzz", "G0000000000000001", "XFDIRENTRY3:s2"])) := by
  decide

theorem DocLinked.id_type {σ : Str → Str} {mid : Str} {d d2 : Document}
    (rl : DocLinked σ mid d d2) :
    (∀ v, make_term "id" v ∈ d2.terms ↔ make_term "id" v ∈ d.terms) ∧
    (∀ v, make_term "type" v ∈ d2.terms ↔ make_term "type" v ∈ d.terms) :=
  ⟨fun v => rl.1 _ (by simp [make_term_id, make_term_thread])
      (by simp [make_term_id, make_term_reference]),
    fun v => rl.1 _ (by simp [make_term_type, make_term_thread])
      (by simp [make_term_type, make_term_reference])⟩

/-- Adding a new message keeps the database soundly threaded. -/
theorem AddPost.keeps_sound {w : World} {db : Database} {f : Str} {mf : MessageFile} {mid : Str}
    {r : AddResult} {σ : Str → Str} {tw : Str} {dM : Document}
    (p : AddPost w db f mf mid r σ tw dM) (hix : IndexOk w) (hs : Sound db 0) :
    Sound r.db 0 := by
  intro i d2 hi hd2 hcar
  rcases p.docs i d2 hd2 with ⟨_, d, hd, rl⟩ | ⟨_, he⟩ | ⟨_, hdir⟩
  · have hcar' : ∃ v, make_term "id" v ∈ d.terms ∨ make_term "reference" v ∈ d.terms ∨
        make_term "thread" v ∈ d.terms := by
      obtain ⟨v, h | h | h⟩ := hcar
      · exact ⟨v, Or.inl ((rl.id_type.1 v).mp h)⟩
      · by_cases hv : v = mid
        · subst hv; exact ⟨v, Or.inr (Or.inl (rl.2.1 h))⟩
        · refine ⟨v, Or.inr (Or.inl ((rl.1 _ (by simp [make_term_reference, make_term_thread])
            (by simpa [make_term_reference] using hv)).mp h))⟩
      · obtain ⟨u, hu⟩ := rl.2.2.2 ⟨v, h⟩
        exact ⟨u, Or.inr (Or.inr hu)⟩
    obtain ⟨u, hu⟩ := hs i d hi hd hcar'
    exact ⟨σ u, rl.2.2.1 u hu⟩
  · subst he
    exact ⟨tw, (p.own_terms hix).1⟩
  · obtain ⟨v, h | h | h⟩ := hcar
    · exact absurd h (hdir.no_id v)
    · exact absurd h (hdir.no_reference v)
    · exact absurd h (hdir.no_thread v)

theorem ThreadOf.find {db : Database} {x t : Str} (h : ThreadOf db x t) :
    ∃ i d, _notmuch_database_find_unique_doc_id db "id" x = some i ∧
      db.get_document i = some d ∧ OneThread d t := by
  obtain ⟨i, d, hd, hid, _, hth, huniq⟩ := h
  cases hf : _notmuch_database_find_unique_doc_id db "id" x with
  | none => exact absurd hid ((find_unique_none_iff db "id" x).mp hf i d hd)
  | some j =>
    obtain ⟨e, he, hx⟩ := find_unique_some db "id" x j hf
    have := huniq j e he hx
    subst this
    exact ⟨j, d, rfl, hd, hth⟩

theorem ThreadOf.same_thread {db : Database} {x t u : Str} (h : ThreadOf db x t)
    (h2 : ThreadOf db x u) : t = u := by
  obtain ⟨i, d, hd, hid, _, hth, _⟩ := h
  obtain ⟨j, e, he, _, _, hth2, huniq⟩ := h2
  have := huniq i d hd hid
  subst this
  rw [hd] at he
  cases he
  exact ((hth2 t).mp ((hth t).mpr rfl))

/-- The document of a message that was in the database before. -/
theorem AddPost.thread_old {w : World} {db : Database} {f : Str} {mf : MessageFile}
    {mid : Str} {r : AddResult} {σ : Str → Str} {tw : Str} {dM : Document}
    (p : AddPost w db f mf mid r σ tw dM) (hix : IndexOk w) (y t : Str) (hy : y ≠ mid)
    (h : ThreadOf db y t) : ThreadOf r.db y (σ t) := by
  obtain ⟨i, d, hd, hid, hty, hth, huniq⟩ := h
  have hi := (get_document_range db i d hd).2
  obtain ⟨d2, hd2, rl⟩ := (p.old i hi).2 d hd
  refine ⟨i, d2, hd2, (rl.id_type.1 y).mpr hid, (rl.id_type.2 _).mpr hty, rl.2.2.1 t hth, ?_⟩
  intro k e he hk
  rcases p.docs k e he with ⟨_, e0, he0, rl0⟩ | ⟨_, hown⟩ | ⟨_, hdir⟩
  · exact huniq k e0 he0 ((rl0.id_type.1 y).mp hk)
  · subst hown
    exact absurd (((p.own_terms hix).2.1 y).mp hk) hy
  · exact absurd hk (hdir.no_id y)

/-- The document of the new message. -/
theorem AddPost.thread_own {w : World} {db : Database} {f : Str} {mf : MessageFile}
    {mid : Str} {r : AddResult} {σ : Str → Str} {tw : Str} {dM : Document}
    (p : AddPost w db f mf mid r σ tw dM) (hix : IndexOk w)
    (hnew : _notmuch_database_find_unique_doc_id db "id" mid = none) :
    ThreadOf r.db mid tw := by
  obtain ⟨h1, h2, h3⟩ := p.own_terms hix
  refine ⟨db.lastdocid + 1, dM, p.own, (h2 mid).mpr rfl, (h3 _).mpr rfl, h1, ?_⟩
  intro k e he hk
  rcases p.docs k e he with ⟨_, e0, he0, rl0⟩ | ⟨hown, _⟩ | ⟨_, hdir⟩
  · exact absurd ((rl0.id_type.1 mid).mp hk) ((find_unique_none_iff db "id" mid).mp hnew k e0 he0)
  · exact hown
  · exact absurd hk (hdir.no_id mid)

/-- A message that was not in the database before, other than the new one, is not in it
afterwards. -/
theorem AddPost.still_absent {w : World} {db : Database} {f : Str} {mf : MessageFile}
    {mid : Str} {r : AddResult} {σ : Str → Str} {tw : Str} {dM : Document}
    (p : AddPost w db f mf mid r σ tw dM) (hix : IndexOk w) (y : Str) (hy : y ≠ mid)
    (h : _notmuch_database_find_unique_doc_id db "id" y = none) :
    _notmuch_database_find_unique_doc_id r.db "id" y = none := by
  rw [find_unique_none_iff] at h ⊢
  intro k e he hk
  rcases p.docs k e he with ⟨_, e0, he0, rl0⟩ | ⟨_, hown⟩ | ⟨_, hdir⟩
  · exact h k e0 he0 ((rl0.id_type.1 y).mp hk)
  · subst hown
    exact hy (((p.own_terms hix).2.1 y).mp hk)
  · exact hdir.no_id y hk

theorem ThreadOf.of_doc {db : Database} {y u v : Str} (h : ThreadOf db y u) (i : Nat)
    (d : Document) (hd : db.get_document i = some d) (hid : make_term "id" y ∈ d.terms)
    (hth : OneThread d v) : ThreadOf db y v := by
  obtain ⟨j, e, he, hje, hty, hth2, huniq⟩ := h
  have hij := huniq i d hd hid
  subst hij
  rw [hd] at he
  have hde : d = e := Option.some.inj he
  subst hde
  exact ⟨i, d, hd, hid, hty, hth, huniq⟩

/-- Ingesting one more message of the family keeps the invariant. -/
theorem ChainInv.add_step {w : World} {M : List (Str × MessageFile × Str)} {S : List Str}
    {db : Database} (hko : KeysOk w) (hix : IndexOk w) (inv : ChainInv w M S db)
    (hnd : (M.map (fun m => m.2.2)).Nodup) (m : Str × MessageFile × Str) (hm : m ∈ M)
    (hmf : MailFile w m) (hS : m.2.2 ∉ S) :
    ∃ r, notmuch_database_add_message w db m.1 = some r ∧ ChainInv w M (m.2.2 :: S) r.db := by
  obtain ⟨hopen, hmail, hmid⟩ := hmf
  have hnew := inv.absent m hm hS
  obtain ⟨r, hr⟩ := add_message_new_total w db m.1 m.2.1 m.2.2 hko inv.sound inv.mode hopen
    hmail hmid hnew
  obtain ⟨σ, tw, dM, post⟩ :=
    add_message_new_post w db m.1 m.2.1 m.2.2 r hko inv.mode hopen hmail hmid hnew hr
  have hown := post.thread_own hix hnew
  have hinj : ∀ m' ∈ M, m'.2.2 = m.2.2 → m' = m := fun m' hm' e =>
    List.inj_on_of_nodup_map hnd hm' hm e
  refine ⟨r, hr, post.mode.trans inv.mode, post.keeps_sound hix inv.sound, ?_, ?_, ?_⟩
  · intro m' hm' hin
    rcases List.mem_cons.mp hin with e | hin'
    · rw [e]; exact ⟨tw, hown⟩
    · obtain ⟨t, ht⟩ := inv.present m' hm' hin'
      exact ⟨σ t, post.thread_old hix _ t (fun e => hS (e ▸ hin')) ht⟩
  · intro m' hm' hout
    have hne : m'.2.2 ≠ m.2.2 := fun e => hout (e ▸ List.mem_cons_self _ _)
    exact post.still_absent hix _ hne
      (inv.absent m' hm' (fun h => hout (List.mem_cons_of_mem _ h)))
  · intro m' hm' hin p hp hpk
    rcases List.mem_cons.mp hin with e | hin'
    · -- the new message and one of its parents
      have hmm := hinj m' hm' e
      subst hmm
      have hpne : p.2.2 ≠ m'.2.2 := parent_keys_not_self w hko _ _ _ hpk
      constructor
      · intro hpin
        have hpin' : p.2.2 ∈ S := by
          rcases List.mem_cons.mp hpin with e2 | h
          · exact absurd e2 hpne
          · exact h
        obtain ⟨t, ht⟩ := inv.present p hp hpin'
        obtain ⟨j, d, hj, hd, _⟩ := ht.find
        obtain ⟨d2, hd2, hth2⟩ := post.parents inv.sound _ hpk j hj
        have hold := post.thread_old hix _ t hpne ht
        obtain ⟨dd, hdd, hq⟩ := find_unique_some db "id" p.2.2 j hj
        have hjr := (get_document_range db j dd hdd).2
        obtain ⟨d3, hd3, rl⟩ := (post.old j hjr).2 dd hdd
        have hidj : make_term "id" p.2.2 ∈ d3.terms := (rl.id_type.1 _).mpr hq
        rw [hd2] at hd3
        have h23 : d2 = d3 := Option.some.inj hd3
        subst h23
        exact ⟨tw, hown, hold.of_doc j d2 hd2 hidj hth2⟩
      · intro hpout
        have hpout' : p.2.2 ∉ S := fun h => hpout (List.mem_cons_of_mem _ h)
        have hnone := inv.absent p hp hpout'
        exact ⟨db.lastdocid + 1, dM, post.own, (post.terms _).mpr (Or.inl rfl),
          (post.terms _).mpr (Or.inr (Or.inr (Or.inr (Or.inr (Or.inl ⟨p.2.2, hpk, hnone, rfl⟩)))))⟩
    · -- a message that was in already
      have hne : m'.2.2 ≠ m.2.2 := fun e => hS (e ▸ hin')
      obtain ⟨l1, l2⟩ := inv.linked m' hm' hin' p hp hpk
      constructor
      · intro hpin
        rcases List.mem_cons.mp hpin with e2 | hpin'
        · -- its parent is the new message
          have hpS : p.2.2 ∉ S := e2 ▸ hS
          obtain ⟨i, d, hd, hid, href⟩ := l2 hpS
          rw [e2] at href
          obtain ⟨d2, hd2, hth2⟩ := post.children inv.sound i d hd href
          obtain ⟨t, ht⟩ := inv.present m' hm' hin'
          have hold := post.thread_old hix _ t hne ht
          have hir := (get_document_range db i d hd).2
          obtain ⟨d3, hd3, rl⟩ := (post.old i hir).2 d hd
          have hidi : make_term "id" m'.2.2 ∈ d3.terms := (rl.id_type.1 _).mpr hid
          rw [hd2] at hd3
          have h23 : d2 = d3 := Option.some.inj hd3
          subst h23
          rw [e2]
          exact ⟨tw, hold.of_doc i d2 hd2 hidi hth2, hown⟩
        · obtain ⟨t, h1, h2⟩ := l1 hpin'
          exact ⟨σ t, post.thread_old hix _ t hne h1,
            post.thread_old hix _ t (fun e => hS (e ▸ hpin')) h2⟩
      · intro hpout
        have hpout' : p.2.2 ∉ S := fun h => hpout (List.mem_cons_of_mem _ h)
        have hpne : p.2.2 ≠ m.2.2 := fun e => hpout (e ▸ List.mem_cons_self _ _)
        obtain ⟨i, d, hd, hid, href⟩ := l2 hpout'
        have hir := (get_document_range db i d hd).2
        obtain ⟨d3, hd3, rl⟩ := (post.old i hir).2 d hd
        exact ⟨i, d3, hd3, (rl.id_type.1 _).mpr hid,
          (rl.1 _ (by simp [make_term_reference, make_term_thread])
            (by simpa [make_term_reference] using hpne)).mpr href⟩

/-- Ingesting messages of the family, in any order, returns and keeps the invariant. -/
theorem ChainInv.ingest {w : World} {M : List (Str × MessageFile × Str)} (hko : KeysOk w)
    (hix : IndexOk w) (hnd : (M.map (fun m => m.2.2)).Nodup) :
    ∀ (order : List (Str × MessageFile × Str)) (S : List Str) (db : Database),
      ChainInv w M S db → (∀ m ∈ order, m ∈ M ∧ MailFile w m ∧ m.2.2 ∉ S) →
      (order.map (fun m => m.2.2)).Nodup →
      ∃ db2 S2, add_messages w db (order.map (fun m => m.1)) = some db2 ∧
        ChainInv w M S2 db2 ∧ ∀ x, x ∈ S2 ↔ x ∈ S ∨ x ∈ order.map (fun m => m.2.2) := by
  intro order
  induction order with
  | nil =>
    intro S db inv _ _
    exact ⟨db, S, rfl, inv, fun x => by simp⟩
  | cons m rest ih =>
    intro S db inv hall hnd2
    obtain ⟨hmM, hmf, hmS⟩ := hall m (List.mem_cons_self _ _)
    obtain ⟨r, hr, inv2⟩ := inv.add_step hko hix hnd m hmM hmf hmS
    rw [List.map_cons, List.nodup_cons] at hnd2
    obtain ⟨db2, S2, h1, h2, h3⟩ := ih (m.2.2 :: S) r.db inv2
      (fun m' hm' => by
        obtain ⟨a, b, c⟩ := hall m' (List.mem_cons_of_mem _ hm')
        refine ⟨a, b, fun hin => ?_⟩
        rcases List.mem_cons.mp hin with e | h
        · exact hnd2.1 (e ▸ List.mem_map_of_mem (fun m => m.2.2) hm')
        · exact c h)
      hnd2.2
    refine ⟨db2, S2, ?_, h2, fun x => ?_⟩
    · simp only [List.map_cons, add_messages, hr]
      exact h1
    · rw [h3, List.map_cons, List.mem_cons, List.mem_cons]
      tauto

/-- Along a chain of messages that are all in, each naming the one before among its
parents, every message has the thread of the first. -/
theorem ChainInv.chain_thread {w : World} {M : List (Str × MessageFile × Str)} {S : List Str}
    {db : Database} (inv : ChainInv w M S db) :
    ∀ (L : List (Str × MessageFile × Str)), (∀ m ∈ L, m ∈ M ∧ m.2.2 ∈ S) →
      List.Chain' (fun m m2 => m.2.2 ∈ parent_keys w m2.2.2 m2.2.1) L →
      ∀ m0 ∈ L.head?, ∀ t, ThreadOf db m0.2.2 t → ∀ m ∈ L, ThreadOf db m.2.2 t := by
  intro L
  induction L with
  | nil => intro _ _ _ _ _ _ m hm; exact absurd hm (List.not_mem_nil m)
  | cons a rest ih =>
    intro hall hch m0 hm0 t ht m hm
    simp only [List.head?_cons, Option.mem_def, Option.some.injEq] at hm0
    subst hm0
    rcases List.mem_cons.mp hm with e | hin
    · rw [e]; exact ht
    · cases rest with
      | nil => exact absurd hin (List.not_mem_nil m)
      | cons b rest2 =>
        rw [List.chain'_cons] at hch
        obtain ⟨hab, hch2⟩ := hch
        obtain ⟨haM, haS⟩ := hall a (List.mem_cons_self _ _)
        obtain ⟨hbM, hbS⟩ := hall b (List.mem_cons_of_mem _ (List.mem_cons_self _ _))
        obtain ⟨t2, h1, h2⟩ := (inv.linked b hbM hbS a haM hab).1 haS
        have : t2 = t := h2.same_thread ht
        subst this
        exact ih (fun m' hm' => hall m' (List.mem_cons_of_mem _ hm')) hch2 b rfl t2 h1 m hin

/-- Ingesting a chain of messages in any order into a database that holds none of them
leaves them in one thread. -/
theorem ingest_chain (w : World) (hko : KeysOk w) (hix : IndexOk w)
    (M : List (Str × MessageFile × Str)) (db : Database)
    (hmode : db.mode = NOTMUCH_DATABASE_MODE_READ_WRITE) (hs : Sound db 0)
    (hfiles : ∀ m ∈ M, MailFile w m) (hnd : (M.map (fun m => m.2.2)).Nodup)
    (habs : ∀ m ∈ M, _notmuch_database_find_unique_doc_id db "id" m.2.2 = none)
    (hchain : List.Chain' (fun m m2 => m.2.2 ∈ parent_keys w m2.2.2 m2.2.1) M)
    (order : List (Str × MessageFile × Str)) (hperm : order.Perm M) :
    ∃ db2, add_messages w db (order.map (fun m => m.1)) = some db2 ∧
      ∃ t, ∀ m ∈ M, ThreadOf db2 m.2.2 t := by
  have inv0 : ChainInv w M [] db :=
    ⟨hmode, hs, fun _ _ h => absurd h (List.not_mem_nil _), fun m hm _ => habs m hm,
      fun _ _ h => absurd h (List.not_mem_nil _)⟩
  obtain ⟨db2, S2, h1, inv2, h3⟩ := ChainInv.ingest hko hix hnd order [] db inv0
    (fun m hm => ⟨hperm.mem_iff.mp hm, hfiles m (hperm.mem_iff.mp hm), List.not_mem_nil _⟩)
    ((hperm.map _).nodup_iff.mpr hnd)
  have hin : ∀ m ∈ M, m.2.2 ∈ S2 := fun m hm =>
    (h3 _).mpr (Or.inr (List.mem_map_of_mem (fun m => m.2.2) (hperm.mem_iff.mpr hm)))
  refine ⟨db2, h1, ?_⟩
  cases M with
  | nil => exact ⟨[], fun m hm => absurd hm (List.not_mem_nil m)⟩
  | cons a rest =>
    obtain ⟨t, ht⟩ := inv2.present a (List.mem_cons_self _ _) (hin a (List.mem_cons_self _ _))
    exact ⟨t, inv2.chain_thread (a :: rest) (fun m hm => ⟨hm, hin m hm⟩) hchain a rfl t ht⟩

/-- Claim C2, as amended: a is of the form the parser returns unchanged.  For distinct
identifiers a and b and a writable, soundly threaded database that holds neither message:
ingesting the mail file A (id a) and then the mail file B (id b, In-Reply-To `<a>`, no
References), and ingesting B and then A, both return and end in a state where the one
document of A and the one document of B have the same single thread term. -/
theorem reply_order_same_thread (w : World) (db : Database) (fA fB : Str)
    (mfA mfB : MessageFile) (a b : Str) (hko : KeysOk w) (hix : IndexOk w)
    (hmode : db.mode = NOTMUCH_DATABASE_MODE_READ_WRITE) (hs : Sound db 0)
    (ha : BracketId a) (hab : a ≠ b)
    (hA : MailFile w (fA, mfA, a)) (hB : MailFile w (fB, mfB, b))
    (hirt : mfB.header "in-reply-to" = some ('<' :: a ++ ['>']))
    (href : mfB.header "references" = none)
    (hna : _notmuch_database_find_unique_doc_id db "id" a = none)
    (hnb : _notmuch_database_find_unique_doc_id db "id" b = none) :
    (∃ db2, add_messages w db [fA, fB] = some db2 ∧
      ∃ t, ThreadOf db2 a t ∧ ThreadOf db2 b t) ∧
    (∃ db2, add_messages w db [fB, fA] = some db2 ∧
      ∃ t, ThreadOf db2 a t ∧ ThreadOf db2 b t) := by
  have hfiles : ∀ m ∈ [(fA, mfA, a), (fB, mfB, b)], MailFile w m := by
    intro m hm
    rcases List.mem_cons.mp hm with e | hm
    · subst e; exact hA
    · rcases List.mem_cons.mp hm with e | hm
      · subst e; exact hB
      · exact absurd hm (List.not_mem_nil m)
  have hnd : ([(fA, mfA, a), (fB, mfB, b)].map (fun m => m.2.2)).Nodup := by
    simp [hab]
  have habs : ∀ m ∈ [(fA, mfA, a), (fB, mfB, b)],
      _notmuch_database_find_unique_doc_id db "id" m.2.2 = none := by
    intro m hm
    rcases List.mem_cons.mp hm with e | hm
    · subst e; exact hna
    · rcases List.mem_cons.mp hm with e | hm
      · subst e; exact hnb
      · exact absurd hm (List.not_mem_nil m)
  have hchain : List.Chain' (fun m m2 => m.2.2 ∈ parent_keys w m2.2.2 m2.2.1)
      [(fA, mfA, a), (fB, mfB, b)] := by
    rw [List.chain'_cons]
    refine ⟨?_, List.chain'_singleton _⟩
    show a ∈ parent_keys w b mfB
    rw [parent_keys_reply w hko b a mfB ha hab href hirt]
    exact List.mem_singleton_self a
  constructor
  · obtain ⟨db2, h1, t, ht⟩ := ingest_chain w hko hix _ db hmode hs hfiles hnd habs hchain
      [(fA, mfA, a), (fB, mfB, b)] (List.Perm.refl _)
    exact ⟨db2, h1, t, ht _ (List.mem_cons_self _ _),
      ht _ (List.mem_cons_of_mem _ (List.mem_cons_self _ _))⟩
  · obtain ⟨db2, h1, t, ht⟩ := ingest_chain w hko hix _ db hmode hs hfiles hnd habs hchain
      [(fB, mfB, b), (fA, mfA, a)] (List.Perm.swap _ _ _)
    exact ⟨db2, h1, t, ht _ (List.mem_cons_self _ _),
      ht _ (List.mem_cons_of_mem _ (List.mem_cons_self _ _))⟩

set_option maxRecDepth 1000000 in
/-- Claim C2, witness: the message `m1` of the example maildir and its reply `m2`. -/
theorem reply_order_same_thread_witness :
    (∃ db2, add_messages example_world (empty_database "/mail".toList)
        ["/mail/dd/m1".toList, "/mail/dd/m2".toList] = some db2 ∧
      ∃ t, ThreadOf db2 "m1@x".toList t ∧ ThreadOf db2 "m2@x".toList t) ∧
    (∃ db2, add_messages example_world (empty_database "/mail".toList)
        ["/mail/dd/m2".toList, "/mail/dd/m1".toList] = some db2 ∧
      ∃ t, ThreadOf db2 "m1@x".toList t ∧ ThreadOf db2 "m2@x".toList t) :=
  reply_order_same_thread example_world (empty_database "/mail".toList)
    "/mail/dd/m1".toList "/mail/dd/m2".toList
    (file_of_headers [("message-id", "<m1@x>"), ("from", "u"), ("subject", "s")])
    (file_of_headers [("message-id", "<m2@x>"), ("from", "v"), ("in-reply-to", "<m1@x>")])
    "m1@x".toList "m2@x".toList example_world_keys example_world_index rfl
    (empty_database_sound _ 0) (by unfold BracketId; decide) (by decide)
    ⟨rfl, by unfold looks_like_mail; decide, by decide⟩
    ⟨rfl, by unfold looks_like_mail; decide, by decide⟩
    (by decide) (by decide) (by decide) (by decide)

set_option maxRecDepth 1000000 in
/-- Claim C2, counterexample: the message `q1` has the identifier `"a b"@x` (taken from an
unbracketed Message-ID) and `q2` has the identifier `q2@x` and In-Reply-To `<"a b"@x>`,
which the parser collapses to `"ab"@x`; ingested into the empty database in either order
the two documents have different thread terms. -/
theorem reply_order_quoted_space :
    message_id_of_file example_world
      (file_of_headers [("message-id", "\"a b\"@x"), ("from", "u")]) "/mail/dd/q1".toList =
      some "\"a b\"@x".toList ∧
    terms_of (example_db ["/mail/dd/q1", "/mail/dd/q2"]) 1 =
      ["Q\"a b\"@x", "XFDIRENTRY3:q1", "Tmail", "G0000000000000001"] ∧
    terms_of (example_db ["/mail/dd/q1", "/mail/dd/q2"]) 4 =
      ["Qq2@x", "XFDIRENTRY3:q2", "Tmail", "XREPLYTO\"ab\"@x", "XREFERENCE\"ab\"@x",
        "G0000000000000002"] ∧
    terms_of (example_db ["/mail/dd/q2", "/mail/dd/q1"]) 1 =
      ["Qq2@x", "XFDIRENTRY3:q2", "Tmail", "XREPLYTO\"ab\"@x", "XREFERENCE\"ab\"@x",
        "G0000000000000001"] ∧
    terms_of (example_db ["/mail/dd/q2", "/mail/dd/q1"]) 4 =
      ["Q\"a b\"@x", "XFDIRENTRY3:q1", "Tmail", "G0000000000000002"] := by
  decide

/-- Claim C29: prefix lookup is the published table.  Each of the thirteen names maps to
its prefix (T, XREFERENCE, XREPLYTO, XDIRECTORY, XFDIRENTRY, XDDIRENTRY; G, K, Q; XFROM,
XTO, XATTACHMENT, XSUBJECT), and for every other name the lookup takes the fatal
internal-error exit. -/
theorem find_prefix_table :
    _find_prefix "type" = some "T" ∧
    _find_prefix "reference" = some "XREFERENCE" ∧
    _find_prefix "replyto" = some "XREPLYTO" ∧
    _find_prefix "directory" = some "XDIRECTORY" ∧
    _find_prefix "file-direntry" = some "XFDIRENTRY" ∧
    _find_prefix "directory-direntry" = some "XDDIRENTRY" ∧
    _find_prefix "thread" = some "G" ∧
    _find_prefix "tag" = some "K" ∧
    _find_prefix "id" = some "Q" ∧
    _find_prefix "from" = some "XFROM" ∧
    _find_prefix "to" = some "XTO" ∧
    _find_prefix "attachment" = some "XATTACHMENT" ∧
    _find_prefix "subject" = some "XSUBJECT" ∧
    ∀ name : String,
      name ∉ ["type", "reference", "replyto", "directory", "file-direntry",
        "directory-direntry", "thread", "tag", "id", "from", "to", "attachment",
        "subject"] →
      _find_prefix name = none := by
  refine ⟨by decide, by decide, by decide, by decide, by decide, by decide, by decide,
    by decide, by decide, by decide, by decide, by decide, by decide, ?_⟩
  intro name h
  simp only [List.mem_cons, List.mem_singleton, List.not_mem_nil, not_or, or_false] at h
  obtain ⟨h1, h2, h3, h4, h5, h6, h7, h8, h9, h10, h11, h12, h13⟩ := h
  simp [ _find_prefix, find_in_table, BOOLEAN_PREFIX_INTERNAL, BOOLEAN_PREFIX_EXTERNAL,
    PROBABILISTIC_PREFIX, h1, h2, h3, h4, h5, h6, h7, h8, h9, h10, h11, h12, h13]

/-- Claim C30: for every database state and thread ids w and l, merging with winner w and
loser l returns Success, and afterwards every document that had the term thread=l carries
thread=w and, when w and l differ, no document carries thread=l; the other terms, the
values and the data of every document, every document that did not have thread=l, and the
thread counter (in the handle and in the metadata) are unchanged. -/
theorem merge_threads_spec (db : Database) (w l : Str) :
    ∃ db2, _merge_threads db w l = some (NOTMUCH_STATUS_SUCCESS, db2) ∧
      (∀ i d, db.get_document i = some d → make_term "thread" l ∈ d.terms →
        ∃ d2, db2.get_document i = some d2 ∧ make_term "thread" w ∈ d2.terms ∧
          (∀ t, t ≠ make_term "thread" l → t ≠ make_term "thread" w →
            (t ∈ d2.terms ↔ t ∈ d.terms)) ∧
          d2.values = d.values ∧ d2.data = d.data) ∧
      (w ≠ l → ∀ i d2, db2.get_document i = some d2 → make_term "thread" l ∉ d2.terms) ∧
      (∀ i, (∀ d, db.get_document i = some d → make_term "thread" l ∉ d.terms) →
        db2.get_document i = db.get_document i) ∧
      db2.last_thread_id = db.last_thread_id ∧ db2.metadata = db.metadata ∧
      db2.lastdocid = db.lastdocid := by
  refine ⟨merge_db w l db, merge_threads_eq db w l, ?_, ?_, ?_, rfl, rfl, rfl⟩
  · intro i d hd hl
    refine ⟨rename_thread w l d, by rw [get_document_merge_db, hd]; rfl, ?_, ?_, ?_, ?_⟩
    · simp only [rename_thread, hl, if_true, retag_thread]
      exact (mem_add_term _ _ _).mpr (Or.inl rfl)
    · intro t h1 h2
      simp only [rename_thread, hl, if_true, retag_thread, mem_add_term, mem_remove_term]
      constructor
      · rintro (h | ⟨_, h⟩)
        · exact absurd h h2
        · exact h
      · intro h; exact Or.inr ⟨h1, h⟩
    · simp only [rename_thread, hl, if_true, retag_thread, Document.add_term,
        Document.remove_term]
      split <;> rfl
    · simp only [rename_thread, hl, if_true, retag_thread, Document.add_term,
        Document.remove_term]
      split <;> rfl
  · intro hwl i d2 hd2 hmem
    rw [get_document_merge_db] at hd2
    cases hd : db.get_document i with
    | none => rw [hd] at hd2; cases hd2
    | some d =>
      rw [hd] at hd2
      simp only [Option.map_some', Option.some.injEq] at hd2
      subst hd2
      unfold rename_thread at hmem
      split at hmem
      · simp only [retag_thread, mem_add_term, mem_remove_term] at hmem
        rcases hmem with h | ⟨h, _⟩
        · have : l = w := by
            have := congrArg List.tail h
            simpa [make_term_thread] using this
          exact hwl this.symm
        · exact h rfl
      · contradiction
  · intro i h
    rw [get_document_merge_db]
    cases hd : db.get_document i with
    | none => rfl
    | some d => simp [rename_thread, h d hd]

set_option maxRecDepth 1000000 in
/-- Claim C22, as the code behaves: the needs-upgrade flag is set when the database is
opened and never cleared.  The version-0 example database opened read-write reports that
it needs an upgrade; `notmuch_database_upgrade` on that handle returns Success and leaves
version 1, and the handle still reports that it needs an upgrade; and the handle that
`notmuch_database_create` returns for a new database (version 1 written by the upgrade it
runs) reports that it needs an upgrade, whereas opening the upgraded database anew gives
a handle that does not. -/
theorem upgrade_leaves_needs_upgrade :
    notmuch_database_needs_upgrade (example_open example_legacy_xapian) = true ∧
    (notmuch_database_upgrade example_world (example_open example_legacy_xapian) false
        (fun _ => false)).map
      (fun r => (r.status, notmuch_database_get_version r.db,
        notmuch_database_needs_upgrade r.db)) =
      some (NOTMUCH_STATUS_SUCCESS, some 1, true) ∧
    (notmuch_database_create example_world true true true "/mail".toList).map
      (Option.map (fun db => (notmuch_database_get_version db,
        notmuch_database_needs_upgrade db))) = some (some (some 1, true)) ∧
    ((notmuch_database_upgrade example_world (example_open example_legacy_xapian) false
        (fun _ => false)).bind
      (fun r => notmuch_database_open true (some r.db) "/mail".toList
        NOTMUCH_DATABASE_MODE_READ_WRITE)).map
      (Option.map notmuch_database_needs_upgrade) = some (some false) := by
  decide

set_option maxRecDepth 1000000 in
/-- Claim C28, as the code behaves: on the version-0 example database that has no mail
document but one legacy XTIMESTAMP document, with a callback given and the timer firing
before every poll, the upgrade returns Success and the callback is called twice (in the
time stamp loop and in the deletion loop), each time with count 0 and total 0. -/
theorem upgrade_progress_zero_total :
    (notmuch_database_upgrade example_world (example_open example_timestamps_xapian) true
        (fun _ => true)).map (fun r => (r.status, r.progress.calls)) =
      some (NOTMUCH_STATUS_SUCCESS, [(0, 0), (0, 0)]) := by
  decide

theorem skip_doubled_slashes_run (n : Nat) (s : Str) (hs : s.head? ≠ some '/') :
    skip_doubled_slashes (List.replicate (n + 1) '/' ++ s) = '/' :: s := by
  induction n with
  | zero =>
    cases s with
    | nil => rfl
    | cons c cs =>
      have hc : c ≠ '/' := fun h => hs (by simp [h])
      simp [skip_doubled_slashes, hc]
  | succ n ih =>
    have : List.replicate (n + 1 + 1) '/' ++ s = '/' :: '/' :: (List.replicate n '/' ++ s) := by
      simp [List.replicate_succ]
    rw [this, skip_doubled_slashes]
    simp only [and_self, if_true]
    have h2 : '/' :: (List.replicate n '/' ++ s) = List.replicate (n + 1) '/' ++ s := by
      simp [List.replicate_succ]
    rw [h2, ih]

theorem dropWhile_slashes (k : Nat) (p : Str) (hp : p.head? ≠ some '/') :
    (List.replicate k '/' ++ p).dropWhile (fun c => c = '/') = p := by
  induction k with
  | zero =>
    cases p with
    | nil => rfl
    | cons c cs =>
      have hc : c ≠ '/' := fun h => hp (by simp [h])
      simp [List.dropWhile, hc]
  | succ k ih =>
    simp only [List.replicate_succ, List.cons_append, List.dropWhile_cons, decide_True, if_true]
    exact ih

/-- The relative-path computation for a root that does not begin with two slashes: for
every database whose root is `/` followed by a text r that does not begin with a slash,
and every path p that does not begin with a slash, it returns p when given p, and returns
p when given the root, one or more slashes and p, also with further slashes in front. -/
theorem relative_path_spec (db : Database) (r p : Str) (hdb : db.path = '/' :: r)
    (hr : r.head? ≠ some '/') (hp : p.head? ≠ some '/') :
    _notmuch_database_relative_path db p = p ∧
    ∀ j k, _notmuch_database_relative_path db
      (List.replicate j '/' ++ ('/' :: r) ++ List.replicate (k + 1) '/' ++ p) = p := by
  constructor
  · unfold _notmuch_database_relative_path
    rw [if_neg hp]
  · intro j k
    have hin : List.replicate j '/' ++ ('/' :: r) ++ List.replicate (k + 1) '/' ++ p =
        List.replicate (j + 1) '/' ++ (r ++ (List.replicate (k + 1) '/' ++ p)) := by
      simp [List.replicate_succ', List.append_assoc]
    have hhead : (List.replicate j '/' ++ ('/' :: r) ++ List.replicate (k + 1) '/' ++ p).head? =
        some '/' := by
      rw [hin]; simp [List.replicate_succ]
    unfold _notmuch_database_relative_path
    rw [if_pos hhead, hdb]
    cases r with
    | nil =>
      have h2 : List.replicate (j + 1) '/' ++ ([] ++ (List.replicate (k + 1) '/' ++ p)) =
          List.replicate (j + 1 + k + 1) '/' ++ p := by
        rw [List.nil_append, ← List.append_assoc, ← List.replicate_add]
        rfl
      rw [hin, h2, skip_doubled_slashes_run _ p hp]
      have hpre : ['/'].isPrefixOf ('/' :: p) = true := by
        rw [List.isPrefixOf_iff_prefix]
        exact ⟨p, rfl⟩
      simp only [hpre, if_true, List.length_singleton, List.drop_succ_cons, List.drop_zero]
      exact dropWhile_slashes 0 p hp
    | cons c t =>
      have hc : (c :: t ++ (List.replicate (k + 1) '/' ++ p)).head? ≠ some '/' := by
        simpa using hr
      rw [hin, skip_doubled_slashes_run j _ hc]
      have hpre : ('/' :: c :: t).isPrefixOf ('/' :: (c :: t ++ (List.replicate (k + 1) '/' ++ p)))
          = true := by
        rw [List.isPrefixOf_iff_prefix]
        exact ⟨List.replicate (k + 1) '/' ++ p, by simp⟩
      simp only [hpre, if_true]
      have hd : List.drop ('/' :: c :: t).length
          ('/' :: (c :: t ++ (List.replicate (k + 1) '/' ++ p))) =
          List.replicate (k + 1) '/' ++ p := by
        have : '/' :: (c :: t ++ (List.replicate (k + 1) '/' ++ p)) =
            ('/' :: c :: t) ++ (List.replicate (k + 1) '/' ++ p) := by simp
        rw [this, List.drop_left]
      rw [hd]
      exact dropWhile_slashes (k + 1) p hp

/-- The relative-path computation at the root `/mail` and the path `dd/m1`, with any
number of slashes in front and between. -/
theorem relative_path_spec_witness :
    _notmuch_database_relative_path (empty_database "/mail".toList) "dd/m1".toList =
      "dd/m1".toList ∧
    ∀ j k, _notmuch_database_relative_path (empty_database "/mail".toList)
      (List.replicate j '/' ++ ('/' :: "mail".toList) ++ List.replicate (k + 1) '/' ++
        "dd/m1".toList) = "dd/m1".toList :=
  relative_path_spec (empty_database "/mail".toList) "mail".toList "dd/m1".toList rfl
    (by decide) (by decide)

/-- Claim C24, as the code behaves: for the root `//mail` (absolute, no trailing slash)
and the path `x`, the absolute path `//mail/x` is not mapped to `x`: the doubled slash in
front is skipped in the path but not in the root, the root no longer matches, and
`/mail/x` is returned. -/
theorem relative_path_doubled_root :
    _notmuch_database_relative_path (empty_database "//mail".toList)
      ("//mail".toList ++ "/".toList ++ "x".toList) = "/mail/x".toList := by
  decide

theorem skip_doubled_slashes_suffix : ∀ s : Str, skip_doubled_slashes s <:+ s
  | [] => List.suffix_refl _
  | [c] => List.suffix_refl _
  | c :: d :: rest => by
    rw [skip_doubled_slashes]
    split
    · exact (skip_doubled_slashes_suffix (d :: rest)).trans (List.suffix_cons c _)
    · exact List.suffix_refl _

/-- Claim C25, as amended: slashes are dropped only in front.  For every database and
path, the relative form is a suffix of the path; a path that does not begin with a slash
is returned unchanged (with every run of slashes in it); and when the root is found at the
start of an absolute path (after doubled slashes in front are skipped), the relative form
does not begin with a slash. -/
theorem relative_path_suffix (db : Database) (path : Str) :
    _notmuch_database_relative_path db path <:+ path ∧
    (path.head? ≠ some '/' → _notmuch_database_relative_path db path = path) ∧
    (path.head? = some '/' → db.path.isPrefixOf (skip_doubled_slashes path) = true →
      (_notmuch_database_relative_path db path).head? ≠ some '/') := by
  refine ⟨?_, ?_, ?_⟩
  · unfold _notmuch_database_relative_path
    split
    · dsimp only
      split
      · exact ((List.dropWhile_suffix _).trans (List.drop_suffix _ _)).trans
          (skip_doubled_slashes_suffix path)
      · exact skip_doubled_slashes_suffix path
    · exact List.suffix_refl _
  · intro h
    unfold _notmuch_database_relative_path
    rw [if_neg h]
  · intro h hpre
    unfold _notmuch_database_relative_path
    rw [if_pos h]
    simp only [hpre, if_true]
    intro hh
    cases hl : ((skip_doubled_slashes path).drop db.path.length).dropWhile
        (fun c => decide (c = '/')) with
    | nil => rw [hl] at hh; cases hh
    | cons a t =>
      rw [hl] at hh
      simp only [List.head?_cons, Option.some.injEq] at hh
      have h3 := List.head_dropWhile_not (fun c => decide (c = '/'))
        ((skip_doubled_slashes path).drop db.path.length) (by rw [hl]; simp)
      simp only [hl, List.head_cons, hh, decide_True] at h3
      exact absurd h3 (by simp)

/-- Claim C25, counterexample: at the root `/mail` the relative path `a//b` is returned
as it is, with its two adjacent slashes, and so is the absolute path `/mail/a//b`; the
path `a/b` has another relative form. -/
theorem relative_path_keeps_inner_slashes :
    _notmuch_database_relative_path (empty_database "/mail".toList) "a//b".toList =
      "a//b".toList ∧
    _notmuch_database_relative_path (empty_database "/mail".toList) "/mail/a//b".toList =
      "a//b".toList ∧
    _notmuch_database_relative_path (empty_database "/mail".toList) "a/b".toList =
      "a/b".toList := by
  decide

theorem today_for_month_begin (c : Clock) (m : Int) :
    (today_for_month c m 0).tm_year =
      (if m > (c.localtime_r c.time).tm_mon then (c.localtime_r c.time).tm_year - 1
       else (c.localtime_r c.time).tm_year) := by
  simp only [today_for_month, today, ne_eq, not_true_eq_false, if_false]
  split <;> rfl

theorem today_for_month_end (c : Clock) (m after : Int) (h : after ≠ 0) :
    (today_for_month c m after).tm_year =
      (if m < (c.localtime_r after).tm_mon then (c.localtime_r after).tm_year + 1
       else (c.localtime_r after).tm_year) := by
  simp only [today_for_month, today, ne_eq, h, not_false_eq_true, if_true]
  split <;> rfl

theorem parse_month_first_eq (c : Clock) (text : Str) (after : Int) (i : Nat) (m d : Int)
    (hi : i = 1 ∨ i = 2) (ht : parse_month_tokens text = some (i, m, d)) :
    parse_month_first c text after =
      some (i, { today_for_month c m after with tm_mday := (if i = 1 then 1 else d),
                                                 tm_mon := m }) := by
  rcases hi with rfl | rfl
  · simp [parse_month_first, ht]
  · simp [parse_month_first, ht]

theorem parse_us_first_eq (c : Clock) (text : Str) (after : Int) (i : Nat) (m d y : Int)
    (hi : i = 1 ∨ i = 2) (ht : parse_us_tokens text = some (i, m, d, y)) :
    parse_us_first c text after =
      some (i, { today_for_month c m after with tm_mday := (if i = 1 then 1 else d),
                                                 tm_mon := m }) := by
  rcases hi with rfl | rfl
  · simp [parse_us_first, ht]
  · simp [parse_us_first, ht]

/-- Claim C26: for a begin text (parsed with no earlier instant, `after = 0`) that the
month grammar or the month/day/year grammar reads as a bare month or a month and a day
naming the month m (counted from 0), the grammar returns, and the structure it hands to
`mktime` for the start of the range has month m, and the year of today less one when m is
past today's month, the year of today otherwise. -/
theorem begin_month_year (c : Clock) (text : Str) (i : Nat) (m d : Int)
    (hi : i = 1 ∨ i = 2) :
    (parse_month_tokens text = some (i, m, d) →
      ∃ n, parse_month_first c text 0 = some (i, n) ∧
        (parse_month c text 0).map (fun r => r.1) = some (c.mktime n).1 ∧
        n.tm_mon = m ∧
        n.tm_year = (if m > (c.localtime_r c.time).tm_mon
          then (c.localtime_r c.time).tm_year - 1 else (c.localtime_r c.time).tm_year)) ∧
    (∀ y, parse_us_tokens text = some (i, m, d, y) →
      ∃ n, parse_us_first c text 0 = some (i, n) ∧
        (parse_us c text 0).map (fun r => r.1) = some (c.mktime n).1 ∧
        n.tm_mon = m ∧
        n.tm_year = (if m > (c.localtime_r c.time).tm_mon
          then (c.localtime_r c.time).tm_year - 1 else (c.localtime_r c.time).tm_year)) := by
  constructor
  · intro ht
    refine ⟨_, parse_month_first_eq c text 0 i m d hi ht, ?_, rfl, ?_⟩
    · simp only [parse_month, parse_month_first_eq c text 0 i m d hi ht]
      split <;> rfl
    · exact today_for_month_begin c m
  · intro y ht
    refine ⟨_, parse_us_first_eq c text 0 i m d y hi ht, ?_, rfl, ?_⟩
    · simp only [parse_us, parse_us_first_eq c text 0 i m d y hi ht]
      split <;> rfl
    · exact today_for_month_begin c m

/-- Claim C26, witness: on 2009-11-15 the text `Dec` of the month grammar and the text
`12/24` of the month/day/year grammar, both naming December, which is past November. -/
theorem begin_month_year_witness :
    (∃ n, parse_month_first example_clock "Dec".toList 0 = some (1, n) ∧
        (parse_month example_clock "Dec".toList 0).map (fun r => r.1) =
          some (example_clock.mktime n).1 ∧
        n.tm_mon = 11 ∧
        n.tm_year = (if 11 > (example_clock.localtime_r example_clock.time).tm_mon
          then (example_clock.localtime_r example_clock.time).tm_year - 1
          else (example_clock.localtime_r example_clock.time).tm_year)) ∧
    (∃ n, parse_us_first example_clock "12/24".toList 0 = some (2, n) ∧
        (parse_us example_clock "12/24".toList 0).map (fun r => r.1) =
          some (example_clock.mktime n).1 ∧
        n.tm_mon = 11 ∧
        n.tm_year = (if 11 > (example_clock.localtime_r example_clock.time).tm_mon
          then (example_clock.localtime_r example_clock.time).tm_year - 1
          else (example_clock.localtime_r example_clock.time).tm_year)) :=
  ⟨(begin_month_year example_clock "Dec".toList 1 11 0 (Or.inl rfl)).1 (by decide),
   (begin_month_year example_clock "12/24".toList 2 11 24 (Or.inr rfl)).2 0 (by decide)⟩

/-- Claim C27, as amended: the year goes forward when the month lies before the month of
the begin instant, and the begin instant is not 0.  For an end text that the month grammar
or the month/day/year grammar reads as a bare month or a month and a day naming the month
m (counted from 0), parsed with a begin instant other than 0 that falls in month b of year
y, the grammar returns, and the structure it hands to `mktime` for the start of the range
has month m, and year y + 1 when m < b, year y otherwise. -/
theorem end_month_year (c : Clock) (text : Str) (after : Int) (i : Nat) (m d : Int)
    (hafter : after ≠ 0) (hi : i = 1 ∨ i = 2) :
    (parse_month_tokens text = some (i, m, d) →
      ∃ n, parse_month_first c text after = some (i, n) ∧
        (parse_month c text after).map (fun r => r.1) = some (c.mktime n).1 ∧
        n.tm_mon = m ∧
        n.tm_year = (if m < (c.localtime_r after).tm_mon
          then (c.localtime_r after).tm_year + 1 else (c.localtime_r after).tm_year)) ∧
    (∀ y, parse_us_tokens text = some (i, m, d, y) →
      ∃ n, parse_us_first c text after = some (i, n) ∧
        (parse_us c text after).map (fun r => r.1) = some (c.mktime n).1 ∧
        n.tm_mon = m ∧
        n.tm_year = (if m < (c.localtime_r after).tm_mon
          then (c.localtime_r after).tm_year + 1 else (c.localtime_r after).tm_year)) := by
  constructor
  · intro ht
    refine ⟨_, parse_month_first_eq c text after i m d hi ht, ?_, rfl, ?_⟩
    · simp only [parse_month, parse_month_first_eq c text after i m d hi ht]
      split <;> rfl
    · exact today_for_month_end c m after hafter
  · intro y ht
    refine ⟨_, parse_us_first_eq c text after i m d y hi ht, ?_, rfl, ?_⟩
    · simp only [parse_us, parse_us_first_eq c text after i m d y hi ht]
      split <;> rfl
    · exact today_for_month_end c m after hafter

/-- Claim C27 as amended, witness: the end text `Jan` relative to the begin instant
2009-11-15 12:00:00 (January lies before November, so the year is 2010), and the end text
`12/24` relative to the same instant. -/
theorem end_month_year_witness :
    (∃ n, parse_month_first example_clock "Jan".toList 1258286400 = some (1, n) ∧
        (parse_month example_clock "Jan".toList 1258286400).map (fun r => r.1) =
          some (example_clock.mktime n).1 ∧
        n.tm_mon = 0 ∧
        n.tm_year = (if 0 < (example_clock.localtime_r 1258286400).tm_mon
          then (example_clock.localtime_r 1258286400).tm_year + 1
          else (example_clock.localtime_r 1258286400).tm_year)) ∧
    (∃ n, parse_us_first example_clock "12/24".toList 1258286400 = some (2, n) ∧
        (parse_us example_clock "12/24".toList 1258286400).map (fun r => r.1) =
          some (example_clock.mktime n).1 ∧
        n.tm_mon = 11 ∧
        n.tm_year = (if 11 < (example_clock.localtime_r 1258286400).tm_mon
          then (example_clock.localtime_r 1258286400).tm_year + 1
          else (example_clock.localtime_r 1258286400).tm_year)) :=
  ⟨(end_month_year example_clock "Jan".toList 1258286400 1 0 0 (by decide) (Or.inl rfl)).1
      (by decide),
   (end_month_year example_clock "12/24".toList 1258286400 2 11 24 (by decide)
      (Or.inr rfl)).2 0 (by decide)⟩

/-- Claim C27, counterexample: relative to the begin instant 2009-11-15 12:00:00 (month
10 of year 109) the end text `Dec` (month 11, past the month of begin) is given the year
109, not 110, whereas `Jan` (month 0, not past it) is given the year 110, not 109; and
relative to the begin instant 0 (month 0 of year 70) the end text `Dec` is given the year
108, taken from today (2009-11-15) as for a begin text. -/
theorem end_month_year_past_begin :
    ((example_clock.localtime_r 1258286400).tm_mon,
      (example_clock.localtime_r 1258286400).tm_year) = (10, 109) ∧
    (parse_month_first example_clock "Dec".toList 1258286400).map
      (fun r => (r.2.tm_mon, r.2.tm_year)) = some (11, 109) ∧
    (parse_month_first example_clock "Jan".toList 1258286400).map
      (fun r => (r.2.tm_mon, r.2.tm_year)) = some (0, 110) ∧
    ((example_clock.localtime_r 0).tm_mon, (example_clock.localtime_r 0).tm_year) = (0, 70) ∧
    (parse_month_first example_clock "Dec".toList 0).map
      (fun r => (r.2.tm_mon, r.2.tm_year)) = some (11, 108) := by
  decide

theorem Grows.grows_refl (n : Nat) (db : Database) (hn : n ≤ db.lastdocid) : Grows n db db where
  bound := hn
  handle := SameHandle.same_refl db
  size := Nat.le_refl _
  keeps := fun i d h => ⟨d, h, fun t ht => ht, fun t ht => Or.inl ht, rfl, fun _ => rfl⟩
  holes := fun i _ h => h
  added := fun i d hi hd => by
    have := get_document_range db i d hd; omega

theorem Grows.grows_trans {n : Nat} {a b c : Database} (h1 : Grows n a b) (h2 : Grows n b c) :
    Grows n a c where
  bound := h1.bound
  handle := h1.handle.same_trans h2.handle
  size := Nat.le_trans h1.size h2.size
  keeps := fun i d h => by
    obtain ⟨d1, g1, t1, u1, e1, v1⟩ := h1.keeps i d h
    obtain ⟨d2, g2, t2, u2, e2, v2⟩ := h2.keeps i d1 g1
    refine ⟨d2, g2, fun t ht => t2 t (t1 t ht), fun t ht => ?_, e2.trans e1,
      fun hi => (v2 hi).trans (v1 hi)⟩
    rcases u2 t ht with h | h
    · exact u1 t h
    · exact Or.inr h
  holes := fun i hi h => h2.holes i (Nat.le_trans hi h1.size) (h1.holes i hi h)
  added := fun i d hi hd => by
    by_cases hb : i ≤ b.lastdocid
    · cases hg : b.get_document i with
      | none => rw [h2.holes i hb hg] at hd; cases hd
      | some e =>
        obtain ⟨d2, g2, t2, u2, _, _⟩ := h2.keeps i e hg
        rw [hd] at g2
        cases g2
        obtain ⟨hdir, hone⟩ := h1.added i e hi hg
        have hsub : ∀ t ∈ d.terms, t ∈ e.terms := by
          intro t ht
          rcases u2 t ht with h | ⟨hle, _⟩
          · exact h
          · have := h1.bound
            omega
        exact ⟨fun t ht => hdir t (hsub t ht),
          fun u v hu hv => hone u v (hsub _ hu) (hsub _ hv)⟩
    · exact h2.added i d (by omega) hd

theorem Grows.grows_mid {n : Nat} {a b : Database} (h : Grows n a b) (hm : Mid n a) : Mid n b where
  size := Nat.le_trans hm.size h.size
  old := fun i d v hi hd hv => by
    cases hg : a.get_document i with
    | none => rw [h.holes i (Nat.le_trans hi hm.size) hg] at hd; cases hd
    | some e =>
      obtain ⟨d2, g2, _, u2, _, _⟩ := h.keeps i e hg
      rw [hd] at g2; cases g2
      rcases u2 _ hv with h1 | ⟨_, f, hf⟩
      · exact hm.old i e v hi hg h1
      · rw [make_term_directory, make_term_file_direntry] at hf
        have := congrArg (fun l => l.getD 1 'a') hf
        simp at this
  dirs := fun i d hi hd => by
    by_cases hb : i ≤ a.lastdocid
    · cases hg : a.get_document i with
      | none => rw [h.holes i hb hg] at hd; cases hd
      | some e =>
        obtain ⟨d2, g2, _, u2, _, _⟩ := h.keeps i e hg
        rw [hd] at g2; cases g2
        obtain ⟨hdir, hone⟩ := hm.dirs i e hi hg
        have hsub : ∀ t ∈ d.terms, t ∈ e.terms := by
          intro t ht
          rcases u2 t ht with h1 | ⟨hle, _⟩
          · exact h1
          · omega
        exact ⟨fun t ht => hdir t (hsub t ht),
          fun u v hu hv => hone u v (hsub _ hu) (hsub _ hv)⟩
    · exact h.added i d (by omega) hd

theorem Grows.grows_add_document (n : Nat) (db : Database) (d : Document) (hn : n ≤ db.lastdocid)
    (hd : DirDoc d) (ho : OneDirectory d) : Grows n db (db.add_document d).1 where
  bound := hn
  handle := ⟨rfl, rfl, rfl, rfl, rfl, rfl⟩
  size := by simp
  keeps := fun i e he => by
    have hr := get_document_range db i e he
    have hne : i ≠ db.lastdocid + 1 := by omega
    exact ⟨e, by rw [get_document_add]; simp [hne, he], fun t ht => ht, fun t ht => Or.inl ht,
      rfl, fun _ => rfl⟩
  holes := fun i hi h => by
    have hne : i ≠ db.lastdocid + 1 := by omega
    rw [get_document_add]; simp [hne, h]
  added := fun i e hi he => by
    rw [get_document_add] at he
    by_cases h : i = db.lastdocid + 1
    · simp only [h, if_true, Option.some.injEq] at he; rw [← he]; exact ⟨hd, ho⟩
    · simp only [h, if_false] at he
      have := get_document_range db i e he; omega

theorem directory_term_ne_direntry (u v : Str) :
    make_term "directory" u ≠ make_term "directory-direntry" v := by
  rw [make_term_directory, make_term_directory_direntry]
  intro h
  have := congrArg (fun l => l.getD 2 'a') h
  simp at this

theorem directory_term_inj (u v : Str) (h : make_term "directory" u = make_term "directory" v) :
    u = v := by
  rw [make_term_directory, make_term_directory] at h
  simpa using h

theorem directory_create_fuel_grows (w : World) (n : Nat) (fuel : Nat) :
    ∀ (db : Database) (path : Str), n ≤ db.lastdocid →
    Grows n db (_notmuch_directory_create_fuel w fuel db path).1 := by
  induction fuel with
  | zero => intro db path hn; exact Grows.grows_refl n db hn
  | succ fuel ih =>
    intro db path hn
    simp only [_notmuch_directory_create_fuel]
    split
    · exact Grows.grows_refl n db hn
    · have hp : Grows n db (match (_notmuch_database_split_path
          (some (_notmuch_database_relative_path db path))).2.1 with
          | none => (db, 0)
          | some p => _notmuch_directory_create_fuel w fuel db p).1 := by
        split
        · exact Grows.grows_refl n db hn
        · exact ih db _ hn
      refine hp.grows_trans (Grows.grows_add_document n _ _ (Nat.le_trans hn hp.size) ?_ ?_)
      · split
        · intro t ht
          rw [mem_add_term] at ht
          rcases ht with ht | ht
          · exact ⟨_, Or.inr ht⟩
          · simp only [List.mem_singleton] at ht
            exact ⟨_, Or.inl ht⟩
        · intro t ht
          simp only [List.mem_singleton] at ht
          exact ⟨_, Or.inl ht⟩
      · split
        · intro u v hu hv
          rw [mem_add_term] at hu hv
          rcases hu with hu | hu
          · exact absurd hu (directory_term_ne_direntry _ _)
          · rcases hv with hv | hv
            · exact absurd hv (directory_term_ne_direntry _ _)
            · simp only [List.mem_singleton] at hu hv
              exact (directory_term_inj _ _ hu).trans (directory_term_inj _ _ hv).symm
        · intro u v hu hv
          simp only [List.mem_singleton] at hu hv
          exact (directory_term_inj _ _ hu).trans (directory_term_inj _ _ hv).symm

theorem directory_create_fuel_at (w : World) (fuel : Nat) (db : Database) (path : Str) :
    ∃ dd, (_notmuch_directory_create_fuel w (fuel + 1) db path).1.get_document
        (_notmuch_directory_create_fuel w (fuel + 1) db path).2 = some dd ∧
      make_term "directory" (_notmuch_database_get_directory_db_path w
        (_notmuch_database_relative_path db path)) ∈ dd.terms := by
  simp only [_notmuch_directory_create_fuel]
  split
  · rename_i id hid
    exact find_unique_some db "directory" _ id hid
  · refine ⟨_, by rw [add_document_id, get_document_add, if_pos rfl], ?_⟩
    split
    · rw [mem_add_term]; exact Or.inr (List.mem_singleton.mpr rfl)
    · exact List.mem_singleton.mpr rfl

theorem relative_path_congr (db db2 : Database) (h : db2.path = db.path) (p : Str) :
    _notmuch_database_relative_path db2 p = _notmuch_database_relative_path db p := by
  simp only [_notmuch_database_relative_path, h]

theorem Mid.directory_doc {n : Nat} {db : Database} (hm : Mid n db) {i : Nat} {d : Document}
    {v : Str} (hd : db.get_document i = some d) (hv : make_term "directory" v ∈ d.terms) :
    n < i ∧ DirDoc d ∧ OneDirectory d := by
  by_cases hi : i ≤ n
  · exact absurd hv (hm.old i d v hi hd)
  · exact ⟨by omega, hm.dirs i d (by omega) hd⟩

/-- What `_notmuch_directory_create` leaves: a later state in which the document it
returns is the directory document of the path. -/
theorem directory_create_spec (w : World) (n : Nat) (db : Database) (path : Str)
    (hm : Mid n db) :
    Grows n db (_notmuch_directory_create w db path).1 ∧
    Mid n (_notmuch_directory_create w db path).1 ∧
    n < (_notmuch_directory_create w db path).2 ∧
    DirectoryAt w (_notmuch_directory_create w db path).1 path
      (_notmuch_directory_create w db path).2 := by
  have hg := directory_create_fuel_grows w n (path.length + 1) db path hm.size
  have hm2 := hg.grows_mid hm
  obtain ⟨dd, hdd, ht⟩ := directory_create_fuel_at w path.length db path
  obtain ⟨hlt, hdir, _⟩ := hm2.directory_doc hdd ht
  refine ⟨hg, hm2, hlt, dd, hdd, hdir, ?_⟩
  have hrel := relative_path_congr db (_notmuch_directory_create w db path).1 hg.handle.1 path
  rw [hrel]
  exact ht

theorem Grows.replace_entry (n : Nat) (R : Database) (i : Nat) (d : Document) (e : Str)
    (hd : R.get_document i = some d) (hi : i ≤ n) (hn : n ≤ R.lastdocid) :
    Grows n R (R.replace_document i (d.add_term (make_term "file-direntry" e))) := by
  have hr := get_document_range R i d hd
  refine ⟨hn, ⟨rfl, rfl, rfl, rfl, rfl, rfl⟩, by rw [lastdocid_replace _ _ _ hr.2], ?_, ?_, ?_⟩
  · intro j dj hj
    rw [get_document_replace _ _ _ _ hr]
    by_cases hji : j = i
    · subst hji
      rw [hd] at hj; cases hj
      refine ⟨d.add_term (make_term "file-direntry" e), by simp,
        fun t ht => (mem_add_term _ _ _).mpr (Or.inr ht), fun t ht => ?_, ?_, fun _ => ?_⟩
      · rcases (mem_add_term _ _ _).mp ht with h | h
        · exact Or.inr ⟨hi, e, h⟩
        · exact Or.inl h
      · unfold Document.add_term; split <;> rfl
      · unfold Document.add_term; split <;> rfl
    · exact ⟨dj, by simp [hji, hj], fun t ht => ht, fun t ht => Or.inl ht, rfl, fun _ => rfl⟩
  · intro j hj hnone
    rw [get_document_replace _ _ _ _ hr]
    have hji : j ≠ i := by rintro rfl; rw [hd] at hnone; cases hnone
    simp [hji, hnone]
  · intro j dj hj hdj
    rw [get_document_replace _ _ _ _ hr] at hdj
    have hji : j ≠ i := by omega
    simp only [hji, if_false] at hdj
    have := get_document_range R j dj hdj
    omega

theorem Grows.replace_value (n : Nat) (R : Database) (i : Nat) (d : Document)
    (s : notmuch_value_t) (v : Str)
    (hd : R.get_document i = some d) (hi : n < i) (hn : n ≤ R.lastdocid) :
    Grows n R (R.replace_document i (d.add_value s v)) := by
  have hr := get_document_range R i d hd
  refine ⟨hn, ⟨rfl, rfl, rfl, rfl, rfl, rfl⟩, by rw [lastdocid_replace _ _ _ hr.2], ?_, ?_, ?_⟩
  · intro j dj hj
    rw [get_document_replace _ _ _ _ hr]
    by_cases hji : j = i
    · subst hji
      rw [hd] at hj; cases hj
      exact ⟨d.add_value s v, by simp, fun t ht => ht, fun t ht => Or.inl ht, rfl,
        fun h => by omega⟩
    · exact ⟨dj, by simp [hji, hj], fun t ht => ht, fun t ht => Or.inl ht, rfl, fun _ => rfl⟩
  · intro j hj hnone
    rw [get_document_replace _ _ _ _ hr]
    have hji : j ≠ i := by rintro rfl; rw [hd] at hnone; cases hnone
    simp [hji, hnone]
  · intro j dj hj hdj
    rw [get_document_replace _ _ _ _ hr] at hdj
    have hji : j ≠ i := by omega
    simp only [hji, if_false] at hdj
    have := get_document_range R j dj hdj
    omega

theorem DirectoryAt.dir_grows {w : World} {n : Nat} {a b : Database} {p : Str} {id : Nat}
    (h : DirectoryAt w a p id) (hm : Mid n a) (hg : Grows n a b) : DirectoryAt w b p id := by
  obtain ⟨dd, hdd, hdir, ht⟩ := h
  obtain ⟨hlt, _, _⟩ := hm.directory_doc hdd ht
  obtain ⟨d2, g2, t2, u2, _, _⟩ := hg.keeps id dd hdd
  refine ⟨d2, g2, fun t ht2 => ?_, ?_⟩
  · rcases u2 t ht2 with h1 | ⟨hle, _⟩
    · exact hdir t h1
    · omega
  · rw [relative_path_congr a b hg.handle.1]
    exact t2 _ ht

theorem FormedEntry.entry_grows {w : World} {n : Nat} {a b : Database} {f e : Str}
    (h : FormedEntry w a f e) (hm : Mid n a) (hg : Grows n a b) : FormedEntry w b f e := by
  obtain ⟨id, he, hmatch⟩ := h
  unfold FormedEntry
  rw [relative_path_congr a b hg.handle.1]
  refine ⟨id, he, ?_⟩
  split
  · rename_i hnone
    rw [hnone] at hmatch
    exact hmatch
  · rename_i p hsome
    rw [hsome] at hmatch
    exact DirectoryAt.dir_grows hmatch hm hg

theorem HasEntry.has_entry_grows {w : World} {n : Nat} {a b : Database} {i : Nat} {f : Str}
    (h : HasEntry w a i f) (hm : Mid n a) (hg : Grows n a b) : HasEntry w b i f := by
  obtain ⟨d, e, hd, ht, hef⟩ := h
  obtain ⟨d2, g2, t2, _, _, _⟩ := hg.keeps i d hd
  exact ⟨d2, e, g2, t2 _ ht, hef.entry_grows hm hg⟩

/-- What `_notmuch_database_filename_to_direntry` leaves: a later state with the same
documents as before and directory documents behind them, and the direntry of the file. -/
theorem filename_to_direntry_entry (w : World) (n : Nat) (db : Database) (f : Str)
    (hm : Mid n db) :
    Grows n db (_notmuch_database_filename_to_direntry w db f).1 ∧
    Mid n (_notmuch_database_filename_to_direntry w db f).1 ∧
    FormedEntry w (_notmuch_database_filename_to_direntry w db f).1 f
      (_notmuch_database_filename_to_direntry w db f).2.2 := by
  simp only [_notmuch_database_filename_to_direntry, split_path_status, ne_eq,
    not_true_eq_false, if_false, (find_directory_id_spec w db _).2]
  cases hs : (_notmuch_database_split_path
      (some (_notmuch_database_relative_path db f))).2.1 with
  | none =>
    simp only [_notmuch_database_find_directory_id]
    refine ⟨Grows.grows_refl n db hm.size, hm, 0, rfl, ?_⟩
    rw [hs]
  | some p =>
    simp only [_notmuch_database_find_directory_id]
    obtain ⟨hg, hm2, _, hat⟩ := directory_create_spec w n db p hm
    refine ⟨hg, hm2, (_notmuch_directory_create w db p).2, ?_, ?_⟩
    · rw [relative_path_congr db _ hg.handle.1]
    · rw [relative_path_congr db _ hg.handle.1, hs]
      exact hat

/-- One iteration of the filename loop on a document of the version-0 database that has a
filename in its data blob. -/
theorem upgrade_filename_step (w : World) (n : Nat) (db : Database) (i : Nat) (d : Document)
    (hm : Mid n db) (hi : i ≤ n) (hd : db.get_document i = some d) :
    Grows n db (_notmuch_message_sync (_notmuch_message_add_filename w db ⟨i, 0, d⟩ d.data).1
      (_notmuch_message_add_filename w db ⟨i, 0, d⟩ d.data).2) ∧
    HasEntry w (_notmuch_message_sync (_notmuch_message_add_filename w db ⟨i, 0, d⟩ d.data).1
      (_notmuch_message_add_filename w db ⟨i, 0, d⟩ d.data).2) i d.data := by
  obtain ⟨hext, hst⟩ := filename_to_direntry_spec w db d.data
  obtain ⟨hg, hm2, hef⟩ := filename_to_direntry_entry w n db d.data hm
  have hr := get_document_range db i d hd
  have hd2 : (_notmuch_database_filename_to_direntry w db d.data).1.get_document i = some d := by
    rw [hext.2.2.1 i hr.2]; exact hd
  have hr2 := get_document_range _ i d hd2
  simp only [_notmuch_message_add_filename, hst, ne_eq, not_true_eq_false, if_false,
    _notmuch_message_sync, _notmuch_message_add_term, if_true]
  have hg2 := Grows.replace_entry n _ i d (_notmuch_database_filename_to_direntry w db d.data).2.2
    hd2 hi hm2.size
  refine ⟨hg.grows_trans hg2,
    d.add_term (make_term "file-direntry" (_notmuch_database_filename_to_direntry w db d.data).2.2),
    (_notmuch_database_filename_to_direntry w db d.data).2.2, ?_, ?_, hef.entry_grows hm2 hg2⟩
  · rw [get_document_replace _ _ _ _ hr2, if_pos rfl]
  · exact (mem_add_term _ _ _).mpr (Or.inl rfl)

/-- The filename loop of the upgrade, run over documents of the version-0 database: it
returns, in a later state in which each of them that has a filename in its data blob
carries the direntry of that file. -/
theorem upgrade_filenames_loop_spec (w : World) (n : Nat) (notify : Bool) (alarm : Nat → Bool)
    (total : Nat) : ∀ (L : List Nat) (db : Database) (p : Progress) (count : Nat),
    Mid n db → (∀ i ∈ L, i ≤ n ∧ ∃ d, db.get_document i = some d) →
    ∃ r, upgrade_filenames_loop w notify alarm total db p count L = some r ∧
      Grows n db r.1 ∧
      ∀ i ∈ L, ∀ d, db.get_document i = some d → d.data ≠ [] → HasEntry w r.1 i d.data := by
  intro L
  induction L with
  | nil =>
    intro db p count hm _
    exact ⟨_, rfl, Grows.grows_refl n db hm.size, fun i hi => absurd hi (List.not_mem_nil i)⟩
  | cons i rest ih =>
    intro db p count hm hL
    obtain ⟨hi, d, hd⟩ := hL i (List.mem_cons_self _ _)
    simp only [upgrade_filenames_loop, _notmuch_message_create, hd, Option.map_some']
    by_cases hdata : d.data = []
    · simp only [hdata, ne_eq, not_true_eq_false, if_false]
      obtain ⟨r, hr, hg, hall⟩ := ih db (poll_progress notify alarm p count total) (count + 1) hm
        (fun j hj => hL j (List.mem_cons_of_mem _ hj))
      refine ⟨r, hr, hg, fun j hj e he hne => ?_⟩
      rcases List.mem_cons.mp hj with rfl | hj
      · rw [hd] at he; cases he; exact absurd hdata hne
      · exact hall j hj e he hne
    · simp only [ne_eq, hdata, not_false_eq_true, if_true]
      obtain ⟨hg1, hent⟩ := upgrade_filename_step w n db i d hm hi hd
      have hm1 := hg1.grows_mid hm
      obtain ⟨r, hr, hg, hall⟩ := ih _ (poll_progress notify alarm p count total) (count + 1) hm1
        (fun j hj => by
          obtain ⟨hj1, e, he⟩ := hL j (List.mem_cons_of_mem _ hj)
          obtain ⟨e2, he2, _⟩ := hg1.keeps j e he
          exact ⟨hj1, e2, he2⟩)
      refine ⟨r, hr, hg1.grows_trans hg, fun j hj e he hne => ?_⟩
      by_cases hji : j = i
      · subst hji
        rw [hd] at he; cases he
        exact hent.has_entry_grows hm1 hg
      · have hj2 : j ∈ rest := by
          rcases List.mem_cons.mp hj with h | h
          · exact absurd h hji
          · exact h
        obtain ⟨e2, he2, _, _, hdat, _⟩ := hg1.keeps j e he
        have := hall j hj2 e2 he2 (by rw [hdat]; exact hne)
        rw [hdat] at this
        exact this

theorem get_value_add_value (d : Document) (s : notmuch_value_t) (v : Str) :
    (d.add_value s v).get_value s = v := by
  simp [Document.get_value, Document.add_value]

theorem legacy_term_not_file_direntry (e : Str) :
    is_legacy_term (make_term "file-direntry" e) = false := by
  rw [make_term_file_direntry]; rfl

theorem DirDoc.no_legacy {d : Document} (h : DirDoc d) (t : Str) (ht : t ∈ d.terms) :
    is_legacy_term t = false := by
  obtain ⟨v, hv | hv⟩ := h t ht
  · rw [hv, make_term_directory]; rfl
  · rw [hv, make_term_directory_direntry]; rfl

theorem legacy_directory_congr (w : World) (db db2 : Database) (h : db2.path = db.path)
    (t : Str) : legacy_directory w db2 t = legacy_directory w db t := by
  simp only [legacy_directory, relative_path_congr db db2 h]

theorem LegacyPair.grows_iff {n : Nat} {a b : Database} (hg : Grows n a b) (t v : Str) :
    LegacyPair n b t v ↔ LegacyPair n a t v := by
  constructor
  · rintro ⟨i, d2, hi, hd2, ht, hl, hv⟩
    cases hd : a.get_document i with
    | none => rw [hg.holes i (Nat.le_trans hi hg.bound) hd] at hd2; cases hd2
    | some d =>
      obtain ⟨e, he, _, u2, _, v2⟩ := hg.keeps i d hd
      rw [hd2] at he; cases he
      refine ⟨i, d, hi, hd, ?_, hl, ?_⟩
      · rcases u2 t ht with h | ⟨_, f, hf⟩
        · exact h
        · rw [hf, legacy_term_not_file_direntry] at hl; cases hl
      · rw [← hv]
        exact congrArg (fun x => ((x.find? (fun e => e.1 = NOTMUCH_VALUE_TIMESTAMP)).map
          (fun e => e.2)).getD []) (v2 hi).symm
  · rintro ⟨i, d, hi, hd, ht, hl, hv⟩
    obtain ⟨e, he, t2, _, _, v2⟩ := hg.keeps i d hd
    refine ⟨i, e, hi, he, t2 t ht, hl, ?_⟩
    rw [← hv]
    exact congrArg (fun x => ((x.find? (fun e => e.1 = NOTMUCH_VALUE_TIMESTAMP)).map
      (fun e => e.2)).getD []) (v2 hi)

theorem Stamps.stamps_grows {w : World} {n : Nat} {a b : Database} (hs : Stamps w n a)
    (hg : Grows n a b) : Stamps w n b where
  agree := fun t u v v2 h1 h2 he => by
    rw [legacy_directory_congr w a b hg.handle.1, legacy_directory_congr w a b hg.handle.1] at he
    exact hs.agree t u v v2 ((LegacyPair.grows_iff hg t v).mp h1)
      ((LegacyPair.grows_iff hg u v2).mp h2) he
  round_trip := fun t v h => hs.round_trip t v ((LegacyPair.grows_iff hg t v).mp h)

/-- One iteration of the time stamp loop: the directory of the term is looked up or made,
and the time stamp of the legacy document is written into it; time stamps written before
stay. -/
theorem upgrade_timestamp_step (w : World) (n : Nat) (db : Database) (t : Str) (i : Nat)
    (d : Document) (hm : Mid n db) (hs : Stamps w n db) (hi : i ≤ n)
    (hd : db.get_document i = some d) (ht : t ∈ d.terms) (hl : is_legacy_term t = true) :
    ∃ db2, notmuch_directory_set_mtime w (notmuch_database_get_directory w db (t.drop 10)).1
        (notmuch_database_get_directory w db (t.drop 10)).2
        (w.sortable_unserialise (d.get_value NOTMUCH_VALUE_TIMESTAMP)) = some db2 ∧
      Grows n db db2 ∧
      HasStamp w db2 t (d.get_value NOTMUCH_VALUE_TIMESTAMP) ∧
      ∀ t0 v0, LegacyPair n db t0 v0 → HasStamp w db t0 v0 → HasStamp w db2 t0 v0 := by
  obtain ⟨hg, hm2, hlt, dd, hdd, hdir, hterm⟩ := directory_create_spec w n db (t.drop 10) hm
  have hext : Extends db (_notmuch_directory_create w db (t.drop 10)).1 :=
    directory_create_fuel_extends w ((t.drop 10).length + 1) db (t.drop 10)
  have hpair : LegacyPair n db t (d.get_value NOTMUCH_VALUE_TIMESTAMP) :=
    ⟨i, d, hi, hd, ht, hl, rfl⟩
  have hrt := hs.round_trip t _ hpair
  have hr := get_document_range _ _ dd hdd
  simp only [notmuch_database_get_directory, notmuch_directory_set_mtime, hdd, hrt]
  have hg2 := Grows.replace_value n _ _ dd NOTMUCH_VALUE_TIMESTAMP
    (d.get_value NOTMUCH_VALUE_TIMESTAMP) hdd hlt hm2.size
  have hpath := (hg.grows_trans hg2).handle.1
  refine ⟨_, rfl, hg.grows_trans hg2, ?_, ?_⟩
  · refine ⟨_, dd.add_value NOTMUCH_VALUE_TIMESTAMP (d.get_value NOTMUCH_VALUE_TIMESTAMP),
      by rw [get_document_replace _ _ _ _ hr, if_pos rfl], hdir, ?_, get_value_add_value _ _ _⟩
    exact hterm
  · rintro t0 v0 hp0 ⟨id, e, he, hedir, heterm, hev⟩
    have hle := (get_document_range db id e he).2
    have he1 : (_notmuch_directory_create w db (t.drop 10)).1.get_document id = some e := by
      rw [hext.2.2.1 id hle]; exact he
    by_cases hid : id = (_notmuch_directory_create w db (t.drop 10)).2
    · subst hid
      rw [hdd] at he1; cases he1
      have hone := (hm2.dirs _ _ hlt hdd).2
      have hterm2 : make_term "directory" (legacy_directory w db t) ∈ dd.terms := by
        have := hterm
        rw [relative_path_congr db _ hg.handle.1] at this
        exact this
      have heq := hone _ _ heterm hterm2
      have hv := hs.agree t0 t v0 _ hp0 hpair heq
      refine ⟨_, dd.add_value NOTMUCH_VALUE_TIMESTAMP (d.get_value NOTMUCH_VALUE_TIMESTAMP),
        by rw [get_document_replace _ _ _ _ hr, if_pos rfl], hdir, ?_, ?_⟩
      · rw [legacy_directory_congr w db _ hpath]
        exact heterm
      · rw [get_value_add_value, hv]
    · refine ⟨id, e, by rw [get_document_replace _ _ _ _ hr, if_neg hid]; exact he1, hedir, ?_,
        hev⟩
      rw [legacy_directory_congr w db _ hpath]
      exact heterm

theorem get_value_of_values {d e : Document} (h : e.values = d.values) (s : notmuch_value_t) :
    e.get_value s = d.get_value s := by
  simp only [Document.get_value, h]

/-- The time stamp loop over the posting list of one legacy term. -/
theorem upgrade_timestamps_postings_spec (w : World) (n : Nat) (notify : Bool)
    (alarm : Nat → Bool) (count total : Nat) (t : Str) (hl : is_legacy_term t = true) :
    ∀ (L : List Nat) (db : Database) (p : Progress), Mid n db → Stamps w n db →
    (∀ i ∈ L, i ≤ n ∧ ∃ d, db.get_document i = some d ∧ t ∈ d.terms) →
    ∃ r, upgrade_timestamps_postings w notify alarm count total t db p L = some r ∧
      Grows n db r.1 ∧
      (∀ t0 v0, LegacyPair n db t0 v0 → HasStamp w db t0 v0 → HasStamp w r.1 t0 v0) ∧
      (∀ i ∈ L, ∀ d, db.get_document i = some d →
        HasStamp w r.1 t (d.get_value NOTMUCH_VALUE_TIMESTAMP)) := by
  intro L
  induction L with
  | nil =>
    intro db p hm _ _
    exact ⟨_, rfl, Grows.grows_refl n db hm.size, fun _ _ _ h => h,
      fun i hi => absurd hi (List.not_mem_nil i)⟩
  | cons i rest ih =>
    intro db p hm hs hL
    obtain ⟨hi, d, hd, ht⟩ := hL i (List.mem_cons_self _ _)
    obtain ⟨db2, hset, hg1, hst, hcarry⟩ := upgrade_timestamp_step w n db t i d hm hs hi hd ht hl
    simp only [upgrade_timestamps_postings, find_document_for_doc_id, hd, hset]
    obtain ⟨r, hr, hg, hc2, hall⟩ := ih db2 (poll_progress notify alarm p count total)
      (hg1.grows_mid hm) (hs.stamps_grows hg1) (fun j hj => by
        obtain ⟨hj1, e, he, hte⟩ := hL j (List.mem_cons_of_mem _ hj)
        obtain ⟨e2, he2, t2, _⟩ := hg1.keeps j e he
        exact ⟨hj1, e2, he2, t2 t hte⟩)
    refine ⟨r, hr, hg1.grows_trans hg, fun t0 v0 hp h0 => ?_, fun j hj e he => ?_⟩
    · exact hc2 t0 v0 ((LegacyPair.grows_iff hg1 t0 v0).mpr hp) (hcarry t0 v0 hp h0)
    · by_cases hji : j = i
      · rw [hji, hd] at he
        have hde : d = e := Option.some.inj he
        rw [← hde]
        exact hc2 t _ ((LegacyPair.grows_iff hg1 t _).mpr ⟨i, d, hi, hd, ht, hl, rfl⟩) hst
      · have hj2 : j ∈ rest := by
          rcases List.mem_cons.mp hj with h | h
          · exact absurd h hji
          · exact h
        obtain ⟨hj1, _⟩ := hL j hj
        obtain ⟨e2, he2, _, _, _, hv⟩ := hg1.keeps j e he
        have := hall j hj2 e2 he2
        rw [get_value_of_values (hv hj1)] at this
        exact this

/-- The time stamp loop over the legacy terms: it returns, in a later state in which every
directory named by one of the terms has a directory document with the time stamp of the
legacy document. -/
theorem upgrade_timestamps_loop_spec (w : World) (n : Nat) (notify : Bool)
    (alarm : Nat → Bool) (count total : Nat) :
    ∀ (T : List Str) (db : Database) (p : Progress), Mid n db → Stamps w n db →
    (∀ t ∈ T, is_legacy_term t = true) →
    ∃ r, upgrade_timestamps_loop w notify alarm count total db p T = some r ∧
      Grows n db r.1 ∧
      (∀ t0 v0, LegacyPair n db t0 v0 → (t0 ∈ T ∨ HasStamp w db t0 v0) →
        HasStamp w r.1 t0 v0) := by
  intro T
  induction T with
  | nil =>
    intro db p hm _ _
    refine ⟨_, rfl, Grows.grows_refl n db hm.size, fun t0 v0 _ h => ?_⟩
    rcases h with h | h
    · exact absurd h (List.not_mem_nil t0)
    · exact h
  | cons t rest ih =>
    intro db p hm hs hT
    have hl := hT t (List.mem_cons_self _ _)
    obtain ⟨r1, hr1, hg1, hc1, hall1⟩ := upgrade_timestamps_postings_spec w n notify alarm count
      total t hl (find_doc_ids_for_term db t) db p hm hs (fun i hi => by
        obtain ⟨d, hd, ht⟩ := (mem_find_doc_ids_for_term _ _ _).mp hi
        refine ⟨?_, d, hd, ht⟩
        by_contra hcon
        have := (hm.dirs i d (by omega) hd).1.no_legacy t ht
        rw [hl] at this; cases this)
    simp only [upgrade_timestamps_loop, hr1]
    obtain ⟨r, hr, hg, hc⟩ := ih r1.1 r1.2 (hg1.grows_mid hm) (hs.stamps_grows hg1)
      (fun u hu => hT u (List.mem_cons_of_mem _ hu))
    refine ⟨r, hr, hg1.grows_trans hg, fun t0 v0 hp h0 => ?_⟩
    have hp1 := (LegacyPair.grows_iff hg1 t0 v0).mpr hp
    rcases h0 with h0 | h0
    · rcases List.mem_cons.mp h0 with rfl | h0
      · obtain ⟨i, d, hi, hd, ht, _, hv⟩ := hp
        have := hall1 i ((mem_find_doc_ids_for_term _ _ _).mpr ⟨d, hd, ht⟩) d hd
        rw [hv] at this
        exact hc t0 v0 hp1 (Or.inr this)
      · exact hc t0 v0 hp1 (Or.inl h0)
    · exact hc t0 v0 hp1 (Or.inr (hc1 t0 v0 hp h0))

theorem Clears.clears_refl (db : Database) : Clears db db where
  handle := SameHandle.same_refl db
  size := rfl
  holes := fun _ h => h
  keeps := fun _ d h => ⟨d, h, rfl, rfl, Or.inl rfl⟩

theorem Clears.clears_trans {a b c : Database} (h1 : Clears a b) (h2 : Clears b c) :
    Clears a c where
  handle := h1.handle.same_trans h2.handle
  size := h2.size.trans h1.size
  holes := fun i h => h2.holes i (h1.holes i h)
  keeps := fun i d h => by
    obtain ⟨d1, g1, t1, v1, e1⟩ := h1.keeps i d h
    obtain ⟨d2, g2, t2, v2, e2⟩ := h2.keeps i d1 g1
    refine ⟨d2, g2, t2.trans t1, v2.trans v1, ?_⟩
    rcases e2 with e2 | e2
    · rcases e1 with e1 | e1
      · exact Or.inl (e2.trans e1)
      · exact Or.inr (e2.trans e1)
    · exact Or.inr e2

theorem Clears.clear (db : Database) (i : Nat) (d : Document)
    (hd : db.get_document i = some d) :
    Clears db (db.replace_document i { d with data := [] }) := by
  have hr := get_document_range db i d hd
  refine ⟨⟨rfl, rfl, rfl, rfl, rfl, rfl⟩, lastdocid_replace _ _ _ hr.2, fun j hj => ?_,
    fun j e he => ?_⟩
  · rw [get_document_replace _ _ _ _ hr]
    have hji : j ≠ i := by rintro rfl; rw [hd] at hj; cases hj
    simp [hji, hj]
  · rw [get_document_replace _ _ _ _ hr]
    by_cases hji : j = i
    · rw [hji, hd] at he
      have hde : d = e := Option.some.inj he
      exact ⟨{ d with data := [] }, by simp [hji], by rw [← hde], by rw [← hde], Or.inr rfl⟩
    · exact ⟨e, by simp [hji, he], rfl, rfl, Or.inl rfl⟩

/-- The loop of the upgrade that clears the data blobs, run over existing documents: it
returns, and afterwards each of them has an empty data blob. -/
theorem upgrade_clear_data_loop_spec (notify : Bool) (alarm : Nat → Bool) (count total : Nat) :
    ∀ (L : List Nat) (db : Database) (p : Progress),
    (∀ i ∈ L, ∃ d, db.get_document i = some d) →
    ∃ r, upgrade_clear_data_loop notify alarm count total db p L = some r ∧
      Clears db r.1 ∧ ∀ i ∈ L, ∀ d, r.1.get_document i = some d → d.data = [] := by
  intro L
  induction L with
  | nil =>
    intro db p _
    exact ⟨_, rfl, Clears.clears_refl db, fun i hi => absurd hi (List.not_mem_nil i)⟩
  | cons i rest ih =>
    intro db p hL
    obtain ⟨d, hd⟩ := hL i (List.mem_cons_self _ _)
    have hr := get_document_range db i d hd
    simp only [upgrade_clear_data_loop, _notmuch_message_create, hd, Option.map_some']
    by_cases hdata : d.data = []
    · simp only [hdata, ne_eq, not_true_eq_false, if_false]
      obtain ⟨r, hr1, hc, hall⟩ := ih db (poll_progress notify alarm p count total)
        (fun j hj => hL j (List.mem_cons_of_mem _ hj))
      refine ⟨r, hr1, hc, fun j hj e he => ?_⟩
      rcases List.mem_cons.mp hj with rfl | hj
      · obtain ⟨e2, he2, _, _, hd2⟩ := hc.keeps j d hd
        rw [he] at he2
        have : e = e2 := Option.some.inj he2
        rw [this]
        rcases hd2 with h | h
        · rw [h]; exact hdata
        · exact h
      · exact hall j hj e he
    · simp only [ne_eq, hdata, not_false_eq_true, if_true, _notmuch_message_sync]
      have hc1 := Clears.clear db i d hd
      obtain ⟨r, hr1, hc, hall⟩ := ih (db.replace_document i { d with data := [] })
        (poll_progress notify alarm p count total)
        (fun j hj => by
          obtain ⟨e, he⟩ := hL j (List.mem_cons_of_mem _ hj)
          obtain ⟨e2, he2, _⟩ := hc1.keeps j e he
          exact ⟨e2, he2⟩)
      refine ⟨r, hr1, hc1.clears_trans hc, fun j hj e he => ?_⟩
      rcases List.mem_cons.mp hj with rfl | hj
      · have h1 : (db.replace_document j { d with data := [] }).get_document j =
            some { d with data := [] } := by
          rw [get_document_replace _ _ _ _ hr, if_pos rfl]
        obtain ⟨e2, he2, _, _, hd2⟩ := hc.keeps j _ h1
        rw [he] at he2
        have : e = e2 := Option.some.inj he2
        rw [this]
        rcases hd2 with h | h
        · rw [h]
        · exact h
      · exact hall j hj e he

theorem Deletes.deletes_refl (db : Database) : Deletes db db where
  handle := SameHandle.same_refl db
  size := rfl
  keeps := fun _ => Or.inl rfl

theorem Deletes.deletes_trans {a b c : Database} (h1 : Deletes a b) (h2 : Deletes b c) :
    Deletes a c where
  handle := h1.handle.same_trans h2.handle
  size := h2.size.trans h1.size
  keeps := fun i => by
    rcases h2.keeps i with e2 | ⟨n2, d, t, hd, ht, hl⟩
    · rcases h1.keeps i with e1 | ⟨n1, x⟩
      · exact Or.inl (e2.trans e1)
      · exact Or.inr ⟨e2.trans n1, x⟩
    · rcases h1.keeps i with e1 | ⟨n1, _⟩
      · exact Or.inr ⟨n2, d, t, by rw [← e1]; exact hd, ht, hl⟩
      · rw [n1] at hd; cases hd

theorem upgrade_delete_postings_get (notify : Bool) (alarm : Nat → Bool) (count total : Nat) :
    ∀ (L : List Nat) (db : Database) (p : Progress),
    SameHandle db (upgrade_delete_postings notify alarm count total db p L).1 ∧
    (upgrade_delete_postings notify alarm count total db p L).1.lastdocid = db.lastdocid ∧
    ∀ j, (upgrade_delete_postings notify alarm count total db p L).1.get_document j =
      if j ∈ L then none else db.get_document j := by
  intro L
  induction L with
  | nil => intro db p; exact ⟨SameHandle.same_refl db, rfl, fun j => by simp [upgrade_delete_postings]⟩
  | cons i rest ih =>
    intro db p
    obtain ⟨hs, hl, hg⟩ := ih (db.delete_document i) (poll_progress notify alarm p count total)
    simp only [upgrade_delete_postings]
    refine ⟨(show SameHandle db (db.delete_document i) from ⟨rfl, rfl, rfl, rfl, rfl, rfl⟩).same_trans hs,
      hl, fun j => ?_⟩
    rw [hg j, get_document_delete]
    by_cases hji : j = i
    · simp [hji]
    · by_cases hjr : j ∈ rest
      · simp [hjr]
      · simp [hji, hjr]

/-- The loop of the upgrade that deletes the legacy documents, run over legacy terms:
afterwards no document carries one of them, and only documents that carried one are
gone. -/
theorem upgrade_delete_loop_spec (notify : Bool) (alarm : Nat → Bool) (count total : Nat) :
    ∀ (T : List Str) (db : Database) (p : Progress), (∀ t ∈ T, is_legacy_term t = true) →
    Deletes db (upgrade_delete_loop notify alarm count total db p T).1 ∧
    ∀ t ∈ T, ∀ j d, (upgrade_delete_loop notify alarm count total db p T).1.get_document j =
      some d → t ∉ d.terms := by
  intro T
  induction T with
  | nil =>
    intro db p _
    exact ⟨Deletes.deletes_refl db, fun t ht => absurd ht (List.not_mem_nil t)⟩
  | cons t rest ih =>
    intro db p hT
    obtain ⟨hs, hl, hg⟩ := upgrade_delete_postings_get notify alarm count total
      (find_doc_ids_for_term db t) db p
    have hd1 : Deletes db (upgrade_delete_postings notify alarm count total db p
        (find_doc_ids_for_term db t)).1 := by
      refine ⟨hs, hl, fun j => ?_⟩
      rw [hg j]
      by_cases hj : j ∈ find_doc_ids_for_term db t
      · obtain ⟨d, hd, ht⟩ := (mem_find_doc_ids_for_term _ _ _).mp hj
        exact Or.inr ⟨by simp [hj], d, t, hd, ht, hT t (List.mem_cons_self _ _)⟩
      · exact Or.inl (by simp [hj])
    obtain ⟨hd2, hall⟩ := ih (upgrade_delete_postings notify alarm count total db p
        (find_doc_ids_for_term db t)).1 (upgrade_delete_postings notify alarm count total db p
        (find_doc_ids_for_term db t)).2 (fun u hu => hT u (List.mem_cons_of_mem _ hu))
    simp only [upgrade_delete_loop]
    refine ⟨hd1.deletes_trans hd2, fun u hu j d hd hmem => ?_⟩
    rcases List.mem_cons.mp hu with rfl | hu
    · rcases hd2.keeps j with e | ⟨hnone, _⟩
      · rw [hd, hg j] at e
        by_cases hj : j ∈ find_doc_ids_for_term db u
        · simp [hj] at e
        · simp only [hj, if_false] at e
          exact hj ((mem_find_doc_ids_for_term _ _ _).mpr ⟨d, e.symm, hmem⟩)
      · rw [hnone] at hd; cases hd
    · exact hall u hu j d hd hmem

theorem mem_allterms (db : Database) (pfx t : Str) :
    t ∈ allterms db pfx ↔
      pfx.isPrefixOf t = true ∧ ∃ i d, db.get_document i = some d ∧ t ∈ d.terms := by
  unfold allterms
  rw [(List.perm_insertionSort _ _).mem_iff, List.mem_dedup, List.mem_flatten]
  constructor
  · rintro ⟨l, hl, ht⟩
    obtain ⟨i, _, rfl⟩ := List.mem_map.mp hl
    cases hd : db.get_document i with
    | none => rw [hd] at ht; cases ht
    | some d =>
      rw [hd] at ht
      obtain ⟨h1, h2⟩ := List.mem_filter.mp ht
      exact ⟨h2, i, d, hd, h1⟩
  · rintro ⟨hp, i, d, hd, ht⟩
    have hr := get_document_range db i d hd
    refine ⟨_, List.mem_map.mpr ⟨i, List.mem_range.mpr (by omega), rfl⟩, ?_⟩
    rw [hd]
    exact List.mem_filter.mpr ⟨ht, hp⟩

/-- The upgrade of a writable version-0 database, in its two halves: up to the write of the
version, and the two loops that clean up. -/
theorem upgrade_legacy_eq (w : World) (db : Database) (notify : Bool) (alarm : Nat → Bool)
    (hmode : db.mode = NOTMUCH_DATABASE_MODE_READ_WRITE)
    (hv : notmuch_database_get_version db = some 0) :
    notmuch_database_upgrade w db notify alarm =
      match upgrade_until_version w db notify alarm with
      | none => none
      | some u =>
        match upgrade_clear_data_loop notify alarm u.2.2 (search_all_messages w db).length
            u.1 u.2.1 (search_all_messages w u.1) with
        | none => none
        | some c =>
          some ⟨NOTMUCH_STATUS_SUCCESS,
            (upgrade_delete_loop notify alarm u.2.2 (search_all_messages w db).length c.1 c.2
              (allterms c.1 "XTIMESTAMP".toList)).1,
            (upgrade_delete_loop notify alarm u.2.2 (search_all_messages w db).length c.1 c.2
              (allterms c.1 "XTIMESTAMP".toList)).2⟩ := by
  simp only [notmuch_database_upgrade, ensure_writable_rw db hmode, ne_eq, not_true_eq_false,
    if_false, hv, ge_iff_le, NOTMUCH_DATABASE_VERSION, Nat.lt_one_iff, if_true,
    upgrade_until_version]
  simp only [show ¬ (1 ≤ 0) from by omega, if_false]
  cases h1 : upgrade_filenames_loop w notify alarm (search_all_messages w db).length db ⟨0, []⟩ 0
      (search_all_messages w db) with
  | none => rfl
  | some r =>
    simp only []
    cases h2 : upgrade_timestamps_loop w notify alarm r.2.2 (search_all_messages w db).length r.1
        r.2.1 (allterms r.1 "XTIMESTAMP".toList) with
    | none => rfl
    | some t =>
      simp only [Option.map_some']
      cases h3 : upgrade_clear_data_loop notify alarm r.2.2 (search_all_messages w db).length
          (t.1.set_metadata "version".toList (format_u 1)) t.2
          (search_all_messages w (t.1.set_metadata "version".toList (format_u 1))) with
      | none => rfl
      | some c => rfl

theorem LegacyDatabase.legacy_mid {w : World} {db : Database} (h : LegacyDatabase w db) :
    Mid db.lastdocid db where
  size := Nat.le_refl _
  old := fun i d v _ hd => h.no_directory i d v hd
  dirs := fun i d hi hd => by
    have := get_document_range db i d hd; omega

theorem LegacyDatabase.legacy_stamps {w : World} {db : Database} (h : LegacyDatabase w db) :
    Stamps w db.lastdocid db where
  agree := fun t u v v2 h1 h2 he => by
    obtain ⟨i, d, _, hd, ht, hl, hv⟩ := h1
    obtain ⟨j, e, _, hj, hu, hl2, hv2⟩ := h2
    rw [← hv, ← hv2]
    exact h.agree i j d e t u hd hj ht hu hl hl2 he
  round_trip := fun t v h1 => by
    obtain ⟨i, d, _, hd, ht, hl, hv⟩ := h1
    rw [← hv]
    exact h.round_trip i d t hd ht hl

theorem mem_search_all_messages (w : World) (hw : SortOk w) (db : Database) (i : Nat) :
    i ∈ search_all_messages w db ↔
      ∃ d, db.get_document i = some d ∧ make_term "type" "mail".toList ∈ d.terms := by
  unfold search_all_messages find_doc_ids
  rw [(hw _).mem_iff, mem_find_doc_ids_for_term]

/-- What the first half of the upgrade leaves on a version-0 database: it returns, in a
later state with version 1 in which every mail document that has a filename in its data
blob carries the direntry of the file, and every directory named by a legacy term has a
directory document with the time stamp of the legacy document. -/
theorem upgrade_until_version_spec (w : World) (db : Database) (notify : Bool)
    (alarm : Nat → Bool) (hw : SortOk w) (hdb : LegacyDatabase w db) :
    ∃ u s, upgrade_until_version w db notify alarm = some u ∧
      u.1 = s.set_metadata "version".toList "1".toList ∧
      Grows db.lastdocid db s ∧
      (∀ i d, db.get_document i = some d → make_term "type" "mail".toList ∈ d.terms →
        d.data ≠ [] → HasEntry w s i d.data) ∧
      (∀ i d t, db.get_document i = some d → t ∈ d.terms → is_legacy_term t = true →
        HasStamp w s t (d.get_value NOTMUCH_VALUE_TIMESTAMP)) := by
  have hm := hdb.legacy_mid
  have hs := hdb.legacy_stamps
  obtain ⟨r1, hr1, hg1, hent⟩ := upgrade_filenames_loop_spec w db.lastdocid notify alarm
    (search_all_messages w db).length (search_all_messages w db) db ⟨0, []⟩ 0 hm
    (fun i hi => by
      obtain ⟨d, hd, _⟩ := (mem_search_all_messages w hw db i).mp hi
      exact ⟨(get_document_range db i d hd).2, d, hd⟩)
  have hm1 := hg1.grows_mid hm
  obtain ⟨r2, hr2, hg2, hst⟩ := upgrade_timestamps_loop_spec w db.lastdocid notify alarm r1.2.2
    (search_all_messages w db).length (allterms r1.1 "XTIMESTAMP".toList) r1.1 r1.2.1 hm1
    (hs.stamps_grows hg1) (fun t ht => ((mem_allterms _ _ _).mp ht).1)
  refine ⟨_, r2.1, by simp only [upgrade_until_version, hr1, hr2]; rfl, rfl,
    hg1.grows_trans hg2, fun i d hd hmail hdata => ?_, fun i d t hd ht hl => ?_⟩
  · exact (hent i ((mem_search_all_messages w hw db i).mpr ⟨d, hd, hmail⟩) d hd hdata).has_entry_grows
      hm1 hg2
  · have hp : LegacyPair db.lastdocid db t (d.get_value NOTMUCH_VALUE_TIMESTAMP) :=
      ⟨i, d, (get_document_range db i d hd).2, hd, ht, hl, rfl⟩
    have hp1 := (LegacyPair.grows_iff hg1 t _).mpr hp
    obtain ⟨j, e, _, he, hte, _, _⟩ := hp1
    exact hst t _ ((LegacyPair.grows_iff hg1 t _).mpr hp)
      (Or.inl ((mem_allterms _ _ _).mpr ⟨hl, j, e, he, hte⟩))

theorem DirectoryAt.dir_kept {w : World} {a b : Database} {p : Str} {id : Nat}
    (hpath : b.path = a.path)
    (hk : ∀ id dd, a.get_document id = some dd → DirDoc dd →
      ∃ dd2, b.get_document id = some dd2 ∧ dd2.terms = dd.terms ∧ dd2.values = dd.values)
    (h : DirectoryAt w a p id) : DirectoryAt w b p id := by
  obtain ⟨dd, hdd, hdir, ht⟩ := h
  obtain ⟨dd2, h2, ht2, _⟩ := hk id dd hdd hdir
  refine ⟨dd2, h2, fun t htm => hdir t (by rw [← ht2]; exact htm), ?_⟩
  rw [relative_path_congr a b hpath, ht2]
  exact ht

theorem FormedEntry.entry_kept {w : World} {a b : Database} {f e : Str}
    (hpath : b.path = a.path)
    (hk : ∀ id dd, a.get_document id = some dd → DirDoc dd →
      ∃ dd2, b.get_document id = some dd2 ∧ dd2.terms = dd.terms ∧ dd2.values = dd.values)
    (h : FormedEntry w a f e) : FormedEntry w b f e := by
  obtain ⟨id, he, hmatch⟩ := h
  unfold FormedEntry
  rw [relative_path_congr a b hpath]
  refine ⟨id, he, ?_⟩
  split
  · rename_i hnone
    rw [hnone] at hmatch
    exact hmatch
  · rename_i p hsome
    rw [hsome] at hmatch
    exact DirectoryAt.dir_kept hpath hk hmatch

theorem HasStamp.stamp_kept {w : World} {a b : Database} {t v : Str}
    (hpath : b.path = a.path)
    (hk : ∀ id dd, a.get_document id = some dd → DirDoc dd →
      ∃ dd2, b.get_document id = some dd2 ∧ dd2.terms = dd.terms ∧ dd2.values = dd.values)
    (h : HasStamp w a t v) : HasStamp w b t v := by
  obtain ⟨id, dd, hdd, hdir, ht, hv⟩ := h
  obtain ⟨dd2, h2, ht2, hv2⟩ := hk id dd hdd hdir
  refine ⟨id, dd2, h2, fun u hu => hdir u (by rw [← ht2]; exact hu), ?_, ?_⟩
  · rw [legacy_directory_congr w a b hpath, ht2]
    exact ht
  · rw [get_value_of_values hv2]
    exact hv

/-- A document without legacy term stays through the write of the version and the two
loops that clean up, with its terms and values, and its data blob as it was or empty. -/
theorem cleanup_keeps {s c f : Database} (k v : Str)
    (hc : Clears (s.set_metadata k v) c) (hf : Deletes c f) (id : Nat) (dd : Document)
    (hdd : s.get_document id = some dd) (hl : ∀ t ∈ dd.terms, is_legacy_term t = false) :
    ∃ dd2, f.get_document id = some dd2 ∧ c.get_document id = some dd2 ∧
      dd2.terms = dd.terms ∧ dd2.values = dd.values ∧ (dd2.data = dd.data ∨ dd2.data = []) := by
  have h0 : (s.set_metadata k v).get_document id = some dd := hdd
  obtain ⟨dd2, h2, ht2, hv2, hd2⟩ := hc.keeps id dd h0
  rcases hf.keeps id with e | ⟨_, d, t, hd, ht, hlt⟩
  · exact ⟨dd2, by rw [e]; exact h2, h2, ht2, hv2, hd2⟩
  · rw [h2] at hd
    have hde : dd2 = d := Option.some.inj hd
    rw [← hde, ht2] at ht
    rw [hl t ht] at hlt; cases hlt

/-- The upgrade of a version-0 database in terms of the direntry that the code forms for
each file and of the directory that the code finds for each legacy term: it returns
Success, and afterwards the version metadata is `1`; every mail document whose data blob
held a non-empty filename has an empty data blob and carries the file-direntry term
formed for that file; the directory found for a legacy term has a directory document
whose TIMESTAMP value is that of the legacy document; and no document carries a legacy
term. -/
theorem upgrade_legacy_formed (w : World) (db : Database) (notify : Bool) (alarm : Nat → Bool)
    (hw : SortOk w) (hdb : LegacyDatabase w db) :
    ∃ r, notmuch_database_upgrade w db notify alarm = some r ∧
      r.status = NOTMUCH_STATUS_SUCCESS ∧
      r.db.metadata "version".toList = "1".toList ∧
      (∀ i d, db.get_document i = some d → make_term "type" "mail".toList ∈ d.terms →
        d.data ≠ [] →
        ∃ d2 e, r.db.get_document i = some d2 ∧ d2.data = [] ∧
          make_term "file-direntry" e ∈ d2.terms ∧ FormedEntry w r.db d.data e) ∧
      (∀ i d t, db.get_document i = some d → t ∈ d.terms → is_legacy_term t = true →
        HasStamp w r.db t (d.get_value NOTMUCH_VALUE_TIMESTAMP)) ∧
      (∀ i d t, r.db.get_document i = some d → t ∈ d.terms → is_legacy_term t = false) ∧
      r.db.path = db.path := by
  obtain ⟨u, s, hu, hus, hg, hent, hst⟩ := upgrade_until_version_spec w db notify alarm hw hdb
  have hm := hg.grows_mid hdb.legacy_mid
  obtain ⟨c, hc, hcl, hdata⟩ := upgrade_clear_data_loop_spec notify alarm u.2.2
    (search_all_messages w db).length (search_all_messages w u.1) u.1 u.2.1
    (fun i hi => by
      obtain ⟨d, hd, _⟩ := (mem_search_all_messages w hw u.1 i).mp hi
      exact ⟨d, hd⟩)
  obtain ⟨hdel, hnone⟩ := upgrade_delete_loop_spec notify alarm u.2.2
    (search_all_messages w db).length (allterms c.1 "XTIMESTAMP".toList) c.1 c.2
    (fun t ht => ((mem_allterms _ _ _).mp ht).1)
  rw [hus] at hcl
  have hpath : (upgrade_delete_loop notify alarm u.2.2 (search_all_messages w db).length c.1 c.2
      (allterms c.1 "XTIMESTAMP".toList)).1.path = s.path :=
    hdel.handle.1.trans hcl.handle.1
  have hk : ∀ id dd, s.get_document id = some dd → DirDoc dd →
      ∃ dd2, (upgrade_delete_loop notify alarm u.2.2 (search_all_messages w db).length c.1 c.2
        (allterms c.1 "XTIMESTAMP".toList)).1.get_document id = some dd2 ∧
        dd2.terms = dd.terms ∧ dd2.values = dd.values := by
    intro id dd hdd hdir
    obtain ⟨dd2, h2, _, ht2, hv2, _⟩ := cleanup_keeps _ _ hcl hdel id dd hdd
      (fun t ht => hdir.no_legacy t ht)
    exact ⟨dd2, h2, ht2, hv2⟩
  refine ⟨⟨NOTMUCH_STATUS_SUCCESS,
      (upgrade_delete_loop notify alarm u.2.2 (search_all_messages w db).length c.1 c.2
        (allterms c.1 "XTIMESTAMP".toList)).1,
      (upgrade_delete_loop notify alarm u.2.2 (search_all_messages w db).length c.1 c.2
        (allterms c.1 "XTIMESTAMP".toList)).2⟩,
    by rw [upgrade_legacy_eq w db notify alarm hdb.mode hdb.version, hu]; simp only [hc],
    rfl, ?_, fun i d hd hmail hne => ?_, fun i d t hd ht hl => ?_, fun i d t hd ht => ?_,
    hpath.trans hg.handle.1⟩
  · show (upgrade_delete_loop notify alarm u.2.2 (search_all_messages w db).length c.1 c.2
      (allterms c.1 "XTIMESTAMP".toList)).1.metadata "version".toList = "1".toList
    rw [hdel.handle.2.2.2.2.2, hcl.handle.2.2.2.2.2]
    simp [Database.set_metadata]
  · obtain ⟨d1, e, hd1, he, hef⟩ := hent i d hd hmail hne
    obtain ⟨d1b, hd1b, hsub, hsup, _, _⟩ := hg.keeps i d hd
    rw [hd1] at hd1b
    have hdd : d1b = d1 := (Option.some.inj hd1b).symm
    rw [hdd] at hsub hsup
    have hnl : ∀ t ∈ d1.terms, is_legacy_term t = false := by
      intro t ht
      rcases hsup t ht with h | ⟨_, f, hf⟩
      · exact hdb.mail_not_legacy i d t hd hmail h
      · rw [hf]; exact legacy_term_not_file_direntry f
    obtain ⟨d2, h2, h2c, ht2, _, _⟩ := cleanup_keeps _ _ hcl hdel i d1 hd1 hnl
    refine ⟨d2, e, h2, ?_, by rw [ht2]; exact he, FormedEntry.entry_kept hpath hk hef⟩
    have hin : i ∈ search_all_messages w u.1 := by
      rw [hus]
      exact (mem_search_all_messages w hw _ i).mpr ⟨d1, hd1, hsub _ hmail⟩
    exact hdata i hin d2 h2c
  · exact HasStamp.stamp_kept hpath hk (hst i d t hd ht hl)
  · by_contra hcon
    have hl : is_legacy_term t = true := by
      cases h : is_legacy_term t with
      | true => rfl
      | false => exact absurd h hcon
    rcases hdel.keeps i with e | ⟨hn, _⟩
    · have hd' := hd
      rw [e] at hd'
      have hin : t ∈ allterms c.1 "XTIMESTAMP".toList :=
        (mem_allterms _ _ _).mpr ⟨hl, i, d, hd', ht⟩
      exact hnone t hin i d hd ht
    · rw [hn] at hd; cases hd

theorem example_world_sort : SortOk example_world := fun l => List.Perm.refl l

theorem example_legacy_docs (i : Nat) (d : Document)
    (h : (example_open example_legacy_xapian).get_document i = some d) :
    (i = 1 ∧ d = ⟨["Tmail".toList, "Qm1@x".toList, "G0000000000000001".toList],
        [(NOTMUCH_VALUE_TIMESTAMP, "0".toList)], "/mail/dd/m1".toList⟩) ∨
    (i = 2 ∧ d = ⟨["XTIMESTAMP/mail/dd".toList], [(NOTMUCH_VALUE_TIMESTAMP, "1234".toList)],
        []⟩) := by
  have hr := get_document_range _ i d h
  have hl : (example_open example_legacy_xapian).lastdocid = 2 := by decide
  rw [hl] at hr
  have hi : i = 1 ∨ i = 2 := by omega
  rcases hi with rfl | rfl
  · left
    have h1 : (example_open example_legacy_xapian).get_document 1 =
        some ⟨["Tmail".toList, "Qm1@x".toList, "G0000000000000001".toList],
          [(NOTMUCH_VALUE_TIMESTAMP, "0".toList)], "/mail/dd/m1".toList⟩ := by decide
    rw [h1] at h
    exact ⟨rfl, (Option.some.inj h).symm⟩
  · right
    have h2 : (example_open example_legacy_xapian).get_document 2 =
        some ⟨["XTIMESTAMP/mail/dd".toList], [(NOTMUCH_VALUE_TIMESTAMP, "1234".toList)],
          []⟩ := by decide
    rw [h2] at h
    exact ⟨rfl, (Option.some.inj h).symm⟩

theorem example_legacy_database :
    LegacyDatabase example_world (example_open example_legacy_xapian) where
  mode := by decide
  version := by decide
  no_directory := fun i d v h => by
    rcases example_legacy_docs i d h with ⟨_, rfl⟩ | ⟨_, rfl⟩
    · intro hmem
      simp [make_term_directory] at hmem
    · intro hmem
      simp [make_term_directory] at hmem
  mail_not_legacy := fun i d t h hm ht => by
    rcases example_legacy_docs i d h with ⟨_, rfl⟩ | ⟨_, rfl⟩
    · simp only [List.mem_cons, List.mem_singleton, List.not_mem_nil, or_false] at ht
      rcases ht with rfl | rfl | rfl <;> decide
    · exact absurd hm (by decide)
  agree := fun i j d e t u hd he ht hu hl hl2 _ => by
    rcases example_legacy_docs i d hd with ⟨_, rfl⟩ | ⟨_, rfl⟩
    · simp only [List.mem_cons, List.mem_singleton, List.not_mem_nil, or_false] at ht
      rcases ht with rfl | rfl | rfl <;> exact absurd hl (by decide)
    · rcases example_legacy_docs j e he with ⟨_, rfl⟩ | ⟨_, rfl⟩
      · simp only [List.mem_cons, List.mem_singleton, List.not_mem_nil, or_false] at hu
        rcases hu with rfl | rfl | rfl <;> exact absurd hl2 (by decide)
      · rfl
  round_trip := fun i d t hd ht hl => by
    rcases example_legacy_docs i d hd with ⟨_, rfl⟩ | ⟨_, rfl⟩
    · simp only [List.mem_cons, List.mem_singleton, List.not_mem_nil, or_false] at ht
      rcases ht with rfl | rfl | rfl <;> exact absurd hl (by decide)
    · decide

theorem prefix_of_common {α : Type} [DecidableEq α] :
    ∀ (p q t : List α), p.isPrefixOf t = true → q.isPrefixOf t = true →
      p.isPrefixOf q = true ∨ q.isPrefixOf p = true := by
  intro p q t hp hq
  rw [List.isPrefixOf_iff_prefix] at hp hq
  rcases Nat.le_total p.length q.length with h | h
  · left
    rw [List.isPrefixOf_iff_prefix]
    exact List.prefix_of_prefix_length_le hp hq h
  · right
    rw [List.isPrefixOf_iff_prefix]
    exact List.prefix_of_prefix_length_le hq hp h

/-- Claim C36: the thirteen field names of the three tables are pairwise distinct, the
thirteen prefixes are pairwise distinct, none of the prefixes nor the legacy prefix
XTIMESTAMP is a string prefix of another of them, and so a term starts with at most one
of them; and the lookup of each registered name yields the prefix that stands next to it
in its table. -/
theorem prefix_registry_partition :
    ((BOOLEAN_PREFIX_INTERNAL ++ BOOLEAN_PREFIX_EXTERNAL ++ PROBABILISTIC_PREFIX).map
      (fun e => e.1)).Nodup ∧
    ((BOOLEAN_PREFIX_INTERNAL ++ BOOLEAN_PREFIX_EXTERNAL ++ PROBABILISTIC_PREFIX).map
      (fun e => e.1)).length = 13 ∧
    ((BOOLEAN_PREFIX_INTERNAL ++ BOOLEAN_PREFIX_EXTERNAL ++ PROBABILISTIC_PREFIX).map
      (fun e => e.2)).Nodup ∧
    (∀ p ∈ "XTIMESTAMP" ::
        (BOOLEAN_PREFIX_INTERNAL ++ BOOLEAN_PREFIX_EXTERNAL ++ PROBABILISTIC_PREFIX).map
          (fun e => e.2),
      ∀ q ∈ "XTIMESTAMP" ::
        (BOOLEAN_PREFIX_INTERNAL ++ BOOLEAN_PREFIX_EXTERNAL ++ PROBABILISTIC_PREFIX).map
          (fun e => e.2),
      p.toList.isPrefixOf q.toList = true → p = q) ∧
    (∀ (t : Str), ∀ p ∈ "XTIMESTAMP" ::
        (BOOLEAN_PREFIX_INTERNAL ++ BOOLEAN_PREFIX_EXTERNAL ++ PROBABILISTIC_PREFIX).map
          (fun e => e.2),
      ∀ q ∈ "XTIMESTAMP" ::
        (BOOLEAN_PREFIX_INTERNAL ++ BOOLEAN_PREFIX_EXTERNAL ++ PROBABILISTIC_PREFIX).map
          (fun e => e.2),
      p.toList.isPrefixOf t = true → q.toList.isPrefixOf t = true → p = q) ∧
    (∀ e ∈ BOOLEAN_PREFIX_INTERNAL ++ BOOLEAN_PREFIX_EXTERNAL ++ PROBABILISTIC_PREFIX,
      _find_prefix e.1 = some e.2) := by
  have h4 : ∀ p ∈ "XTIMESTAMP" ::
        (BOOLEAN_PREFIX_INTERNAL ++ BOOLEAN_PREFIX_EXTERNAL ++ PROBABILISTIC_PREFIX).map
          (fun e => e.2),
      ∀ q ∈ "XTIMESTAMP" ::
        (BOOLEAN_PREFIX_INTERNAL ++ BOOLEAN_PREFIX_EXTERNAL ++ PROBABILISTIC_PREFIX).map
          (fun e => e.2),
      p.toList.isPrefixOf q.toList = true → p = q := by decide
  refine ⟨by decide, by decide, by decide, h4, ?_, by decide⟩
  intro t p hp q hq h1 h2
  rcases prefix_of_common p.toList q.toList t h1 h2 with h | h
  · exact h4 p hp q hq h
  · exact (h4 q hq p hp h).symm

theorem find_doc_ids_for_term_nil (db : Database) (t : Str)
    (h : ∀ i d, db.get_document i = some d → t ∉ d.terms) : find_doc_ids_for_term db t = [] := by
  cases hp : find_doc_ids_for_term db t with
  | nil => rfl
  | cons a l =>
    have hm : a ∈ find_doc_ids_for_term db t := by rw [hp]; exact List.mem_cons_self _ _
    obtain ⟨d, hd, ht⟩ := (mem_find_doc_ids_for_term _ _ _).mp hm
    exact absurd ht (h a d hd)

/-- Claim C33: for a writable database and a filename whose file-direntry term is carried
by no document, `notmuch_database_remove_message` returns Success, and every document of
the database is afterwards as it was; the documents that are new afterwards (the directory
documents made while the direntry of the file was formed) are no mail documents, so the
mail documents and their terms are the same before and after. -/
theorem remove_message_absent (w : World) (db : Database) (filename : Str)
    (hmode : db.mode = NOTMUCH_DATABASE_MODE_READ_WRITE)
    (hno : ∀ i d, db.get_document i = some d →
      make_term "file-direntry" (_notmuch_database_filename_to_direntry w db filename).2.2 ∉
        d.terms) :
    ∃ db2, notmuch_database_remove_message w db filename =
        some (NOTMUCH_STATUS_SUCCESS, db2) ∧
      (∀ i d, db.get_document i = some d → db2.get_document i = some d) ∧
      (∀ i d, db2.get_document i = some d → make_term "type" "mail".toList ∈ d.terms →
        db.get_document i = some d) ∧
      (∀ i, i ≤ db.lastdocid → db2.get_document i = db.get_document i) := by
  obtain ⟨hext, hst⟩ := filename_to_direntry_spec w db filename
  have hnil := find_doc_ids_for_term_nil db _ hno
  refine ⟨(_notmuch_database_filename_to_direntry w db filename).1, ?_, ?_, ?_, ?_⟩
  · simp only [notmuch_database_remove_message, ensure_writable_rw db hmode, ne_eq,
      not_true_eq_false, if_false, hst, hext.postings_file_direntry, hnil, remove_message_loop]
  · intro i d hd
    rw [hext.2.2.1 i (get_document_range db i d hd).2]
    exact hd
  · intro i d hd hmail
    by_cases hi : i ≤ db.lastdocid
    · rw [← hext.2.2.1 i hi]; exact hd
    · obtain ⟨v, hv | hv⟩ := hext.2.2.2 i d (by omega) hd _ hmail
      · rw [make_term_type, make_term_directory] at hv
        simp at hv
      · rw [make_term_type, make_term_directory_direntry] at hv
        simp at hv
  · intro i hi
    exact hext.2.2.1 i hi

set_option maxRecDepth 1000000 in
/-- Claim C33, witness: the example maildir with `m1` ingested, and the file `m2`, which
has not been ingested. -/
theorem remove_message_absent_witness :
    ∃ db2, notmuch_database_remove_message example_world (example_db ["/mail/dd/m1"])
        "/mail/dd/m2".toList = some (NOTMUCH_STATUS_SUCCESS, db2) ∧
      (∀ i d, (example_db ["/mail/dd/m1"]).get_document i = some d →
        db2.get_document i = some d) ∧
      (∀ i d, db2.get_document i = some d → make_term "type" "mail".toList ∈ d.terms →
        (example_db ["/mail/dd/m1"]).get_document i = some d) ∧
      (∀ i, i ≤ (example_db ["/mail/dd/m1"]).lastdocid →
        db2.get_document i = (example_db ["/mail/dd/m1"]).get_document i) :=
  remove_message_absent example_world (example_db ["/mail/dd/m1"]) "/mail/dd/m2".toList
    (by decide) (by
      have hnil : find_doc_ids_for_term (example_db ["/mail/dd/m1"])
          (make_term "file-direntry" (_notmuch_database_filename_to_direntry example_world
            (example_db ["/mail/dd/m1"]) "/mail/dd/m2".toList).2.2) = [] := by decide
      intro i d hd ht
      have hm := (mem_find_doc_ids_for_term _ _ i).mpr ⟨d, hd, ht⟩
      rw [hnil] at hm
      exact absurd hm (List.not_mem_nil i))

theorem skip_doubled_slashes_single (c : Char) (q : Str) (hc : c ≠ '/') :
    skip_doubled_slashes ('/' :: c :: q) = '/' :: c :: q := by
  rw [skip_doubled_slashes]
  simp [hc]

/-- Claim C34, as amended: the root is taken off on a string-prefix match.  For every
database with root `r` and every absolute path `q` that begins with exactly one slash:
when `r` is not a string prefix of `q`, the relative-path computation returns `q`
unchanged; and when `q` is `r` followed by any text `t`, whether or not `r` ends at a
component boundary, it returns `t` without its leading slashes. -/
theorem relative_path_prefix_match (db : Database) (c : Char) (q : Str) (hc : c ≠ '/') :
    (¬ db.path <+: '/' :: c :: q →
      _notmuch_database_relative_path db ('/' :: c :: q) = '/' :: c :: q) ∧
    (∀ t, '/' :: c :: q = db.path ++ t →
      _notmuch_database_relative_path db ('/' :: c :: q) = t.dropWhile (fun x => x = '/')) := by
  constructor
  · intro hn
    have hp : db.path.isPrefixOf ('/' :: c :: q) = false := by
      cases h : db.path.isPrefixOf ('/' :: c :: q) with
      | false => rfl
      | true => exact absurd (List.isPrefixOf_iff_prefix.mp h) hn
    simp [_notmuch_database_relative_path, skip_doubled_slashes_single c q hc, hp]
  · intro t hq
    have hp : db.path.isPrefixOf ('/' :: c :: q) = true := by
      rw [hq]
      exact List.isPrefixOf_iff_prefix.mpr (List.prefix_append _ _)
    simp only [_notmuch_database_relative_path, List.head?_cons, if_true,
      skip_doubled_slashes_single c q hc, hp]
    rw [hq, List.drop_left]

theorem relative_path_prefix_match_witness :
    'o' ≠ '/' ∧ ¬ (empty_database "/mail".toList).path <+: "/other/x".toList ∧
    _notmuch_database_relative_path (empty_database "/mail".toList) "/other/x".toList =
      "/other/x".toList ∧
    _notmuch_database_relative_path (empty_database "/mail".toList) "/mail/dd/m1".toList =
      "dd/m1".toList :=
  ⟨by decide, by decide,
    (relative_path_prefix_match (empty_database "/mail".toList) 'o' "ther/x".toList
      (by decide)).1 (by decide),
    (relative_path_prefix_match (empty_database "/mail".toList) 'm' "ail/dd/m1".toList
      (by decide)).2 "/dd/m1".toList (by decide)⟩

/-- At the root `/mail`, the path `/mailbox/x` begins with exactly one slash, is not the
root and does not begin with `/mail/`; yet it is not returned unchanged: the root is a
string prefix of it, and `box/x` is returned. -/
theorem relative_path_partial_component :
    "/mailbox/x".toList ≠ (empty_database "/mail".toList).path ∧
    ¬ ((empty_database "/mail".toList).path ++ "/".toList) <+: "/mailbox/x".toList ∧
    _notmuch_database_relative_path (empty_database "/mail".toList) "/mailbox/x".toList =
      "box/x".toList ∧
    _notmuch_database_relative_path (empty_database "/mail".toList) "/mailbox/x".toList ≠
      "/mailbox/x".toList := by
  refine ⟨by decide, by decide, by decide, by decide⟩

theorem message_id_of_header_length (h : Option Str) (id : Str)
    (hid : message_id_of_header h = some id) : id.length + 1 ≤ NOTMUCH_TERM_MAX := by
  cases h with
  | none => cases hid
  | some s =>
    cases s with
    | nil => cases hid
    | cons c cs =>
      simp only [message_id_of_header] at hid
      split at hid
      · cases hid
      · rename_i hle
        have := Option.some.inj hid
        rw [← this]
        omega

/-- Claim C35: index terms built for identifiers stay within the term-length bound of
245, given that a SHA-1 digest is written with 40 characters.  When
`notmuch_database_add_message` returns Success or DuplicateMessageId for a file, the
file has been opened and a message id has been derived for it, from its header or from
the digest of the file, and the id term (`Q` followed by that id) has at most 245
characters; and for every path the directory term (`XDIRECTORY` followed by the path or
by its digest) has at most 245 characters. -/
theorem identifier_terms_bounded (w : World)
    (hfile : ∀ f s, w.notmuch_sha1_of_file f = some s → s.length = 40)
    (hstring : ∀ p, (w.notmuch_sha1_of_string p).length = 40) :
    (∀ db filename r, notmuch_database_add_message w db filename = some r →
      r.status = NOTMUCH_STATUS_SUCCESS ∨ r.status = NOTMUCH_STATUS_DUPLICATE_MESSAGE_ID →
      ∃ mf id, w.notmuch_message_file_open filename = some mf ∧
        message_id_of_file w mf filename = some id ∧
        (make_term "id" id).length ≤ NOTMUCH_TERM_MAX) ∧
    (∀ mf filename id, message_id_of_file w mf filename = some id →
      (make_term "id" id).length ≤ NOTMUCH_TERM_MAX) ∧
    (∀ path, (make_term "directory"
      (_notmuch_database_get_directory_db_path w path)).length ≤ NOTMUCH_TERM_MAX) := by
  have hid : ∀ mf filename id, message_id_of_file w mf filename = some id →
      (make_term "id" id).length ≤ NOTMUCH_TERM_MAX := by
    intro mf filename id h
    rw [make_term_id, List.length_cons]
    unfold message_id_of_file at h
    cases hh : message_id_of_header (mf.header "message-id") with
    | some m =>
      rw [hh] at h
      have := Option.some.inj h
      rw [← this]
      exact message_id_of_header_length _ _ hh
    | none =>
      rw [hh] at h
      cases hs : w.notmuch_sha1_of_file filename with
      | none => rw [hs] at h; cases h
      | some s =>
        rw [hs] at h
        have := Option.some.inj h
        rw [← this, List.length_append, hfile filename s hs]
        decide
  refine ⟨?_, hid, ?_⟩
  · intro db filename r hr hst
    unfold notmuch_database_add_message at hr
    split at hr
    · have := Option.some.inj hr
      rw [← this] at hst
      rename_i hne
      rcases hst with h | h
      · exact absurd h hne
      · simp only [_notmuch_database_ensure_writable] at h
        split at h <;> cases h
    · cases hopen : w.notmuch_message_file_open filename with
      | none =>
        rw [hopen] at hr
        have := Option.some.inj hr
        rw [← this] at hst
        rcases hst with h | h <;> cases h
      | some mf =>
        rw [hopen] at hr
        simp only at hr
        split at hr
        · have := Option.some.inj hr
          rw [← this] at hst
          rcases hst with h | h <;> cases h
        · cases hm : message_id_of_file w mf filename with
          | none =>
            rw [hm] at hr
            have := Option.some.inj hr
            rw [← this] at hst
            rcases hst with h | h <;> cases h
          | some id => exact ⟨mf, id, rfl, hm, hid mf filename id hm⟩
  · intro path
    by_cases h : (make_term "directory" []).length + path.length > NOTMUCH_TERM_MAX
    · simp only [_notmuch_database_get_directory_db_path]
      rw [if_pos h, make_term_directory]
      simp only [List.length_cons, hstring]
      decide
    · simp only [_notmuch_database_get_directory_db_path]
      rw [if_neg h]
      rw [make_term_directory] at h ⊢
      simp only [List.length_cons, List.length_nil] at h ⊢
      unfold NOTMUCH_TERM_MAX at h ⊢
      omega

set_option maxRecDepth 1000000 in
/-- Claim C35, witness: the example world, whose digests have 40 characters; a file
whose identifier of 245 characters is too long and is replaced by one made from the
digest of the file; and a path of 300 characters. -/
theorem identifier_terms_bounded_witness :
    (make_term "id"
      "notmuch-sha1-da39a3ee5e6b4b0d3255bfef95601890afd80709".toList).length ≤
      NOTMUCH_TERM_MAX ∧
    (make_term "directory" (_notmuch_database_get_directory_db_path example_world
      (List.replicate 300 'd'))).length ≤ NOTMUCH_TERM_MAX :=
  ⟨(identifier_terms_bounded example_world (fun f s h => by
        have : s = "da39a3ee5e6b4b0d3255bfef95601890afd80709".toList :=
          (Option.some.inj h).symm
        rw [this]; decide) (fun _ => rfl)).2.1
      (file_of_headers [("message-id", "<" ++ long_id 'a' ++ ">"), ("from", "u")])
      "/mail/dd/l1".toList "notmuch-sha1-da39a3ee5e6b4b0d3255bfef95601890afd80709".toList
      (by decide),
   (identifier_terms_bounded example_world (fun f s h => by
        have : s = "da39a3ee5e6b4b0d3255bfef95601890afd80709".toList :=
          (Option.some.inj h).symm
        rw [this]; decide) (fun _ => rfl)).2.2 (List.replicate 300 'd')⟩

theorem strcasecmp_equal_length (a b : Str) (h : strcasecmp_equal a b = true) :
    a.length = b.length := by
  unfold strcasecmp_equal at h
  have := congrArg List.length (of_decide_eq_true h)
  simpa using this

theorem strcasecmp_equal_keyword (text : Str) (k : String) (hk : 0 < k.toList.length)
    (hk2 : k.toList.length < 80) (h : text = [] ∨ 80 ≤ text.length) :
    strcasecmp_equal text k.toList = false := by
  cases hh : strcasecmp_equal text k.toList with
  | false => rfl
  | true =>
    have hl := strcasecmp_equal_length _ _ hh
    rcases h with h | h
    · rw [h] at hl; simp only [List.length_nil] at hl; omega
    · omega

theorem copy_to_tmp_fits (t : Str) :
    copy_to_tmp t ≠ some none ∧
    ∀ tmp, copy_to_tmp t = some (some tmp) → tmp = t ∧ tmp.length + 1 ≤ sizeof_tmp := by
  unfold copy_to_tmp strcpy sizeof_tmp
  by_cases h : t.length ≥ 80
  · simp [h]
  · have h2 : t.length + 1 ≤ 80 := by omega
    simp only [h, if_false, h2, if_true]
    refine ⟨by simp, ?_⟩
    intro tmp he
    have := Option.some.inj (Option.some.inj he)
    rw [← this]
    exact ⟨rfl, h2⟩

theorem copy_to_tmp_long (t : Str) (h : 80 ≤ t.length) : copy_to_tmp t = none := by
  unfold copy_to_tmp sizeof_tmp
  rw [if_pos h]

theorem parse_month_tokens_copy (text : Str) (r : Nat × Int × Int)
    (h : parse_month_tokens text = some r) : copy_to_tmp text = some (some text) := by
  unfold parse_month_tokens at h
  cases hc : copy_to_tmp text with
  | none => rw [hc] at h; cases h
  | some o =>
    cases o with
    | none => rw [hc] at h; cases h
    | some tmp => rw [((copy_to_tmp_fits text).2 tmp hc).1]

theorem parse_iso_tokens_copy (text : Str) (r : Nat × Int × Int × Int)
    (h : parse_iso_tokens text = some r) : copy_to_tmp text = some (some text) := by
  unfold parse_iso_tokens at h
  cases hc : copy_to_tmp text with
  | none => rw [hc] at h; cases h
  | some o =>
    cases o with
    | none => rw [hc] at h; cases h
    | some tmp => rw [((copy_to_tmp_fits text).2 tmp hc).1]

theorem parse_us_tokens_copy (text : Str) (r : Nat × Int × Int × Int)
    (h : parse_us_tokens text = some r) : copy_to_tmp text = some (some text) := by
  unfold parse_us_tokens at h
  cases hc : copy_to_tmp text with
  | none => rw [hc] at h; cases h
  | some o =>
    cases o with
    | none => rw [hc] at h; cases h
    | some tmp => rw [((copy_to_tmp_fits text).2 tmp hc).1]

/-- Claim C38: for the empty text and for every text of 80 characters or more,
`notmuch_parse_date` returns InvalidDate, each grammar of the chain returning 1.  The
month, ISO and US grammars return before they copy a text of 80 characters or more into
their array `tmp` of 80 bytes; for no text at all does the copy write past the end of
`tmp`; what is copied is the text itself, of at most 79 characters, with its terminating
NUL; and the token loops run on such a copy only. -/
theorem parse_date_rejects_long (c : Clock) (text : Str) (after : Int)
    (h : text = [] ∨ 80 ≤ text.length) :
    notmuch_parse_date c text after = (NOTMUCH_STATUS_INVALID_DATE, none) ∧
    (∀ p ∈ parsers, p c text after = none) ∧
    (80 ≤ text.length → copy_to_tmp text = none) ∧
    (∀ t, copy_to_tmp t ≠ some none) ∧
    (∀ t tmp, copy_to_tmp t = some (some tmp) →
      tmp = t ∧ tmp.length ≤ 79 ∧ tmp.length + 1 ≤ sizeof_tmp) ∧
    (∀ t r, parse_month_tokens t = some r → copy_to_tmp t = some (some t)) ∧
    (∀ t r, parse_iso_tokens t = some r → copy_to_tmp t = some (some t)) ∧
    (∀ t r, parse_us_tokens t = some r → copy_to_tmp t = some (some t)) := by
  have hall : ∀ p ∈ parsers, p c text after = none := by
    intro p hp
    simp only [parsers, List.mem_cons, List.mem_singleton, List.not_mem_nil, or_false] at hp
    rcases hp with rfl | rfl | rfl | rfl | rfl | rfl | rfl | rfl | rfl
    · simp only [parse_today, strcasecmp_equal_keyword text "today" (by decide) (by decide) h,
        Bool.false_eq_true, if_false]
    · simp only [parse_yesterday, strcasecmp_equal_keyword text "yesterday" (by decide) (by decide) h,
        Bool.false_eq_true, if_false]
    · simp only [parse_thisweek, strcasecmp_equal_keyword text "thisweek" (by decide) (by decide) h,
        Bool.false_eq_true, if_false]
    · simp only [parse_lastweek, strcasecmp_equal_keyword text "lastweek" (by decide) (by decide) h,
        Bool.false_eq_true, if_false]
    · simp only [parse_thismonth, strcasecmp_equal_keyword text "thismonth" (by decide) (by decide) h,
        Bool.false_eq_true, if_false]
    · simp only [parse_lastmonth, strcasecmp_equal_keyword text "lastmonth" (by decide) (by decide) h,
        Bool.false_eq_true, if_false]
    · rcases h with h | h
      · subst h; rfl
      · simp [parse_month, parse_month_first, parse_month_tokens, copy_to_tmp_long text h]
    · rcases h with h | h
      · subst h; rfl
      · simp [parse_iso, parse_iso_tokens, copy_to_tmp_long text h]
    · rcases h with h | h
      · subst h; rfl
      · simp [parse_us, parse_us_first, parse_us_tokens, copy_to_tmp_long text h]
  refine ⟨?_, hall, copy_to_tmp_long text, fun t => (copy_to_tmp_fits t).1, ?_,
    parse_month_tokens_copy, parse_iso_tokens_copy, parse_us_tokens_copy⟩
  · have hnone : parsers.findSome? (fun p => p c text after) = none := by
      rw [List.findSome?_eq_none_iff]
      exact hall
    simp only [notmuch_parse_date, hnone]
  · intro t tmp ht
    have := (copy_to_tmp_fits t).2 tmp ht
    have h2 : tmp.length + 1 ≤ 80 := this.2
    exact ⟨this.1, by omega, this.2⟩

/-- Claim C38, witness: the empty text, and the text of 80 letters `a`, on the example
clock; the text of 80 letters is not copied, and a text of 79 letters is copied whole. -/
theorem parse_date_rejects_long_witness :
    (notmuch_parse_date example_clock [] 0 = (NOTMUCH_STATUS_INVALID_DATE, none)) ∧
    (notmuch_parse_date example_clock (List.replicate 80 'a') 0 =
      (NOTMUCH_STATUS_INVALID_DATE, none)) ∧
    copy_to_tmp (List.replicate 80 'a') = none ∧
    copy_to_tmp (List.replicate 79 'a') = some (some (List.replicate 79 'a')) :=
  ⟨(parse_date_rejects_long example_clock [] 0 (Or.inl rfl)).1,
   (parse_date_rejects_long example_clock (List.replicate 80 'a') 0
      (Or.inr (by simp))).1,
   (parse_date_rejects_long example_clock (List.replicate 80 'a') 0
      (Or.inr (by simp))).2.2.1 (by simp),
   by decide⟩

theorem skip_space_suffix (s : Str) : skip_space s <:+ s := by
  induction s with
  | nil => exact List.suffix_refl _
  | cons c cs ih =>
    unfold skip_space
    split
    · exact ih.trans (List.suffix_cons c cs)
    · exact List.suffix_refl _

theorem skip_comment_suffix_aux (k : Nat) : ∀ (n : Nat) (s : Str), s.length ≤ k →
    skip_comment n s <:+ s := by
  induction k with
  | zero =>
    intro n s h
    have : s = [] := List.length_eq_zero.mp (Nat.le_zero.mp h)
    subst this
    cases n <;> simp [skip_comment]
  | succ k ih =>
    intro n s h
    cases n with
    | zero => simp [skip_comment]
    | succ n =>
      cases s with
      | nil => simp [skip_comment]
      | cons c cs =>
        simp only [List.length_cons, Nat.add_le_add_iff_right] at h
        unfold skip_comment
        split
        · exact (ih _ _ h).trans (List.suffix_cons c cs)
        · split
          · exact (ih _ _ h).trans (List.suffix_cons c cs)
          · split
            · cases cs with
              | nil => exact List.nil_suffix
              | cons d ds =>
                simp only [List.length_cons] at h
                exact ((ih (n + 1) ds (by omega)).trans (List.suffix_cons d ds)).trans
                  (List.suffix_cons c (d :: ds))
            · exact (ih _ _ h).trans (List.suffix_cons c cs)

theorem skip_comment_suffix (n : Nat) (s : Str) : skip_comment n s <:+ s :=
  skip_comment_suffix_aux s.length n s (Nat.le_refl _)

theorem skip_loop_suffix (f : Nat) : ∀ s : Str, skip_space_and_comments_loop f s <:+ s := by
  induction f with
  | zero => intro s; simp [skip_space_and_comments_loop]
  | succ f ih =>
    intro s
    cases s with
    | nil => simp [skip_space_and_comments_loop]
    | cons c cs =>
      simp only [skip_space_and_comments_loop]
      split
      · have hss := skip_space_suffix (c :: cs)
        split
        · exact (ih []).trans (List.nil_suffix)
        · rename_i d rest hd
          rw [hd] at hss
          split
          · exact (((ih (skip_comment 1 rest)).trans (skip_comment_suffix 1 rest)).trans
              (List.suffix_cons d rest)).trans hss
          · exact (ih (d :: rest)).trans hss
      · exact List.suffix_refl _

theorem skip_space_and_comments_suffix (s : Str) : skip_space_and_comments s <:+ s := by
  unfold skip_space_and_comments
  exact skip_loop_suffix _ s

theorem drop_rest_suffix (s : Str) (k : Nat) :
    (match s.drop k with | [] => ([] : Str) | _ :: t => t) <:+ s := by
  cases hk : s.drop k with
  | nil => exact List.nil_suffix
  | cons a t =>
    have h1 : t <:+ s.drop k := by rw [hk]; exact List.suffix_cons a t
    exact h1.trans (List.drop_suffix k s)

/-- On a non-empty string the parser stores through `next` a proper suffix of the
string. -/
theorem parse_message_id_next_suffix (c : Char) (cs : Str) :
    ∃ n, (_parse_message_id (some (c :: cs))).next = some n ∧ n <:+ (c :: cs) ∧
      n.length < (c :: cs).length := by
  obtain ⟨n, hn, hlt⟩ := parse_message_id_next_shorter c cs
  refine ⟨n, hn, ?_, hlt⟩
  have h1 := skip_space_and_comments_suffix (c :: cs)
  have h2 : (skip_space_and_comments (c :: cs)).dropWhile (fun x => x != '<') <:+
      skip_space_and_comments (c :: cs) := List.dropWhile_suffix _
  simp only [_parse_message_id] at hn
  generalize hS : (skip_space_and_comments (c :: cs)).dropWhile (fun x => x != '<') = S
    at h2 hn
  cases S with
  | nil =>
    simp only at hn
    have := Option.some.inj hn
    rw [← this]
    exact List.nil_suffix
  | cons d s1 =>
    have hs1 : s1 <:+ c :: cs := ((List.suffix_cons d s1).trans h2).trans h1
    simp only at hn
    split at hn
    · have h3 := (skip_space_and_comments_suffix s1).trans hs1
      have h5 := (drop_rest_suffix (skip_space_and_comments s1)
        ((skip_space_and_comments s1).takeWhile (fun x => x != '>')).length).trans h3
      split at hn <;> split at hn <;>
        (simp only at hn; have := Option.some.inj hn; rw [← this]; exact h5)
    · have := Option.some.inj hn
      rw [← this]
      exact h2.trans h1

theorem parse_references_counted_spec (mid : Str) : ∀ (fuel : Nat) (refs : Str) (hash : List Str)
    (calls : Nat), refs.length ≤ fuel →
    ∃ k, k ≤ refs.length ∧
      parse_references_counted mid fuel hash calls refs =
        (parse_references_loop mid fuel hash refs, calls + k, []) := by
  intro fuel
  induction fuel with
  | zero =>
    intro refs hash calls h
    have : refs = [] := List.length_eq_zero.mp (Nat.le_zero.mp h)
    subst this
    exact ⟨0, Nat.le_refl _, rfl⟩
  | succ fuel ih =>
    intro refs hash calls h
    cases refs with
    | nil => exact ⟨0, Nat.le_refl _, rfl⟩
    | cons c cs =>
      obtain ⟨nx, hnx, hlt⟩ := parse_message_id_next_shorter c cs
      simp only [List.length_cons] at h hlt
      simp only [parse_references_counted, parse_references_loop, hnx, Option.getD_some]
      have step : ∀ hash2, ∃ k, k ≤ (c :: cs).length ∧
          parse_references_counted mid fuel hash2 (calls + 1) nx =
            (parse_references_loop mid fuel hash2 nx, calls + k, []) := by
        intro hash2
        obtain ⟨k, hk, he⟩ := ih nx hash2 (calls + 1) (by omega)
        refine ⟨k + 1, by simp only [List.length_cons]; omega, ?_⟩
        rw [he]
        simp only [Prod.mk.injEq, true_and, and_true]
        omega
      generalize (_parse_message_id (some (c :: cs))).result = r
      cases r with
      | none => exact step _
      | some ref =>
        by_cases hc : ref ≠ mid ∧ ref ∉ hash
        · simp only [if_pos hc]; exact step _
        · simp only [if_neg hc]; exact step _

/-- Claim C37: for every non-empty input the message-id parser stores a next position,
whether it returns an identifier or not, and what is left from there is a proper suffix
of the input: the position is strictly after the start and not past the end.  So the loop
of `parse_references` ends on every References header value: it reaches the end of the
value after at most as many parser calls as the value has characters, with the result of
`parse_references`. -/
theorem parse_references_terminates :
    (∀ (c : Char) (cs : Str), ∃ n, (_parse_message_id (some (c :: cs))).next = some n ∧
      n <:+ (c :: cs) ∧ n.length < (c :: cs).length) ∧
    (∀ (mid refs : Str) (fuel : Nat), refs.length ≤ fuel →
      ∃ k, k ≤ refs.length ∧
        parse_references_counted mid fuel [] 0 refs =
          (parse_references mid [] (some refs), k, [])) := by
  refine ⟨parse_message_id_next_suffix, fun mid refs fuel h => ?_⟩
  obtain ⟨k, hk, he⟩ := parse_references_counted_spec mid fuel refs [] 0 h
  refine ⟨k, hk, ?_⟩
  rw [he, Nat.zero_add]
  have hl := parse_references_loop_fuel mid refs.length refs (Nat.le_refl _) fuel [] h
  rw [hl]
  cases refs with
  | nil => rfl
  | cons c cs => rfl

theorem char_at_append_left (p q : Str) (j : Nat) (h : j < p.length) :
    char_at (p ++ q) j = char_at p j := by
  simp [char_at, List.getD_eq_getElem?_getD, List.getElem?_append_left h]

theorem char_at_append_right (p q : Str) (j : Nat) :
    char_at (p ++ q) (p.length + j) = char_at q j := by
  simp [char_at, List.getD_eq_getElem?_getD, List.getElem?_append_right]

theorem char_at_replicate (k j : Nat) (q : Str) (h : j < k) :
    char_at (List.replicate k '/' ++ q) j = '/' := by
  rw [char_at_append_left _ _ _ (by simpa using h)]
  simp [char_at, List.getD_eq_getElem?_getD, List.getElem?_replicate, h]

theorem char_at_mem (b : Str) (j : Nat) (h : j < b.length) : char_at b j ∈ b := by
  simp only [char_at, List.getD_eq_getElem?_getD, List.getElem?_eq_getElem h, Option.getD_some]
  exact List.getElem_mem h

theorem skip_slashes_back_stop (path : Str) (i : Nat) (h : char_at path i ≠ '/') :
    skip_slashes_back path i = i := by
  cases i with
  | zero => rfl
  | succ i => simp [skip_slashes_back, h]

theorem skip_slashes_back_run (path : Str) (m : Nat) : ∀ k : Nat,
    (∀ j, m < j → j ≤ m + k → char_at path j = '/') →
    skip_slashes_back path (m + k) = skip_slashes_back path m := by
  intro k
  induction k with
  | zero => intro _; rfl
  | succ k ih =>
    intro h
    have h1 : char_at path (m + k + 1) = '/' := h _ (by omega) (by omega)
    have h2 : skip_slashes_back path (m + (k + 1)) = skip_slashes_back path (m + k) := by
      show skip_slashes_back path (m + k + 1) = _
      simp [skip_slashes_back, h1]
    rw [h2]
    exact ih (fun j hj hjk => h j hj (by omega))

theorem find_slash_back_stop (path : Str) (i : Nat) (b : Option Nat)
    (h : char_at path (i + 1) = '/') : find_slash_back path (i + 1) b = (i + 1, b) := by
  simp [find_slash_back, h]

theorem find_slash_back_run (path : Str) (m : Nat) : ∀ (n : Nat) (b : Option Nat),
    (∀ j, m < j → j ≤ m + (n + 1) → char_at path j ≠ '/') →
    find_slash_back path (m + (n + 1)) b = find_slash_back path m (some (m + 1)) := by
  intro n
  induction n with
  | zero =>
    intro b h
    have h1 : char_at path (m + 1) ≠ '/' := h _ (by omega) (by omega)
    show find_slash_back path (m + 1) b = _
    simp [find_slash_back, h1]
  | succ n ih =>
    intro b h
    have h1 : char_at path (m + (n + 1) + 1) ≠ '/' := h _ (by omega) (by omega)
    show find_slash_back path (m + (n + 1) + 1) b = _
    rw [find_slash_back]
    simp only [h1, if_false]
    exact ih _ (fun j hj hjk => h j hj (by omega))

theorem skip_slashes_back_le (path : Str) : ∀ i, skip_slashes_back path i ≤ i := by
  intro i
  induction i with
  | zero => exact Nat.le_refl _
  | succ i ih =>
    rw [skip_slashes_back]
    split
    · exact Nat.le_refl _
    · omega

theorem find_slash_back_le (path : Str) : ∀ (i : Nat) (b : Option Nat),
    (find_slash_back path i b).1 ≤ i := by
  intro i
  induction i with
  | zero => intro b; exact Nat.le_refl _
  | succ i ih =>
    intro b
    rw [find_slash_back]
    split
    · exact Nat.le_refl _
    · have := ih (some (i + 1)); omega

theorem find_slash_back_offset (path : Str) : ∀ (i : Nat) (b : Option Nat) (x : Nat),
    (find_slash_back path i b).2 = some x → b = some x ∨ x ≤ i := by
  intro i
  induction i with
  | zero => intro b x h; exact Or.inl h
  | succ i ih =>
    intro b x h
    rw [find_slash_back] at h
    split at h
    · exact Or.inl h
    · rcases ih _ _ h with h1 | h1
      · have := Option.some.inj h1
        exact Or.inr (by omega)
      · exact Or.inr (by omega)

theorem skip_slashes_back_congr (p q : Str) : ∀ i, (∀ j, j ≤ i → char_at p j = char_at q j) →
    skip_slashes_back p i = skip_slashes_back q i := by
  intro i
  induction i with
  | zero => intro _; rfl
  | succ i ih =>
    intro h
    rw [skip_slashes_back, skip_slashes_back, h (i + 1) (Nat.le_refl _),
      ih (fun j hj => h j (by omega))]

theorem find_slash_back_congr (p q : Str) : ∀ (i : Nat) (b : Option Nat),
    (∀ j, j ≤ i → char_at p j = char_at q j) →
    find_slash_back p i b = find_slash_back q i b := by
  intro i
  induction i with
  | zero => intro _ _; rfl
  | succ i ih =>
    intro b h
    rw [find_slash_back, find_slash_back, h (i + 1) (Nat.le_refl _),
      ih _ (fun j hj => h j (by omega))]

/-- What `_notmuch_database_split_path` returns for a directory part that ends in a
character other than a slash, one or more slashes and a last component without slash. -/
theorem split_path_components_eq (d0 b : Str) (x : Char) (k : Nat) (hx : x ≠ '/')
    (hb : b ≠ []) (hbs : '/' ∉ b) :
    _notmuch_database_split_path (some (d0 ++ [x] ++ List.replicate (k + 1) '/' ++ b)) =
      if d0 = [] then
        (NOTMUCH_STATUS_SUCCESS, some [], some ([x] ++ List.replicate (k + 1) '/' ++ b))
      else (NOTMUCH_STATUS_SUCCESS, some (d0 ++ [x]), some b) := by
  obtain ⟨n, hn⟩ : ∃ n, b.length = n + 1 := by
    cases b with
    | nil => exact absurd rfl hb
    | cons c cs => exact ⟨cs.length, rfl⟩
  have hpath : d0 ++ [x] ++ List.replicate (k + 1) '/' ++ b =
      d0 ++ (x :: (List.replicate (k + 1) '/' ++ b)) := by simp
  rw [hpath]
  generalize hP : d0 ++ (x :: (List.replicate (k + 1) '/' ++ b)) = path
  have hlen : path.length = d0.length + (k + 1) + (n + 1) + 1 := by
    rw [← hP]; simp [hn]; omega
  have hcx : char_at path d0.length = x := by
    rw [← hP]
    have := char_at_append_right d0 (x :: (List.replicate (k + 1) '/' ++ b)) 0
    simpa [char_at] using this
  have hcs : ∀ j, d0.length < j → j ≤ d0.length + (k + 1) → char_at path j = '/' := by
    intro j h1 h2
    obtain ⟨t, rfl⟩ : ∃ t, j = d0.length + (t + 1) := ⟨j - d0.length - 1, by omega⟩
    rw [← hP, char_at_append_right]
    have : char_at (x :: (List.replicate (k + 1) '/' ++ b)) (t + 1) =
        char_at (List.replicate (k + 1) '/' ++ b) t := by simp [char_at]
    rw [this]
    exact char_at_replicate _ _ _ (by omega)
  have hcb : ∀ j, d0.length + (k + 1) < j → j ≤ d0.length + (k + 1) + (n + 1) →
      char_at path j ≠ '/' := by
    intro j h1 h2
    obtain ⟨t, rfl⟩ : ∃ t, j = d0.length + ((k + 1) + t + 1) :=
      ⟨j - d0.length - (k + 1) - 1, by omega⟩
    rw [← hP, char_at_append_right]
    have h3 : char_at (x :: (List.replicate (k + 1) '/' ++ b)) ((k + 1) + t + 1) =
        char_at (List.replicate (k + 1) '/' ++ b) ((k + 1) + t) := by simp [char_at]
    have h4 : char_at (List.replicate (k + 1) '/' ++ b) ((k + 1) + t) = char_at b t := by
      have := char_at_append_right (List.replicate (k + 1) '/') b t
      simpa using this
    rw [h3, h4]
    intro he
    exact hbs (he ▸ char_at_mem b t (by omega))
  have h1 : skip_slashes_back path (path.length - 1) = d0.length + (k + 1) + (n + 1) := by
    have : path.length - 1 = d0.length + (k + 1) + (n + 1) := by omega
    rw [this]
    exact skip_slashes_back_stop _ _ (hcb _ (by omega) (Nat.le_refl _))
  have h2 : find_slash_back path (d0.length + (k + 1) + (n + 1)) none =
      (d0.length + (k + 1), some (d0.length + (k + 1) + 1)) := by
    rw [find_slash_back_run path (d0.length + (k + 1)) n none hcb]
    exact find_slash_back_stop path (d0.length + k) _ (hcs _ (by omega) (by omega))
  have h3 : skip_slashes_back path (d0.length + (k + 1)) = d0.length := by
    rw [skip_slashes_back_run path d0.length (k + 1) hcs]
    exact skip_slashes_back_stop _ _ (by rw [hcx]; exact hx)
  have hne : path ≠ [] := by rw [← hP]; simp
  obtain ⟨c, cs, hc⟩ : ∃ c cs, path = c :: cs := by
    cases path with
    | nil => exact absurd rfl hne
    | cons c cs => exact ⟨c, cs, rfl⟩
  have hsplit : _notmuch_database_split_path (some path) =
      if skip_slashes_back path (find_slash_back path
          (skip_slashes_back path (path.length - 1)) none).1 = 0 then
        (NOTMUCH_STATUS_SUCCESS, some [], some path)
      else (NOTMUCH_STATUS_SUCCESS,
        some (path.take (skip_slashes_back path (find_slash_back path
          (skip_slashes_back path (path.length - 1)) none).1 + 1)),
        (find_slash_back path (skip_slashes_back path (path.length - 1)) none).2.map
          (fun o => path.drop o)) := by
    rw [hc]; rfl
  rw [hsplit, h1, h2]
  simp only [h3, Option.map_some']
  by_cases hd : d0 = []
  · subst hd
    simp [← hP]
  · have hpos : d0.length ≠ 0 := fun h => hd (List.length_eq_zero.mp h)
    rw [if_neg hpos, if_neg hd, ← hP]
    have e1 : List.take (d0.length + 1) (d0 ++ x :: (List.replicate (k + 1) '/' ++ b)) =
        d0 ++ [x] := by
      have : d0 ++ x :: (List.replicate (k + 1) '/' ++ b) =
          (d0 ++ [x]) ++ (List.replicate (k + 1) '/' ++ b) := by simp
      rw [this]
      have hl : (d0 ++ [x]).length = d0.length + 1 := by simp
      rw [← hl, List.take_left]
    have e2 : List.drop (d0.length + (k + 1) + 1) (d0 ++ x :: (List.replicate (k + 1) '/' ++ b)) =
        b := by
      have : d0 ++ x :: (List.replicate (k + 1) '/' ++ b) =
          (d0 ++ [x] ++ List.replicate (k + 1) '/') ++ b := by simp
      rw [this]
      have hl : (d0 ++ [x] ++ List.replicate (k + 1) '/').length = d0.length + (k + 1) + 1 := by
        simp; omega
      rw [← hl, List.drop_left]
    rw [e1, e2]

/-- Claim C31, as the code behaves: for a path made of a directory part that ends in a
character `x` other than a slash, one or more slashes and a non-empty last component
without slash, `_notmuch_database_split_path` returns Success with the directory part and
the last component when the directory part has two characters or more; when the
directory part is the one character `x`, as in `a/b`, it returns the empty directory and
the whole path as basename. -/
theorem split_path_components (d0 b : Str) (x : Char) (k : Nat) (hx : x ≠ '/')
    (hb : b ≠ []) (hbs : '/' ∉ b) :
    _notmuch_database_split_path (some (d0 ++ [x] ++ List.replicate (k + 1) '/' ++ b)) =
      if d0 = [] then
        (NOTMUCH_STATUS_SUCCESS, some [], some ([x] ++ List.replicate (k + 1) '/' ++ b))
      else (NOTMUCH_STATUS_SUCCESS, some (d0 ++ [x]), some b) :=
  split_path_components_eq d0 b x k hx hb hbs

theorem split_path_components_witness :
    'a' ≠ '/' ∧ "b".toList ≠ [] ∧ '/' ∉ "b".toList ∧
    _notmuch_database_split_path (some "a/b".toList) =
      (NOTMUCH_STATUS_SUCCESS, some [], some "a/b".toList) :=
  ⟨by decide, by decide, by decide,
    split_path_components [] "b".toList 'a' 0 (by decide) (by decide) (by decide)⟩

/-- Claim C32, as the code behaves: for a path that ends in a character `x` other than a
slash, the path followed by `k` slashes is split with the same status and the same
directory as the path, but its basename is the basename of the path followed by the `k`
slashes: trailing slashes are ignored for the directory and kept in the basename, as in
`ab/c/` with the directory `ab` and the basename `c/`. -/
theorem split_path_trailing_slashes (p0 : Str) (x : Char) (k : Nat) (hx : x ≠ '/') :
    _notmuch_database_split_path (some (p0 ++ [x] ++ List.replicate k '/')) =
      ((_notmuch_database_split_path (some (p0 ++ [x]))).1,
       (_notmuch_database_split_path (some (p0 ++ [x]))).2.1,
       (_notmuch_database_split_path (some (p0 ++ [x]))).2.2.map
         (fun b => b ++ List.replicate k '/')) := by
  generalize hp : p0 ++ [x] = p
  generalize hq : p ++ List.replicate k '/' = q
  have hplen : p.length = p0.length + 1 := by rw [← hp]; simp
  have hqlen : q.length = p0.length + 1 + k := by rw [← hq]; simp [hplen]
  have hagree : ∀ j, j ≤ p0.length → char_at q j = char_at p j := by
    intro j hj
    rw [← hq]
    exact char_at_append_left _ _ _ (by omega)
  have hcx : char_at p p0.length = x := by
    rw [← hp]
    simp [char_at]
  have hcs : ∀ j, p0.length < j → j ≤ p0.length + k → char_at q j = '/' := by
    intro j h1 h2
    obtain ⟨t, rfl⟩ : ∃ t, j = p.length + t := ⟨j - p.length, by omega⟩
    rw [← hq, char_at_append_right]
    have ht : t < k := by omega
    simp [char_at, List.getD_eq_getElem?_getD, List.getElem?_replicate, ht]
  have hsplit : ∀ path : Str, path ≠ [] → _notmuch_database_split_path (some path) =
      if skip_slashes_back path (find_slash_back path
          (skip_slashes_back path (path.length - 1)) none).1 = 0 then
        (NOTMUCH_STATUS_SUCCESS, some [], some path)
      else (NOTMUCH_STATUS_SUCCESS,
        some (path.take (skip_slashes_back path (find_slash_back path
          (skip_slashes_back path (path.length - 1)) none).1 + 1)),
        (find_slash_back path (skip_slashes_back path (path.length - 1)) none).2.map
          (fun o => path.drop o)) := by
    intro path hne
    cases path with
    | nil => exact absurd rfl hne
    | cons c cs => rfl
  have hpne : p ≠ [] := by rw [← hp]; simp
  have hqne : q ≠ [] := by rw [← hq]; simp [hpne]
  have h1p : skip_slashes_back p (p.length - 1) = p0.length := by
    have : p.length - 1 = p0.length := by omega
    rw [this]
    exact skip_slashes_back_stop _ _ (by rw [hcx]; exact hx)
  have h1q : skip_slashes_back q (q.length - 1) = p0.length := by
    have : q.length - 1 = p0.length + k := by omega
    rw [this, skip_slashes_back_run q p0.length k hcs]
    exact skip_slashes_back_stop _ _ (by rw [hagree _ (Nat.le_refl _), hcx]; exact hx)
  have h2 : find_slash_back q p0.length none = find_slash_back p p0.length none :=
    find_slash_back_congr q p _ _ hagree
  have hle := find_slash_back_le p p0.length none
  have h3 : skip_slashes_back q (find_slash_back p p0.length none).1 =
      skip_slashes_back p (find_slash_back p p0.length none).1 :=
    skip_slashes_back_congr q p _ (fun j hj => hagree j (by omega))
  have hle3 := skip_slashes_back_le p (find_slash_back p p0.length none).1
  rw [hsplit q hqne, hsplit p hpne, h1p, h1q, h2, h3]
  by_cases hz : skip_slashes_back p (find_slash_back p p0.length none).1 = 0
  · simp only [if_pos hz, Option.map_some', hq]
  · simp only [if_neg hz]
    have e1 : List.take (skip_slashes_back p (find_slash_back p p0.length none).1 + 1) q =
        List.take (skip_slashes_back p (find_slash_back p p0.length none).1 + 1) p := by
      rw [← hq]
      exact List.take_append_of_le_length (by omega)
    rw [e1]
    cases ho : (find_slash_back p p0.length none).2 with
    | none => rfl
    | some o =>
      have hob : o ≤ p0.length := by
        rcases find_slash_back_offset p p0.length none o ho with h | h
        · exact absurd h (by simp)
        · exact h
      simp only [Option.map_some']
      have e2 : List.drop o q = List.drop o p ++ List.replicate k '/' := by
        rw [← hq]
        exact List.drop_append_of_le_length (by omega)
      rw [e2]

theorem split_path_trailing_slashes_witness :
    'c' ≠ '/' ∧
    _notmuch_database_split_path (some "ab/c/".toList) =
      (NOTMUCH_STATUS_SUCCESS, some "ab".toList, some "c/".toList) ∧
    _notmuch_database_split_path (some "ab/c".toList) =
      (NOTMUCH_STATUS_SUCCESS, some "ab".toList, some "c".toList) :=
  ⟨by decide, split_path_trailing_slashes "ab/".toList 'c' 1 (by decide), by decide⟩

theorem decimal_digit_facts : ∀ c ∈ "0123456789".toList,
    is_digit_of 10 c = true ∧ isspace c = false ∧ c ≠ '-' ∧ c ≠ '+' := by
  decide

theorem skip_hex_prefix_ten (s : Str) : skip_hex_prefix 10 s = s := by
  unfold skip_hex_prefix
  split
  · simp
  · rfl

theorem strtol_of_digits (s : Str) (hs : s ≠ []) (hd : ∀ c ∈ s, c ∈ "0123456789".toList)
    (hv : s.foldl (fun acc c => acc * 10 + (digit_value c).getD 0) 0 < 2 ^ 63) :
    strtol s 10 =
      some (((s.foldl (fun acc c => acc * 10 + (digit_value c).getD 0) 0 : Nat) : Int), []) := by
  obtain ⟨c, cs, rfl⟩ : ∃ c cs, s = c :: cs := by
    cases s with
    | nil => exact absurd rfl hs
    | cons c cs => exact ⟨c, cs, rfl⟩
  obtain ⟨_, hsp, hm, hpl⟩ := decimal_digit_facts c (hd c (List.mem_cons_self _ _))
  have h1 : skip_space (c :: cs) = c :: cs := by
    rw [skip_space]; simp [hsp]
  have h2 : List.takeWhile (is_digit_of 10) (c :: cs) = c :: cs :=
    List.takeWhile_eq_self_iff.mpr (fun x hx => (decimal_digit_facts x (hd x hx)).1)
  have hv2 : ¬ (List.foldl (fun acc c => acc * 10 + (digit_value c).getD 0) 0 (c :: cs) ≥ 2 ^ 63) := by
    omega
  simp only [strtol, h1, List.head?_cons, Option.some.injEq, hm, hpl, or_self, if_false,
    skip_hex_prefix_ten, h2, List.drop_length, decide_False, Bool.false_eq_true, hv2]
  simp

/-- Claim C39, as the code behaves: for a non-empty string of decimal digits whose value
`v` fits a `long`, `year` accepts the string exactly when `v` modulo 2^32 lies in 1970 to
2038, with that residue less 1900.  So a value outside the range is accepted when it
differs from a year in the range by a multiple of 2^32, as 4294969305 = 2^32 + 2009
is. -/
theorem year_of_digits (s : Str) (hs : s ≠ []) (hd : ∀ c ∈ s, c ∈ "0123456789".toList)
    (hv : s.foldl (fun acc c => acc * 10 + (digit_value c).getD 0) 0 < 2 ^ 63) :
    year s =
      if 1970 ≤ s.foldl (fun acc c => acc * 10 + (digit_value c).getD 0) 0 % 2 ^ 32 ∧
          s.foldl (fun acc c => acc * 10 + (digit_value c).getD 0) 0 % 2 ^ 32 ≤ 2038 then
        some (((s.foldl (fun acc c => acc * 10 + (digit_value c).getD 0) 0 % 2 ^ 32 : Nat) : Int)
          - 1900)
      else none := by
  rw [year, strtol_of_digits s hs hd hv]
  generalize s.foldl (fun acc c => acc * 10 + (digit_value c).getD 0) 0 = v
  simp only [long_to_int, ne_eq, not_true_eq_false, if_false]
  have e31 : (2 : Int) ^ 31 = 2147483648 := by norm_num
  have e32 : (2 : Int) ^ 32 = 4294967296 := by norm_num
  have n32 : (2 : Nat) ^ 32 = 4294967296 := by norm_num
  rw [e31, e32, n32]
  by_cases h : 1970 ≤ v % 4294967296 ∧ v % 4294967296 ≤ 2038
  · rw [if_pos h, if_neg (by omega)]
    simp only [Option.some.injEq]
    omega
  · rw [if_neg h, if_pos (by omega)]

theorem year_of_digits_witness :
    "4294969305".toList ≠ [] ∧
    (∀ c ∈ "4294969305".toList, c ∈ "0123456789".toList) ∧
    "4294969305".toList.foldl (fun acc c => acc * 10 + (digit_value c).getD 0) 0 < 2 ^ 63 ∧
    "4294969305".toList.foldl (fun acc c => acc * 10 + (digit_value c).getD 0) 0 =
      2 ^ 32 + 2009 ∧
    year "4294969305".toList = some 109 :=
  ⟨by decide, by decide, by decide, by decide,
    year_of_digits "4294969305".toList (by decide) (by decide) (by decide)⟩

/-- The date text `4294969305-11-15` is read by the token loop of `parse_iso` as
`2009-11-15` is: three tokens, the year 109 after 1900, the month 10 and the day 15. -/
theorem parse_iso_tokens_wrapped_year :
    parse_iso_tokens "4294969305-11-15".toList = some (3, 109, 10, 15) ∧
    parse_iso_tokens "2009-11-15".toList = some (3, 109, 10, 15) := by
  constructor <;> decide

/-- For a non-empty string of decimal digits whose value `v` is below 2^32, `year`
accepts the string exactly when `v` lies in 1970 to 2038, with `v - 1900`. -/
theorem year_of_small_digits (s : Str) (hs : s ≠ []) (hd : ∀ c ∈ s, c ∈ "0123456789".toList)
    (hv : s.foldl (fun acc c => acc * 10 + (digit_value c).getD 0) 0 < 2 ^ 32) :
    year s =
      if 1970 ≤ s.foldl (fun acc c => acc * 10 + (digit_value c).getD 0) 0 ∧
          s.foldl (fun acc c => acc * 10 + (digit_value c).getD 0) 0 ≤ 2038 then
        some (((s.foldl (fun acc c => acc * 10 + (digit_value c).getD 0) 0 : Nat) : Int) - 1900)
      else none := by
  rw [year, strtol_of_digits s hs hd (Nat.lt_trans hv (by norm_num))]
  generalize s.foldl (fun acc c => acc * 10 + (digit_value c).getD 0) 0 = v at hv
  simp only [long_to_int, ne_eq, not_true_eq_false, if_false]
  have e31 : (2 : Int) ^ 31 = 2147483648 := by norm_num
  have e32 : (2 : Int) ^ 32 = 4294967296 := by norm_num
  have n32 : (2 : Nat) ^ 32 = 4294967296 := by norm_num
  rw [e31, e32]
  rw [n32] at hv
  by_cases h : 1970 ≤ v ∧ v ≤ 2038
  · rw [if_pos h, if_neg (by omega)]
    simp only [Option.some.injEq]
    omega
  · rw [if_neg h, if_pos (by omega)]

theorem strtoull_of_digits (s : Str) (hs : s ≠ []) (hd : ∀ c ∈ s, c ∈ "0123456789".toList)
    (hv : decimal_value s < 2 ^ 64) :
    strtoull s 10 = (decimal_value s, []) := by
  obtain ⟨c, cs, rfl⟩ : ∃ c cs, s = c :: cs := by
    cases s with
    | nil => exact absurd rfl hs
    | cons c cs => exact ⟨c, cs, rfl⟩
  obtain ⟨_, hsp, hm, hpl⟩ := decimal_digit_facts c (hd c (List.mem_cons_self _ _))
  have h1 : skip_space (c :: cs) = c :: cs := by
    rw [skip_space]; simp [hsp]
  have h2 : List.takeWhile (is_digit_of 10) (c :: cs) = c :: cs :=
    List.takeWhile_eq_self_iff.mpr (fun x hx => (decimal_digit_facts x (hd x hx)).1)
  have hv2 : ¬ (List.foldl (fun acc c => acc * 10 + (digit_value c).getD 0) 0 (c :: cs) ≥ 2 ^ 64) := by
    unfold decimal_value at hv
    omega
  simp only [strtoull, h1, List.head?_cons, Option.some.injEq, hm, hpl, or_self, if_false,
    skip_hex_prefix_ten, h2, List.drop_length, decide_False, Bool.false_eq_true, hv2,
    decimal_value]
  simp

theorem get_version_of_digits (x : Database) (hd : ∀ c ∈ x.metadata "version".toList,
      c ∈ "0123456789".toList)
    (hv : decimal_value (x.metadata "version".toList) < 2 ^ 64) :
    notmuch_database_get_version x =
      some (decimal_value (x.metadata "version".toList) % 2 ^ 32) := by
  unfold notmuch_database_get_version
  by_cases he : x.metadata "version".toList = []
  · simp only [he, if_true]
    rfl
  · simp only [he, if_false, strtoull_of_digits _ he hd hv, ne_eq, not_true_eq_false]

/-- The version gate of `notmuch_database_open` in terms of the version that
`notmuch_database_get_version` reads. -/
theorem open_gate_of_version (x : Database) (path : Str) (v : Nat)
    (hv : notmuch_database_get_version x = some v)
    (hc : x.metadata "last_thread_id".toList = [] ∨
      (strtoull (x.metadata "last_thread_id".toList) 16).2 = []) :
    (notmuch_database_open true (some x) path NOTMUCH_DATABASE_MODE_READ_WRITE = some none ↔
      v > 1) ∧
    (¬ v > 1 → ∃ db,
      notmuch_database_open true (some x) path NOTMUCH_DATABASE_MODE_READ_WRITE =
        some (some db) ∧
      (notmuch_database_needs_upgrade db = true ↔ v < 1)) ∧
    (∃ db, notmuch_database_open true (some x) path NOTMUCH_DATABASE_MODE_READ_ONLY =
      some (some db)) := by
  have hv2 : ∀ p m u e, notmuch_database_get_version
      { x with path := p, mode := m, needs_upgrade := u, exception_reported := e } =
      some v := fun p m u e => (get_version_metadata _ _ rfl).trans hv
  have hro : ¬ (NOTMUCH_DATABASE_MODE_READ_ONLY = NOTMUCH_DATABASE_MODE_READ_WRITE) := by
    decide
  by_cases he : x.metadata "last_thread_id".toList = []
  · have he2 : x.metadata
        ['l', 'a', 's', 't', '_', 't', 'h', 'r', 'e', 'a', 'd', '_', 'i', 'd'] = [] := he
    by_cases h1 : v > 1
    · have h0 : ¬ v < 1 := by omega
      simp [notmuch_database_open, hv2, he2, h1, h0, NOTMUCH_DATABASE_VERSION]
    · by_cases h0 : v < 1
      · simp [notmuch_database_open, hv2, he2, h1, h0, NOTMUCH_DATABASE_VERSION,
          notmuch_database_needs_upgrade]
      · simp [notmuch_database_open, hv2, he2, h1, h0, NOTMUCH_DATABASE_VERSION,
          notmuch_database_needs_upgrade]
  · have he2 : ¬ x.metadata
        ['l', 'a', 's', 't', '_', 't', 'h', 'r', 'e', 'a', 'd', '_', 'i', 'd'] = [] := he
    have hc2 : (strtoull (x.metadata
        ['l', 'a', 's', 't', '_', 't', 'h', 'r', 'e', 'a', 'd', '_', 'i', 'd']) 16).2 = [] := by
      rcases hc with hc | hc
      · exact absurd hc he
      · exact hc
    by_cases h1 : v > 1
    · have h0 : ¬ v < 1 := by omega
      simp [notmuch_database_open, hv2, he2, hc2, h1, h0, NOTMUCH_DATABASE_VERSION]
    · by_cases h0 : v < 1
      · simp [notmuch_database_open, hv2, he2, hc2, h1, h0, NOTMUCH_DATABASE_VERSION,
          notmuch_database_needs_upgrade]
      · simp [notmuch_database_open, hv2, he2, hc2, h1, h0, NOTMUCH_DATABASE_VERSION,
          notmuch_database_needs_upgrade]

/-- Claim C23, as amended: for a Xapian database that opens, whose `version` metadata is a
text of decimal digits with a value v below 2^32 (absent or empty metadata counting as 0)
and whose thread counter metadata is well formed: the version is read as v; opening
read-write returns no handle if and only if v > 1, and otherwise returns a handle whose
needs-upgrade flag is true exactly when v < 1; opening read-only returns a handle for
every such v. -/
theorem open_version_gate (x : Database) (path : Str)
    (hd : ∀ c ∈ x.metadata "version".toList, c ∈ "0123456789".toList)
    (hv : decimal_value (x.metadata "version".toList) < 2 ^ 32)
    (hc : x.metadata "last_thread_id".toList = [] ∨
      (strtoull (x.metadata "last_thread_id".toList) 16).2 = []) :
    notmuch_database_get_version x = some (decimal_value (x.metadata "version".toList)) ∧
    (notmuch_database_open true (some x) path NOTMUCH_DATABASE_MODE_READ_WRITE = some none ↔
      decimal_value (x.metadata "version".toList) > 1) ∧
    (¬ decimal_value (x.metadata "version".toList) > 1 → ∃ db,
      notmuch_database_open true (some x) path NOTMUCH_DATABASE_MODE_READ_WRITE =
        some (some db) ∧
      (notmuch_database_needs_upgrade db = true ↔
        decimal_value (x.metadata "version".toList) < 1)) ∧
    (∃ db, notmuch_database_open true (some x) path NOTMUCH_DATABASE_MODE_READ_ONLY =
      some (some db)) := by
  have hread : notmuch_database_get_version x =
      some (decimal_value (x.metadata "version".toList)) := by
    rw [get_version_of_digits x hd (Nat.lt_trans hv (by norm_num)), Nat.mod_eq_of_lt hv]
  exact ⟨hread, open_gate_of_version x path _ hread hc⟩

/-- Claim C23, witness: the stored version 2 is read as 2, opening read-write returns no
handle, and opening read-only returns one. -/
theorem open_version_gate_witness :
    (∀ c ∈ (example_version_xapian "2".toList []).metadata "version".toList,
      c ∈ "0123456789".toList) ∧
    decimal_value ((example_version_xapian "2".toList []).metadata "version".toList) = 2 ∧
    notmuch_database_get_version (example_version_xapian "2".toList []) = some 2 ∧
    notmuch_database_open true (some (example_version_xapian "2".toList [])) "/mail".toList
      NOTMUCH_DATABASE_MODE_READ_WRITE = some none ∧
    (∃ db, notmuch_database_open true (some (example_version_xapian "2".toList []))
      "/mail".toList NOTMUCH_DATABASE_MODE_READ_ONLY = some (some db)) :=
  ⟨by decide, by decide,
    (open_version_gate (example_version_xapian "2".toList []) "/mail".toList (by decide)
      (by decide) (Or.inl (by decide))).1,
    (open_version_gate (example_version_xapian "2".toList []) "/mail".toList (by decide)
      (by decide) (Or.inl (by decide))).2.1.mpr (by decide),
    (open_version_gate (example_version_xapian "2".toList []) "/mail".toList (by decide)
      (by decide) (Or.inl (by decide))).2.2.2⟩

/-- The stored version 4294967296 = 2^32 is above 1, yet it is read as 0 (the value
that `strtoul` returns is kept in an `unsigned int`): opening read-write returns a handle,
and its needs-upgrade flag is true.  And with the stored version 1 and a thread counter
text that is no hexadecimal number, opening stops on the internal error and returns
nothing. -/
theorem open_version_wrapped :
    decimal_value ((example_version_xapian "4294967296".toList []).metadata
      "version".toList) = 2 ^ 32 ∧
    notmuch_database_get_version (example_version_xapian "4294967296".toList []) = some 0 ∧
    (notmuch_database_open true (some (example_version_xapian "4294967296".toList []))
      "/mail".toList NOTMUCH_DATABASE_MODE_READ_WRITE).map
        (fun o => o.map notmuch_database_needs_upgrade) = some (some true) ∧
    (notmuch_database_open true (some (example_version_xapian "1".toList "zz".toList))
      "/mail".toList NOTMUCH_DATABASE_MODE_READ_WRITE).map
        (fun o => o.map notmuch_database_needs_upgrade) = none := by
  refine ⟨by decide, by decide, by decide, by decide⟩

/-- Claim C15: for every n < 2^64, the 16-hex string that thread-id allocation writes
for the counter value n reads back with `strtoull` in base 16 as n with nothing left
over.  So for a Xapian database whose `last_thread_id` metadata is that string and whose
version passes the gate of the mode, `notmuch_database_open` returns a handle, without a
malformed-counter error, and the handle has the counter n; and for n < 2^64 - 1 the thread
id allocated next on that handle is the text of n+1, which is greater than the text of
every m ≤ n in lexicographic order, as n+1 is greater than m. -/
theorem thread_counter_round_trip (n : Nat) (hn : n < 2 ^ 64) :
    strtoull (format_016x64 n) 16 = (n, []) ∧
    (∀ db0 : Database, (db0.last_thread_id + 1) % 2 ^ 64 = n →
      (_notmuch_database_generate_thread_id db0).2 = format_016x64 n ∧
      (_notmuch_database_generate_thread_id db0).1.metadata "last_thread_id".toList =
        format_016x64 n) ∧
    (∀ (x : Database) (path : Str) (mode : notmuch_database_mode_t) (v : Nat),
      x.metadata "last_thread_id".toList = format_016x64 n →
      notmuch_database_get_version x = some v →
      (mode = NOTMUCH_DATABASE_MODE_READ_ONLY ∨ v ≤ 1) →
      ∃ db, notmuch_database_open true (some x) path mode = some (some db) ∧
        db.last_thread_id = n ∧
        (n < 2 ^ 64 - 1 →
          (_notmuch_database_generate_thread_id db).2 = format_016x64 (n + 1) ∧
          ∀ m, m ≤ n → m < n + 1 ∧
            format_016x64 m < (_notmuch_database_generate_thread_id db).2)) := by
  have hrt := strtoull_format n hn
  refine ⟨hrt, ?_, ?_⟩
  · intro db0 h0
    simp only [_notmuch_database_generate_thread_id, h0, Database.set_metadata,
      Function.update_same, and_self]
  intro x path mode v hx hv0 hgate
  have hx2 : x.metadata ['l', 'a', 's', 't', '_', 't', 'h', 'r', 'e', 'a', 'd', '_', 'i', 'd'] =
      format_016x64 n := hx
  have hne : format_016x64 n ≠ [] := by
    intro h
    have := format_016x64_length n
    rw [h] at this
    simp at this
  have hv : ∀ p m u e, notmuch_database_get_version
      { x with path := p, mode := m, needs_upgrade := u, exception_reported := e } =
      some v := fun p m u e => (get_version_metadata _ _ rfl).trans hv0
  have hnot : ¬ (mode = NOTMUCH_DATABASE_MODE_READ_WRITE ∧ v > NOTMUCH_DATABASE_VERSION) := by
    rintro ⟨hm, hvv⟩
    rcases hgate with hg | hg
    · rw [hg] at hm; exact absurd hm (by decide)
    · unfold NOTMUCH_DATABASE_VERSION at hvv; omega
  have key : ∀ db, db.last_thread_id = n →
      (n < 2 ^ 64 - 1 →
        (_notmuch_database_generate_thread_id db).2 = format_016x64 (n + 1) ∧
        ∀ m, m ≤ n → m < n + 1 ∧
          format_016x64 m < (_notmuch_database_generate_thread_id db).2) := by
    intro db hl hn1
    have hg : (_notmuch_database_generate_thread_id db).2 = format_016x64 (n + 1) := by
      simp only [_notmuch_database_generate_thread_id, hl]
      rw [Nat.mod_eq_of_lt (by omega)]
    refine ⟨hg, fun m hm => ⟨by omega, ?_⟩⟩
    rw [hg]
    exact format_016x64_lt m (n + 1) (by omega) (by omega)
  have hopen : ∃ db, notmuch_database_open true (some x) path mode = some (some db) ∧
      db.last_thread_id = n := by
    by_cases hm : mode = NOTMUCH_DATABASE_MODE_READ_WRITE
    · have h1 : ¬ 1 < v := by
        rcases hgate with hg | hg
        · rw [hg] at hm; exact absurd hm (by decide)
        · omega
      by_cases h0 : v < 1
      · simp [notmuch_database_open, hv, hx2, hne, hrt, NOTMUCH_DATABASE_VERSION, hm, h1, h0]
      · simp [notmuch_database_open, hv, hx2, hne, hrt, NOTMUCH_DATABASE_VERSION, hm, h1, h0]
    · simp [notmuch_database_open, hv, hx2, hne, hrt, NOTMUCH_DATABASE_VERSION, hm]
  obtain ⟨db, h1, h2⟩ := hopen
  exact ⟨db, h1, h2, key db h2⟩

/-- Claim C15, witness: the counter value 41, stored in a database of version 1 that is
opened read-write: the handle has the counter 41 and the next thread id is the text of
42. -/
theorem thread_counter_round_trip_witness :
    strtoull (format_016x64 41) 16 = (41, []) ∧
    ∃ db, notmuch_database_open true
        (some (example_version_xapian "1".toList (format_016x64 41))) "/mail".toList
        NOTMUCH_DATABASE_MODE_READ_WRITE = some (some db) ∧
      db.last_thread_id = 41 ∧
      (_notmuch_database_generate_thread_id db).2 = "000000000000002a".toList :=
  ⟨(thread_counter_round_trip 41 (by norm_num)).1,
    match (thread_counter_round_trip 41 (by norm_num)).2.2
      (example_version_xapian "1".toList (format_016x64 41)) "/mail".toList
      NOTMUCH_DATABASE_MODE_READ_WRITE 1 (by decide) (by decide) (Or.inr (by decide)) with
    | ⟨db, h1, h2, h3⟩ => ⟨db, h1, h2, (h3 (by norm_num)).1.trans (by decide)⟩⟩

theorem parse_references_keeps (mid : Str) (hash : List Str) (refs : Option Str) (x : Str)
    (h : x ∈ hash) : x ∈ parse_references mid hash refs := by
  unfold parse_references
  split
  · exact h
  · exact h
  · exact (mem_parse_references_loop mid x _ hash _).mpr (Or.inl h)

theorem parse_references_bracketed_mem (mid : Str) (hash : List Str) (ids : List Str)
    (hids : ∀ i ∈ ids, BracketId i) (a : Str) (ha : a ∈ ids) (hne : a ≠ mid) :
    a ∈ parse_references mid hash (some (bracketed ids)) := by
  have hrp := repeated_parse_bracketed ids hids
  cases hb : bracketed ids with
  | nil =>
    rw [hb] at hrp
    simp only [List.length_nil, repeated_parse] at hrp
    rw [← hrp] at ha
    exact absurd ha (List.not_mem_nil a)
  | cons c cs =>
    rw [hb] at hrp
    simp only [parse_references]
    exact (mem_parse_references_loop mid a _ hash _).mpr (Or.inr ⟨hne, by rw [hrp]; exact ha⟩)

theorem names_parent_keys (w : World) (hko : KeysOk w) (mid a : Str) (mf : MessageFile)
    (ha : BracketId a) (hne : a ≠ mid) (h : NamesParent mf a) : a ∈ parent_keys w mid mf := by
  unfold parent_keys
  rw [(hko _).mem_iff]
  rcases h with h | ⟨ids, hids, hin, href⟩
  · rw [h]
    have := parse_references_bracketed_mem mid
      (parse_references mid [] (mf.header "references")) [a]
      (fun i hi => by rw [List.mem_singleton.mp hi]; exact ha) a (List.mem_singleton_self a) hne
    exact this
  · rw [href]
    exact parse_references_keeps mid _ _ a
      (parse_references_bracketed_mem mid [] ids hids a hin hne)

theorem chain_names_parent_keys (w : World) (hko : KeysOk w) :
    ∀ M : List (Str × MessageFile × Str), (M.map (fun m => m.2.2)).Nodup →
      (∀ m ∈ M, BracketId m.2.2) →
      List.Chain' (fun m m2 => NamesParent m2.2.1 m.2.2) M →
      List.Chain' (fun m m2 => m.2.2 ∈ parent_keys w m2.2.2 m2.2.1) M := by
  intro M
  induction M with
  | nil => intro _ _ _; exact List.chain'_nil
  | cons a rest ih =>
    intro hnd hbr hch
    cases rest with
    | nil => exact List.chain'_singleton _
    | cons b rest2 =>
      rw [List.chain'_cons] at hch ⊢
      have hne : a.2.2 ≠ b.2.2 := by
        intro e
        simp only [List.map_cons, List.nodup_cons, List.mem_cons] at hnd
        exact hnd.1 (Or.inl e)
      refine ⟨names_parent_keys w hko b.2.2 a.2.2 b.2.1 (hbr a (List.mem_cons_self _ _)) hne
        hch.1, ih ?_ (fun m hm => hbr m (List.mem_cons_of_mem _ hm)) hch.2⟩
      rw [List.map_cons, List.nodup_cons] at hnd
      exact hnd.2

/-- Claim C3, as amended: identifiers are of the form the parser returns unchanged.  Let
m_0, ..., m_n be mail files with pairwise distinct identifiers of that form, in which each
m_(i+1) names m_i: its In-Reply-To header is `<id_i>`, or its References header is a list
of bracketed identifiers of that form with id_i among them.  For every permutation of
these messages, ingesting them in that order into an initially empty database returns, and
leaves every one of them with its one mail document, all with the same single thread
term. -/
theorem chain_same_thread (w : World) (hko : KeysOk w) (hix : IndexOk w)
    (M : List (Str × MessageFile × Str)) (path : Str)
    (hfiles : ∀ m ∈ M, MailFile w m) (hnd : (M.map (fun m => m.2.2)).Nodup)
    (hbr : ∀ m ∈ M, BracketId m.2.2)
    (hchain : List.Chain' (fun m m2 => NamesParent m2.2.1 m.2.2) M)
    (order : List (Str × MessageFile × Str)) (hperm : order.Perm M) :
    ∃ db2, add_messages w (empty_database path) (order.map (fun m => m.1)) = some db2 ∧
      ∃ t, ∀ m ∈ M, ThreadOf db2 m.2.2 t :=
  ingest_chain w hko hix M (empty_database path) rfl (empty_database_sound path 0) hfiles hnd
    (fun m _ => (find_unique_none_iff _ _ _).mpr (fun i d h => by
      simp [Database.get_document, empty_database] at h))
    (chain_names_parent_keys w hko M hnd hbr hchain) order hperm

set_option maxRecDepth 1000000 in
/-- Claim C3, witness: the message `m1` of the example maildir and its reply `m2`, ingested
reply first. -/

theorem chain_same_thread_witness :
    ∃ db2, add_messages example_world (empty_database "/mail".toList)
        ["/mail/dd/m2".toList, "/mail/dd/m1".toList] = some db2 ∧
      ∃ t, ∀ m ∈ [("/mail/dd/m1".toList,
            file_of_headers [("message-id", "<m1@x>"), ("from", "u"), ("subject", "s")],
            "m1@x".toList),
          ("/mail/dd/m2".toList,
            file_of_headers [("message-id", "<m2@x>"), ("from", "v"),
              ("in-reply-to", "<m1@x>")],
            "m2@x".toList)], ThreadOf db2 m.2.2 t :=
  chain_same_thread example_world example_world_keys example_world_index
    [("/mail/dd/m1".toList,
        file_of_headers [("message-id", "<m1@x>"), ("from", "u"), ("subject", "s")],
        "m1@x".toList),
      ("/mail/dd/m2".toList,
        file_of_headers [("message-id", "<m2@x>"), ("from", "v"), ("in-reply-to", "<m1@x>")],
        "m2@x".toList)]
    "/mail".toList
    (by
      intro m hm
      rcases List.mem_cons.mp hm with e | hm
      · subst e; exact ⟨rfl, by unfold looks_like_mail; decide, by decide⟩
      · rcases List.mem_cons.mp hm with e | hm
        · subst e; exact ⟨rfl, by unfold looks_like_mail; decide, by decide⟩
        · exact absurd hm (List.not_mem_nil m))
    (by decide)
    (by
      intro m hm
      rcases List.mem_cons.mp hm with e | hm
      · subst e; unfold BracketId; decide
      · rcases List.mem_cons.mp hm with e | hm
        · subst e; unfold BracketId; decide
        · exact absurd hm (List.not_mem_nil m))
    (by
      rw [List.chain'_cons]
      exact ⟨Or.inl (by decide), List.chain'_singleton _⟩)
    [("/mail/dd/m2".toList,
        file_of_headers [("message-id", "<m2@x>"), ("from", "v"), ("in-reply-to", "<m1@x>")],
        "m2@x".toList),
      ("/mail/dd/m1".toList,
        file_of_headers [("message-id", "<m1@x>"), ("from", "u"), ("subject", "s")],
        "m1@x".toList)]
    (List.Perm.swap _ _ _)

set_option maxRecDepth 1000000 in
/-- A chain on which the claim fails as stated: `c0` has the identifier `c0@x`; `c1` has
the identifier `"a b"@x` (taken from a Message-ID that is not bracketed) and names `c0`
in its References header; `c2` has the identifier `c2@x` and names `c1` in its References
header as `<"a b"@x>`, which the parser collapses to `"ab"@x`.  Ingested into the empty
database in the order `c0`, `c1`, `c2`, or in the reverse order, the documents of `c0` and
`c1` share their thread term and the document of `c2` has another. -/

theorem chain_quoted_space :
    message_id_of_file example_world_chain
      (file_of_headers [("message-id", "\"a b\"@x"), ("from", "v"),
        ("references", "<c0@x>")]) "/mail/dd/c1".toList = some "\"a b\"@x".toList ∧
    terms_of (example_chain_db ["/mail/dd/c0", "/mail/dd/c1", "/mail/dd/c2"]) 1 =
      ["Qc0@x", "XFDIRENTRY3:c0", "Tmail", "G0000000000000001"] ∧
    terms_of (example_chain_db ["/mail/dd/c0", "/mail/dd/c1", "/mail/dd/c2"]) 4 =
      ["Q\"a b\"@x", "XFDIRENTRY3:c1", "Tmail", "G0000000000000001"] ∧
    terms_of (example_chain_db ["/mail/dd/c0", "/mail/dd/c1", "/mail/dd/c2"]) 5 =
      ["Qc2@x", "XFDIRENTRY3:c2", "Tmail", "XREFERENCE\"ab\"@x", "G0000000000000002"] ∧
    terms_of (example_chain_db ["/mail/dd/c2", "/mail/dd/c1", "/mail/dd/c0"]) 1 =
      ["Qc2@x", "XFDIRENTRY3:c2", "Tmail", "XREFERENCE\"ab\"@x", "G0000000000000001"] ∧
    terms_of (example_chain_db ["/mail/dd/c2", "/mail/dd/c1", "/mail/dd/c0"]) 4 =
      ["Q\"a b\"@x", "XFDIRENTRY3:c1", "Tmail", "XREFERENCEc0@x", "G0000000000000002"] ∧
    terms_of (example_chain_db ["/mail/dd/c2", "/mail/dd/c1", "/mail/dd/c0"]) 5 =
      ["Qc0@x", "XFDIRENTRY3:c0", "Tmail", "G0000000000000002"] := by
  refine ⟨by decide, by decide, by decide, by decide, by decide, by decide, by decide⟩

theorem relative_path_of_relative (db : Database) (p : Str) (hp : p.head? ≠ some '/') :
    _notmuch_database_relative_path db p = p := by
  unfold _notmuch_database_relative_path
  rw [if_neg hp]

theorem split_path_no_slash (b : Str) (hb : b ≠ []) (hbs : '/' ∉ b) :
    _notmuch_database_split_path (some b) = (NOTMUCH_STATUS_SUCCESS, some [], some b) := by
  obtain ⟨c, cs, rfl⟩ : ∃ c cs, b = c :: cs := by
    cases b with
    | nil => exact absurd rfl hb
    | cons c cs => exact ⟨c, cs, rfl⟩
  have hch : ∀ j, j ≤ cs.length → char_at (c :: cs) j ≠ '/' := by
    intro j hj he
    exact hbs (he ▸ char_at_mem (c :: cs) j (by simp; omega))
  have h1 : skip_slashes_back (c :: cs) ((c :: cs).length - 1) = cs.length := by
    have : (c :: cs).length - 1 = cs.length := by simp
    rw [this]
    exact skip_slashes_back_stop _ _ (hch _ (Nat.le_refl _))
  have h2 : (find_slash_back (c :: cs) cs.length none).1 = 0 := by
    cases hl : cs.length with
    | zero => rfl
    | succ n =>
      have := find_slash_back_run (c :: cs) 0 n none (fun j _ hj => hch j (by omega))
      rw [Nat.zero_add] at this
      rw [this]
      rfl
  have hsplit : _notmuch_database_split_path (some (c :: cs)) =
      if skip_slashes_back (c :: cs) (find_slash_back (c :: cs)
          (skip_slashes_back (c :: cs) ((c :: cs).length - 1)) none).1 = 0 then
        (NOTMUCH_STATUS_SUCCESS, some [], some (c :: cs))
      else (NOTMUCH_STATUS_SUCCESS,
        some ((c :: cs).take (skip_slashes_back (c :: cs) (find_slash_back (c :: cs)
          (skip_slashes_back (c :: cs) ((c :: cs).length - 1)) none).1 + 1)),
        (find_slash_back (c :: cs) (skip_slashes_back (c :: cs) ((c :: cs).length - 1))
          none).2.map (fun o => (c :: cs).drop o)) := rfl
  rw [hsplit, h1, h2]
  rfl


theorem relative_to_code (db : Database) (path rel : Str) (h : RelativeTo db.path path rel) :
    _notmuch_database_relative_path db path = rel := by
  obtain ⟨hrh, hp⟩ := h
  rcases hp with rfl | ⟨r, hroot, hrr, ⟨k, rfl⟩ | ⟨rfl, rfl⟩⟩
  · exact relative_path_of_relative db _ hrh
  · have := (relative_path_spec db r rel hroot hrr hrh).2 0 k
    rw [hroot]
    simpa using this
  · have hs : skip_doubled_slashes ('/' :: r) = '/' :: r := by
      cases r with
      | nil => rfl
      | cons c cs =>
        have hc : c ≠ '/' := fun he => hrr (by simp [he])
        exact skip_doubled_slashes_single c cs hc
    have hpre : ('/' :: r).isPrefixOf ('/' :: r) = true :=
      List.isPrefixOf_iff_prefix.mpr (List.prefix_refl _)
    simp only [_notmuch_database_relative_path, hroot, List.head?_cons, if_true, hs, hpre,
      List.drop_length, List.dropWhile_nil]

/-- For a file name that splits into a directory part and a last component as the comment
above `_notmuch_database_split_path` asks, the code finds these two parts, unless the
directory part is a single character. -/
theorem splits_as_code (db : Database) (f dir base : Str) (h : SplitsAs db.path f dir base)
    (h1 : dir.length ≠ 1) :
    _notmuch_database_split_path (some (_notmuch_database_relative_path db f)) =
      (NOTMUCH_STATUS_SUCCESS, some dir, some base) ∧
    _notmuch_database_relative_path db dir = dir := by
  obtain ⟨hb, hbs, hdh, hdl, rel, hf, hrel⟩ := h
  refine ⟨?_, relative_path_of_relative db dir hdh⟩
  rw [relative_to_code db f rel hf]
  rcases hrel with ⟨rfl, rfl⟩ | ⟨hne, k, rfl⟩
  · exact split_path_no_slash _ hb hbs
  · obtain ⟨d0, x, rfl⟩ : ∃ d0 x, dir = d0 ++ [x] :=
      ⟨dir.dropLast, dir.getLast hne, (List.dropLast_append_getLast hne).symm⟩
    have hx : x ≠ '/' := by
      intro he
      apply hdl
      simp [he]
    have hd0 : d0 ≠ [] := by
      intro he
      apply h1
      simp [he]
    rw [split_path_components_eq d0 base x k hx hb hbs, if_neg hd0]

/-- The direntry that the code forms for a file name that splits into a directory part
(not of one character) and a last component: the document id of the directory document
of the directory part, a colon, and the last component. -/
theorem formed_entry_splits (w : World) (db : Database) (root f dir base e : Str)
    (hroot : db.path = root) (h : SplitsAs root f dir base) (h1 : dir.length ≠ 1)
    (he : FormedEntry w db f e) :
    ∃ id, e = format_u id ++ ':' :: base ∧ DirectoryDocument w db dir id := by
  subst hroot
  obtain ⟨hs, hrd⟩ := splits_as_code db f dir base h h1
  obtain ⟨id, heq, hm⟩ := he
  rw [hs] at heq hm
  simp only [Option.getD_some] at heq
  simp only [DirectoryAt, hrd] at hm
  exact ⟨id, heq, hm⟩

/-- Claim C19, as amended: for a version-0 database opened read-write (the stored version
reads as 0; there is no directory term yet; no mail document carries a legacy XTIMESTAMP
term; legacy documents whose terms lead to the same directory term hold the same time
stamp, in the form the sortable encoding writes), in a world where a query lists every
matching document once, the upgrade returns Success, and afterwards: the version metadata
is `1`; every mail document whose data blob held a non-empty filename has an empty data
blob and carries a file-direntry term, and when, relative to the root, the filename is a
directory part (empty, or of two characters or more), slashes and a last component, that
term is made of the document id of the directory document of the directory part, a colon
and the last component; every directory named by a legacy XTIMESTAMP term has a
directory document whose TIMESTAMP value is that of the legacy document; and no document
carries an XTIMESTAMP term. -/
theorem upgrade_legacy_spec (w : World) (db : Database) (notify : Bool) (alarm : Nat → Bool)
    (hw : SortOk w) (hdb : LegacyDatabase w db) :
    ∃ r, notmuch_database_upgrade w db notify alarm = some r ∧
      r.status = NOTMUCH_STATUS_SUCCESS ∧
      r.db.metadata "version".toList = "1".toList ∧
      (∀ i d, db.get_document i = some d → make_term "type" "mail".toList ∈ d.terms →
        d.data ≠ [] →
        ∃ d2, r.db.get_document i = some d2 ∧ d2.data = [] ∧
          (∃ e, make_term "file-direntry" e ∈ d2.terms) ∧
          ∀ dir base, SplitsAs db.path d.data dir base → dir.length ≠ 1 →
            ∃ id, make_term "file-direntry" (format_u id ++ ':' :: base) ∈ d2.terms ∧
              DirectoryDocument w r.db dir id) ∧
      (∀ i d t rel, db.get_document i = some d → t ∈ d.terms → is_legacy_term t = true →
        RelativeTo db.path (t.drop 10) rel →
        ∃ id dd, r.db.get_document id = some dd ∧ DirDoc dd ∧
          make_term "directory" (_notmuch_database_get_directory_db_path w rel) ∈ dd.terms ∧
          dd.get_value NOTMUCH_VALUE_TIMESTAMP = d.get_value NOTMUCH_VALUE_TIMESTAMP) ∧
      (∀ i d t, r.db.get_document i = some d → t ∈ d.terms → is_legacy_term t = false) := by
  obtain ⟨r, hr, hst, hver, hent, hstamp, hnone, hpath⟩ :=
    upgrade_legacy_formed w db notify alarm hw hdb
  refine ⟨r, hr, hst, hver, fun i d hd hmail hne => ?_, fun i d t rel hd ht hl hrel => ?_,
    hnone⟩
  · obtain ⟨d2, e, h2, hdata, hterm, hform⟩ := hent i d hd hmail hne
    refine ⟨d2, h2, hdata, ⟨e, hterm⟩, fun dir base hsp h1 => ?_⟩
    obtain ⟨id, he, hdir⟩ := formed_entry_splits w r.db db.path d.data dir base e hpath hsp h1
      hform
    exact ⟨id, he ▸ hterm, hdir⟩
  · obtain ⟨id, dd, hdd, hdir, hterm, hval⟩ := hstamp i d t hd ht hl
    refine ⟨id, dd, hdd, hdir, ?_, hval⟩
    have hrp : _notmuch_database_relative_path r.db (t.drop 10) = rel :=
      relative_to_code r.db (t.drop 10) rel (by rw [hpath]; exact hrel)
    simp only [legacy_directory, hrp] at hterm
    exact hterm

set_option maxRecDepth 1000000 in
/-- Claim C19, witness: the version-0 example database under `/mail`, whose mail document 1
has the filename `/mail/dd/m1` in its data blob and whose legacy document 2 holds the time
stamp 1234 of `/mail/dd`.  The filename splits into the directory part `dd` and the last
component `m1`.  After the upgrade, document 1 carries `XFDIRENTRY4:m1` and has no data,
the directory document 4 of `dd` holds the time stamp 1234, and document 2 is gone. -/
theorem upgrade_legacy_spec_witness :
    (∃ r, notmuch_database_upgrade example_world (example_open example_legacy_xapian) true
        (fun _ => true) = some r ∧
      r.status = NOTMUCH_STATUS_SUCCESS ∧
      r.db.metadata "version".toList = "1".toList ∧
      (∀ i d, (example_open example_legacy_xapian).get_document i = some d →
        make_term "type" "mail".toList ∈ d.terms → d.data ≠ [] →
        ∃ d2, r.db.get_document i = some d2 ∧ d2.data = [] ∧
          (∃ e, make_term "file-direntry" e ∈ d2.terms) ∧
          ∀ dir base, SplitsAs (example_open example_legacy_xapian).path d.data dir base →
            dir.length ≠ 1 →
            ∃ id, make_term "file-direntry" (format_u id ++ ':' :: base) ∈ d2.terms ∧
              DirectoryDocument example_world r.db dir id) ∧
      (∀ i d t rel, (example_open example_legacy_xapian).get_document i = some d →
        t ∈ d.terms → is_legacy_term t = true →
        RelativeTo (example_open example_legacy_xapian).path (t.drop 10) rel →
        ∃ id dd, r.db.get_document id = some dd ∧ DirDoc dd ∧
          make_term "directory" (_notmuch_database_get_directory_db_path example_world rel) ∈
            dd.terms ∧
          dd.get_value NOTMUCH_VALUE_TIMESTAMP = d.get_value NOTMUCH_VALUE_TIMESTAMP) ∧
      (∀ i d t, r.db.get_document i = some d → t ∈ d.terms → is_legacy_term t = false)) ∧
    SplitsAs (example_open example_legacy_xapian).path "/mail/dd/m1".toList "dd".toList
      "m1".toList ∧
    RelativeTo (example_open example_legacy_xapian).path
      ("XTIMESTAMP/mail/dd".toList.drop 10) "dd".toList ∧
    (notmuch_database_upgrade example_world (example_open example_legacy_xapian) true
        (fun _ => true)).map (fun r => document_of r.db 1) =
      some (some (["Tmail", "Qm1@x", "G0000000000000001", "XFDIRENTRY4:m1"],
        [(NOTMUCH_VALUE_TIMESTAMP, "0")], "")) ∧
    (notmuch_database_upgrade example_world (example_open example_legacy_xapian) true
        (fun _ => true)).map (fun r => document_of r.db 2) = some none ∧
    (notmuch_database_upgrade example_world (example_open example_legacy_xapian) true
        (fun _ => true)).map (fun r => document_of r.db 4) =
      some (some (["XDIRECTORYdd", "XDDIRENTRY3:dd"], [(NOTMUCH_VALUE_TIMESTAMP, "1234")],
        "dd")) :=
  ⟨upgrade_legacy_spec example_world (example_open example_legacy_xapian) true (fun _ => true)
    example_world_sort example_legacy_database,
   ⟨by decide, by decide, by decide, by decide, "dd/m1".toList,
     ⟨by decide, Or.inr ⟨"mail".toList, by decide, by decide, Or.inl ⟨0, by decide⟩⟩⟩,
     Or.inr ⟨by decide, 0, by decide⟩⟩,
   ⟨by decide, Or.inr ⟨"mail".toList, by decide, by decide, Or.inl ⟨0, by decide⟩⟩⟩,
   by decide, by decide, by decide⟩

set_option maxRecDepth 1000000 in
/-- Version-0 databases under `/mail`, opened read-write, on which the claim fails as it
was stated.  Two legacy documents with the term of `/mail/dd` and the time stamps 1234 and
5678: the one directory document of `dd` holds 5678.  A mail document that carries a
legacy term: it is deleted with the legacy documents.  A document that carries the
`directory` terms of `aa` and of `bb`, with the stamps 1 and 2 for these: it is found for
both and holds 2.  A legacy document with the time stamp text `0012`: the directory
document holds the text `12`, which the encoding writes for that time. -/
theorem upgrade_legacy_odd :
    notmuch_database_get_version (example_open example_two_stamps) = some 0 ∧
    (notmuch_database_upgrade example_world (example_open example_two_stamps) false
        (fun _ => false)).map (fun r => r.status) =
      some NOTMUCH_STATUS_SUCCESS ∧
    (notmuch_database_upgrade example_world (example_open example_two_stamps) false
        (fun _ => false)).map (fun r => r.db.lastdocid) =
      some 4 ∧
    (notmuch_database_upgrade example_world (example_open example_two_stamps) false
        (fun _ => false)).map (fun r => document_of r.db 3) =
      some (some (["XDIRECTORY"], [], "")) ∧
    (notmuch_database_upgrade example_world (example_open example_two_stamps) false
        (fun _ => false)).map (fun r => document_of r.db 4) =
      some (some (["XDIRECTORYdd", "XDDIRENTRY3:dd"],
        [(NOTMUCH_VALUE_TIMESTAMP, "5678")], "dd")) ∧
    notmuch_database_get_version (example_open example_mail_with_stamp) = some 0 ∧
    document_of (example_open example_mail_with_stamp) 1 =
      some (["Tmail", "Qm1@x", "G0000000000000001", "XTIMESTAMP/mail/dd"],
        [(NOTMUCH_VALUE_TIMESTAMP, "0")], "/mail/dd/m1") ∧
    (notmuch_database_upgrade example_world (example_open example_mail_with_stamp) false
        (fun _ => false)).map (fun r => r.status) =
      some NOTMUCH_STATUS_SUCCESS ∧
    (notmuch_database_upgrade example_world (example_open example_mail_with_stamp) false
        (fun _ => false)).map (fun r => document_of r.db 1) =
      some none ∧
    notmuch_database_get_version (example_open example_two_directories) = some 0 ∧
    (notmuch_database_upgrade example_world (example_open example_two_directories) false
        (fun _ => false)).map (fun r => r.status) =
      some NOTMUCH_STATUS_SUCCESS ∧
    (notmuch_database_upgrade example_world (example_open example_two_directories) false
        (fun _ => false)).map (fun r => r.db.lastdocid) =
      some 3 ∧
    (notmuch_database_upgrade example_world (example_open example_two_directories) false
        (fun _ => false)).map (fun r => document_of r.db 1) =
      some (some (["XDIRECTORYaa", "XDIRECTORYbb"],
        [(NOTMUCH_VALUE_TIMESTAMP, "2")], "")) ∧
    notmuch_database_get_version (example_open example_odd_stamp) = some 0 ∧
    (notmuch_database_upgrade example_world (example_open example_odd_stamp) false
        (fun _ => false)).map (fun r => r.status) =
      some NOTMUCH_STATUS_SUCCESS ∧
    (notmuch_database_upgrade example_world (example_open example_odd_stamp) false
        (fun _ => false)).map (fun r => r.db.lastdocid) =
      some 3 ∧
    (notmuch_database_upgrade example_world (example_open example_odd_stamp) false
        (fun _ => false)).map (fun r => document_of r.db 3) =
      some (some (["XDIRECTORYdd", "XDDIRENTRY2:dd"],
        [(NOTMUCH_VALUE_TIMESTAMP, "12")], "dd")) := by
  repeat' apply And.intro
  all_goals decide

set_option maxRecDepth 1000000 in
/-- The defect of `_notmuch_database_split_path` for a directory part of one character, in
the upgrade: the mail document with the filename `/mail/d/m1` is given the term
`XFDIRENTRY2:d/m1`, with the root directory document 2 and the basename `d/m1`, and no
directory document is made for `d`. -/
theorem upgrade_short_directory :
    (notmuch_database_upgrade example_world (example_open example_short_directory) false
        (fun _ => false)).map (fun r => r.status) =
      some NOTMUCH_STATUS_SUCCESS ∧
    (notmuch_database_upgrade example_world (example_open example_short_directory) false
        (fun _ => false)).map (fun r => r.db.lastdocid) =
      some 2 ∧
    (notmuch_database_upgrade example_world (example_open example_short_directory) false
        (fun _ => false)).map (fun r => document_of r.db 1) =
      some (some (["Tmail", "Qm1@x", "G0000000000000001", "XFDIRENTRY2:d/m1"],
        [(NOTMUCH_VALUE_TIMESTAMP, "0")], "")) ∧
    (notmuch_database_upgrade example_world (example_open example_short_directory) false
        (fun _ => false)).map (fun r => document_of r.db 2) =
      some (some (["XDIRECTORY"], [], "")) := by
  refine ⟨by decide, by decide, by decide, by decide⟩

/-! ### Resuming an interrupted upgrade -/

theorem set_stamp_invalid (db : Database) (id : Nat) (x : Str)
    (h : ¬ (0 < id ∧ id ≤ db.lastdocid)) : set_stamp db id x = db := by
  simp [set_stamp, Database.get_document, h]

theorem set_stamp_handle (db : Database) (id : Nat) (x : Str) :
    SameHandle db (set_stamp db id x) ∧ (set_stamp db id x).lastdocid = db.lastdocid := by
  unfold set_stamp
  cases hd : db.get_document id with
  | none => exact ⟨SameHandle.same_refl db, rfl⟩
  | some d =>
    have hr := get_document_range db id d hd
    exact ⟨⟨rfl, rfl, rfl, rfl, rfl, rfl⟩, lastdocid_replace db _ id hr.2⟩

theorem set_stamp_docs (db : Database) (id : Nat) (x : Str)
    (hv : 0 < id ∧ id ≤ db.lastdocid) (j : Nat) :
    (set_stamp db id x).docs j =
      if id = j then (db.docs j).map (fun d => d.add_value NOTMUCH_VALUE_TIMESTAMP x)
      else db.docs j := by
  have hg : db.get_document id = db.docs id := by simp [Database.get_document, hv]
  unfold set_stamp
  cases hd : db.get_document id with
  | none =>
    rw [hg] at hd
    by_cases hj : id = j
    · subst hj; simp [hd]
    · simp [hj]
  | some d =>
    rw [hg] at hd
    simp only [Database.replace_document]
    by_cases hj : id = j
    · subst hj; simp [hd]
    · rw [Function.update_noteq (Ne.symm hj)]; simp [hj]

theorem set_stamp_get (db : Database) (id : Nat) (x : Str) (j : Nat) :
    (set_stamp db id x).get_document j =
      if id = j then (db.get_document j).map (fun d => d.add_value NOTMUCH_VALUE_TIMESTAMP x)
      else db.get_document j := by
  by_cases hv : 0 < id ∧ id ≤ db.lastdocid
  · simp only [Database.get_document, (set_stamp_handle db id x).2, set_stamp_docs db id x hv]
    by_cases hj : id = j
    · subst hj; simp [hv]
    · simp only [hj, if_false]
  · rw [set_stamp_invalid db id x hv]
    by_cases hj : id = j
    · subst hj; simp [Database.get_document, hv]
    · simp [hj]

theorem set_stamp_has_term (db : Database) (id : Nat) (x : Str) (j : Nat) (t : Str) :
    (set_stamp db id x).has_term j t = db.has_term j t := by
  unfold Database.has_term
  rw [set_stamp_get]
  by_cases hj : id = j
  · simp only [hj, if_true]
    cases db.get_document j <;> rfl
  · simp only [hj, if_false]

theorem set_stamp_find_unique (db : Database) (id : Nat) (x : Str) (name : String) (v : Str) :
    _notmuch_database_find_unique_doc_id (set_stamp db id x) name v =
      _notmuch_database_find_unique_doc_id db name v := by
  unfold _notmuch_database_find_unique_doc_id find_doc_ids
  rw [find_doc_ids_for_term_congr db _ _ (fun i => set_stamp_has_term db id x i _)]

theorem ResolvesTo.set_stamp {w : World} {db : Database} {q : Str × Str} {a : Nat × Str}
    (h : ResolvesTo w db q a) (id : Nat) (x : Str) : ResolvesTo w (set_stamp db id x) q a := by
  unfold ResolvesTo at h ⊢
  rw [set_stamp_find_unique, relative_path_congr db _ (set_stamp_handle db id x).1.1]
  exact h

theorem set_stamps_nil (db : Database) : set_stamps [] db = db := rfl

end Notmuch
